import Mathlib

/-!
# Packed ADFA: static string dictionaries

A shallow embedding of `utils.hpp` and `trie.hpp`: the child-map backends, the
reference trie, the minimal acyclic automaton, the tail and heavy-path
transforms and the word-wise LCP primitive, followed by the properties proved
about them.

Conventions of the embedding.
* `Char` of the source (`unsigned char`) is `Byte := Fin 256`; `String` is
  `List Byte`.
* `Index` of the source (`std::int32_t`) is `Int`; arithmetic on it is done
  without wrap-around, `NOT_FOUND` is `-1`, and the tail flag `1 << 31` is the
  sign bit of the 32-bit pattern.
* `std::vector` is `List`; a loop over a vector is a fold or a structural
  recursion over the list.
-/

namespace PackedADFA

/-! ## Shared primitives (`utils.hpp`) -/

/-- The source's `Char` (an `unsigned char`). -/
abbrev Byte := Fin 256

/-- The source's `Index` (`std::int32_t`). -/
abbrev Index := Int

def NULL_CHAR : Byte := 0

def EOW : Byte := 1

def NOT_FOUND : Int := -1

def CHAR_BITS : Nat := 8

def ALPHA : Nat := 8

/-- Byte found at position `i` of the buffer of `str`. `get_lcp` reads whole
64-bit words, so a read may leave the vector; what it then finds is whatever
the memory holds, given here by `junk`. -/
def byteAt (str : List Byte) (junk : Nat → Byte) (i : Nat) : Byte :=
  if h : i < str.length then str[i] else junk i

/-- Value of a run of bytes read as one little-endian integer. -/
def bytesLE : List Byte → Nat
  | [] => 0
  | b :: bs => b.val + 256 * bytesLE bs

/-- The eight bytes starting at position `a`. -/
def window (str : List Byte) (junk : Nat → Byte) (a : Nat) : List Byte :=
  (List.range 8).map (fun j => byteAt str junk (a + j))

/-- The load `*reinterpret_cast<const std::uint64_t*>(str.data() + a)`. -/
def load64 (str : List Byte) (junk : Nat → Byte) (a : Nat) : Nat :=
  bytesLE (window str junk a)

/-- The builtin `__builtin_ctzll` on a non-zero 64-bit value: the number of
trailing zero bits, counted bit by bit over at most `fuel` bits. -/
def ctzll : Nat → Nat → Nat
  | 0, _ => 0
  | fuel + 1, v => if v % 2 = 1 then 0 else 1 + ctzll fuel (v / 2)

def get_lsb_pos (val : Nat) : Nat :=
  if val = 0 then ALPHA else ctzll 64 val / CHAR_BITS

/-- The loop `while(*ptr1 == *ptr2 && i < max_iter) ++i` of `get_lcp`; `w1 i`
and `w2 i` are the words under `ptr1` and `ptr2` after `i` increments and the
first argument is `max_iter - i`. -/
def lcp_loop (w1 w2 : Nat → Nat) : Nat → Nat → Nat
  | 0, i => i
  | rem + 1, i => if w1 i = w2 i then lcp_loop w1 w2 rem (i + 1) else i

def get_lcp (str1 : List Byte) (junk1 : Nat → Byte) (ofs1 : Nat)
    (str2 : List Byte) (junk2 : Nat → Byte) (ofs2 : Nat) (max_len : Nat) : Nat :=
  let max_iter := max_len / ALPHA
  let w1 := fun i => load64 str1 junk1 (ofs1 + ALPHA * i)
  let w2 := fun i => load64 str2 junk2 (ofs2 + ALPHA * i)
  let i := lcp_loop w1 w2 max_iter 0
  min (i * ALPHA + get_lsb_pos (w1 i ^^^ w2 i)) max_len

/-- Length of the common prefix of two byte runs. -/
def mism : List Byte → List Byte → Nat
  | a :: as, b :: bs => if a = b then 1 + mism as bs else 0
  | _, _ => 0

/-- The byte-by-byte longest common prefix of `a` from `oa` and `b` from `ob`,
capped at the last argument: the reference `get_lcp` is compared with. -/
def naive_lcp (a : List Byte) (oa : Nat) (b : List Byte) (ob : Nat) : Nat → Nat
  | 0 => 0
  | n + 1 => if a[oa]? = b[ob]? then 1 + naive_lcp a (oa + 1) b (ob + 1) n else 0

/-! ## Child-map backends (`utils.hpp`) -/

/-- An adjacency list `std::vector<std::vector<std::pair<Char, Int>>>`. -/
abbrev Adjacency := List (List (Byte × Int))

/-- The class `STLMap`, a `std::map<Char, Int>`: the list of its entries in
ascending key order, which is the order `to_vector` returns them in. -/
abbrev STLMap := List (Byte × Int)

/-- `STLMap::insert`: the entry goes to its place in key order. The source
asserts that the key is absent; with the assertion compiled out `map[key] = val`
replaces the value, which is what the second branch does. -/
def STLMap.insert : STLMap → Byte → Int → STLMap
  | [], key, val => [(key, val)]
  | (k, v) :: rest, key, val =>
    if key < k then (key, val) :: (k, v) :: rest
    else if key = k then (key, val) :: rest
    else (k, v) :: STLMap.insert rest key val

def STLMap.search : STLMap → Byte → Int
  | [], _ => NOT_FOUND
  | (k, v) :: rest, key => if k = key then v else STLMap.search rest key

def STLMap.outdegree (m : STLMap) : Nat := m.length

def STLMap.to_vector (m : STLMap) : List (Byte × Int) := m

/-- The class `MapVector<STLMap>`: one map per node. -/
abbrev MapVector := List STLMap

/-- `std::vector::resize(size, val)`. -/
def resize {α : Type} (l : List α) (size : Nat) (val : α) : List α :=
  l.take size ++ List.replicate (size - l.length) val

def MapVector.mk (size : Nat) : MapVector := List.replicate size []

/-- `maps[idx]`; an index outside the vector (undefined in the source) reads as
an empty map. -/
def MapVector.at (maps : MapVector) (idx : Int) : STLMap :=
  if 0 ≤ idx then maps.getD idx.toNat [] else []

/-- `MapVector::insert`; an index outside the vector (undefined in the source)
leaves the vector as it is. -/
def MapVector.insert (maps : MapVector) (idx : Int) (key : Byte) (val : Int) : MapVector :=
  if 0 ≤ idx then maps.set idx.toNat ((MapVector.at maps idx).insert key val) else maps

def MapVector.search (maps : MapVector) (idx : Int) (key : Byte) : Int :=
  (MapVector.at maps idx).search key

def MapVector.outdegree (maps : MapVector) (idx : Int) : Nat :=
  (MapVector.at maps idx).outdegree

def MapVector.extend (maps : MapVector) (size : Nat) : MapVector :=
  resize maps size []

def MapVector.size (maps : MapVector) : Int := maps.length

def MapVector.to_vector (maps : MapVector) : Adjacency :=
  maps.map STLMap.to_vector

/-- The overload `construct_maps<T>` for `T` derived from `Maps`: a map vector
of `data.size()` nodes into which every edge is inserted. -/
def construct_maps (data : Adjacency) : MapVector :=
  (data.foldl (fun (st : MapVector × Nat) edges =>
      (edges.foldl (fun maps e => MapVector.insert maps st.2 e.1 e.2) st.1, st.2 + 1))
    (MapVector.mk data.length, 0)).1

/-- The class `DoubleArrayMaps`. -/
structure DoubleArrayMaps where
  next : List Int
  check : List Byte
deriving DecidableEq, Repr

def DoubleArrayMaps.mk0 (size : Nat) : DoubleArrayMaps :=
  { next := resize [] size NOT_FOUND, check := resize [] size NULL_CHAR }

/-- `DoubleArrayMaps::search`; a cell outside the arrays (undefined in the
source) reads as an empty cell. -/
def DoubleArrayMaps.search (maps : DoubleArrayMaps) (idx : Int) (key : Byte) : Int :=
  let idx := idx + key.val
  if maps.check.getD idx.toNat NULL_CHAR = key then maps.next.getD idx.toNat NOT_FOUND
  else NOT_FOUND

def DoubleArrayMaps.extend (maps : DoubleArrayMaps) (size : Nat) : DoubleArrayMaps :=
  { next := resize maps.next size NOT_FOUND, check := resize maps.check size NULL_CHAR }

def DoubleArrayMaps.size (maps : DoubleArrayMaps) : Int := maps.next.length

/-- The inner loop `for(auto [key, to] : data[i])` of the search for a base:
the arrays after the `extend` calls, and the flag `ok`. -/
def try_base (cur : Nat) : DoubleArrayMaps → List (Byte × Int) → DoubleArrayMaps × Bool
  | maps, [] => (maps, true)
  | maps, (key, _) :: rest =>
    if cur + key.val ≥ maps.next.length then
      try_base cur (maps.extend (cur + key.val + 1)) rest
    else if maps.check.getD (cur + key.val) NULL_CHAR ≠ NULL_CHAR then (maps, false)
    else try_base cur maps rest

/-- The loop `for(; ; ++cur)` of both constructions, run for at most `fuel`
values of `cur`: the arrays and the first `cur` that passes, or `none` when the
fuel runs out first. -/
def find_base (edges : List (Byte × Int)) : Nat → DoubleArrayMaps → Nat →
    Option (DoubleArrayMaps × Nat)
  | 0, _, _ => none
  | fuel + 1, maps, cur =>
    match try_base cur maps edges with
    | (maps, true) => some (maps, cur)
    | (maps, false) => find_base edges fuel maps (cur + 1)

/-- The loop that commits the edges of a node in `construct_without_reindexing`. -/
def commit_verbatim (cur : Nat) (maps : DoubleArrayMaps) (edges : List (Byte × Int)) :
    DoubleArrayMaps :=
  edges.foldl (fun maps e =>
    { next := maps.next.set (cur + e.1.val) e.2,
      check := maps.check.set (cur + e.1.val) e.1 }) maps

/-- State of the outer loop of `construct_without_reindexing`. -/
structure WithoutState where
  maps : DoubleArrayMaps
  curs : List Int
  cur : Nat
  i : Nat

/-- One round of the outer loop of `construct_without_reindexing`, for node
`i` with edges `edges`. The search for a base gets `next.size() + 1` tries. -/
def without_step (st : WithoutState) (edges : List (Byte × Int)) : Option WithoutState :=
  match find_base edges (st.maps.next.length + 1) st.maps st.cur with
  | none => none
  | some (maps, cur) =>
    some { maps := commit_verbatim cur maps edges,
           curs := st.curs.set st.i (cur : Int),
           cur := cur + 1,
           i := st.i + 1 }

def without_loop : List (List (Byte × Int)) → WithoutState → Option WithoutState
  | [], st => some st
  | edges :: rest, st =>
    match without_step st edges with
    | none => none
    | some st => without_loop rest st

/-- `DoubleArrayMaps::construct_without_reindexing`; `none` stands for a search
for a base that does not end. -/
def construct_without_reindexing (data : Adjacency) : Option (DoubleArrayMaps × List Int) :=
  match without_loop data
      { maps := DoubleArrayMaps.mk0 data.length,
        curs := List.replicate data.length 0, cur := 0, i := 0 } with
  | none => none
  | some st => some (st.maps, st.curs)

/-- The test `to & (1 << 31)` on a 32-bit `Index`: the sign bit is set. -/
def has_tail_flag (target : Int) : Bool := decide (target < 0)

/-- The loop that commits the edges of a node in `construct_with_reindexing`:
`check` is written, and the cell is queued in `inv[to]` unless `to` carries the
tail flag. An `inv[to]` outside the vector (undefined in the source) is
dropped. -/
def commit_reindex (cur : Nat) (st : DoubleArrayMaps × List (List Nat))
    (edges : List (Byte × Int)) : DoubleArrayMaps × List (List Nat) :=
  edges.foldl (fun st e =>
    ({ next := st.1.next, check := st.1.check.set (cur + e.1.val) e.1 },
     if has_tail_flag e.2 then st.2
     else st.2.modify (fun cells => cells ++ [cur + e.1.val]) e.2.toNat)) st

/-- State of the outer loop of `construct_with_reindexing`. -/
structure WithState where
  maps : DoubleArrayMaps
  inv : List (List Nat)
  curs : List Int
  cur : Nat
  i : Nat

/-- One round of the outer loop of `construct_with_reindexing`. -/
def with_step (st : WithState) (edges : List (Byte × Int)) : Option WithState :=
  match find_base edges (st.maps.next.length + 1) st.maps st.cur with
  | none => none
  | some (maps, cur) =>
    let committed := commit_reindex cur (maps, st.inv) edges
    let patched := (committed.2.getD st.i []).foldl
      (fun (m : DoubleArrayMaps) idx => { next := m.next.set idx (cur : Int), check := m.check })
      committed.1
    some { maps := patched,
           inv := committed.2,
           curs := st.curs.set st.i (cur : Int),
           cur := cur + 1,
           i := st.i + 1 }

def with_loop : List (List (Byte × Int)) → WithState → Option WithState
  | [], st => some st
  | edges :: rest, st =>
    match with_step st edges with
    | none => none
    | some st => with_loop rest st

/-- `DoubleArrayMaps::construct_with_reindexing`; `none` stands for a search for
a base that does not end. -/
def construct_with_reindexing (data : Adjacency) : Option (DoubleArrayMaps × List Int) :=
  match with_loop data
      { maps := DoubleArrayMaps.mk0 data.length,
        inv := List.replicate data.length [],
        curs := List.replicate data.length 0, cur := 0, i := 0 } with
  | none => none
  | some st => some (st.maps, st.curs)

/-- Modelled from the spec: `sdsl::rank_support_v<1>`, whose source is not part
of the repository: the number of one-bits of `bv` before position `i`. -/
def rank (bv : List Bool) (i : Nat) : Nat := (bv.take i).count true

/-- Modelled from the spec: `sdsl::select_support_mcl<1>`, whose source is not
part of the repository: the position of the `k`-th one-bit of `bv`, counted
from one. -/
def select : List Bool → Nat → Nat
  | [], _ => 0
  | true :: bs, k => if k ≤ 1 then 0 else 1 + select bs (k - 1)
  | false :: bs, k => 1 + select bs k

/-- The order `std::sort` puts `std::pair<Char, Int>` in: by byte, then by
target. -/
def pair_le (a b : Byte × Int) : Prop := a.1 < b.1 ∨ (a.1 = b.1 ∧ a.2 ≤ b.2)

instance : DecidableRel pair_le := fun a b => by unfold pair_le; infer_instance

/-- The class `BinarySearchMaps` (its `rank` and `select` are functions of `bv`). -/
structure BinarySearchMaps where
  bv : List Bool
  elms : List (Byte × Int)
deriving DecidableEq, Repr

/-- State of the loops of `static_construct`: the bit vector, `elms`, `cur`. -/
abbrev BuildState := List Bool × List (Byte × Int) × Nat

/-- The body of `for(Int i = 0; i < data.size(); ++i)` in `static_construct`. -/
def static_step (st : BuildState) (edges : List (Byte × Int)) : BuildState :=
  (edges.insertionSort pair_le).foldl
    (fun (s : BuildState) e => (s.1.set s.2.2 false, s.2.1 ++ [e], s.2.2 + 1))
    (st.1.set st.2.2 true, st.2.1, st.2.2 + 1)

def static_construct (data : Adjacency) : BinarySearchMaps :=
  let total_size := (data.map List.length).sum
  let bv := List.replicate (total_size + data.length + 1) false
  let st := data.foldl static_step (bv, [], 0)
  { bv := st.1.set st.2.2 true, elms := st.2.1 }

/-- The final `for(unsigned int i = l; i < r; ++i)` of `BinarySearchMaps::search`;
the first argument is `r - i`. An element outside `elms` (undefined in the
source) reads as `(0, NOT_FOUND)`. -/
def linear_scan (elms : List (Byte × Int)) (key : Byte) : Nat → Nat → Int
  | 0, _ => NOT_FOUND
  | n + 1, i =>
    if (elms.getD i (0, NOT_FOUND)).1 = key then (elms.getD i (0, NOT_FOUND)).2
    else if key < (elms.getD i (0, NOT_FOUND)).1 then NOT_FOUND
    else linear_scan elms key n (i + 1)

def linear_search_border : Nat := 5

/-- The loop `while(r - l > linear_search_border)` of `BinarySearchMaps::search`
followed by the linear scan, run for at most `fuel` rounds of the loop; `none`
when the fuel runs out. -/
def bsearch_loop (elms : List (Byte × Int)) (key : Byte) : Nat → Nat → Nat → Option Int
  | 0, _, _ => none
  | fuel + 1, l, r =>
    if r - l > linear_search_border then
      let mid := (r + l) / 2
      if (elms.getD mid (0, NOT_FOUND)).1 = key then some (elms.getD mid (0, NOT_FOUND)).2
      else if (elms.getD mid (0, NOT_FOUND)).1 < key then bsearch_loop elms key fuel mid r
      else bsearch_loop elms key fuel l mid
    else some (linear_scan elms key (r - l) l)

/-- `BinarySearchMaps::search`; the loop gets `elms.size() + 1` rounds, and
`none` stands for a loop that does not end. -/
def BinarySearchMaps.search (maps : BinarySearchMaps) (idx : Nat) (key : Byte) : Option Int :=
  let l := select maps.bv (idx + 1)
  let l := l - rank maps.bv l
  let r := select maps.bv (idx + 2)
  let r := r - rank maps.bv r
  bsearch_loop maps.elms key (maps.elms.length + 1) l r

def BinarySearchMaps.size (maps : BinarySearchMaps) : Int := maps.elms.length

/-- The delimiter vector the sorted-array encoding is described by: per node a
one-bit followed by a zero-bit per edge, and a closing one-bit. -/
def layout_bv : Adjacency → List Bool
  | [] => [true]
  | edges :: rest => true :: (List.replicate edges.length false ++ layout_bv rest)

/-- The element array the sorted-array encoding is described by: the sorted
edges of node 0, of node 1, and so on. -/
def layout_elms : Adjacency → List (Byte × Int)
  | [] => []
  | edges :: rest => edges.insertionSort pair_le ++ layout_elms rest

/-- Number of edges of the nodes before node `u`. -/
def edge_offset (data : Adjacency) (u : Nat) : Nat := ((data.take u).map List.length).sum

/-- The keys of `elms` on the positions `l ≤ p < r` ascend strictly. -/
def StrictOn (elms : List (Byte × Int)) (l r : Nat) : Prop :=
  ∀ i j, l ≤ i → i < j → j < r →
    (elms.getD i (0, NOT_FOUND)).1 < (elms.getD j (0, NOT_FOUND)).1

/-- The check byte of cell `p`, cells outside the array reading as empty. -/
def DoubleArrayMaps.chk (maps : DoubleArrayMaps) (p : Nat) : Byte := maps.check.getD p NULL_CHAR

/-- The target stored in cell `p`, cells outside the array reading as unset. -/
def DoubleArrayMaps.nxt (maps : DoubleArrayMaps) (p : Nat) : Int := maps.next.getD p NOT_FOUND

/-- What holds of the double array after the nodes before `i` are placed, node
`u` at `base u`: bases ascend and lie below `cur`, every edge of a placed node
owns its cell, and every used cell is owned by such an edge. -/
structure PlacedInv (data : Adjacency) (maps : DoubleArrayMaps) (curs : List Int)
    (cur i : Nat) (base : Nat → Nat) : Prop where
  i_le : i ≤ data.length
  curs_len : curs.length = data.length
  len_eq : maps.next.length = maps.check.length
  curs_eq : ∀ u, u < i → curs.getD u 0 = (base u : Int)
  base_lt : ∀ u, u < i → base u < cur
  base_mono : ∀ u v, u < v → v < i → base u < base v
  owned : ∀ u, u < i → ∀ e ∈ data.getD u [],
    base u + e.1.val < maps.next.length ∧ maps.chk (base u + e.1.val) = e.1
  used : ∀ p, maps.chk p ≠ NULL_CHAR →
    ∃ u, u < i ∧ ∃ e ∈ data.getD u [], base u + e.1.val = p ∧ maps.chk p = e.1

/-- Labels of every node are pairwise distinct and never `NULL_CHAR`. -/
def LabelsOk (data : Adjacency) : Prop :=
  ∀ edges ∈ data, (edges.map Prod.fst).Nodup ∧ ∀ e ∈ edges, e.1 ≠ NULL_CHAR

instance (data : Adjacency) : Decidable (LabelsOk data) := by
  unfold LabelsOk; infer_instance

/-- Every edge `(u, v)` of the adjacency list has `u < v < n`. -/
def TopoOk (data : Adjacency) : Prop :=
  ∀ u, u < data.length → ∀ e ∈ data.getD u [], (u : Int) < e.2 ∧ e.2 < (data.length : Int)

instance (data : Adjacency) : Decidable (TopoOk data) := by
  unfold TopoOk; infer_instance

/-- What holds of `next` and `inv` in `construct_with_reindexing` after the
nodes before `i` are placed: an edge into a placed node is patched to that
node's base, an edge into a node still to come waits in `inv`, and `inv` holds
nothing else. -/
structure PatchInv (data : Adjacency) (maps : DoubleArrayMaps) (inv : List (List Nat))
    (i : Nat) (base : Nat → Nat) : Prop where
  inv_len : inv.length = data.length
  patched : ∀ u, u < i → ∀ e ∈ data.getD u [], e.2.toNat < i →
    maps.nxt (base u + e.1.val) = (base e.2.toNat : Int)
  waiting : ∀ u, u < i → ∀ e ∈ data.getD u [], i ≤ e.2.toNat →
    base u + e.1.val ∈ inv.getD e.2.toNat []
  queued : ∀ w, ∀ cell ∈ inv.getD w [],
    ∃ u, u < i ∧ ∃ e ∈ data.getD u [], e.2 = (w : Int) ∧ base u + e.1.val = cell

/-! ## The reference trie (`trie.hpp`) -/

/-- The class `BaseTrie`. -/
structure BaseTrie where
  node_count : Nat
  maps : MapVector
deriving DecidableEq, Repr

/-- The body of the loop `for(auto ch: line)` of `BaseTrie::insert`, on the
trie and the current `node`. -/
def BaseTrie.insert_char (st : BaseTrie × Int) (ch : Byte) : BaseTrie × Int :=
  let child := MapVector.search st.1.maps st.2 ch
  if child = NOT_FOUND then
    let child : Int := st.1.node_count
    let maps := MapVector.extend st.1.maps (st.1.node_count + 1)
    ({ node_count := st.1.node_count + 1, maps := MapVector.insert maps st.2 ch child }, child)
  else (st.1, child)

def BaseTrie.insert (t : BaseTrie) (line : List Byte) : BaseTrie :=
  (line.foldl BaseTrie.insert_char (t, 0)).1

/-- The constructor `BaseTrie(const Strings& data)`. -/
def BaseTrie.construct (data : List (List Byte)) : BaseTrie :=
  data.foldl BaseTrie.insert { node_count := 1, maps := MapVector.mk 1 }

/-- The loop of `BaseTrie::search` from `node` on, with its early `return false`
and the final test of the out-degree. -/
def BaseTrie.search_from (maps : MapVector) : Int → List Byte → Bool
  | node, [] => MapVector.outdegree maps node == 0
  | node, ch :: rest =>
    if MapVector.search maps node ch = NOT_FOUND then false
    else BaseTrie.search_from maps (MapVector.search maps node ch) rest

def BaseTrie.search (t : BaseTrie) (line : List Byte) : Bool :=
  BaseTrie.search_from t.maps 0 line

def BaseTrie.to_vector (t : BaseTrie) : Adjacency := MapVector.to_vector t.maps

/-- The node a walk from `node` along `line` ends in, `none` when an edge is
missing: the loop shared by every `search` over a `MapVector`. -/
def walk (maps : MapVector) : Int → List Byte → Option Int
  | node, [] => some node
  | node, ch :: rest =>
    if MapVector.search maps node ch = NOT_FOUND then none
    else walk maps (MapVector.search maps node ch) rest

/-- A string as the string provider hands it over: it ends with `EOW` and holds
`EOW` nowhere else. -/
def WellFormed (s : List Byte) : Prop := s.getLast? = some EOW ∧ EOW ∉ s.dropLast

instance (s : List Byte) : Decidable (WellFormed s) := by
  unfold WellFormed; infer_instance

/-- The shape of a trie built by insertion: nodes are numbered as they are
created, so edges lead to larger ids, every node but the root has one parent,
and the labels of a node ascend strictly. -/
structure TrieInv (t : BaseTrie) : Prop where
  count_pos : 1 ≤ t.node_count
  len : t.maps.length = t.node_count
  edge_up : ∀ u, u < t.node_count → ∀ e ∈ t.maps.getD u [],
    (u : Int) < e.2 ∧ e.2 < (t.node_count : Int)
  parent_unique : ∀ u v e1 e2, u < t.node_count → v < t.node_count →
    e1 ∈ t.maps.getD u [] → e2 ∈ t.maps.getD v [] → e1.2 = e2.2 → u = v ∧ e1 = e2
  has_parent : ∀ v, 0 < v → v < t.node_count →
    ∃ u, u < t.node_count ∧ ∃ e ∈ t.maps.getD u [], e.2 = (v : Int)
  sorted : ∀ u, u < t.node_count → (t.maps.getD u []).Pairwise (fun a b => a.1 < b.1)

/-! ## The minimal acyclic automaton (`trie.hpp`) -/

/-- The order `operator<` of `std::vector<std::pair<Char, Index>>`, the key
order of `id_map`: lexicographic, pairs compared by byte and then by target. -/
def sig_lt : List (Byte × Int) → List (Byte × Int) → Bool
  | [], [] => false
  | [], _ :: _ => true
  | _ :: _, [] => false
  | a :: as, b :: bs =>
    if a.1 < b.1 ∨ (a.1 = b.1 ∧ a.2 < b.2) then true
    else if b.1 < a.1 ∨ (b.1 = a.1 ∧ b.2 < a.2) then false
    else sig_lt as bs

/-- The map `id_map`, a `std::map` from child lists to class ids: the list of
its entries in ascending key order. -/
abbrev IdMap := List (List (Byte × Int) × Int)

/-- Lookup in `id_map`: `contains` and `operator[]` on a present key. -/
def IdMap.find : IdMap → List (Byte × Int) → Option Int
  | [], _ => none
  | (k, v) :: rest, key => if k = key then some v else IdMap.find rest key

/-- Insertion of a new key into `id_map`, at its place in key order. -/
def IdMap.insert : IdMap → List (Byte × Int) → Int → IdMap
  | [], key, val => [(key, val)]
  | (k, v) :: rest, key, val =>
    if sig_lt key k then (key, val) :: (k, v) :: rest
    else if key = k then (key, val) :: rest
    else (k, v) :: IdMap.insert rest key val

/-- The list `children` of node `i`: its edges with the targets replaced by
their class ids. -/
def adfa_children (data : Adjacency) (ids : List Int) (i : Nat) : List (Byte × Int) :=
  (data.getD i []).map (fun e => (e.1, ids.getD e.2.toNat NOT_FOUND))

/-- The body of the first loop of the constructor `BaseADFA`, for node `i`. The
right-hand side `id_map.size()` of the assignment is evaluated before the key is
entered, so a new class gets the number of classes seen before it. -/
def adfa_step (data : Adjacency) (st : IdMap × List Int) (i : Nat) : IdMap × List Int :=
  let children := adfa_children data st.2 i
  let id_map :=
    if (IdMap.find st.1 children).isSome then st.1
    else IdMap.insert st.1 children (st.1.length : Int)
  (id_map, st.2.set i ((IdMap.find id_map children).getD 0))

/-- The loop `for(Index i = data.size() - 1; i >= 0; --i)`; the first argument
is `i + 1`. -/
def adfa_loop (data : Adjacency) : Nat → IdMap × List Int → IdMap × List Int
  | 0, st => st
  | i + 1, st => adfa_loop data i (adfa_step data st i)

/-- The vector `sorted_id_map`: the entries of `id_map`, visited in key order,
each stored under its id. -/
def sorted_id_map (id_map : IdMap) : List (Int × List (Byte × Int)) :=
  id_map.foldl (fun s e => s.set e.2.toNat (e.2, e.1)) (List.replicate id_map.length (0, []))

/-- The last loop of the constructor: the edges of every class are inserted
with ids counted from the other end. -/
def adfa_install (sorted : List (Int × List (Byte × Int))) (maps : MapVector) : MapVector :=
  sorted.foldl (fun maps entry =>
    let after_id : Int := (sorted.length : Int) - 1 - entry.1
    entry.2.foldl (fun maps e =>
      let after_to : Int := (sorted.length : Int) - 1 - e.2
      MapVector.insert maps after_id e.1 after_to) maps) maps

/-- The class `BaseADFA`. -/
structure BaseADFA where
  maps : MapVector
deriving DecidableEq, Repr

/-- The class ids `ids` and the map `id_map` after the first loop. -/
def adfa_classes (data : Adjacency) : IdMap × List Int :=
  adfa_loop data data.length ([], List.replicate data.length NOT_FOUND)

/-- The constructor `BaseADFA(const BaseTrie& base)`. -/
def BaseADFA.construct (base : BaseTrie) : BaseADFA :=
  let data := base.to_vector
  let sorted := sorted_id_map (adfa_classes data).1
  { maps := adfa_install sorted (MapVector.extend (MapVector.mk 0) sorted.length) }

/-- The loop of `BaseADFA::search` from `node` on and the final comparison
with the last id. -/
def BaseADFA.search_from (maps : MapVector) : Int → List Byte → Bool
  | node, [] => decide (node = MapVector.size maps - 1)
  | node, ch :: rest =>
    if MapVector.search maps node ch = NOT_FOUND then false
    else BaseADFA.search_from maps (MapVector.search maps node ch) rest

def BaseADFA.search (a : BaseADFA) (line : List Byte) : Bool :=
  BaseADFA.search_from a.maps 0 line

def BaseADFA.to_vector (a : BaseADFA) : Adjacency := MapVector.to_vector a.maps

/-- The state of the automaton that stands for trie node `i`: the id
`after_id` of the class of `i`. -/
def adfa_state (data : Adjacency) (i : Nat) : Int :=
  ((adfa_classes data).1.length : Int) - 1 - (adfa_classes data).2.getD i NOT_FOUND

/-- What holds of `id_map` and `ids` in the constructor of `BaseADFA` once the
nodes `k ≤ v` are classified: ids are dense and distinct, every classified node
is entered under its list of children, every class has a node, and a class
points to classes created before it. -/
structure ClassInv (data : Adjacency) (k : Nat) (st : IdMap × List Int) : Prop where
  ids_len : st.2.length = data.length
  keys_nodup : st.1.Pairwise (fun a b => a.1 ≠ b.1)
  ids_nodup : st.1.Pairwise (fun a b => a.2 ≠ b.2)
  id_range : ∀ e ∈ st.1, 0 ≤ e.2 ∧ e.2 < (st.1.length : Int)
  id_onto : ∀ c : Nat, c < st.1.length → ∃ s, (s, (c : Int)) ∈ st.1
  node_class : ∀ v, k ≤ v → v < data.length →
    (adfa_children data st.2 v, st.2.getD v NOT_FOUND) ∈ st.1
  class_node : ∀ e ∈ st.1, ∃ v, k ≤ v ∧ v < data.length ∧ st.2.getD v NOT_FOUND = e.2
  child_lt : ∀ e ∈ st.1, ∀ x ∈ e.1, 0 ≤ x.2 ∧ x.2 < e.2

/-- The automaton as a quotient of the trie: every trie node `v` has a state
`adfa_state v` below the number `K` of states, whose edges are the edges of `v`
with the targets replaced by their states; every state comes from a node; edges
lead to larger states; the leaves, and only they, are mapped to the last state;
and the root, and only it, is mapped to state 0. -/
structure AdfaSpec (t : BaseTrie) (a : BaseADFA) : Prop where
  size_pos : 1 ≤ a.maps.length
  size_eq : a.maps.length = (adfa_classes t.to_vector).1.length
  state_range : ∀ v, v < t.node_count →
    0 ≤ adfa_state t.to_vector v ∧ adfa_state t.to_vector v < (a.maps.length : Int)
  state_edges : ∀ v, v < t.node_count →
    a.maps.getD (adfa_state t.to_vector v).toNat []
      = (t.maps.getD v []).map (fun e => (e.1, adfa_state t.to_vector e.2.toNat))
  state_onto : ∀ q, q < a.maps.length →
    ∃ v, v < t.node_count ∧ adfa_state t.to_vector v = (q : Int)
  state_up : ∀ v, v < t.node_count → ∀ e ∈ t.maps.getD v [],
    adfa_state t.to_vector v < adfa_state t.to_vector e.2.toNat
  state_sink : ∀ v, v < t.node_count →
    (adfa_state t.to_vector v = (a.maps.length : Int) - 1 ↔ t.maps.getD v [] = [])
  state_root : ∀ v, v < t.node_count → (adfa_state t.to_vector v = 0 ↔ v = 0)
  assert_ok : ∀ entry ∈ sorted_id_map (adfa_classes t.to_vector).1, ∀ e ∈ entry.2,
    ((sorted_id_map (adfa_classes t.to_vector).1).length : Int) - 1 - entry.1
      < ((sorted_id_map (adfa_classes t.to_vector).1).length : Int) - 1 - e.2

/-! ## Tail compaction (`trie.hpp`) -/

/-- The class `TailTrie` (its member `next` is never written or read). -/
structure TailTrie where
  tail_str : List Byte
  maps : MapVector
deriving DecidableEq, Repr

/-- The body of the loop that counts the leaves below node `i`, shared by
`TailTrie` and `PathDecomposedTrie`: a leaf counts one, and the counts of the
children are added up. -/
def paths_step (data : Adjacency) (paths : List Int) (i : Nat) : List Int :=
  (data.getD i []).foldl
    (fun paths e => paths.set i (paths.getD i 0 + paths.getD e.2.toNat 0))
    (if (data.getD i []).isEmpty then paths.set i 1 else paths)

/-- The loop `for(Index i = data.size() - 1; i >= 0; --i)` over `paths_step`;
the first argument is `i + 1`. -/
def paths_loop (data : Adjacency) : Nat → List Int → List Int
  | 0, paths => paths
  | i + 1, paths => paths_loop data i (paths_step data paths i)

/-- The vector `number_of_paths_leaf` after its loop. -/
def number_of_paths_leaf (data : Adjacency) : List Int :=
  paths_loop data data.length (List.replicate data.length 0)

/-- The loop `while(true)` of the constructor of `TailTrie`: the labels of the
first edges from `cur` down to a node without edges, followed for at most
`fuel` nodes; `none` when the fuel runs out. -/
def tail_chain (data : Adjacency) : Nat → Int → Option (List Byte)
  | 0, _ => none
  | fuel + 1, cur =>
    match data.getD cur.toNat [] with
    | [] => some []
    | e :: _ => (tail_chain data fuel e.2).map (fun chain => e.1 :: chain)

/-- The value `to.second | (to.first << 31)` for a set flag: the sign bit of
the 32-bit pattern is switched on. -/
def set_tail_flag (x : Int) : Int := if 0 ≤ x then x - 2 ^ 31 else x

/-- The value `node & ~(1 << 31)`: the low 31 bits of the 32-bit pattern. -/
def clear_tail_flag (x : Int) : Int := x % 2 ^ 31

/-- State of the second loop of the constructor: `mapping`, `new_edges`,
`tail_str`. -/
structure TailState where
  mapping : List Int
  new_edges : List (List (Byte × (Bool × Int)))
  tail_str : List Byte

/-- The loop over the edges of a kept node: the row of `new_edges` and the
tail pool. The walk down a chain gets `data.size()` nodes. -/
def tail_edges (data : Adjacency) (paths : List Int) :
    List (Byte × Int) → List (Byte × (Bool × Int)) × List Byte →
    Option (List (Byte × (Bool × Int)) × List Byte)
  | [], st => some st
  | e :: rest, st =>
    if paths.getD e.2.toNat 0 > 1 then
      tail_edges data paths rest (st.1 ++ [(e.1, (false, e.2))], st.2)
    else
      match tail_chain data data.length e.2 with
      | none => none
      | some chain =>
        tail_edges data paths rest
          (st.1 ++ [(e.1, (true, (st.2.length : Int)))], st.2 ++ e.1 :: chain)

/-- The body of the second loop `for(Index i = 0; i < data.size(); ++i)`. -/
def tail_step (data : Adjacency) (paths : List Int) (st : TailState) (i : Nat) :
    Option TailState :=
  if paths.getD i 0 = 1 then some st
  else
    match tail_edges data paths (data.getD i []) ([], st.tail_str) with
    | none => none
    | some (row, tail_str) =>
      some { mapping := st.mapping.set i (st.new_edges.length : Int),
             new_edges := st.new_edges ++ [row],
             tail_str := tail_str }

/-- The second loop, over the nodes `i`, `i + 1`, ... given as a list. -/
def tail_loop (data : Adjacency) (paths : List Int) : List Nat → TailState → Option TailState
  | [], st => some st
  | i :: rest, st =>
    match tail_step data paths st i with
    | none => none
    | some st => tail_loop data paths rest st

/-- The third loop: kept targets are renumbered through `mapping`, and the
flag is put into the high bit. -/
def tail_new_data (mapping : List Int) (new_edges : List (List (Byte × (Bool × Int)))) :
    Adjacency :=
  new_edges.map (fun row => row.map (fun e =>
    (e.1, if e.2.1 then set_tail_flag e.2.2 else mapping.getD e.2.2.toNat NOT_FOUND)))

/-- The condition of `assert(number_of_paths_leaf[0] > 1)` in the constructor
of `TailTrie`. -/
def tail_root_assert (data : Adjacency) : Bool :=
  decide ((number_of_paths_leaf data).getD 0 0 > 1)

/-- The vectors `mapping` and `new_edges` and the tail pool after the second
loop of the constructor; `none` stands for a walk down a chain that does not
end. -/
def tail_state (data : Adjacency) : Option TailState :=
  tail_loop data (number_of_paths_leaf data) (List.range data.length)
    { mapping := List.replicate data.length NOT_FOUND, new_edges := [], tail_str := [] }

/-- The constructor `TailTrie(const BaseTrie& base)`; `none` stands for a walk
down a chain that does not end and for a failed
`assert(number_of_paths_leaf[0] > 1)`. -/
def TailTrie.construct (base : BaseTrie) : Option TailTrie :=
  let data := base.to_vector
  match tail_state data with
  | none => none
  | some st =>
    if tail_root_assert data then
      some { tail_str := st.tail_str,
             maps := construct_maps (tail_new_data st.mapping st.new_edges) }
    else none

/-- The loop of `TailTrie::search` from position `i` on, where the first
list is `line` from `i` on; `jt` and `jl` are what the memory holds behind
`tail_str` and behind `line`. -/
def TailTrie.search_from (tt : TailTrie) (jt jl : Nat → Byte) (line : List Byte) :
    List Byte → Nat → Int → Bool
  | [], _, _ => true
  | ch :: rest, i, node =>
    if MapVector.search tt.maps node ch = NOT_FOUND then false
    else if has_tail_flag (MapVector.search tt.maps node ch) then
      decide (get_lcp tt.tail_str jt (clear_tail_flag (MapVector.search tt.maps node ch)).toNat
        line jl i (line.length - i) = line.length - i)
    else TailTrie.search_from tt jt jl line rest (i + 1) (MapVector.search tt.maps node ch)

def TailTrie.search (tt : TailTrie) (jt jl : Nat → Byte) (line : List Byte) : Bool :=
  TailTrie.search_from tt jt jl line line 0 0

/-- The sum of the leaf counts of the targets of `edges`. -/
def child_paths (paths : List Int) (edges : List (Byte × Int)) : Int :=
  (edges.map (fun e => paths.getD e.2.toNat 0)).sum

/-- What the first loop leaves in `number_of_paths_leaf`: one for a leaf, the
sum over the children otherwise, and at least one everywhere. -/
structure PathsSpec (data : Adjacency) (paths : List Int) : Prop where
  len : paths.length = data.length
  leaf : ∀ v, v < data.length → data.getD v [] = [] → paths.getD v 0 = 1
  inner : ∀ v, v < data.length → data.getD v [] ≠ [] →
    paths.getD v 0 = child_paths paths (data.getD v [])
  pos : ∀ v, v < data.length → 1 ≤ paths.getD v 0

/-- How a row entry `r` of `new_edges` stands for the trie edge `e`: the same
label; the target itself when it is kept; otherwise the offset at which the
tail pool holds the label followed by the labels of the chain below. -/
def TailRel (data : Adjacency) (paths : List Int) (tail_str : List Byte) (e : Byte × Int)
    (r : Byte × (Bool × Int)) : Prop :=
  r.1 = e.1 ∧
  (paths.getD e.2.toNat 0 > 1 → r.2 = (false, e.2)) ∧
  (¬ paths.getD e.2.toNat 0 > 1 → ∃ (off : Nat) (chain : List Byte),
    r.2 = (true, (off : Int)) ∧ tail_chain data data.length e.2 = some chain ∧
    ∀ j, j < chain.length + 1 → tail_str[off + j]? = (e.1 :: chain)[j]?)

/-- What holds in the second loop of the constructor of `TailTrie` once the
nodes before `i` are done: every kept node has its row, which stands for its
edges, and rows are in label order. -/
structure TailInv (data : Adjacency) (paths : List Int) (i : Nat) (st : TailState) : Prop where
  mlen : st.mapping.length = data.length
  rows : ∀ v, v < i → paths.getD v 0 ≠ 1 →
    ∃ m : Nat, st.mapping.getD v NOT_FOUND = (m : Int) ∧ m < st.new_edges.length ∧
      List.Forall₂ (TailRel data paths st.tail_str) (data.getD v []) (st.new_edges.getD m [])
  sorted_rows : ∀ row ∈ st.new_edges, row.Pairwise (fun a b => a.1 < b.1)
  start : i = 0 → st.new_edges = []
  root : 0 < i → paths.getD 0 0 ≠ 1 → st.mapping.getD 0 NOT_FOUND = 0

/-- Length of the tail pool of the tail-compacted trie of `D`. -/
def tail_pool_length (D : List (List Byte)) : Nat :=
  match TailTrie.construct (BaseTrie.construct D) with
  | some tt => tt.tail_str.length
  | none => 0

/-! ## Heavy-path decomposition of the trie (`trie.hpp`) -/

/-- The class `PathDecomposedTrie`. -/
structure PathDecomposedTrie where
  is_leaf : List Bool
  heavy_str : List Byte
  maps : MapVector
deriving DecidableEq, Repr

/-- State of the first loop of the constructor: `light_edges`, `heavy_edges`,
`number_of_paths_leaf`. -/
structure HeavyState where
  light_edges : List (List (Byte × Int))
  heavy_edges : List Int
  paths : List Int
deriving DecidableEq, Repr

/-- The edge `data[i][j]`; outside the vectors (undefined in the source) it
reads as `(0, 0)`. -/
def edge_at (data : Adjacency) (i : Nat) (j : Int) : Byte × Int :=
  (data.getD i []).getD j.toNat (0, 0)

/-- The body of the loop over the edges `j` of node `i`: the first edge is
heavy, a later edge with more leaves below takes its place, and every edge
that is not heavy is appended to `light_edges[i]`. -/
def pd_edge_step (data : Adjacency) (i : Nat) (st : HeavyState) (j : Nat) : HeavyState :=
  let e := edge_at data i j
  let siz := st.paths.getD e.2.toNat 0
  let heavy := st.heavy_edges.getD i NOT_FOUND
  let st1 : HeavyState :=
    if heavy = NOT_FOUND then
      { st with heavy_edges := st.heavy_edges.set i (j : Int) }
    else if siz > st.paths.getD (edge_at data i heavy).2.toNat 0 then
      { st with
        light_edges := st.light_edges.modify (fun l => l ++ [edge_at data i heavy]) i
        heavy_edges := st.heavy_edges.set i (j : Int) }
    else
      { st with light_edges := st.light_edges.modify (fun l => l ++ [e]) i }
  { st1 with paths := st1.paths.set i (st1.paths.getD i 0 + st1.paths.getD e.2.toNat 0) }

/-- The body of the first loop, for node `i`. -/
def pd_node_step (data : Adjacency) (st : HeavyState) (i : Nat) : HeavyState :=
  (List.range (data.getD i []).length).foldl (pd_edge_step data i)
    (if (data.getD i []).isEmpty then { st with paths := st.paths.set i 1 } else st)

/-- The first loop `for(Index i = data.size() - 1; i >= 0; --i)`; the first
argument is `i + 1`. -/
def pd_heavy_loop (data : Adjacency) : Nat → HeavyState → HeavyState
  | 0, st => st
  | i + 1, st => pd_heavy_loop data i (pd_node_step data st i)

/-- State of the loop that lays out the heavy paths: `heavy_path`,
`heavy_edges_flag`, `heavy_str`. -/
structure PathState where
  heavy_path : List Int
  flags : List Bool
  heavy_str : List Byte
deriving DecidableEq, Repr

/-- The heavy edge of node `cur` as the constructor of `PathDecomposedTrie`
reads it: none when `heavy_edges[cur] == NOT_FOUND`, the edge
`data[cur][heavy_edges[cur]]` otherwise. -/
def trie_heavy_of (data : Adjacency) (heavy_edges : List Int) (cur : Int) : Option (Byte × Int) :=
  if heavy_edges.getD cur.toNat NOT_FOUND = NOT_FOUND then none
  else some (edge_at data cur.toNat (heavy_edges.getD cur.toNat NOT_FOUND))

/-- The loop `while(true)` that follows heavy edges from `cur`, for at most
`fuel` nodes; `none` when the fuel runs out. The node is appended to
`heavy_path` and flagged; `heavy_str` gets the label of its heavy edge, or
`NULL_CHAR` when it has none, which ends the loop. -/
def pd_follow (heavy_of : Int → Option (Byte × Int)) : Nat → Int → PathState →
    Option PathState
  | 0, _, _ => none
  | fuel + 1, cur, st =>
    match heavy_of cur with
    | none =>
      some { heavy_path := st.heavy_path ++ [cur],
             flags := st.flags.set cur.toNat true,
             heavy_str := st.heavy_str ++ [NULL_CHAR] }
    | some e =>
      pd_follow heavy_of fuel e.2
        { heavy_path := st.heavy_path ++ [cur],
          flags := st.flags.set cur.toNat true,
          heavy_str := st.heavy_str ++ [e.1] }

/-- The body of the loop over the start nodes `i`; a walk along heavy edges
gets `n = data.size()` nodes. -/
def pd_path_step (n : Nat) (heavy_of : Int → Option (Byte × Int)) (st : PathState) (i : Nat) :
    Option PathState :=
  if st.flags.getD i false then some st
  else pd_follow heavy_of n (i : Int) st

def pd_path_loop (n : Nat) (heavy_of : Int → Option (Byte × Int)) : List Nat → PathState →
    Option PathState
  | [], st => some st
  | i :: rest, st =>
    match pd_path_step n heavy_of st i with
    | none => none
    | some st => pd_path_loop n heavy_of rest st

/-- The vector `heavy_path_inv`: `heavy_path_inv[heavy_path[i]] = i`. -/
def heavy_path_inv (n : Nat) (heavy_path : List Int) : List Int :=
  (List.range heavy_path.length).foldl
    (fun inv i => inv.set (heavy_path.getD i 0).toNat (i : Int)) (List.replicate n 0)

/-- The bit vector `is_leaf`: `is_leaf[heavy_path_inv[i]] = data[i].empty()`. -/
def pd_is_leaf (data : Adjacency) (inv : List Int) : List Bool :=
  (List.range data.length).foldl
    (fun l i => l.set (inv.getD i 0).toNat (data.getD i []).isEmpty)
    (List.replicate data.length false)

/-- The vector `light_edges_inv`: the light edges with both ends renumbered. -/
def pd_light_edges_inv (n : Nat) (light_edges : List (List (Byte × Int))) (inv : List Int) :
    Adjacency :=
  (List.range n).foldl
    (fun acc i => (light_edges.getD i []).foldl
      (fun acc e => acc.modify (fun l => l ++ [(e.1, inv.getD e.2.toNat 0)]) (inv.getD i 0).toNat)
      acc)
    (List.replicate n [])

/-- The vectors `light_edges` and `heavy_edges` after the first loop. -/
def pd_heavy (data : Adjacency) : HeavyState :=
  pd_heavy_loop data data.length
    { light_edges := List.replicate data.length [],
      heavy_edges := List.replicate data.length NOT_FOUND,
      paths := List.replicate data.length 0 }

/-- The heavy paths: the state after the loop over the start nodes. -/
def pd_paths (n : Nat) (heavy_of : Int → Option (Byte × Int)) : Option PathState :=
  pd_path_loop n heavy_of (List.range n)
    { heavy_path := [], flags := List.replicate n false, heavy_str := [] }

/-- The constructor `PathDecomposedTrie(const BaseTrie& base)`; `none` stands
for a walk along heavy edges that does not end. -/
def PathDecomposedTrie.construct (base : BaseTrie) : Option PathDecomposedTrie :=
  let data := base.to_vector
  let hs := pd_heavy data
  match pd_paths data.length (trie_heavy_of data hs.heavy_edges) with
  | none => none
  | some ps =>
    let inv := heavy_path_inv data.length ps.heavy_path
    some { is_leaf := pd_is_leaf data inv,
           heavy_str := ps.heavy_str,
           maps := construct_maps (pd_light_edges_inv data.length hs.light_edges inv) }

/-- The loop of `search` of the heavy-path classes, the same text in
`PathDecomposedTrie` and `PathDecomposedADFA`, from position `i` and node
`node` on, run for at most `fuel` rounds: `none` when the fuel runs out,
`some none` for `return false`, and the node the loop ends in otherwise. `jh`
and `jl` are what the memory holds behind `heavy_str` and behind `line`. -/
def pd_walk (heavy_str : List Byte) (maps : MapVector) (jh jl : Nat → Byte) (line : List Byte) :
    Nat → Nat → Int → Option (Option Int)
  | 0, _, _ => none
  | fuel + 1, i, node =>
    if i < line.length then
      let lcp := get_lcp heavy_str jh node.toNat line jl i (line.length - i)
      let node := node + (lcp : Int)
      let i := i + lcp
      if i = line.length then some (some node)
      else if MapVector.search maps node (line.getD i 0) = NOT_FOUND then some none
      else pd_walk heavy_str maps jh jl line fuel (i + 1)
        (MapVector.search maps node (line.getD i 0))
    else some (some node)

/-- `PathDecomposedTrie::search`; the loop gets `line.size() + 1` rounds, and
`none` stands for a loop that does not end. A bit outside `is_leaf` (undefined
in the source) reads as unset. -/
def PathDecomposedTrie.search (pd : PathDecomposedTrie) (jh jl : Nat → Byte) (line : List Byte) :
    Option Bool :=
  match pd_walk pd.heavy_str pd.maps jh jl line (line.length + 1) 0 0 with
  | none => none
  | some none => some false
  | some (some node) => some (pd.is_leaf.getD node.toNat false)

/-- What the search over a heavy-path layout relies on, node `v` of `data`
lying at position `pos v`: labels are in order; a label other than `NULL_CHAR`
found in `heavy_str` at the position of a node is the label of an edge of that
node into the next position; every other edge is found in `maps`, which holds
no label that `data` does not. -/
structure PDSpec (data : Adjacency) (heavy_str : List Byte) (maps : MapVector)
    (pos : Nat → Nat) : Prop where
  sorted : ∀ v, v < data.length → (data.getD v []).Pairwise (fun a b => a.1 < b.1)
  range : ∀ v, v < data.length → ∀ e ∈ data.getD v [], 0 ≤ e.2 ∧ e.2 < (data.length : Int)
  pos_lt : ∀ v, v < data.length → pos v < heavy_str.length
  heavy : ∀ v, v < data.length → ∀ c, c ≠ NULL_CHAR → heavy_str[pos v]? = some c →
    ∃ e ∈ data.getD v [], e.1 = c ∧ pos e.2.toNat = pos v + 1
  light_found : ∀ v, v < data.length → ∀ e ∈ data.getD v [],
    heavy_str[pos v]? ≠ some e.1 → MapVector.search maps (pos v : Int) e.1 = (pos e.2.toNat : Int)
  light_absent : ∀ v, v < data.length → ∀ c, (∀ e ∈ data.getD v [], e.1 ≠ c) →
    MapVector.search maps (pos v : Int) c = NOT_FOUND

/-- What the first loop of `PathDecomposedTrie` leaves for node `v`: no heavy
edge and no light edge for a leaf; otherwise the index of one edge as heavy
edge, and all other edges of `v`, in some order, as light edges. -/
structure HeavySpec (data : Adjacency) (hs : HeavyState) : Prop where
  hlen : hs.heavy_edges.length = data.length
  llen : hs.light_edges.length = data.length
  leaf : ∀ v, v < data.length → data.getD v [] = [] →
    hs.heavy_edges.getD v NOT_FOUND = NOT_FOUND ∧ hs.light_edges.getD v [] = []
  inner : ∀ v, v < data.length → data.getD v [] ≠ [] →
    ∃ j : Nat, j < (data.getD v []).length ∧ hs.heavy_edges.getD v NOT_FOUND = (j : Int) ∧
      (hs.light_edges.getD v [] ++ [edge_at data v j]).Perm (data.getD v [])

/-- The heavy edges fit a layout in paths: a heavy edge leads to a larger node
below `n`, and no node is the target of two heavy edges. -/
structure HeavyOk (n : Nat) (heavy_of : Int → Option (Byte × Int)) : Prop where
  up : ∀ (u : Nat) (e : Byte × Int), u < n → heavy_of (u : Int) = some e →
    (u : Int) < e.2 ∧ e.2 < (n : Int)
  inj : ∀ (u v : Nat) (e1 e2 : Byte × Int), u < n → v < n → heavy_of (u : Int) = some e1 →
    heavy_of (v : Int) = some e2 → e1.2 = e2.2 → u = v

/-- What holds while the heavy paths are laid out; `pend` is empty between two
paths and holds the node about to be appended inside a path. Nodes are laid
out once; a node is flagged exactly when it is laid out; `heavy_str` holds at
the position of a node the label of its heavy edge, whose target is the next
node, or `NULL_CHAR`; and every node laid out is below `i` or the target of
the heavy edge of a node laid out. -/
structure PathInv (n : Nat) (heavy_of : Int → Option (Byte × Int)) (i : Nat) (ps : PathState)
    (pend : List Int) : Prop where
  flen : ps.flags.length = n
  slen : ps.heavy_str.length = ps.heavy_path.length
  range : ∀ x ∈ ps.heavy_path ++ pend, 0 ≤ x ∧ x < (n : Int)
  nodup : (ps.heavy_path ++ pend).Nodup
  flag_iff : ∀ v, v < n → (ps.flags.getD v false = true ↔ (v : Int) ∈ ps.heavy_path)
  layout : ∀ p x, ps.heavy_path[p]? = some x →
    (heavy_of x = none → ps.heavy_str[p]? = some NULL_CHAR) ∧
    (∀ e, heavy_of x = some e →
      ps.heavy_str[p]? = some e.1 ∧ (ps.heavy_path ++ pend)[p + 1]? = some e.2)
  origin : ∀ x ∈ ps.heavy_path ++ pend,
    x < (i : Int) ∨ ∃ u ∈ ps.heavy_path, ∃ e, heavy_of u = some e ∧ e.2 = x

/-- The state between two paths: every node below `i` is laid out. -/
structure PathsDone (n : Nat) (heavy_of : Int → Option (Byte × Int)) (i : Nat)
    (ps : PathState) : Prop where
  inv : PathInv n heavy_of i ps []
  all : ∀ v, v < i → (v : Int) ∈ ps.heavy_path
  first : ps.heavy_path[0]? = if i = 0 then none else some 0


/-- The position of node `v` in the layout: `heavy_path_inv[v]`. -/
def pd_pos (inv : List Int) (v : Nat) : Nat := (inv.getD v 0).toNat

/-- The light edges are the edges that are not heavy: all edges of a node
without a heavy edge, all but the heavy edge otherwise, in some order. -/
structure LightSpec (data : Adjacency) (heavy_of : Int → Option (Byte × Int))
    (light : List (List (Byte × Int))) : Prop where
  none_all : ∀ v, v < data.length → heavy_of (v : Int) = none → light.getD v [] = data.getD v []
  some_rest : ∀ v, v < data.length → ∀ e, heavy_of (v : Int) = some e →
    (light.getD v [] ++ [e]).Perm (data.getD v [])

/-! ## Heavy-path decomposition of the automaton (`trie.hpp`) -/

/-- The class `PathDecomposedADFA`. -/
structure PathDecomposedADFA where
  root : Int
  sink : Int
  heavy_str : List Byte
  maps : MapVector
deriving DecidableEq, Repr

/-- The vector `data_with_heavy_flag` as first filled: every edge of `data`
with the flag set. -/
def adfa_flag_init (data : Adjacency) : List (List (Byte × Int × Bool)) :=
  data.map (fun row => row.map (fun e => (e.1, e.2, true)))

/-- The entry `data_with_heavy_flag[i][j]`; outside the vectors (undefined in
the source) it reads as `(0, 0, false)`. -/
def flag_at (dwf : List (List (Byte × Int × Bool))) (i j : Nat) : Byte × Int × Bool :=
  (dwf.getD i []).getD j (0, 0, false)

/-- The assignment `std::get<2>(data_with_heavy_flag[i][j]) = b`. -/
def set_flag (dwf : List (List (Byte × Int × Bool))) (i j : Nat) (b : Bool) :
    List (List (Byte × Int × Bool)) :=
  List.modify (fun row => List.modify (fun t => (t.1, t.2.1, b)) j row) i dwf

/-- The body of the loop that fills `number_of_paths_sink`, for node `i`. The
counts are of type `int` in the source; they are kept exact here, and nothing
proved below depends on their values. -/
def sink_paths_step (data : Adjacency) (nps : List Int) (i : Nat) : List Int :=
  (data.getD i []).foldl (fun nps e => nps.set i (nps.getD i 0 + nps.getD e.2.toNat 0)) nps

/-- The loop `for(Index i = data.size() - 1; i >= 0; --i)` over
`number_of_paths_sink`; the first argument is `i + 1`. -/
def sink_paths_loop (data : Adjacency) : Nat → List Int → List Int
  | 0, nps => nps
  | i + 1, nps => sink_paths_loop data i (sink_paths_step data nps i)

def number_of_paths_sink (data : Adjacency) : List Int :=
  sink_paths_loop data data.length ((List.replicate data.length 0).set (data.length - 1) 1)

/-- The pair `max` after the loop over the edges of node `i`. -/
def first_pass_max (data : Adjacency) (nps : List Int) (i : Nat) : Int × Int :=
  (List.range (data.getD i []).length).foldl
    (fun mx (j : Nat) =>
      if nps.getD (edge_at data i (j : Int)).2.toNat 0 > mx.2 then
        ((j : Int), nps.getD (edge_at data i (j : Int)).2.toNat 0)
      else mx)
    (0, 0)

/-- The body of the first decomposition for node `i`: every edge but the one
at index `max.first` loses its flag. -/
def first_pass_step (data : Adjacency) (nps : List Int)
    (dwf : List (List (Byte × Int × Bool))) (i : Nat) : List (List (Byte × Int × Bool)) :=
  (List.range (data.getD i []).length).foldl
    (fun dwf (j : Nat) =>
      if (j : Int) ≠ (first_pass_max data nps i).1 then set_flag dwf i j false else dwf)
    dwf

/-- The first heavy path decomposition. -/
def first_pass (data : Adjacency) (nps : List Int) (dwf : List (List (Byte × Int × Bool))) :
    List (List (Byte × Int × Bool)) :=
  (List.range data.length).foldl (first_pass_step data nps) dwf

/-- The body of the loop that fills `number_of_paths_root`, for node `i`. -/
def root_paths_step (data : Adjacency) (npr : List Int) (i : Nat) : List Int :=
  (data.getD i []).foldl
    (fun npr e => npr.set e.2.toNat (npr.getD e.2.toNat 0 + npr.getD i 0)) npr

def number_of_paths_root (data : Adjacency) : List Int :=
  (List.range data.length).foldl (root_paths_step data) ((List.replicate data.length 0).set 0 1)

/-- State of the second decomposition: `data_with_heavy_flag` and
`heavy_edges`. -/
structure SecondState where
  flags : List (List (Byte × Int × Bool))
  heavy_edges : List (Int × Int)
deriving DecidableEq, Repr

/-- The body of the loop over the edges `j` of node `i` in the second
decomposition: of the flagged edges into one target, the one from the node
with more paths from the root keeps its flag. -/
def second_edge_step (npr : List Int) (i : Nat) (st : SecondState) (j : Nat) : SecondState :=
  let t := flag_at st.flags i j
  if !t.2.2 then st
  else
    let he := st.heavy_edges.getD t.2.1.toNat (NOT_FOUND, NOT_FOUND)
    if he.1 = NOT_FOUND then
      { st with heavy_edges := st.heavy_edges.set t.2.1.toNat ((i : Int), (j : Int)) }
    else if npr.getD i 0 > npr.getD he.1.toNat 0 then
      { flags := set_flag st.flags he.1.toNat he.2.toNat false,
        heavy_edges := st.heavy_edges.set t.2.1.toNat ((i : Int), (j : Int)) }
    else
      { st with flags := set_flag st.flags i j false }

def second_node_step (data : Adjacency) (npr : List Int) (st : SecondState) (i : Nat) :
    SecondState :=
  (List.range (data.getD i []).length).foldl (second_edge_step npr i) st

/-- The loop `for(Index i = data.size() - 1; i >= 0; --i)` of the second
decomposition; the first argument is `i + 1`. -/
def second_loop (data : Adjacency) (npr : List Int) : Nat → SecondState → SecondState
  | 0, st => st
  | i + 1, st => second_loop data npr i (second_node_step data npr st i)

/-- The vector `data_with_heavy_flag` after both decompositions. -/
def adfa_flags (data : Adjacency) : List (List (Byte × Int × Bool)) :=
  (second_loop data (number_of_paths_root data) data.length
    { flags := first_pass data (number_of_paths_sink data) (adfa_flag_init data),
      heavy_edges := List.replicate data.length (NOT_FOUND, NOT_FOUND) }).flags

/-- The heavy edge of node `cur` as the loop over
`data_with_heavy_flag[cur]` finds it: the first flagged edge. -/
def adfa_heavy_of (dwf : List (List (Byte × Int × Bool))) (cur : Int) : Option (Byte × Int) :=
  ((dwf.getD cur.toNat []).find? (fun t => t.2.2)).map (fun t => (t.1, t.2.1))

/-- The loop `while(true)` of `PathDecomposedADFA`, for at most `fuel`
nodes: the target of the heavy edge of `cur` is appended to `heavy_path` and
flagged, and the label of the edge is appended to `heavy_str`. `none` stands
for a failed `assert(!heavy_edges_flag[to])` and for fuel that runs out. -/
def adfa_follow (heavy_of : Int → Option (Byte × Int)) : Nat → Int → PathState →
    Option PathState
  | 0, _, _ => none
  | fuel + 1, cur, st =>
    match heavy_of cur with
    | none => some st
    | some e =>
      if st.flags.getD e.2.toNat false then none
      else adfa_follow heavy_of fuel e.2
        { heavy_path := st.heavy_path ++ [e.2],
          flags := st.flags.set e.2.toNat true,
          heavy_str := st.heavy_str ++ [e.1] }

/-- The body of the loop over the start nodes `i` in `PathDecomposedADFA`;
a walk along heavy edges gets `n = data.size()` rounds. -/
def adfa_path_step (n : Nat) (heavy_of : Int → Option (Byte × Int)) (st : PathState) (i : Nat) :
    Option PathState :=
  if st.flags.getD i false then some st
  else
    match adfa_follow heavy_of n (i : Int)
        { heavy_path := st.heavy_path ++ [(i : Int)],
          flags := st.flags.set i true,
          heavy_str := st.heavy_str } with
    | none => none
    | some st2 => some { st2 with heavy_str := st2.heavy_str ++ [NULL_CHAR] }

def adfa_path_loop (n : Nat) (heavy_of : Int → Option (Byte × Int)) : List Nat → PathState →
    Option PathState
  | [], st => some st
  | i :: rest, st =>
    match adfa_path_step n heavy_of st i with
    | none => none
    | some st => adfa_path_loop n heavy_of rest st

/-- The heavy paths of `PathDecomposedADFA`. -/
def adfa_paths (n : Nat) (heavy_of : Int → Option (Byte × Int)) : Option PathState :=
  adfa_path_loop n heavy_of (List.range n)
    { heavy_path := [], flags := List.replicate n false, heavy_str := [] }

/-- The vector `light_edges` of `PathDecomposedADFA`: the edges without flag,
both ends renumbered. -/
def adfa_light_edges (n : Nat) (dwf : List (List (Byte × Int × Bool))) (inv : List Int) :
    Adjacency :=
  (List.range n).foldl
    (fun acc i => (dwf.getD i []).foldl
      (fun acc t =>
        if !t.2.2 then
          List.modify (fun l => l ++ [(t.1, inv.getD t.2.1.toNat 0)]) (inv.getD i 0).toNat acc
        else acc)
      acc)
    (List.replicate n [])

/-- The constructor `PathDecomposedADFA(const BaseADFA& base)`; `none` stands
for a failed assertion and for a walk along heavy edges that does not end. -/
def PathDecomposedADFA.construct (base : BaseADFA) : Option PathDecomposedADFA :=
  let data := base.to_vector
  let dwf := adfa_flags data
  match adfa_paths data.length (adfa_heavy_of dwf) with
  | none => none
  | some ps =>
    if ps.heavy_path.length ≠ data.length then none
    else
      let inv := heavy_path_inv data.length ps.heavy_path
      some { root := inv.getD 0 0,
             sink := inv.getD (data.length - 1) 0,
             heavy_str := ps.heavy_str,
             maps := construct_maps (adfa_light_edges data.length dwf inv) }

/-- `PathDecomposedADFA::search`; the loop gets `line.size() + 1` rounds, and
`none` stands for a loop that does not end. -/
def PathDecomposedADFA.search (pd : PathDecomposedADFA) (jh jl : Nat → Byte) (line : List Byte) :
    Option Bool :=
  match pd_walk pd.heavy_str pd.maps jh jl line (line.length + 1) 0 pd.root with
  | none => none
  | some none => some false
  | some (some node) => some (decide (node = pd.sink))

/-- The edge of `data` behind an entry of `data_with_heavy_flag`. -/
def flag_edge (t : Byte × Int × Bool) : Byte × Int := (t.1, t.2.1)

/-- The vector `data_with_heavy_flag` holds the edges of `data`, in order. -/
def FlagShape (data : Adjacency) (dwf : List (List (Byte × Int × Bool))) : Prop :=
  dwf.map (fun row => row.map flag_edge) = data

/-- Whether `data_with_heavy_flag[i][j]` is flagged as heavy. -/
def flagged (dwf : List (List (Byte × Int × Bool))) (i j : Nat) : Bool := (flag_at dwf i j).2.2

/-- The target of `data_with_heavy_flag[i][j]`. -/
def flag_target (dwf : List (List (Byte × Int × Bool))) (i j : Nat) : Int := (flag_at dwf i j).2.1

/-- Every node has at most one flagged edge, and no two flagged edges lead to
the same node. -/
structure FlagsOk (dwf : List (List (Byte × Int × Bool))) : Prop where
  row_one : ∀ i j1 j2, flagged dwf i j1 = true → flagged dwf i j2 = true → j1 = j2
  target_one : ∀ i1 j1 i2 j2, flagged dwf i1 j1 = true → flagged dwf i2 j2 = true →
    flag_target dwf i1 j1 = flag_target dwf i2 j2 → i1 = i2

/-- What holds in the second decomposition once the edges in `proc` are
dealt with: flagged edges lead to nodes below `n`, and `heavy_edges[w]` is
unset while no flagged edge dealt with leads to `w`, and names the one such
edge otherwise. -/
structure SecondInv (n : Nat) (proc : Nat → Nat → Prop) (st : SecondState) : Prop where
  he_len : st.heavy_edges.length = n
  tg_range : ∀ i j, flagged st.flags i j = true →
    0 ≤ flag_target st.flags i j ∧ flag_target st.flags i j < (n : Int)
  row_one : ∀ i j1 j2, flagged st.flags i j1 = true → flagged st.flags i j2 = true → j1 = j2
  he_ok : ∀ w, w < n →
    ((st.heavy_edges.getD w (NOT_FOUND, NOT_FOUND)).1 = NOT_FOUND ∧
      ∀ i j, proc i j → flagged st.flags i j = true → flag_target st.flags i j ≠ (w : Int)) ∨
    (∃ u k : Nat, st.heavy_edges.getD w (NOT_FOUND, NOT_FOUND) = ((u : Int), (k : Int)) ∧
      ∀ i j, proc i j → flagged st.flags i j = true → flag_target st.flags i j = (w : Int) →
        i = u ∧ j = k)

/-- What the automaton the decomposition starts from is: at least one state,
labels in order, and every edge leads to a larger state. -/
structure DagOk (data : Adjacency) : Prop where
  size_pos : 1 ≤ data.length
  sorted : ∀ v, v < data.length → (data.getD v []).Pairwise (fun a b => a.1 < b.1)
  up : ∀ v, v < data.length → ∀ e ∈ data.getD v [], (v : Int) < e.2 ∧ e.2 < (data.length : Int)

/-- The light edges of every node: the entries of `data_with_heavy_flag`
without flag, as edges. -/
def adfa_light (dwf : List (List (Byte × Int × Bool))) : List (List (Byte × Int)) :=
  dwf.map (fun row => (row.filter (fun t => !t.2.2)).map flag_edge)

/-! ## Statements about the cells of the double array -/

/-- The sentinel of the double array, node `u` placed at `base[u]`: a cell of
`check` is not `NULL_CHAR` exactly when it is the cell `base[u] + c` of an edge
of some node `u` with label `c`; every such cell lies in the arrays and holds
`c`; and a cell is the cell of one node and one edge only. -/
structure SentinelOk (data : Adjacency) (maps : DoubleArrayMaps) (base : List Int) : Prop where
  len_eq : maps.next.length = maps.check.length
  used_iff : ∀ i, maps.check.getD i NULL_CHAR ≠ NULL_CHAR ↔
    ∃ u, u < data.length ∧ ∃ e ∈ data.getD u [], base.getD u 0 + (e.1.val : Int) = (i : Int)
  holds : ∀ u, u < data.length → ∀ e ∈ data.getD u [], ∀ i : Nat,
    base.getD u 0 + (e.1.val : Int) = (i : Int) →
    i < maps.check.length ∧ maps.check.getD i NULL_CHAR = e.1
  unique : ∀ u v, u < data.length → v < data.length → ∀ e1 ∈ data.getD u [],
    ∀ e2 ∈ data.getD v [],
    base.getD u 0 + (e1.1.val : Int) = base.getD v 0 + (e2.1.val : Int) → u = v ∧ e1 = e2

/-! ## Reading the strings back from the tail-compacted trie -/

/-- The bytes of `pool` up to and including the first `EOW`: what a
tail-tagged edge stands for when the strings are read back, in the words of
the specification. -/
def spec_tail_read : List Byte → List Byte
  | [] => []
  | c :: rest => if c = EOW then [c] else c :: spec_tail_read rest

/-- The strings read back from `tt` by depth-first search from `node`, in the
words of the specification: an edge to a kept node puts its label before the
strings read from that node, and a tail-tagged edge with offset `o` stands for
the pool bytes from `o`, whose first byte is the label of the edge, up to and
including the first `EOW`. The search descends through at most `fuel` nodes. -/
def spec_tail_enum (tt : TailTrie) : Nat → Int → List (List Byte)
  | 0, _ => []
  | fuel + 1, node =>
    ((MapVector.at tt.maps node).map (fun e =>
      if has_tail_flag e.2 then
        [spec_tail_read (tt.tail_str.drop (clear_tail_flag e.2).toNat)]
      else (spec_tail_enum tt fuel e.2).map (fun s => e.1 :: s))).flatten

/-- The number of kept nodes before node `v`: the new id of `v` when it is
kept. -/
def kept_before (paths : List Int) (v : Nat) : Nat :=
  ((List.range v).filter (fun u => decide (paths.getD u 0 ≠ 1))).length

/-! ## The double-array trie and automaton (`trie.hpp`) -/

/-- The class `DoubleArrayTrie`. -/
structure DoubleArrayTrie where
  is_leaf : List Bool
  maps : DoubleArrayMaps
deriving DecidableEq, Repr

/-- The constructor `DoubleArrayTrie(const BaseTrie& base)`; `none` stands for
a search for a base that does not end and for a failed `assert(cor[0] == 0)`.
A bit outside `is_leaf` (undefined in the source) is dropped. -/
def DoubleArrayTrie.construct (base : BaseTrie) : Option DoubleArrayTrie :=
  let data := base.to_vector
  match construct_with_reindexing data with
  | none => none
  | some (da, cor) =>
    if cor.getD 0 0 ≠ 0 then none
    else
      some { is_leaf := (List.range data.length).foldl
               (fun l i => if (data.getD i []).isEmpty then l.set (cor.getD i 0).toNat true else l)
               (List.replicate da.next.length false),
             maps := da }

/-- The class `DoubleArrayADFA`. -/
structure DoubleArrayADFA where
  sink : Int
  maps : DoubleArrayMaps
deriving DecidableEq, Repr

/-- The constructor `DoubleArrayADFA(const BaseADFA& base)`; `none` stands for
a search for a base that does not end and for a failed `assert(cor[0] == 0)`;
`cor.back()` of an empty vector (undefined in the source) reads as 0. -/
def DoubleArrayADFA.construct (base : BaseADFA) : Option DoubleArrayADFA :=
  match construct_with_reindexing base.to_vector with
  | none => none
  | some (da, cor) =>
    if cor.getD 0 0 ≠ 0 then none
    else some { sink := cor.getLast?.getD 0, maps := da }

/-- Whether the cell `idx + key` that `DoubleArrayMaps::search` reads lies
inside `check` and `next`. -/
def DoubleArrayMaps.in_bounds (maps : DoubleArrayMaps) (idx : Int) (key : Byte) : Bool :=
  decide (0 ≤ idx + (key.val : Int) ∧ idx + (key.val : Int) < (maps.check.length : Int) ∧
    idx + (key.val : Int) < (maps.next.length : Int))

/-! ## The loads of `get_lcp` (`utils.hpp`) -/

/-- The loop `while(*ptr1 == *ptr2 && i < max_iter)` of `get_lcp` with its
loads written out: every evaluation of the condition loads the two words under
the pointers before `i` is compared with `max_iter`. The result is the value of
`i` the loop ends with, which is the number of rounds of the loop, and the list
of the word indices loaded, in order. The first argument is `max_iter - i`. -/
def lcp_loop_reads (w1 w2 : Nat → Nat) : Nat → Nat → Nat × List Nat
  | 0, i => (i, [i])
  | rem + 1, i =>
    if w1 i = w2 i then
      (fun r => (r.1, i :: r.2)) (lcp_loop_reads w1 w2 rem (i + 1))
    else (i, [i])

/-- The word indices `get_lcp` loads from each of its two operands: the loads
of the loop condition, and the load `*ptr1 ^ *ptr2` behind the loop. Word `i`
of an operand with offset `ofs` is made of the bytes `ofs + 8 * i + j`,
`j < 8`. -/
def get_lcp_words (str1 : List Byte) (junk1 : Nat → Byte) (ofs1 : Nat)
    (str2 : List Byte) (junk2 : Nat → Byte) (ofs2 : Nat) (max_len : Nat) : List Nat :=
  let max_iter := max_len / ALPHA
  let w1 := fun i => load64 str1 junk1 (ofs1 + ALPHA * i)
  let w2 := fun i => load64 str2 junk2 (ofs2 + ALPHA * i)
  let r := lcp_loop_reads w1 w2 max_iter 0
  r.2 ++ [r.1]

/-- The number of rounds of the loop of `get_lcp`. -/
def get_lcp_rounds (str1 : List Byte) (junk1 : Nat → Byte) (ofs1 : Nat)
    (str2 : List Byte) (junk2 : Nat → Byte) (ofs2 : Nat) (max_len : Nat) : Nat :=
  let max_iter := max_len / ALPHA
  let w1 := fun i => load64 str1 junk1 (ofs1 + ALPHA * i)
  let w2 := fun i => load64 str2 junk2 (ofs2 + ALPHA * i)
  (lcp_loop_reads w1 w2 max_iter 0).1

/-! ## The calls of `get_lcp` in the heavy-path searches (`trie.hpp`) -/

/-- The calls `get_lcp(heavy_str, node, line, i, line.size() - i)` that the
loop of `search` of the heavy-path classes makes from position `i` and node
`node` on, one per round: the offset `node` into `heavy_str`, the offset `i`
into `line`, and the length the call returns. The rounds are those of
`pd_walk`. -/
def pd_walk_calls (heavy_str : List Byte) (maps : MapVector) (jh jl : Nat → Byte)
    (line : List Byte) : Nat → Nat → Int → List (Nat × Nat × Nat)
  | 0, _, _ => []
  | fuel + 1, i, node =>
    if i < line.length then
      let lcp := get_lcp heavy_str jh node.toNat line jl i (line.length - i)
      (node.toNat, i, lcp) ::
        (if i + lcp = line.length then []
         else if MapVector.search maps (node + (lcp : Int)) (line.getD (i + lcp) 0) = NOT_FOUND
           then []
         else pd_walk_calls heavy_str maps jh jl line fuel (i + lcp + 1)
           (MapVector.search maps (node + (lcp : Int)) (line.getD (i + lcp) 0)))
    else []

/-- The calls of `get_lcp` in `PathDecomposedADFA::search`. -/
def PathDecomposedADFA.search_calls (pd : PathDecomposedADFA) (jh jl : Nat → Byte)
    (line : List Byte) : List (Nat × Nat × Nat) :=
  pd_walk_calls pd.heavy_str pd.maps jh jl line (line.length + 1) 0 pd.root

/-! ## The assertion of `STLMap::insert` during the construction of the trie -/

/-- The test of `assert(map.find(key) == map.end())` in `STLMap::insert`. -/
def STLMap.key_absent (m : STLMap) (key : Byte) : Bool := m.all (fun e => e.1 != key)

/-- Whether the assertion of `STLMap::insert` holds in one round of the loop of
`BaseTrie::insert`; a round that does not call `insert` passes. -/
def BaseTrie.insert_char_ok (st : BaseTrie × Int) (ch : Byte) : Bool :=
  if MapVector.search st.1.maps st.2 ch = NOT_FOUND then
    STLMap.key_absent (MapVector.at (MapVector.extend st.1.maps (st.1.node_count + 1)) st.2) ch
  else true

/-- Whether the assertion holds in every round of the loop of
`BaseTrie::insert` from the state `st` on. -/
def BaseTrie.insert_ok : BaseTrie × Int → List Byte → Bool
  | _, [] => true
  | st, ch :: rest =>
    BaseTrie.insert_char_ok st ch && BaseTrie.insert_ok (BaseTrie.insert_char st ch) rest

/-- Whether the assertion holds throughout the insertion of `data` into `t`. -/
def BaseTrie.construct_ok : BaseTrie → List (List Byte) → Bool
  | _, [] => true
  | t, line :: rest => BaseTrie.insert_ok (t, 0) line && BaseTrie.construct_ok (t.insert line) rest

/-- The number of nodes of out-degree 0. -/
def BaseTrie.leaf_count (t : BaseTrie) : Nat :=
  ((List.range t.node_count).filter
    (fun (v : Nat) => MapVector.outdegree t.maps (v : Int) == 0)).length

/-! ## Right languages of trie nodes -/

/-- The right language of node `v` of a trie: the byte strings that lead from
`v` to a leaf, which are the strings `BaseTrie::search` accepts when started
in `v`. -/
def right_language (maps : MapVector) (v : Nat) : Set (List Byte) :=
  {s | BaseTrie.search_from maps (v : Int) s = true}

/-! ## First-fit assignment of bases (`utils.hpp`) -/

/-- The test the search for a base applies to the cell of label `key` under
the candidate `cur`: the cell lies behind the arrays (`cur + key >=
maps.next.size()`, where the source extends the arrays), or its check byte is
`NULL_CHAR`. -/
def cell_free (maps : DoubleArrayMaps) (cur : Nat) (key : Byte) : Prop :=
  cur + key.val ≥ maps.next.length ∨ maps.check.getD (cur + key.val) NULL_CHAR = NULL_CHAR

instance (maps : DoubleArrayMaps) (cur : Nat) (key : Byte) : Decidable (cell_free maps cur key) := by
  unfold cell_free; infer_instance

/-- First fit: `b` is the smallest candidate at or above `cur` under which the
cell of every label of `edges` is free in `maps`. -/
def FirstFit (maps : DoubleArrayMaps) (cur : Nat) (edges : List (Byte × Int)) (b : Nat) : Prop :=
  cur ≤ b ∧ (∀ e ∈ edges, cell_free maps b e.1) ∧
  ∀ b2, cur ≤ b2 → b2 < b → ∃ e ∈ edges, ¬ cell_free maps b2 e.1

/-- The state `construct_without_reindexing` starts its outer loop in. -/
def without_init (data : Adjacency) : WithoutState :=
  { maps := DoubleArrayMaps.mk0 data.length,
    curs := List.replicate data.length 0, cur := 0, i := 0 }

/-- The state `construct_with_reindexing` starts its outer loop in. -/
def with_init (data : Adjacency) : WithState :=
  { maps := DoubleArrayMaps.mk0 data.length,
    inv := List.replicate data.length [],
    curs := List.replicate data.length 0, cur := 0, i := 0 }

/-- What first-fit assignment means for the bases `base` a construction
returns, where `before i` is the state of the outer loop when node `i` is
about to be placed, with its arrays `maps` and its counter `cur`: the first
base is 0, bases ascend strictly, the search for the base of node `i` starts
at 0 for `i = 0` and at `base(i-1) + 1` otherwise, and `base(i)` is the first
fit from there in the arrays of that moment. -/
structure FirstFitBases (data : Adjacency) (base : List Int)
    (before : Nat → Option (DoubleArrayMaps × Nat)) : Prop where
  len : base.length = data.length
  first : 0 < data.length → base.getD 0 0 = 0
  mono : ∀ i j, i < j → j < data.length → base.getD i 0 < base.getD j 0
  fit : ∀ i, i < data.length → ∃ (maps : DoubleArrayMaps) (cur b : Nat), before i = some (maps, cur) ∧
    base.getD i 0 = (b : Int) ∧ (i = 0 → cur = 0) ∧
    (∀ k, i = k + 1 → (cur : Int) = base.getD k 0 + 1) ∧
    FirstFit maps cur (data.getD i []) b

/-! ## The heavy-path automaton over sorted arrays (`trie.hpp`) -/

/-- The class `PathDecomposedBinarySearchADFA`. -/
structure PathDecomposedBinarySearchADFA where
  root : Int
  sink : Int
  heavy_str : List Byte
  maps : BinarySearchMaps
deriving DecidableEq, Repr

/-- The constructor
`PathDecomposedBinarySearchADFA(const PathDecomposedADFA& padfa)`. -/
def PathDecomposedBinarySearchADFA.construct (padfa : PathDecomposedADFA) :
    PathDecomposedBinarySearchADFA :=
  { root := padfa.root,
    sink := padfa.sink,
    heavy_str := padfa.heavy_str,
    maps := static_construct (MapVector.to_vector padfa.maps) }

/-- The loop of `PathDecomposedBinarySearchADFA::search` from position `i` and
node `node` on, run for at most `fuel` rounds: `none` when the fuel runs out or
the lookup in the sorted arrays does not end, `some none` for `return false`,
and the node the loop ends in otherwise. Other than the loop of
`PathDecomposedADFA::search` it also ends when `node == sink`. A negative
`node` (undefined in the source) is looked up as node 0. -/
def pdbs_walk (heavy_str : List Byte) (maps : BinarySearchMaps) (sink : Int)
    (jh jl : Nat → Byte) (line : List Byte) : Nat → Nat → Int → Option (Option Int)
  | 0, _, _ => none
  | fuel + 1, i, node =>
    if i < line.length then
      let lcp := get_lcp heavy_str jh node.toNat line jl i (line.length - i)
      let node := node + (lcp : Int)
      let i := i + lcp
      if i = line.length ∨ node = sink then some (some node)
      else
        match maps.search node.toNat (line.getD i 0) with
        | none => none
        | some nxt =>
          if nxt = NOT_FOUND then some none
          else pdbs_walk heavy_str maps sink jh jl line fuel (i + 1) nxt
    else some (some node)

/-- `PathDecomposedBinarySearchADFA::search`; the loop gets `line.size() + 1`
rounds, and `none` stands for a loop that does not end. -/
def PathDecomposedBinarySearchADFA.search (pd : PathDecomposedBinarySearchADFA)
    (jh jl : Nat → Byte) (line : List Byte) : Option Bool :=
  match pdbs_walk pd.heavy_str pd.maps pd.sink jh jl line (line.length + 1) 0 pd.root with
  | none => none
  | some none => some false
  | some (some node) => some (decide (node = pd.sink))

/-! ## The choice of the heavy child in `PathDecomposedTrie` -/

/-- The count `number_of_paths_leaf` of the target of edge `k` of node `v`. -/
def child_count (data : Adjacency) (paths : List Int) (v k : Nat) : Int :=
  paths.getD (edge_at data v (k : Int)).2.toNat 0

/-- What the first loop of `PathDecomposedTrie` leaves in
`number_of_paths_leaf` and `heavy_edges`: the count of a leaf is 1 and the
count of any other node is the sum of the counts of its children; the heavy
edge of a node with edges is the edge at an index `j` whose target has the
largest count among the children, and the targets of the edges before `j` have
smaller counts. -/
structure HeavyMax (data : Adjacency) (hs : HeavyState) : Prop where
  plen : hs.paths.length = data.length
  leaf : ∀ v, v < data.length → data.getD v [] = [] → hs.paths.getD v 0 = 1
  inner : ∀ v, v < data.length → data.getD v [] ≠ [] →
    hs.paths.getD v 0 = child_paths hs.paths (data.getD v [])
  heavy_max : ∀ v, v < data.length → data.getD v [] ≠ [] →
    ∃ j : Nat, j < (data.getD v []).length ∧ hs.heavy_edges.getD v NOT_FOUND = (j : Int) ∧
      (∀ k, k < (data.getD v []).length →
        child_count data hs.paths v k ≤ child_count data hs.paths v j) ∧
      (∀ k, k < j → child_count data hs.paths v k < child_count data hs.paths v j)

/-! ## The second decomposition keeps the edge from the busiest predecessor -/

/-- What holds in the second decomposition of `PathDecomposedADFA` once the
edges in `proc` are dealt with, `first` being the flags the first
decomposition left: targets are as they were, no flag is new, the flags of the
edges still to come are untouched, and for every node `w` either no edge dealt
with that the first decomposition flagged leads to `w` and `heavy_edges[w]` is
unset, or `heavy_edges[w]` names one such edge, which is still flagged, comes
from a node with at least as many paths from the root as the source of any
other such edge, and is the only such edge still flagged. -/
structure SecondMax (n : Nat) (npr : List Int) (first : List (List (Byte × Int × Bool)))
    (proc : Nat → Nat → Prop) (st : SecondState) : Prop where
  he_len : st.heavy_edges.length = n
  target_eq : ∀ a b, flag_target st.flags a b = flag_target first a b
  sub : ∀ a b, flagged st.flags a b = true → flagged first a b = true
  untouched : ∀ a b, ¬ proc a b → flagged first a b = true → flagged st.flags a b = true
  tg_range : ∀ a b, flagged first a b = true →
    0 ≤ flag_target first a b ∧ flag_target first a b < (n : Int)
  he_ok : ∀ w, w < n →
    ((st.heavy_edges.getD w (NOT_FOUND, NOT_FOUND)).1 = NOT_FOUND ∧
      ∀ a b, proc a b → flagged first a b = true → flag_target first a b ≠ (w : Int)) ∨
    (∃ u k : Nat, st.heavy_edges.getD w (NOT_FOUND, NOT_FOUND) = ((u : Int), (k : Int)) ∧
      proc u k ∧ flagged st.flags u k = true ∧ flag_target first u k = (w : Int) ∧
      ∀ a b, proc a b → flagged first a b = true → flag_target first a b = (w : Int) →
        npr.getD a 0 ≤ npr.getD u 0 ∧ (flagged st.flags a b = true → a = u ∧ b = k))

/-- The flags the first decomposition leaves. -/
def adfa_first_flags (data : Adjacency) : List (List (Byte × Int × Bool)) :=
  first_pass data (number_of_paths_sink data) (adfa_flag_init data)

/-! ## Search in the double-array trie (`trie.hpp`) -/

/-- The loop of `DoubleArrayTrie::search` from `node` on: the state the loop
ends in, or `none` for `return false`. -/
def DoubleArrayTrie.walk (dt : DoubleArrayTrie) : Int → List Byte → Option Int
  | node, [] => some node
  | node, ch :: rest =>
    if dt.maps.search node ch = NOT_FOUND then none
    else DoubleArrayTrie.walk dt (dt.maps.search node ch) rest

/-- `DoubleArrayTrie::search`; a bit outside `is_leaf` (undefined in the
source) reads as unset. -/
def DoubleArrayTrie.search (dt : DoubleArrayTrie) (line : List Byte) : Bool :=
  match DoubleArrayTrie.walk dt 0 line with
  | none => false
  | some node => dt.is_leaf.getD node.toNat false

/-- The indices `cor[i]` at which the constructor of `DoubleArrayTrie` writes
`is_leaf`: the bases of the nodes without edges. -/
def leaf_marks (data : Adjacency) (cor : List Int) : List Int :=
  ((List.range data.length).filter (fun (i : Nat) => (data.getD i []).isEmpty)).map
    (fun i => cor.getD i 0)

/-! ## What `number_of_paths_root` counts -/

/-- The number of edges of node `u` that lead to node `v`. -/
def edges_into (data : Adjacency) (u v : Nat) : Nat :=
  ((data.getD u []).filter (fun e => decide (e.2 = (v : Int)))).length

/-- The sum of the counts `npr[u]` over the edges `u -> v` into node `v`, an
edge counted once per label. -/
def paths_into (data : Adjacency) (npr : List Int) (v : Nat) : Int :=
  ((List.range data.length).map
    (fun (u : Nat) => (edges_into data u v : Int) * npr.getD u 0)).sum

/-! ## Properties of the LCP primitive -/

theorem bytesLE_lt (l : List Byte) : bytesLE l < 256 ^ l.length := by
  induction l with
  | nil => simp [bytesLE]
  | cons b bs ih =>
    simp only [bytesLE, List.length_cons, pow_succ]
    have := b.isLt
    omega

theorem xor_split (a b r s : Nat) (ha : a < 256) (hb : b < 256) :
    (a + 256 * r) ^^^ (b + 256 * s) = (a ^^^ b) + 256 * (r ^^^ s) := by
  have hx : a ^^^ b < 2 ^ 8 := Nat.xor_lt_two_pow (by omega) (by omega)
  apply Nat.eq_of_testBit_eq
  intro j
  have e1 : a + 256 * r = 2 ^ 8 * r + a := by omega
  have e2 : b + 256 * s = 2 ^ 8 * s + b := by omega
  have e3 : (a ^^^ b) + 256 * (r ^^^ s) = 2 ^ 8 * (r ^^^ s) + (a ^^^ b) := by omega
  rw [Nat.testBit_xor, e1, e2, e3,
    Nat.testBit_mul_pow_two_add r (show a < 2 ^ 8 by omega),
    Nat.testBit_mul_pow_two_add s (show b < 2 ^ 8 by omega),
    Nat.testBit_mul_pow_two_add _ hx]
  split <;> simp [Nat.testBit_xor]

theorem ctzll_small (k : Nat) : ∀ (fuel x y : Nat), 0 < x → x < 2 ^ k → k ≤ fuel →
    ctzll fuel (x + 2 ^ k * y) < k := by
  induction k with
  | zero => intro fuel x y h0 h1 _; simp at h1; omega
  | succ k ih =>
    intro fuel x y h0 h1 hf
    obtain ⟨f, rfl⟩ : ∃ f, fuel = f + 1 := ⟨fuel - 1, by omega⟩
    simp only [ctzll]
    split
    · omega
    · rename_i hodd
      have hp : 2 ^ (k + 1) = 2 * 2 ^ k := by rw [pow_succ]; ring
      have hpy : 2 ^ (k + 1) * y = 2 * (2 ^ k * y) := by rw [hp]; ring
      have hx2 : x % 2 = 0 := by omega
      have hdiv : (x + 2 ^ (k + 1) * y) / 2 = x / 2 + 2 ^ k * y := by omega
      rw [hdiv]
      have := ih f (x / 2) y (by omega) (by omega) (by omega)
      omega

theorem ctzll_shift (k : Nat) : ∀ (fuel y : Nat), 0 < y →
    ctzll (fuel + k) (2 ^ k * y) = k + ctzll fuel y := by
  induction k with
  | zero => intro fuel y _; simp
  | succ k ih =>
    intro fuel y hy
    have hp : 2 ^ (k + 1) * y = 2 * (2 ^ k * y) := by rw [pow_succ]; ring
    have hf : fuel + (k + 1) = (fuel + k) + 1 := by omega
    rw [hf]
    simp only [ctzll]
    have h1 : ¬ (2 ^ (k + 1) * y) % 2 = 1 := by omega
    have h2 : (2 ^ (k + 1) * y) / 2 = 2 ^ k * y := by omega
    rw [if_neg h1, h2, ih fuel y hy]
    omega

theorem bytesLE_inj : ∀ (l1 l2 : List Byte), l1.length = l2.length →
    bytesLE l1 = bytesLE l2 → l1 = l2 := by
  intro l1
  induction l1 with
  | nil => intro l2 h _; cases l2 with
    | nil => rfl
    | cons _ _ => simp at h
  | cons a as ih =>
    intro l2 h he
    cases l2 with
    | nil => simp at h
    | cons b bs =>
      simp only [bytesLE] at he
      have ha := a.isLt
      have hb := b.isLt
      have hab : a = b := Fin.ext (by omega)
      have hrest : bytesLE as = bytesLE bs := by omega
      rw [hab, ih bs (by simpa using h) hrest]

theorem mism_le : ∀ (l1 l2 : List Byte), mism l1 l2 ≤ l1.length := by
  intro l1
  induction l1 with
  | nil => intro l2; simp [mism]
  | cons a as ih =>
    intro l2
    cases l2 with
    | nil => simp [mism]
    | cons b bs =>
      simp only [mism, List.length_cons]
      split
      · have := ih bs; omega
      · omega

theorem mism_self (l : List Byte) : mism l l = l.length := by
  induction l with
  | nil => rfl
  | cons a as ih => simp [mism, ih]; omega

/-- On two different runs of the same length the position of the lowest set
bit of the xor, divided by eight, is the length of their common prefix. -/
theorem ctzll_xor : ∀ (l1 l2 : List Byte) (fuel : Nat), l1.length = l2.length →
    l1 ≠ l2 → 8 * l1.length ≤ fuel →
    ctzll fuel (bytesLE l1 ^^^ bytesLE l2) / 8 = mism l1 l2 := by
  intro l1
  induction l1 with
  | nil => intro l2 fuel h hne; cases l2 with
    | nil => exact absurd rfl hne
    | cons _ _ => simp at h
  | cons a as ih =>
    intro l2 fuel h hne hf
    cases l2 with
    | nil => simp at h
    | cons b bs =>
      simp only [List.length_cons] at h hf
      simp only [bytesLE, mism]
      rw [xor_split _ _ _ _ a.isLt b.isLt]
      by_cases hab : a = b
      · subst hab
        have hne2 : as ≠ bs := fun e => hne (by rw [e])
        have hx : 0 < bytesLE as ^^^ bytesLE bs := by
          rcases Nat.eq_zero_or_pos (bytesLE as ^^^ bytesLE bs) with h0 | h0
          · exact absurd (bytesLE_inj as bs (by omega) (Nat.xor_eq_zero.mp h0)) hne2
          · exact h0
        obtain ⟨f, rfl⟩ : ∃ f, fuel = f + 8 := ⟨fuel - 8, by omega⟩
        have h256 : (256 : Nat) = 2 ^ 8 := by norm_num
        simp only [Nat.xor_self, Nat.zero_add, if_true]
        rw [h256, ctzll_shift 8 f _ hx]
        have := ih bs f (by omega) hne2 (by omega)
        omega
      · have hv : a.val ≠ b.val := fun e => hab (Fin.ext e)
        have hx : 0 < a.val ^^^ b.val := by
          rcases Nat.eq_zero_or_pos (a.val ^^^ b.val) with h0 | h0
          · exact absurd (Nat.xor_eq_zero.mp h0) hv
          · exact h0
        have hlt : a.val ^^^ b.val < 2 ^ 8 :=
          Nat.xor_lt_two_pow (by have := a.isLt; omega) (by have := b.isLt; omega)
        rw [if_neg hab]
        have := ctzll_small 8 fuel _ (bytesLE as ^^^ bytesLE bs) hx hlt (by omega)
        simp only [Nat.reducePow] at this
        omega

theorem get_lsb_pos_xor (l1 l2 : List Byte) (h1 : l1.length = 8) (h2 : l2.length = 8) :
    get_lsb_pos (bytesLE l1 ^^^ bytesLE l2) = mism l1 l2 := by
  unfold get_lsb_pos
  by_cases he : l1 = l2
  · subst he
    simp [mism_self, h1, ALPHA]
  · have hx : bytesLE l1 ^^^ bytesLE l2 ≠ 0 := by
      intro h0
      exact he (bytesLE_inj l1 l2 (by omega) (Nat.xor_eq_zero.mp h0))
    rw [if_neg hx]
    exact ctzll_xor l1 l2 64 (by omega) he (by omega)

theorem mism_get : ∀ (l1 l2 : List Byte) (j : Nat), j < mism l1 l2 → l1[j]? = l2[j]? := by
  intro l1
  induction l1 with
  | nil => intro l2 j h; simp [mism] at h
  | cons a as ih =>
    intro l2 j h
    cases l2 with
    | nil => simp [mism] at h
    | cons b bs =>
      simp only [mism] at h
      split at h
      · rename_i hab
        cases j with
        | zero => simp [hab]
        | succ j => simpa using ih bs j (by omega)
      · omega

theorem mism_stop : ∀ (l1 l2 : List Byte), l1.length = l2.length →
    mism l1 l2 < l1.length → l1[mism l1 l2]? ≠ l2[mism l1 l2]? := by
  intro l1
  induction l1 with
  | nil => intro l2 _ h; simp at h
  | cons a as ih =>
    intro l2 hl h
    cases l2 with
    | nil => simp at hl
    | cons b bs =>
      simp only [mism] at h ⊢
      split
      · rename_i hab
        rw [if_pos hab] at h
        have := ih bs (by simpa using hl) (by simp at h; omega)
        have e : 1 + mism as bs = mism as bs + 1 := by omega
        rw [e]
        simpa using this
      · rename_i hab
        simpa using hab

theorem window_length (str : List Byte) (junk : Nat → Byte) (a : Nat) :
    (window str junk a).length = 8 := by
  simp [window]

theorem window_get (str : List Byte) (junk : Nat → Byte) (a j : Nat) (hj : j < 8) :
    (window str junk a)[j]? = some (byteAt str junk (a + j)) := by
  simp [window, List.getElem?_map, List.getElem?_range hj]

theorem lcp_loop_spec (w1 w2 : Nat → Nat) : ∀ (rem i : Nat),
    i ≤ lcp_loop w1 w2 rem i ∧ lcp_loop w1 w2 rem i ≤ i + rem ∧
    (∀ j, i ≤ j → j < lcp_loop w1 w2 rem i → w1 j = w2 j) ∧
    (lcp_loop w1 w2 rem i < i + rem → w1 (lcp_loop w1 w2 rem i) ≠ w2 (lcp_loop w1 w2 rem i)) := by
  intro rem
  induction rem with
  | zero => intro i; simp [lcp_loop]; intro j h1 h2; omega
  | succ rem ih =>
    intro i
    simp only [lcp_loop]
    split
    · rename_i he
      obtain ⟨h1, h2, h3, h4⟩ := ih (i + 1)
      refine ⟨by omega, by omega, ?_, fun h => h4 (by omega)⟩
      intro j hj1 hj2
      rcases Nat.eq_or_lt_of_le hj1 with e | e
      · rw [← e]; exact he
      · exact h3 j (by omega) hj2
    · rename_i hne
      exact ⟨le_refl _, by omega, fun j h1 h2 => by omega, fun _ => hne⟩

/-- What `get_lcp` returns, whatever lies behind the two vectors: the position
of the first differing byte, capped at `max_len`. -/
theorem get_lcp_spec (str1 : List Byte) (junk1 : Nat → Byte) (ofs1 : Nat)
    (str2 : List Byte) (junk2 : Nat → Byte) (ofs2 : Nat) (max_len : Nat) :
    get_lcp str1 junk1 ofs1 str2 junk2 ofs2 max_len ≤ max_len ∧
    (∀ j, j < get_lcp str1 junk1 ofs1 str2 junk2 ofs2 max_len →
      byteAt str1 junk1 (ofs1 + j) = byteAt str2 junk2 (ofs2 + j)) ∧
    (get_lcp str1 junk1 ofs1 str2 junk2 ofs2 max_len < max_len →
      byteAt str1 junk1 (ofs1 + get_lcp str1 junk1 ofs1 str2 junk2 ofs2 max_len) ≠
      byteAt str2 junk2 (ofs2 + get_lcp str1 junk1 ofs1 str2 junk2 ofs2 max_len)) := by
  obtain ⟨-, hle, heq, hstop⟩ := lcp_loop_spec
    (fun i => load64 str1 junk1 (ofs1 + ALPHA * i))
    (fun i => load64 str2 junk2 (ofs2 + ALPHA * i)) (max_len / ALPHA) 0
  unfold get_lcp
  simp only [load64, ALPHA] at hle heq hstop ⊢
  generalize lcp_loop (fun i => bytesLE (window str1 junk1 (ofs1 + 8 * i)))
    (fun i => bytesLE (window str2 junk2 (ofs2 + 8 * i))) (max_len / 8) 0 = i
    at hle heq hstop ⊢
  rw [get_lsb_pos_xor _ _ (window_length ..) (window_length ..)]
  have hp8 := mism_le (window str1 junk1 (ofs1 + 8 * i)) (window str2 junk2 (ofs2 + 8 * i))
  rw [window_length] at hp8
  have hget := mism_get (window str1 junk1 (ofs1 + 8 * i)) (window str2 junk2 (ofs2 + 8 * i))
  have hst := mism_stop (window str1 junk1 (ofs1 + 8 * i)) (window str2 junk2 (ofs2 + 8 * i))
    (by rw [window_length, window_length])
  rw [window_length] at hst
  generalize mism (window str1 junk1 (ofs1 + 8 * i)) (window str2 junk2 (ofs2 + 8 * i)) = p
    at hp8 hget hst ⊢
  have hbytes : ∀ j, j < i * 8 + p → byteAt str1 junk1 (ofs1 + j) = byteAt str2 junk2 (ofs2 + j) := by
    intro j hj
    by_cases hlow : j < i * 8
    · have hw := heq (j / 8) (Nat.zero_le _) (by omega)
      have hwin := bytesLE_inj _ _ (by rw [window_length, window_length]) hw
      have h1 := window_get str1 junk1 (ofs1 + 8 * (j / 8)) (j % 8) (by omega)
      have h2 := window_get str2 junk2 (ofs2 + 8 * (j / 8)) (j % 8) (by omega)
      rw [hwin, h2] at h1
      have e1 : ofs1 + 8 * (j / 8) + j % 8 = ofs1 + j := by omega
      have e2 : ofs2 + 8 * (j / 8) + j % 8 = ofs2 + j := by omega
      rw [e1, e2] at h1
      exact (Option.some.inj h1).symm
    · have hq := hget (j - i * 8) (by omega)
      rw [window_get _ _ _ _ (by omega), window_get _ _ _ _ (by omega)] at hq
      have e1 : ofs1 + 8 * i + (j - i * 8) = ofs1 + j := by omega
      have e2 : ofs2 + 8 * i + (j - i * 8) = ofs2 + j := by omega
      rw [e1, e2] at hq
      exact Option.some.inj hq
  refine ⟨Nat.min_le_right _ _, fun j hj => hbytes j (by omega), ?_⟩
  intro hlt
  have hc : i * 8 + p < max_len := by omega
  have hk : min (i * 8 + p) max_len = i * 8 + p := by omega
  rw [hk]
  have hp : p < 8 := by
    rcases Nat.lt_or_ge p 8 with h | h
    · exact h
    · exfalso
      have hi : i < max_len / 8 := by omega
      have hdiff := hstop (by omega)
      apply hdiff
      have hp8e : p = 8 := by omega
      have : window str1 junk1 (ofs1 + 8 * i) = window str2 junk2 (ofs2 + 8 * i) := by
        apply List.ext_getElem?
        intro n
        by_cases hn : n < 8
        · exact hget n (by omega)
        · rw [List.getElem?_eq_none (by rw [window_length]; omega),
            List.getElem?_eq_none (by rw [window_length]; omega)]
      rw [this]
  have hq := hst hp
  rw [window_get _ _ _ _ hp, window_get _ _ _ _ hp] at hq
  have e1 : ofs1 + (i * 8 + p) = ofs1 + 8 * i + p := by omega
  have e2 : ofs2 + (i * 8 + p) = ofs2 + 8 * i + p := by omega
  rw [e1, e2]
  intro h
  exact hq (by rw [h])

theorem naive_lcp_spec (a b : List Byte) : ∀ (n oa ob : Nat),
    naive_lcp a oa b ob n ≤ n ∧
    (∀ j, j < naive_lcp a oa b ob n → a[oa + j]? = b[ob + j]?) ∧
    (naive_lcp a oa b ob n < n →
      a[oa + naive_lcp a oa b ob n]? ≠ b[ob + naive_lcp a oa b ob n]?) := by
  intro n
  induction n with
  | zero => intro oa ob; simp [naive_lcp]
  | succ n ih =>
    intro oa ob
    simp only [naive_lcp]
    split
    · rename_i he
      obtain ⟨h1, h2, h3⟩ := ih (oa + 1) (ob + 1)
      refine ⟨by omega, ?_, ?_⟩
      · intro j hj
        cases j with
        | zero => simpa using he
        | succ j =>
          have := h2 j (by omega)
          have e1 : oa + (j + 1) = oa + 1 + j := by omega
          have e2 : ob + (j + 1) = ob + 1 + j := by omega
          rw [e1, e2]; exact this
      · intro hlt
        have := h3 (by omega)
        have e1 : oa + (1 + naive_lcp a (oa + 1) b (ob + 1) n)
            = oa + 1 + naive_lcp a (oa + 1) b (ob + 1) n := by omega
        have e2 : ob + (1 + naive_lcp a (oa + 1) b (ob + 1) n)
            = ob + 1 + naive_lcp a (oa + 1) b (ob + 1) n := by omega
        rw [e1, e2]; exact this
    · rename_i hne
      exact ⟨by omega, fun j hj => by omega, fun _ => by simpa using hne⟩

theorem byteAt_inb (str : List Byte) (junk : Nat → Byte) (i : Nat) (h : i < str.length) :
    some (byteAt str junk i) = str[i]? := by
  simp [byteAt, h]

/-- C9 (LCP correctness). When both byte arrays hold at least `max_len + 8`
bytes from their offsets, `get_lcp`, reading 64-bit words little-endian, returns
the largest `k ≤ max_len` with `a[oa + j] = b[ob + j]` for all `j < k`, which is
the byte-by-byte longest common prefix capped at `max_len`. -/
theorem get_lcp_correct (a b : List Byte) (ja jb : Nat → Byte) (oa ob max_len : Nat)
    (ha : oa + max_len + 8 ≤ a.length) (hb : ob + max_len + 8 ≤ b.length) :
    get_lcp a ja oa b jb ob max_len ≤ max_len ∧
    (∀ j, j < get_lcp a ja oa b jb ob max_len → a[oa + j]? = b[ob + j]?) ∧
    (∀ k, k ≤ max_len → (∀ j, j < k → a[oa + j]? = b[ob + j]?) →
      k ≤ get_lcp a ja oa b jb ob max_len) ∧
    get_lcp a ja oa b jb ob max_len = naive_lcp a oa b ob max_len := by
  obtain ⟨h1, h2, h3⟩ := get_lcp_spec a ja oa b jb ob max_len
  have hagree : ∀ j, j < get_lcp a ja oa b jb ob max_len → a[oa + j]? = b[ob + j]? := by
    intro j hj
    rw [← byteAt_inb a ja _ (by omega), ← byteAt_inb b jb _ (by omega), h2 j hj]
  have hmax : ∀ k, k ≤ max_len → (∀ j, j < k → a[oa + j]? = b[ob + j]?) →
      k ≤ get_lcp a ja oa b jb ob max_len := by
    intro k hk hall
    by_contra hcon
    have hlt : get_lcp a ja oa b jb ob max_len < k := by omega
    have hd := h3 (by omega)
    have he := hall _ hlt
    rw [← byteAt_inb a ja _ (by omega), ← byteAt_inb b jb _ (by omega)] at he
    exact hd (Option.some.inj he)
  refine ⟨h1, hagree, hmax, ?_⟩
  obtain ⟨n1, n2, n3⟩ := naive_lcp_spec a b max_len oa ob
  apply Nat.le_antisymm
  · by_contra hcon
    have hlt : naive_lcp a oa b ob max_len < get_lcp a ja oa b jb ob max_len := by omega
    exact n3 (by omega) (hagree _ hlt)
  · exact hmax _ n1 n2

/-- C9 at a concrete input: two ten-byte arrays that agree on their first two
bytes, compared over at most two bytes. -/
theorem get_lcp_correct_witness :
    get_lcp [5, 6, 7, 8, 9, 1, 0, 0, 0, 0] (fun _ => 0) 0
        [5, 6, 9, 8, 9, 1, 0, 0, 0, 0] (fun _ => 0) 0 2 =
      naive_lcp [5, 6, 7, 8, 9, 1, 0, 0, 0, 0] 0 [5, 6, 9, 8, 9, 1, 0, 0, 0, 0] 0 2 :=
  (get_lcp_correct [5, 6, 7, 8, 9, 1, 0, 0, 0, 0] [5, 6, 9, 8, 9, 1, 0, 0, 0, 0]
    (fun _ => 0) (fun _ => 0) 0 0 2 (by decide) (by decide)).2.2.2

/-! ## The sorted-array backend -/

theorem set_false_replicate (W : List Bool) (k : Nat) :
    (W ++ List.replicate k false).set W.length false = W ++ List.replicate k false := by
  apply List.ext_getElem
  · simp
  · intro n h1 h2
    rw [List.getElem_set]
    split
    · rename_i he
      subst he
      rw [List.getElem_append_right (le_refl _)]
      simp
    · rfl

theorem set_true_replicate (W : List Bool) (k : Nat) :
    (W ++ List.replicate (k + 1) false).set W.length true
      = (W ++ [true]) ++ List.replicate k false := by
  rw [List.set_append_right _ _ (le_refl _)]
  simp [List.replicate_succ]

theorem static_inner : ∀ (l elms : List (Byte × Int)) (W : List Bool) (k : Nat),
    l.length ≤ k →
    l.foldl (fun (s : BuildState) e => (s.1.set s.2.2 false, s.2.1 ++ [e], s.2.2 + 1))
      (W ++ List.replicate k false, elms, W.length)
    = (W ++ List.replicate k false, elms ++ l, W.length + l.length) := by
  intro l
  induction l with
  | nil => intro elms W k _; simp
  | cons e l ih =>
    intro elms W k hk
    simp only [List.length_cons] at hk
    obtain ⟨k, rfl⟩ : ∃ j, k = j + 1 := ⟨k - 1, by omega⟩
    simp only [List.foldl_cons]
    rw [set_false_replicate W (k + 1)]
    have e1 : W ++ List.replicate (k + 1) false = (W ++ [false]) ++ List.replicate k false := by
      simp [List.replicate_succ]
    have e2 : W.length + 1 = (W ++ [false]).length := by simp
    rw [e1, e2, ih (elms ++ [e]) (W ++ [false]) k (by omega)]
    simp
    omega

theorem static_step_eq (W : List Bool) (elms edges : List (Byte × Int)) (k : Nat)
    (hk : edges.length + 1 ≤ k) :
    static_step (W ++ List.replicate k false, elms, W.length) edges
    = ((W ++ true :: List.replicate edges.length false) ++
        List.replicate (k - (edges.length + 1)) false,
       elms ++ edges.insertionSort pair_le,
       (W ++ true :: List.replicate edges.length false).length) := by
  unfold static_step
  obtain ⟨k, rfl⟩ : ∃ j, k = j + 1 := ⟨k - 1, by omega⟩
  simp only []
  rw [set_true_replicate]
  have e2 : W.length + 1 = (W ++ [true]).length := by simp
  rw [e2, static_inner _ elms (W ++ [true]) k (by rw [List.length_insertionSort]; omega)]
  rw [List.length_insertionSort]
  have hsplit : List.replicate k false
      = List.replicate edges.length false ++ List.replicate (k - edges.length) false := by
    rw [← List.replicate_add]; congr 1; omega
  refine Prod.ext ?_ (Prod.ext rfl ?_)
  · simp only [List.append_assoc, List.singleton_append, List.cons_append]
    rw [hsplit]
    have e3 : k + 1 - (edges.length + 1) = k - edges.length := by omega
    simp [e3]
  · simp
    omega

theorem static_fold_eq : ∀ (data : Adjacency) (W : List Bool) (elms : List (Byte × Int))
    (k : Nat), (data.map List.length).sum + data.length + 1 ≤ k →
    ∃ W2 : List Bool,
      data.foldl static_step (W ++ List.replicate k false, elms, W.length)
        = (W2 ++ List.replicate (k - ((data.map List.length).sum + data.length)) false,
           elms ++ layout_elms data, W2.length) ∧
      W2 ++ [true] = W ++ layout_bv data := by
  intro data
  induction data with
  | nil => intro W elms k _; exact ⟨W, by simp [layout_elms], by simp [layout_bv]⟩
  | cons edges rest ih =>
    intro W elms k hk
    simp only [List.map_cons, List.sum_cons, List.length_cons] at hk
    simp only [List.foldl_cons]
    rw [static_step_eq W elms edges k (by omega)]
    obtain ⟨W2, h1, h2⟩ := ih (W ++ true :: List.replicate edges.length false)
      (elms ++ edges.insertionSort pair_le) (k - (edges.length + 1)) (by omega)
    refine ⟨W2, ?_, ?_⟩
    · rw [h1]
      have e3 : k - (edges.length + 1) - ((rest.map List.length).sum + rest.length)
          = k - (edges.length + (rest.map List.length).sum + (rest.length + 1)) := by omega
      simp only [List.map_cons, List.sum_cons, List.length_cons, layout_elms, List.append_assoc, e3]
    · rw [h2]; simp [layout_bv]

/-- The arrays `static_construct` builds are the ones the layout describes. -/
theorem static_construct_eq (data : Adjacency) :
    static_construct data = { bv := layout_bv data, elms := layout_elms data } := by
  unfold static_construct
  obtain ⟨W2, h1, h2⟩ := static_fold_eq data [] []
    ((data.map List.length).sum + data.length + 1) (le_refl _)
  simp only [List.nil_append, List.length_nil] at h1 h2
  simp only []
  rw [h1]
  simp only []
  have e : (data.map List.length).sum + data.length + 1 - ((data.map List.length).sum + data.length)
      = 0 + 1 := by omega
  rw [e, set_true_replicate]
  simp [h2]

theorem select_replicate_false (rest : List Bool) (k : Nat) : ∀ m : Nat,
    select (List.replicate m false ++ rest) k = m + select rest k := by
  intro m
  induction m with
  | zero => simp
  | succ m ih =>
    have e : List.replicate (m + 1) false ++ rest = false :: (List.replicate m false ++ rest) := by
      simp [List.replicate_succ]
    rw [e]
    simp only [select]
    rw [ih]
    omega

theorem rank_replicate_false (rest : List Bool) (m j : Nat) :
    rank (List.replicate m false ++ rest) (m + j) = rank rest j := by
  unfold rank
  have h := @List.take_append _ (List.replicate m false) rest j
  rw [List.length_replicate] at h
  rw [h, List.count_append, List.count_replicate]
  simp

theorem edge_offset_zero (data : Adjacency) : edge_offset data 0 = 0 := by
  simp [edge_offset]

theorem edge_offset_cons (edges : List (Byte × Int)) (rest : Adjacency) (u : Nat) :
    edge_offset (edges :: rest) (u + 1) = edges.length + edge_offset rest u := by
  simp [edge_offset]

theorem select_layout : ∀ (data : Adjacency) (u : Nat), u ≤ data.length →
    select (layout_bv data) (u + 1) = u + edge_offset data u := by
  intro data
  induction data with
  | nil => intro u hu; simp at hu; subst hu; simp [layout_bv, select, edge_offset]
  | cons edges rest ih =>
    intro u hu
    cases u with
    | zero => simp [layout_bv, select, edge_offset]
    | succ u =>
      simp only [List.length_cons] at hu
      rw [edge_offset_cons]
      simp only [layout_bv, select]
      rw [if_neg (by omega), select_replicate_false]
      have e : u + 1 + 1 - 1 = u + 1 := by omega
      rw [e, ih u (by omega)]
      omega

theorem rank_layout : ∀ (data : Adjacency) (u : Nat), u ≤ data.length →
    rank (layout_bv data) (u + edge_offset data u) = u := by
  intro data
  induction data with
  | nil => intro u hu; simp at hu; subst hu; simp [rank, edge_offset]
  | cons edges rest ih =>
    intro u hu
    cases u with
    | zero => simp [rank, edge_offset]
    | succ u =>
      simp only [List.length_cons] at hu
      rw [edge_offset_cons]
      have e : u + 1 + (edges.length + edge_offset rest u)
          = (edges.length + (u + edge_offset rest u)) + 1 := by omega
      have hr := rank_replicate_false (layout_bv rest) edges.length (u + edge_offset rest u)
      rw [ih u (by omega)] at hr
      rw [e]
      unfold rank at hr ⊢
      simp only [layout_bv, List.take_succ_cons, List.count_cons_self]
      rw [hr]

/-- The two ends `l` and `r` that `search` computes for node `u`. -/
theorem bounds_layout (data : Adjacency) (u : Nat) (hu : u ≤ data.length) :
    select (layout_bv data) (u + 1) - rank (layout_bv data) (select (layout_bv data) (u + 1))
      = edge_offset data u := by
  rw [select_layout data u hu, rank_layout data u hu]
  omega

theorem edge_offset_succ : ∀ (data : Adjacency) (u : Nat), u < data.length →
    edge_offset data (u + 1) = edge_offset data u + (data.getD u []).length := by
  intro data
  induction data with
  | nil => intro u hu; simp at hu
  | cons edges rest ih =>
    intro u hu
    cases u with
    | zero => simp [edge_offset]
    | succ u =>
      simp only [List.length_cons] at hu
      rw [edge_offset_cons, edge_offset_cons, ih u (by omega)]
      simp
      omega

theorem layout_elms_length : ∀ (data : Adjacency),
    (layout_elms data).length = edge_offset data data.length := by
  intro data
  induction data with
  | nil => simp [layout_elms, edge_offset]
  | cons edges rest ih =>
    rw [List.length_cons, edge_offset_cons]
    simp [layout_elms, ih, List.length_insertionSort]

theorem edge_offset_le : ∀ (data : Adjacency) (u : Nat), u ≤ data.length →
    edge_offset data u ≤ edge_offset data data.length := by
  intro data
  induction data with
  | nil => intro u hu; simp at hu; subst hu; exact le_refl _
  | cons edges rest ih =>
    intro u hu
    cases u with
    | zero => simp [edge_offset]
    | succ u =>
      simp only [List.length_cons] at hu
      rw [List.length_cons, edge_offset_cons, edge_offset_cons]
      have := ih u (by omega)
      omega

/-- The segment of node `u` in `elms` holds the sorted edges of node `u`. -/
theorem layout_elms_get : ∀ (data : Adjacency) (u : Nat), u < data.length →
    ∀ j, j < (data.getD u []).length →
    (layout_elms data).getD (edge_offset data u + j) (0, NOT_FOUND)
      = ((data.getD u []).insertionSort pair_le).getD j (0, NOT_FOUND) := by
  intro data
  induction data with
  | nil => intro u hu; simp at hu
  | cons edges rest ih =>
    intro u hu j hj
    cases u with
    | zero =>
      simp only [List.getD_cons_zero] at hj ⊢
      simp only [layout_elms, edge_offset_zero, Nat.zero_add]
      rw [List.getD_append _ _ _ _ (by rw [List.length_insertionSort]; exact hj)]
    | succ u =>
      simp only [List.length_cons] at hu
      simp only [List.getD_cons_succ] at hj ⊢
      rw [edge_offset_cons]
      simp only [layout_elms]
      rw [List.getD_append_right _ _ _ _ (by rw [List.length_insertionSort]; omega)]
      rw [List.length_insertionSort]
      have e : edges.length + edge_offset rest u + j - edges.length = edge_offset rest u + j := by
        omega
      rw [e]
      exact ih u (by omega) j hj

instance pair_le_total : IsTotal (Byte × Int) pair_le where
  total := by
    intro a b
    unfold pair_le
    rcases lt_trichotomy a.1 b.1 with h | h | h
    · exact Or.inl (Or.inl h)
    · rcases le_total a.2 b.2 with h2 | h2
      · exact Or.inl (Or.inr ⟨h, h2⟩)
      · exact Or.inr (Or.inr ⟨h.symm, h2⟩)
    · exact Or.inr (Or.inl h)

instance pair_le_trans : IsTrans (Byte × Int) pair_le where
  trans := by
    intro a b c hab hbc
    unfold pair_le at *
    rcases hab with h1 | ⟨h1, h1b⟩ <;> rcases hbc with h2 | ⟨h2, h2b⟩
    · exact Or.inl (lt_trans h1 h2)
    · exact Or.inl (h2 ▸ h1)
    · exact Or.inl (h1 ▸ h2)
    · exact Or.inr ⟨h1.trans h2, le_trans h1b h2b⟩

/-- Sorting edges with distinct labels leaves the labels strictly ascending. -/
theorem sorted_keys_strict (edges : List (Byte × Int)) (hn : (edges.map Prod.fst).Nodup) :
    List.Pairwise (fun a b => a.1 < b.1) (edges.insertionSort pair_le) := by
  have hs : List.Pairwise pair_le (edges.insertionSort pair_le) :=
    List.sorted_insertionSort pair_le edges
  have hp := List.perm_insertionSort pair_le edges
  have hn2 : ((edges.insertionSort pair_le).map Prod.fst).Nodup :=
    ((hp.map Prod.fst).nodup_iff).mpr hn
  have hn3 : List.Pairwise (fun a b : Byte × Int => a.1 ≠ b.1) (edges.insertionSort pair_le) :=
    List.pairwise_map.mp hn2
  refine List.Pairwise.imp₂ ?_ hs hn3
  intro a b hle hne
  rcases hle with h | ⟨h, _⟩
  · exact h
  · exact absurd h hne

theorem strictOn_layout (data : Adjacency) (u : Nat) (hu : u < data.length)
    (hn : ((data.getD u []).map Prod.fst).Nodup) :
    StrictOn (layout_elms data) (edge_offset data u) (edge_offset data (u + 1)) := by
  intro i j hi hij hj
  rw [edge_offset_succ data u hu] at hj
  have h1 := layout_elms_get data u hu (i - edge_offset data u) (by omega)
  have h2 := layout_elms_get data u hu (j - edge_offset data u) (by omega)
  have e1 : edge_offset data u + (i - edge_offset data u) = i := by omega
  have e2 : edge_offset data u + (j - edge_offset data u) = j := by omega
  rw [e1] at h1
  rw [e2] at h2
  rw [h1, h2]
  have hl : ((data.getD u []).insertionSort pair_le).length = (data.getD u []).length :=
    List.length_insertionSort _ _
  have g1 := List.getD_eq_getElem ((data.getD u []).insertionSort pair_le) (0, NOT_FOUND)
    (show i - edge_offset data u < _ by omega)
  have g2 := List.getD_eq_getElem ((data.getD u []).insertionSort pair_le) (0, NOT_FOUND)
    (show j - edge_offset data u < _ by omega)
  rw [g1, g2]
  exact List.pairwise_iff_getElem.mp (sorted_keys_strict _ hn) _ _ _ _ (by omega)

theorem strictOn_sub {elms : List (Byte × Int)} {l r l2 r2 : Nat} (h : StrictOn elms l r)
    (hl : l ≤ l2) (hr : r2 ≤ r) : StrictOn elms l2 r2 :=
  fun i j hi hij hj => h i j (by omega) hij (by omega)

theorem linear_scan_spec (elms : List (Byte × Int)) (key : Byte) : ∀ (n i : Nat),
    StrictOn elms i (i + n) →
    (∀ p, i ≤ p → p < i + n → (elms.getD p (0, NOT_FOUND)).1 = key →
      linear_scan elms key n i = (elms.getD p (0, NOT_FOUND)).2) ∧
    ((∀ p, i ≤ p → p < i + n → (elms.getD p (0, NOT_FOUND)).1 ≠ key) →
      linear_scan elms key n i = NOT_FOUND) := by
  intro n
  induction n with
  | zero =>
    intro i _
    exact ⟨fun p h1 h2 => by omega, fun _ => rfl⟩
  | succ n ih =>
    intro i hs
    obtain ⟨ih1, ih2⟩ := ih (i + 1) (strictOn_sub hs (by omega) (by omega))
    simp only [linear_scan]
    constructor
    · intro p hp1 hp2 hkey
      rcases Nat.eq_or_lt_of_le hp1 with e | e
      · subst e; rw [if_pos hkey]
      · have hlt := hs i p (le_refl _) e hp2
        rw [hkey] at hlt
        rw [if_neg (ne_of_lt hlt), if_neg (not_lt_of_gt hlt)]
        exact ih1 p (by omega) (by omega) hkey
    · intro hall
      rw [if_neg (hall i (le_refl _) (by omega))]
      split
      · rfl
      · exact ih2 (fun p h1 h2 => hall p (by omega) (by omega))

/-- The binary-search phase ends within `r - l + 1` rounds and keeps the key
inside `l ≤ p < r` as long as it is there. -/
theorem bsearch_loop_spec (elms : List (Byte × Int)) (key : Byte) : ∀ (fuel l r : Nat),
    r - l < fuel → StrictOn elms l r →
    ∃ v, bsearch_loop elms key fuel l r = some v ∧
      (∀ p, l ≤ p → p < r → (elms.getD p (0, NOT_FOUND)).1 = key →
        v = (elms.getD p (0, NOT_FOUND)).2) ∧
      ((∀ p, l ≤ p → p < r → (elms.getD p (0, NOT_FOUND)).1 ≠ key) → v = NOT_FOUND) := by
  intro fuel
  induction fuel with
  | zero => intro l r h; omega
  | succ fuel ih =>
    intro l r hf hs
    simp only [bsearch_loop, linear_search_border]
    by_cases hbig : r - l > 5
    · rw [if_pos hbig]
      have hm1 : l < (r + l) / 2 := by omega
      have hm2 : (r + l) / 2 < r := by omega
      by_cases hk : (elms.getD ((r + l) / 2) (0, NOT_FOUND)).1 = key
      · simp only [hk, if_true]
        refine ⟨_, rfl, ?_, ?_⟩
        · intro p hp1 hp2 hkey
          rcases Nat.lt_trichotomy p ((r + l) / 2) with h | h | h
          · have := hs p _ hp1 h hm2
            rw [hkey, hk] at this
            exact absurd this (lt_irrefl _)
          · rw [h]
          · have := hs _ p (by omega) h hp2
            rw [hkey, hk] at this
            exact absurd this (lt_irrefl _)
        · intro hall
          exact absurd hk (hall _ (by omega) hm2)
      · simp only [hk, if_false]
        by_cases hlt : (elms.getD ((r + l) / 2) (0, NOT_FOUND)).1 < key
        · rw [if_pos hlt]
          obtain ⟨v, hv, h1, h2⟩ := ih ((r + l) / 2) r (by omega)
            (strictOn_sub hs (by omega) (le_refl _))
          refine ⟨v, hv, ?_, ?_⟩
          · intro p hp1 hp2 hkey
            apply h1 p _ hp2 hkey
            by_contra hcon
            have := hs p _ hp1 (by omega) hm2
            rw [hkey] at this
            exact absurd (lt_trans this hlt) (lt_irrefl _)
          · intro hall
            exact h2 (fun p hp1 hp2 => hall p (by omega) hp2)
        · rw [if_neg hlt]
          obtain ⟨v, hv, h1, h2⟩ := ih l ((r + l) / 2) (by omega)
            (strictOn_sub hs (le_refl _) (by omega))
          refine ⟨v, hv, ?_, ?_⟩
          · intro p hp1 hp2 hkey
            apply h1 p hp1 _ hkey
            by_contra hcon
            rcases Nat.eq_or_lt_of_le (Nat.le_of_not_lt hcon) with e | e
            · rw [← e] at hkey; exact hk hkey
            · have := hs _ p (by omega) e hp2
              rw [hkey] at this
              exact hlt this
          · intro hall
            exact h2 (fun p hp1 hp2 => hall p hp1 (by omega))
    · rw [if_neg hbig]
      by_cases hlr : l ≤ r
      · have e : l + (r - l) = r := by omega
        obtain ⟨h1, h2⟩ := linear_scan_spec elms key (r - l) l (by rw [e]; exact hs)
        rw [e] at h1 h2
        exact ⟨_, rfl, h1, h2⟩
      · have e : r - l = 0 := by omega
        rw [e]
        exact ⟨_, rfl, fun p h1 h2 => by omega, fun _ => rfl⟩

/-- The lookup in the sorted arrays of `static_construct(data)` ends and finds
the edge of node `u` with label `c`, or `NOT_FOUND` when there is none. -/
theorem bsearch_search_spec (data : Adjacency)
    (hd : ∀ edges ∈ data, (edges.map Prod.fst).Nodup) (u : Nat) (hu : u < data.length)
    (c : Byte) :
    (∀ t, (c, t) ∈ data.getD u [] → (static_construct data).search u c = some t) ∧
    ((∀ t, (c, t) ∉ data.getD u []) → (static_construct data).search u c = some NOT_FOUND) := by
  have hmem : data.getD u [] ∈ data := by
    rw [List.getD_eq_getElem _ _ hu]; exact List.getElem_mem hu
  have hn := hd _ hmem
  have hs := strictOn_layout data u hu hn
  have hlen := layout_elms_length data
  have hoff := edge_offset_le data (u + 1) (by omega)
  have hsucc := edge_offset_succ data u hu
  obtain ⟨v, hv, h1, h2⟩ := bsearch_loop_spec (layout_elms data) c
    ((layout_elms data).length + 1) (edge_offset data u) (edge_offset data (u + 1))
    (by omega) hs
  have hsearch : (static_construct data).search u c = some v := by
    rw [static_construct_eq]
    unfold BinarySearchMaps.search
    simp only []
    rw [bounds_layout data u (by omega), bounds_layout data (u + 1) (by omega)]
    exact hv
  have hperm := List.perm_insertionSort pair_le (data.getD u [])
  have hsl : ((data.getD u []).insertionSort pair_le).length = (data.getD u []).length :=
    List.length_insertionSort _ _
  constructor
  · intro t ht
    rw [hsearch]
    have ht2 : (c, t) ∈ (data.getD u []).insertionSort pair_le := hperm.mem_iff.mpr ht
    obtain ⟨j, hj, hje⟩ := List.mem_iff_getElem.mp ht2
    have hg := layout_elms_get data u hu j (by omega)
    rw [List.getD_eq_getElem _ _ hj, hje] at hg
    have := h1 (edge_offset data u + j) (by omega) (by omega) (by rw [hg])
    rw [this, hg]
  · intro hnone
    rw [hsearch]
    congr 1
    apply h2
    intro p hp1 hp2 hkey
    have hg := layout_elms_get data u hu (p - edge_offset data u) (by omega)
    have e : edge_offset data u + (p - edge_offset data u) = p := by omega
    rw [e] at hg
    have g1 := List.getD_eq_getElem ((data.getD u []).insertionSort pair_le) (0, NOT_FOUND)
      (show p - edge_offset data u < _ by omega)
    have hin : (layout_elms data).getD p (0, NOT_FOUND) ∈ data.getD u [] := by
      rw [hg, g1]
      exact hperm.mem_iff.mp (List.getElem_mem _)
    apply hnone ((layout_elms data).getD p (0, NOT_FOUND)).2
    rw [← hkey]
    exact hin

/-- C8 (sorted-array lookup). For every adjacency list whose labels are
pairwise distinct per node, with `rank` and `select` the exact rank and select
of the delimiter vector, `static_construct(data).search(u, c)` ends and returns
`t` when `(c, t)` is an edge of node `u`, and `NOT_FOUND` when `c` labels no
edge of `u`, for every node `u` and byte `c`. -/
theorem BinarySearchMaps_search_correct (data : Adjacency)
    (hd : ∀ edges ∈ data, (edges.map Prod.fst).Nodup) (u : Nat) (hu : u < data.length)
    (c : Byte) :
    (∀ t, (c, t) ∈ data.getD u [] → (static_construct data).search u c = some t) ∧
    ((∀ t, (c, t) ∉ data.getD u []) → (static_construct data).search u c = some NOT_FOUND) :=
  bsearch_search_spec data hd u hu c

/-- C8 at a concrete input: a node of out-degree seven (so that the binary
search phase runs) next to nodes of out-degree one, zero and two. -/
theorem BinarySearchMaps_search_correct_witness :
    (static_construct [[(5, 1), (3, 2), (9, 3), (7, 1), (8, 2), (1, 3), (2, 2)], [(4, 3)], [],
      [(7, 3), (2, 3)]]).search 0 8 = some 2 :=
  (BinarySearchMaps_search_correct
    [[(5, 1), (3, 2), (9, 3), (7, 1), (8, 2), (1, 3), (2, 2)], [(4, 3)], [], [(7, 3), (2, 3)]]
    (by decide) 0 (by decide) 8).1 2 (by decide)

/-! ## The double-array backend -/

theorem length_resize {α : Type} (l : List α) (size : Nat) (v : α) :
    (resize l size v).length = size := by
  simp [resize]
  omega

theorem getD_resize {α : Type} (l : List α) (size : Nat) (v : α) (h : l.length ≤ size)
    (p : Nat) : (resize l size v).getD p v = l.getD p v := by
  unfold resize
  rw [List.take_of_length_le h]
  by_cases hp : p < l.length
  · rw [List.getD_append _ _ _ _ hp]
  · rw [List.getD_append_right _ _ _ _ (by omega)]
    rw [List.getD_eq_default l v (by omega)]
    by_cases hq : p - l.length < size - l.length
    · rw [List.getD_eq_getElem _ _ (by simpa using hq)]
      simp
    · rw [List.getD_eq_default _ v (by simpa using hq)]

theorem search_eq (maps : DoubleArrayMaps) (b : Nat) (key : Byte) :
    maps.search (b : Int) key
      = if maps.chk (b + key.val) = key then maps.nxt (b + key.val) else NOT_FOUND := by
  unfold DoubleArrayMaps.search DoubleArrayMaps.chk DoubleArrayMaps.nxt
  have e : ((b : Int) + (key.val : Int)).toNat = b + key.val := by omega
  simp only [e]

theorem extend_spec (maps : DoubleArrayMaps) (size : Nat) (hl : maps.next.length = maps.check.length)
    (h : maps.next.length ≤ size) :
    (maps.extend size).next.length = size ∧ (maps.extend size).check.length = size ∧
    (∀ p, (maps.extend size).chk p = maps.chk p) ∧ (∀ p, (maps.extend size).nxt p = maps.nxt p) := by
  unfold DoubleArrayMaps.extend DoubleArrayMaps.chk DoubleArrayMaps.nxt
  refine ⟨length_resize _ _ _, length_resize _ _ _, ?_, ?_⟩
  · intro p; exact getD_resize _ _ _ (by omega) p
  · intro p; exact getD_resize _ _ _ h p

theorem try_base_spec (cur : Nat) : ∀ (edges : List (Byte × Int)) (maps : DoubleArrayMaps),
    maps.next.length = maps.check.length →
    (try_base cur maps edges).1.next.length = (try_base cur maps edges).1.check.length ∧
    maps.next.length ≤ (try_base cur maps edges).1.next.length ∧
    (∀ p, (try_base cur maps edges).1.chk p = maps.chk p) ∧
    (∀ p, (try_base cur maps edges).1.nxt p = maps.nxt p) ∧
    ((try_base cur maps edges).2 = true →
      ∀ e ∈ edges, cur + e.1.val < (try_base cur maps edges).1.next.length ∧
        maps.chk (cur + e.1.val) = NULL_CHAR) ∧
    ((try_base cur maps edges).2 = false →
      ∃ e ∈ edges, maps.chk (cur + e.1.val) ≠ NULL_CHAR) := by
  intro edges
  induction edges with
  | nil => intro maps hl; simp [try_base, hl]
  | cons e rest ih =>
    intro maps hl
    obtain ⟨key, tgt⟩ := e
    simp only [try_base]
    by_cases hbig : cur + key.val ≥ maps.next.length
    · rw [if_pos hbig]
      obtain ⟨x1, x2, x3, x4⟩ := extend_spec maps (cur + key.val + 1) hl (by omega)
      obtain ⟨h1, h2, h3, h4, h5, h6⟩ := ih (maps.extend (cur + key.val + 1)) (by omega)
      refine ⟨h1, by omega, fun p => by rw [h3, x3], fun p => by rw [h4, x4], ?_, ?_⟩
      · intro hok e he
        rcases List.mem_cons.mp he with rfl | he
        · refine ⟨by simp only []; omega, ?_⟩
          unfold DoubleArrayMaps.chk
          exact List.getD_eq_default _ _ (by simp only []; omega)
        · have := h5 hok e he
          rw [x3] at this
          exact this
      · intro hno
        obtain ⟨e, he, hne⟩ := h6 hno
        rw [x3] at hne
        exact ⟨e, List.mem_cons_of_mem _ he, hne⟩
    · rw [if_neg hbig]
      by_cases hocc : maps.check.getD (cur + key.val) NULL_CHAR ≠ NULL_CHAR
      · rw [if_pos hocc]
        refine ⟨hl, le_refl _, fun _ => rfl, fun _ => rfl, fun h => by simp at h, ?_⟩
        intro _
        exact ⟨(key, tgt), List.mem_cons_self _ _, hocc⟩
      · rw [if_neg hocc]
        obtain ⟨h1, h2, h3, h4, h5, h6⟩ := ih maps hl
        refine ⟨h1, h2, h3, h4, ?_, ?_⟩
        · intro hok e he
          rcases List.mem_cons.mp he with rfl | he
          · refine ⟨by simp only []; omega, ?_⟩
            unfold DoubleArrayMaps.chk
            simpa using hocc
          · exact h5 hok e he
        · intro hno
          obtain ⟨e, he, hne⟩ := h6 hno
          exact ⟨e, List.mem_cons_of_mem _ he, hne⟩

/-- The search for a base ends: no cell at or above `bound` is in use, and the
fuel covers the distance from `cur` to `bound`. The arrays only grow, by empty
cells. -/
theorem find_base_spec (edges : List (Byte × Int)) (bound : Nat) :
    ∀ (fuel : Nat) (maps : DoubleArrayMaps) (cur : Nat),
    maps.next.length = maps.check.length →
    (∀ p, bound ≤ p → maps.chk p = NULL_CHAR) → bound - cur < fuel →
    ∃ maps2 cur2, find_base edges fuel maps cur = some (maps2, cur2) ∧ cur ≤ cur2 ∧
      maps2.next.length = maps2.check.length ∧ maps.next.length ≤ maps2.next.length ∧
      (∀ p, maps2.chk p = maps.chk p) ∧ (∀ p, maps2.nxt p = maps.nxt p) ∧
      (∀ e ∈ edges, cur2 + e.1.val < maps2.next.length ∧ maps.chk (cur2 + e.1.val) = NULL_CHAR) := by
  intro fuel
  induction fuel with
  | zero => intro maps cur _ _ hf; omega
  | succ fuel ih =>
    intro maps cur hl hb hf
    obtain ⟨h1, h2, h3, h4, h5, h6⟩ := try_base_spec cur edges maps hl
    simp only [find_base]
    rcases hres : try_base cur maps edges with ⟨m, ok⟩
    rw [hres] at h1 h2 h3 h4 h5 h6
    simp only [] at h1 h2 h3 h4 h5 h6
    cases ok with
    | true =>
      exact ⟨m, cur, rfl, le_refl _, h1, h2, h3, h4, h5 rfl⟩
    | false =>
      obtain ⟨e, _, hne⟩ := h6 rfl
      have hcur : cur < bound := by
        by_contra hcon
        exact hne (hb _ (by omega))
      obtain ⟨maps2, cur2, g0, g1, g2, g3, g4, g5, g6⟩ := ih m (cur + 1) h1
        (fun p hp => by rw [h3]; exact hb p hp) (by omega)
      refine ⟨maps2, cur2, g0, by omega, g2, by omega, fun p => by rw [g4, h3],
        fun p => by rw [g5, h4], ?_⟩
      intro e he
      have := g6 e he
      rw [h3] at this
      exact this

theorem getD_set_same {α : Type} (l : List α) (p : Nat) (v d : α) (h : p < l.length) :
    (l.set p v).getD p d = v := by
  rw [List.getD_eq_getElem _ _ (by simpa using h)]
  simp

theorem getD_set_other {α : Type} (l : List α) (p q : Nat) (v d : α) (h : p ≠ q) :
    (l.set p v).getD q d = l.getD q d := by
  simp only [List.getD_eq_getElem?_getD]
  rw [List.getElem?_set_ne h]

theorem commit_verbatim_spec (cur : Nat) : ∀ (edges : List (Byte × Int)) (maps : DoubleArrayMaps),
    maps.next.length = maps.check.length → (edges.map Prod.fst).Nodup →
    (∀ e ∈ edges, cur + e.1.val < maps.next.length) →
    (commit_verbatim cur maps edges).next.length = maps.next.length ∧
    (commit_verbatim cur maps edges).check.length = maps.check.length ∧
    (∀ e ∈ edges, (commit_verbatim cur maps edges).chk (cur + e.1.val) = e.1 ∧
      (commit_verbatim cur maps edges).nxt (cur + e.1.val) = e.2) ∧
    (∀ p, (∀ e ∈ edges, cur + e.1.val ≠ p) →
      (commit_verbatim cur maps edges).chk p = maps.chk p ∧
      (commit_verbatim cur maps edges).nxt p = maps.nxt p) := by
  intro edges
  induction edges with
  | nil => intro maps _ _ _; simp [commit_verbatim]
  | cons e rest ih =>
    intro maps hl hn hr
    simp only [List.map_cons, List.nodup_cons] at hn
    have hin := hr e (List.mem_cons_self _ _)
    have hstep : commit_verbatim cur maps (e :: rest)
        = commit_verbatim cur
            { next := maps.next.set (cur + e.1.val) e.2,
              check := maps.check.set (cur + e.1.val) e.1 } rest := by
      simp [commit_verbatim]
    rw [hstep]
    obtain ⟨h1, h2, h3, h4⟩ := ih
      { next := maps.next.set (cur + e.1.val) e.2, check := maps.check.set (cur + e.1.val) e.1 }
      (by simp [hl]) hn.2
      (fun e2 he2 => by simpa using hr e2 (List.mem_cons_of_mem _ he2))
    refine ⟨by simpa using h1, by simpa using h2, ?_, ?_⟩
    · intro e2 he2
      rcases List.mem_cons.mp he2 with rfl | he2
      · have hne : ∀ e3 ∈ rest, cur + e3.1.val ≠ cur + e2.1.val := by
          intro e3 he3 heq
          apply hn.1
          have : e3.1 = e2.1 := Fin.ext (by omega)
          rw [← this]
          exact List.mem_map_of_mem _ he3
        obtain ⟨g1, g2⟩ := h4 _ hne
        rw [g1, g2]
        unfold DoubleArrayMaps.chk DoubleArrayMaps.nxt
        exact ⟨getD_set_same _ _ _ _ (by omega), getD_set_same _ _ _ _ hin⟩
      · exact h3 e2 he2
    · intro p hp
      obtain ⟨g1, g2⟩ := h4 p (fun e3 he3 => hp e3 (List.mem_cons_of_mem _ he3))
      rw [g1, g2]
      have hne := hp e (List.mem_cons_self _ _)
      unfold DoubleArrayMaps.chk DoubleArrayMaps.nxt
      exact ⟨getD_set_other _ _ _ _ _ hne, getD_set_other _ _ _ _ _ hne⟩

theorem chk_null_above (maps : DoubleArrayMaps) (hl : maps.next.length = maps.check.length)
    (p : Nat) (hp : maps.next.length ≤ p) : maps.chk p = NULL_CHAR := by
  unfold DoubleArrayMaps.chk
  exact List.getD_eq_default _ _ (by omega)

/-- Placing one more node keeps the invariant, whatever is done to `next`
afterwards being left to the caller: `maps3` has the check bytes of the
committed node on top of those of `maps`. -/
theorem placed_step (data : Adjacency) (hd : LabelsOk data) (maps maps3 : DoubleArrayMaps)
    (curs : List Int) (cur i : Nat) (base : Nat → Nat) (cur2 : Nat)
    (inv : PlacedInv data maps curs cur i base) (hi : i < data.length) (hc : cur ≤ cur2)
    (hl3 : maps3.next.length = maps3.check.length) (hgrow : maps.next.length ≤ maps3.next.length)
    (hfree : ∀ e ∈ data.getD i [], cur2 + e.1.val < maps3.next.length ∧
      maps.chk (cur2 + e.1.val) = NULL_CHAR)
    (hnew : ∀ e ∈ data.getD i [], maps3.chk (cur2 + e.1.val) = e.1)
    (hold : ∀ p, (∀ e ∈ data.getD i [], cur2 + e.1.val ≠ p) → maps3.chk p = maps.chk p) :
    PlacedInv data maps3 (curs.set i (cur2 : Int)) (cur2 + 1) (i + 1)
      (fun u => if u = i then cur2 else base u) := by
  have hmem : ∀ u, u < data.length → data.getD u [] ∈ data := by
    intro u hu
    rw [List.getD_eq_getElem _ _ hu]; exact List.getElem_mem hu
  have hkeep : ∀ u, u < i → ∀ e ∈ data.getD u [], maps3.chk (base u + e.1.val) = e.1 := by
    intro u hu e he
    have ho := (inv.owned u hu e he).2
    have hnz := (hd _ (hmem u (by have := inv.i_le; omega))).2 e he
    rw [hold _ ?_, ho]
    intro e2 he2 heq
    have := (hfree e2 he2).2
    rw [heq, ho] at this
    exact hnz this
  refine ⟨by omega, by simpa using inv.curs_len, hl3, ?_, ?_, ?_, ?_, ?_⟩
  · intro u hu
    by_cases hui : u = i
    · subst hui
      simp only [if_true]
      exact getD_set_same _ _ _ _ (by rw [inv.curs_len]; exact hi)
    · simp only [if_neg hui]
      rw [getD_set_other _ _ _ _ _ (Ne.symm hui)]
      exact inv.curs_eq u (by omega)
  · intro u hu
    by_cases hui : u = i
    · simp only [hui, if_true]; omega
    · simp only [if_neg hui]
      have := inv.base_lt u (by omega)
      omega
  · intro u v huv hv
    have hu : u ≠ i := by omega
    simp only [if_neg hu]
    by_cases hvi : v = i
    · simp only [hvi, if_true]
      have := inv.base_lt u (by omega)
      omega
    · simp only [if_neg hvi]
      exact inv.base_mono u v huv (by omega)
  · intro u hu e he
    by_cases hui : u = i
    · subst hui
      simp only [if_true]
      exact ⟨(hfree e he).1, hnew e he⟩
    · simp only [if_neg hui]
      have := (inv.owned u (by omega) e he).1
      exact ⟨by omega, hkeep u (by omega) e he⟩
  · intro p hp
    by_cases hcell : ∃ e ∈ data.getD i [], cur2 + e.1.val = p
    · obtain ⟨e, he, hep⟩ := hcell
      refine ⟨i, by omega, e, he, by simpa using hep, ?_⟩
      rw [← hep]; exact hnew e he
    · have hall : ∀ e ∈ data.getD i [], cur2 + e.1.val ≠ p :=
        fun e he heq => hcell ⟨e, he, heq⟩
      rw [hold p hall] at hp ⊢
      obtain ⟨u, hu, e, he, h1, h2⟩ := inv.used p hp
      have hui : u ≠ i := by omega
      exact ⟨u, by omega, e, he, by simpa [hui] using h1, h2⟩

/-- A byte that labels no edge of a placed node is not found from its base. -/
theorem placed_not_found (data : Adjacency) (maps : DoubleArrayMaps) (curs : List Int)
    (cur i : Nat) (base : Nat → Nat) (inv : PlacedInv data maps curs cur i base)
    (u : Nat) (hu : u < i) (c : Byte) (hc : c ≠ NULL_CHAR)
    (hno : ∀ t, (c, t) ∉ data.getD u []) : maps.search (base u : Int) c = NOT_FOUND := by
  rw [search_eq]
  split
  · rename_i heq
    exfalso
    obtain ⟨v, hv, e, he, h1, h2⟩ := inv.used (base u + c.val) (by rw [heq]; exact hc)
    rw [heq] at h2
    have hb : base v = base u := by rw [h2] at h1; omega
    have huv : v = u := by
      rcases Nat.lt_trichotomy v u with h | h | h
      · have := inv.base_mono v u h hu; omega
      · exact h
      · have := inv.base_mono u v h hv; omega
    subst huv
    apply hno e.2
    rw [h2]
    exact he
  · rfl

theorem getD_append_cons {α : Type} (done rest : List α) (x d : α) :
    (done ++ x :: rest).getD done.length d = x := by
  rw [List.getD_append_right _ _ _ _ (le_refl _)]
  simp

theorem placed_init (data : Adjacency) :
    PlacedInv data (DoubleArrayMaps.mk0 data.length) (List.replicate data.length 0) 0 0
      (fun _ => 0) := by
  refine ⟨Nat.zero_le _, by simp, ?_, fun u hu => by omega, fun u hu => by omega,
    fun u v _ hv => by omega, fun u hu => by omega, ?_⟩
  · simp [DoubleArrayMaps.mk0, length_resize]
  · intro p hp
    exfalso
    apply hp
    unfold DoubleArrayMaps.chk DoubleArrayMaps.mk0
    simp only []
    rw [getD_resize _ _ _ (by simp)]
    simp

theorem without_step_spec (data : Adjacency) (hd : LabelsOk data) (st : WithoutState)
    (base : Nat → Nat) (inv : PlacedInv data st.maps st.curs st.cur st.i base)
    (vinv : ∀ u, u < st.i → ∀ e ∈ data.getD u [], st.maps.nxt (base u + e.1.val) = e.2)
    (hi : st.i < data.length) :
    ∃ st2 base2, without_step st (data.getD st.i []) = some st2 ∧ st2.i = st.i + 1 ∧
      PlacedInv data st2.maps st2.curs st2.cur st2.i base2 ∧
      (∀ u, u < st2.i → ∀ e ∈ data.getD u [], st2.maps.nxt (base2 u + e.1.val) = e.2) := by
  have hmem : ∀ u, u < data.length → data.getD u [] ∈ data := by
    intro u hu
    rw [List.getD_eq_getElem _ _ hu]; exact List.getElem_mem hu
  obtain ⟨maps2, cur2, f0, f1, f2, f3, f4, f5, f6⟩ := find_base_spec (data.getD st.i [])
    st.maps.next.length (st.maps.next.length + 1) st.maps st.cur inv.len_eq
    (chk_null_above st.maps inv.len_eq) (by omega)
  obtain ⟨c1, c2, c3, c4⟩ := commit_verbatim_spec cur2 (data.getD st.i []) maps2 f2
    (hd _ (hmem _ hi)).1 (fun e he => (f6 e he).1)
  refine ⟨{ maps := commit_verbatim cur2 maps2 (data.getD st.i []),
            curs := st.curs.set st.i (cur2 : Int), cur := cur2 + 1, i := st.i + 1 },
    fun u => if u = st.i then cur2 else base u, ?_, rfl, ?_, ?_⟩
  · unfold without_step
    rw [f0]
  · exact placed_step data hd st.maps _ st.curs st.cur st.i base cur2 inv hi f1
      (by show (commit_verbatim cur2 maps2 (data.getD st.i [])).next.length
            = (commit_verbatim cur2 maps2 (data.getD st.i [])).check.length
          omega)
      (by show st.maps.next.length ≤ (commit_verbatim cur2 maps2 (data.getD st.i [])).next.length
          omega)
      (fun e he => ⟨by rw [c1]; exact (f6 e he).1, (f6 e he).2⟩)
      (fun e he => (c3 e he).1)
      (fun p hp => by rw [(c4 p hp).1, f4])
  · intro u hu e he
    simp only [] at hu
    by_cases hui : u = st.i
    · subst hui
      simp only [if_true]
      exact (c3 e he).2
    · simp only [if_neg hui]
      have hu2 : u < st.i := by omega
      have ho := (inv.owned u hu2 e he).2
      have hnz := (hd _ (hmem u (by omega))).2 e he
      rw [(c4 _ ?_).2, f5]
      · exact vinv u hu2 e he
      · intro e2 he2 heq
        have := (f6 e2 he2).2
        rw [heq, ho] at this
        exact hnz this

theorem without_loop_spec (data : Adjacency) (hd : LabelsOk data) :
    ∀ (rest done : List (List (Byte × Int))) (st : WithoutState) (base : Nat → Nat),
    data = done ++ rest → st.i = done.length →
    PlacedInv data st.maps st.curs st.cur st.i base →
    (∀ u, u < st.i → ∀ e ∈ data.getD u [], st.maps.nxt (base u + e.1.val) = e.2) →
    ∃ st2 base2, without_loop rest st = some st2 ∧ st2.i = data.length ∧
      PlacedInv data st2.maps st2.curs st2.cur st2.i base2 ∧
      (∀ u, u < st2.i → ∀ e ∈ data.getD u [], st2.maps.nxt (base2 u + e.1.val) = e.2) := by
  intro rest
  induction rest with
  | nil =>
    intro done st base hdata hi inv vinv
    refine ⟨st, base, rfl, ?_, inv, vinv⟩
    rw [hi, hdata]; simp
  | cons edges rest ih =>
    intro done st base hdata hi inv vinv
    have hget : data.getD st.i [] = edges := by
      rw [hdata, hi]; exact getD_append_cons done rest edges []
    have hlt : st.i < data.length := by rw [hdata, hi]; simp
    obtain ⟨st2, base2, h1, h2, h3, h4⟩ := without_step_spec data hd st base inv vinv hlt
    rw [hget] at h1
    obtain ⟨st3, base3, g1, g2, g3, g4⟩ := ih (done ++ [edges]) st2 base2
      (by rw [hdata]; simp) (by rw [h2, hi]; simp) h3 h4
    refine ⟨st3, base3, ?_, g2, g3, g4⟩
    simp only [without_loop, h1]
    exact g1

/-- C7 (double-array lookup without reindexing). For every adjacency list whose
labels are pairwise distinct per node and non-zero, `construct_without_reindexing`
returns arrays and `next_of`, one base per node, such that `search(next_of[u], c)`
is the target `t` as given (whatever its high bit) for every edge `(c, t)` of
node `u`, and `NOT_FOUND` for every non-zero byte `c` that labels no edge of `u`
and has `next_of[u] + c` inside the arrays. -/
theorem construct_without_reindexing_correct (data : Adjacency) (hd : LabelsOk data) :
    ∃ maps next_of, construct_without_reindexing data = some (maps, next_of) ∧
      next_of.length = data.length ∧
      ∀ u, u < data.length →
        (∀ c t, (c, t) ∈ data.getD u [] → maps.search (next_of.getD u 0) c = t) ∧
        (∀ c, c ≠ NULL_CHAR → (∀ t, (c, t) ∉ data.getD u []) →
          next_of.getD u 0 + c.val < maps.size → maps.search (next_of.getD u 0) c = NOT_FOUND) := by
  obtain ⟨st, base, h1, h2, inv, vinv⟩ := without_loop_spec data hd data []
    { maps := DoubleArrayMaps.mk0 data.length, curs := List.replicate data.length 0,
      cur := 0, i := 0 } (fun _ => 0) rfl rfl (placed_init data)
    (fun u hu => by simp only [] at hu; omega)
  refine ⟨st.maps, st.curs, ?_, inv.curs_len, ?_⟩
  · unfold construct_without_reindexing
    rw [h1]
  · intro u hu
    rw [inv.curs_eq u (by omega)]
    constructor
    · intro c t he
      rw [search_eq, (inv.owned u (by omega) _ he).2, if_pos rfl]
      exact vinv u (by omega) _ he
    · intro c hc hno _
      exact placed_not_found data st.maps st.curs st.cur st.i base inv u (by omega) c hc hno

/-- C7 at a concrete input: edges of a tail-compacted trie, two of whose
targets carry the tail flag. -/
theorem construct_without_reindexing_correct_witness :
    ∃ maps next_of,
      construct_without_reindexing [[(5, 1), (3, -2147483648)], [(4, -2147483645)], []]
        = some (maps, next_of) ∧
      maps.search (next_of.getD 0 0) 3 = -2147483648 := by
  obtain ⟨maps, next_of, h1, _, h3⟩ := construct_without_reindexing_correct
    [[(5, 1), (3, -2147483648)], [(4, -2147483645)], []] (by decide)
  exact ⟨maps, next_of, h1, (h3 0 (by decide)).1 3 _ (by decide)⟩

theorem getD_modify_same (l : List (List Nat)) (w c : Nat) (h : w < l.length) :
    (l.modify (fun x => x ++ [c]) w).getD w [] = l.getD w [] ++ [c] := by
  simp [List.getD_eq_getElem?_getD, List.getElem?_modify, h]

theorem getD_modify_other (l : List (List Nat)) (w v c : Nat) (h : w ≠ v) :
    (l.modify (fun x => x ++ [c]) w).getD v [] = l.getD v [] := by
  simp [List.getD_eq_getElem?_getD, List.getElem?_modify, h]

theorem commit_reindex_spec (cur : Nat) : ∀ (edges : List (Byte × Int))
    (st : DoubleArrayMaps × List (List Nat)),
    st.1.next.length = st.1.check.length → (edges.map Prod.fst).Nodup →
    (∀ e ∈ edges, cur + e.1.val < st.1.next.length) →
    (∀ e ∈ edges, 0 ≤ e.2 ∧ e.2.toNat < st.2.length) →
    (commit_reindex cur st edges).1.next = st.1.next ∧
    (commit_reindex cur st edges).1.check.length = st.1.check.length ∧
    (commit_reindex cur st edges).2.length = st.2.length ∧
    (∀ e ∈ edges, (commit_reindex cur st edges).1.chk (cur + e.1.val) = e.1) ∧
    (∀ p, (∀ e ∈ edges, cur + e.1.val ≠ p) → (commit_reindex cur st edges).1.chk p = st.1.chk p) ∧
    (∀ e ∈ edges, cur + e.1.val ∈ (commit_reindex cur st edges).2.getD e.2.toNat []) ∧
    (∀ w, ∀ cell ∈ st.2.getD w [], cell ∈ (commit_reindex cur st edges).2.getD w []) ∧
    (∀ w, ∀ cell ∈ (commit_reindex cur st edges).2.getD w [],
      cell ∈ st.2.getD w [] ∨ ∃ e ∈ edges, e.2 = (w : Int) ∧ cur + e.1.val = cell) := by
  intro edges
  induction edges with
  | nil => intro st _ _ _ _; simp [commit_reindex]
  | cons e rest ih =>
    intro st hl hn hr ht
    simp only [List.map_cons, List.nodup_cons] at hn
    have hin := hr e (List.mem_cons_self _ _)
    obtain ⟨hpos, hlt⟩ := ht e (List.mem_cons_self _ _)
    have hflag : has_tail_flag e.2 = false := by
      unfold has_tail_flag; simp; exact hpos
    have hstep : commit_reindex cur st (e :: rest)
        = commit_reindex cur
            ({ next := st.1.next, check := st.1.check.set (cur + e.1.val) e.1 },
             st.2.modify (fun cells => cells ++ [cur + e.1.val]) e.2.toNat) rest := by
      simp [commit_reindex, hflag]
    rw [hstep]
    obtain ⟨h1, h2, h3, h4, h5, h6, h7, h8⟩ := ih
      ({ next := st.1.next, check := st.1.check.set (cur + e.1.val) e.1 },
       st.2.modify (fun cells => cells ++ [cur + e.1.val]) e.2.toNat)
      (by simp [hl]) hn.2
      (fun e2 he2 => by simpa using hr e2 (List.mem_cons_of_mem _ he2))
      (fun e2 he2 => by simpa [List.length_modify] using ht e2 (List.mem_cons_of_mem _ he2))
    refine ⟨h1, by simpa using h2, by simpa [List.length_modify] using h3, ?_, ?_, ?_, ?_, ?_⟩
    · intro e2 he2
      rcases List.mem_cons.mp he2 with rfl | he2
      · have hne : ∀ e3 ∈ rest, cur + e3.1.val ≠ cur + e2.1.val := by
          intro e3 he3 heq
          apply hn.1
          have : e3.1 = e2.1 := Fin.ext (by omega)
          rw [← this]
          exact List.mem_map_of_mem _ he3
        rw [h5 _ hne]
        unfold DoubleArrayMaps.chk
        exact getD_set_same _ _ _ _ (by omega)
      · exact h4 e2 he2
    · intro p hp
      rw [h5 p (fun e3 he3 => hp e3 (List.mem_cons_of_mem _ he3))]
      unfold DoubleArrayMaps.chk
      exact getD_set_other _ _ _ _ _ (hp e (List.mem_cons_self _ _))
    · intro e2 he2
      rcases List.mem_cons.mp he2 with rfl | he2
      · apply h7
        simp only []
        rw [getD_modify_same _ _ _ hlt]
        simp
      · exact h6 e2 he2
    · intro w cell hc
      apply h7
      simp only []
      by_cases hw : e.2.toNat = w
      · subst hw
        rw [getD_modify_same _ _ _ hlt]
        exact List.mem_append_left _ hc
      · rw [getD_modify_other _ _ _ _ hw]
        exact hc
    · intro w cell hc
      rcases h8 w cell hc with h | ⟨e2, he2, g1, g2⟩
      · simp only [] at h
        by_cases hw : e.2.toNat = w
        · subst hw
          rw [getD_modify_same _ _ _ hlt] at h
          rcases List.mem_append.mp h with h | h
          · exact Or.inl h
          · right
            refine ⟨e, List.mem_cons_self _ _, (Int.toNat_of_nonneg hpos).symm, ?_⟩
            simpa using (List.mem_singleton.mp h).symm
        · rw [getD_modify_other _ _ _ _ hw] at h
          exact Or.inl h
      · exact Or.inr ⟨e2, List.mem_cons_of_mem _ he2, g1, g2⟩

theorem patch_spec (cur : Nat) : ∀ (cells : List Nat) (maps : DoubleArrayMaps),
    (∀ c ∈ cells, c < maps.next.length) →
    (cells.foldl (fun (m : DoubleArrayMaps) idx =>
        { next := m.next.set idx (cur : Int), check := m.check }) maps).check = maps.check ∧
    (cells.foldl (fun (m : DoubleArrayMaps) idx =>
        { next := m.next.set idx (cur : Int), check := m.check }) maps).next.length
      = maps.next.length ∧
    (∀ c ∈ cells, (cells.foldl (fun (m : DoubleArrayMaps) idx =>
        { next := m.next.set idx (cur : Int), check := m.check }) maps).nxt c = (cur : Int)) ∧
    (∀ p, p ∉ cells → (cells.foldl (fun (m : DoubleArrayMaps) idx =>
        { next := m.next.set idx (cur : Int), check := m.check }) maps).nxt p = maps.nxt p) := by
  intro cells
  induction cells with
  | nil => intro maps _; simp
  | cons c rest ih =>
    intro maps hr
    simp only [List.foldl_cons]
    have hc := hr c (List.mem_cons_self _ _)
    obtain ⟨h1, h2, h3, h4⟩ := ih { next := maps.next.set c (cur : Int), check := maps.check }
      (fun c2 hc2 => by simpa using hr c2 (List.mem_cons_of_mem _ hc2))
    refine ⟨h1, by simpa using h2, ?_, ?_⟩
    · intro c2 hc2
      by_cases hin : c2 ∈ rest
      · exact h3 c2 hin
      · rw [h4 c2 hin]
        rcases List.mem_cons.mp hc2 with rfl | hc2
        · unfold DoubleArrayMaps.nxt
          exact getD_set_same _ _ _ _ hc
        · exact absurd hc2 hin
    · intro p hp
      rw [h4 p (fun h => hp (List.mem_cons_of_mem _ h))]
      unfold DoubleArrayMaps.nxt
      exact getD_set_other _ _ _ _ _ (fun h => hp (h ▸ List.mem_cons_self _ _))

theorem placed_base_inj (data : Adjacency) (maps : DoubleArrayMaps) (curs : List Int)
    (cur i : Nat) (base : Nat → Nat) (inv : PlacedInv data maps curs cur i base)
    (u v : Nat) (hu : u < i) (hv : v < i) (h : base u = base v) : u = v := by
  rcases Nat.lt_trichotomy u v with h1 | h1 | h1
  · have := inv.base_mono u v h1 hv; omega
  · exact h1
  · have := inv.base_mono v u h1 hu; omega

/-- A cell determines the edge that owns it. -/
theorem placed_cell_edge (data : Adjacency) (hd : LabelsOk data) (maps : DoubleArrayMaps)
    (curs : List Int) (cur i : Nat) (base : Nat → Nat)
    (inv : PlacedInv data maps curs cur i base) (u v : Nat) (hu : u < i) (hv : v < i)
    (e1 e2 : Byte × Int) (h1 : e1 ∈ data.getD u []) (h2 : e2 ∈ data.getD v [])
    (h : base u + e1.1.val = base v + e2.1.val) : u = v ∧ e1 = e2 := by
  have o1 := (inv.owned u hu e1 h1).2
  have o2 := (inv.owned v hv e2 h2).2
  rw [h, o2] at o1
  have hb : base u = base v := by rw [o1] at h; omega
  have huv := placed_base_inj data maps curs cur i base inv u v hu hv hb
  subst huv
  have hmem : data.getD u [] ∈ data := by
    have hlt : u < data.length := by have := inv.i_le; omega
    rw [List.getD_eq_getElem _ _ hlt]; exact List.getElem_mem hlt
  exact ⟨rfl, List.inj_on_of_nodup_map (hd _ hmem).1 h1 h2 o1.symm⟩

theorem with_step_spec (data : Adjacency) (hd : LabelsOk data) (ht : TopoOk data)
    (st : WithState) (base : Nat → Nat)
    (inv : PlacedInv data st.maps st.curs st.cur st.i base)
    (pinv : PatchInv data st.maps st.inv st.i base) (hi : st.i < data.length) :
    ∃ st2 base2, with_step st (data.getD st.i []) = some st2 ∧ st2.i = st.i + 1 ∧
      PlacedInv data st2.maps st2.curs st2.cur st2.i base2 ∧
      PatchInv data st2.maps st2.inv st2.i base2 := by
  have hmem : ∀ u, u < data.length → data.getD u [] ∈ data := by
    intro u hu
    rw [List.getD_eq_getElem _ _ hu]; exact List.getElem_mem hu
  obtain ⟨maps2, cur2, f0, f1, f2, f3, f4, f5, f6⟩ := find_base_spec (data.getD st.i [])
    st.maps.next.length (st.maps.next.length + 1) st.maps st.cur inv.len_eq
    (chk_null_above st.maps inv.len_eq) (by omega)
  have htgt : ∀ e ∈ data.getD st.i [], 0 ≤ e.2 ∧ e.2.toNat < st.inv.length ∧ st.i < e.2.toNat := by
    intro e he
    have := ht st.i hi e he
    rw [pinv.inv_len]
    omega
  obtain ⟨c1, c2, c3, c4, c5, c6, c7, c8⟩ := commit_reindex_spec cur2 (data.getD st.i [])
    (maps2, st.inv) f2 (hd _ (hmem _ hi)).1 (fun e he => (f6 e he).1)
    (fun e he => ⟨(htgt e he).1, (htgt e he).2.1⟩)
  simp only [] at c1 c2 c3 c4 c5 c6 c7 c8
  have hcells : ∀ cell ∈ (commit_reindex cur2 (maps2, st.inv) (data.getD st.i [])).2.getD st.i [],
      cell ∈ st.inv.getD st.i [] := by
    intro cell hc
    rcases c8 st.i cell hc with h | ⟨e, he, g1, _⟩
    · exact h
    · have := (htgt e he).2.2
      omega
  obtain ⟨p1, p2, p3, p4⟩ := patch_spec cur2
    ((commit_reindex cur2 (maps2, st.inv) (data.getD st.i [])).2.getD st.i [])
    (commit_reindex cur2 (maps2, st.inv) (data.getD st.i [])).1
    (by
      intro cell hc
      obtain ⟨u, hu, e, he, _, g2⟩ := pinv.queued st.i cell (hcells cell hc)
      have := (inv.owned u hu e he).1
      rw [c1]
      omega)
  generalize hpatched : ((commit_reindex cur2 (maps2, st.inv) (data.getD st.i [])).2.getD st.i []).foldl
      (fun (m : DoubleArrayMaps) idx => { next := m.next.set idx (cur2 : Int), check := m.check })
      (commit_reindex cur2 (maps2, st.inv) (data.getD st.i [])).1 = patched at p1 p2 p3 p4
  generalize hcom : commit_reindex cur2 (maps2, st.inv) (data.getD st.i []) = com
    at c1 c2 c3 c4 c5 c6 c7 c8 hcells p1 p2 p3 p4 hpatched
  have hchk : ∀ p, patched.chk p = com.1.chk p := by
    intro p; unfold DoubleArrayMaps.chk; rw [p1]
  have hnxt : ∀ p, com.1.nxt p = maps2.nxt p := by
    intro p; unfold DoubleArrayMaps.nxt; rw [c1]
  refine ⟨{ maps := patched, inv := com.2, curs := st.curs.set st.i (cur2 : Int),
            cur := cur2 + 1, i := st.i + 1 },
    fun u => if u = st.i then cur2 else base u, ?_, rfl, ?_, ?_⟩
  · unfold with_step
    rw [f0]
    simp only [hcom, hpatched]
  · exact placed_step data hd st.maps patched st.curs st.cur st.i base cur2 inv hi f1
      (by rw [p2, p1, c1, c2]; exact f2)
      (by rw [p2, c1]; exact f3)
      (fun e he => ⟨by rw [p2, c1]; exact (f6 e he).1, (f6 e he).2⟩)
      (fun e he => by rw [hchk]; exact c4 e he)
      (fun p hp => by rw [hchk, c5 p hp, f4])
  · refine ⟨by simpa using c3.trans pinv.inv_len, ?_, ?_, ?_⟩
    · intro u hu e he hw
      simp only [] at hu hw ⊢
      by_cases hui : u = st.i
      · subst hui
        have := (htgt e he).2.2
        omega
      · have hu2 : u < st.i := by omega
        simp only [if_neg hui]
        by_cases hwi : e.2.toNat = st.i
        · rw [hwi]
          simp only [if_true]
          apply p3
          apply c7
          have := pinv.waiting u hu2 e he (by omega)
          rw [hwi] at this
          exact this
        · simp only [if_neg hwi]
          have hnot : base u + e.1.val ∉ com.2.getD st.i [] := by
            intro hin
            obtain ⟨u2, hu3, e2, he2, g1, g2⟩ := pinv.queued st.i _ (hcells _ hin)
            obtain ⟨_, hee⟩ := placed_cell_edge data hd st.maps st.curs st.cur st.i base inv
              u2 u hu3 hu2 e2 e he2 he g2
            rw [hee] at g1
            apply hwi
            rw [g1]
            simp
          rw [p4 _ hnot, hnxt, f5]
          exact pinv.patched u hu2 e he (by omega)
    · intro u hu e he hw
      simp only [] at hu hw ⊢
      by_cases hui : u = st.i
      · subst hui
        simp only [if_true]
        exact c6 e he
      · simp only [if_neg hui]
        exact c7 _ _ (pinv.waiting u (by omega) e he (by omega))
    · intro w cell hc
      simp only [] at hc ⊢
      rcases c8 w cell hc with h | ⟨e, he, g1, g2⟩
      · obtain ⟨u, hu, e, he, g1, g2⟩ := pinv.queued w cell h
        have hui : u ≠ st.i := by omega
        exact ⟨u, by omega, e, he, g1, by simpa [hui] using g2⟩
      · exact ⟨st.i, by omega, e, he, g1, by simpa using g2⟩

theorem with_loop_spec (data : Adjacency) (hd : LabelsOk data) (ht : TopoOk data) :
    ∀ (rest done : List (List (Byte × Int))) (st : WithState) (base : Nat → Nat),
    data = done ++ rest → st.i = done.length →
    PlacedInv data st.maps st.curs st.cur st.i base →
    PatchInv data st.maps st.inv st.i base →
    ∃ st2 base2, with_loop rest st = some st2 ∧ st2.i = data.length ∧
      PlacedInv data st2.maps st2.curs st2.cur st2.i base2 ∧
      PatchInv data st2.maps st2.inv st2.i base2 := by
  intro rest
  induction rest with
  | nil =>
    intro done st base hdata hi inv pinv
    refine ⟨st, base, rfl, ?_, inv, pinv⟩
    rw [hi, hdata]; simp
  | cons edges rest ih =>
    intro done st base hdata hi inv pinv
    have hget : data.getD st.i [] = edges := by
      rw [hdata, hi]; exact getD_append_cons done rest edges []
    have hlt : st.i < data.length := by rw [hdata, hi]; simp
    obtain ⟨st2, base2, h1, h2, h3, h4⟩ := with_step_spec data hd ht st base inv pinv hlt
    rw [hget] at h1
    obtain ⟨st3, base3, g1, g2, g3, g4⟩ := ih (done ++ [edges]) st2 base2
      (by rw [hdata]; simp) (by rw [h2, hi]; simp) h3 h4
    refine ⟨st3, base3, ?_, g2, g3, g4⟩
    simp only [with_loop, h1]
    exact g1

/-- C6 (double-array lookup with reindexing). For every adjacency list whose
labels are pairwise distinct per node and non-zero and whose edges `(u, v)` all
have `u < v < n` (so the high bit is clear), `construct_with_reindexing` returns
arrays and one base per node such that distinct nodes have distinct bases,
`search(base(u), c) = base(v)` for every edge `(c, v)` of node `u`, and
`search(base(u), c) = NOT_FOUND` for every non-zero byte `c` that labels no
edge of `u` and has `base(u) + c` inside the arrays. -/
theorem construct_with_reindexing_correct (data : Adjacency) (hd : LabelsOk data)
    (ht : TopoOk data) :
    ∃ maps base, construct_with_reindexing data = some (maps, base) ∧
      base.length = data.length ∧
      (∀ u v, u < data.length → v < data.length → u ≠ v → base.getD u 0 ≠ base.getD v 0) ∧
      ∀ u, u < data.length →
        (∀ c v, (c, v) ∈ data.getD u [] →
          maps.search (base.getD u 0) c = base.getD v.toNat 0) ∧
        (∀ c, c ≠ NULL_CHAR → (∀ v, (c, v) ∉ data.getD u []) →
          base.getD u 0 + c.val < maps.size → maps.search (base.getD u 0) c = NOT_FOUND) := by
  obtain ⟨st, base, h1, h2, inv, pinv⟩ := with_loop_spec data hd ht data []
    { maps := DoubleArrayMaps.mk0 data.length, inv := List.replicate data.length [],
      curs := List.replicate data.length 0, cur := 0, i := 0 } (fun _ => 0) rfl rfl
    (placed_init data)
    ⟨by simp, fun u hu => by simp only [] at hu; omega, fun u hu => by simp only [] at hu; omega,
      fun w cell hc => by
        exfalso
        simp only [List.getD_eq_getElem?_getD] at hc
        by_cases hw : w < data.length
        · simp [List.getElem?_replicate, hw] at hc
        · simp [List.getElem?_replicate, hw] at hc⟩
  refine ⟨st.maps, st.curs, ?_, inv.curs_len, ?_, ?_⟩
  · unfold construct_with_reindexing
    rw [h1]
  · intro u v hu hv huv heq
    rw [inv.curs_eq u (by omega), inv.curs_eq v (by omega)] at heq
    exact huv (placed_base_inj data st.maps st.curs st.cur st.i base inv u v (by omega)
      (by omega) (by exact_mod_cast heq))
  · intro u hu
    rw [inv.curs_eq u (by omega)]
    constructor
    · intro c v he
      have hv := ht u hu _ he
      simp only [] at hv
      have hvn : v.toNat < st.i := by omega
      rw [search_eq, (inv.owned u (by omega) _ he).2, if_pos rfl, inv.curs_eq _ hvn]
      exact pinv.patched u (by omega) _ he hvn
    · intro c hc hno _
      exact placed_not_found data st.maps st.curs st.cur st.i base inv u (by omega) c hc hno

/-- C6 at a concrete input: the four-state automaton of `{ab, ba}` with the
letters as bytes 5 and 3. -/
theorem construct_with_reindexing_correct_witness :
    ∃ maps base,
      construct_with_reindexing [[(3, 2), (5, 1)], [(3, 3)], [(5, 3)], []] = some (maps, base) ∧
      maps.search (base.getD 0 0) 5 = base.getD 1 0 := by
  obtain ⟨maps, base, h1, _, _, h3⟩ := construct_with_reindexing_correct
    [[(3, 2), (5, 1)], [(3, 3)], [(5, 3)], []] (by decide) (by decide)
  exact ⟨maps, base, h1, (h3 0 (by decide)).1 5 1 (by decide)⟩

/-! ## The map-per-node backend and the reference trie -/

theorem STLMap.search_insert (k : Byte) (v : Int) (k2 : Byte) : ∀ (m : STLMap),
    STLMap.search (STLMap.insert m k v) k2 = if k2 = k then v else STLMap.search m k2 := by
  intro m
  induction m with
  | nil =>
    simp only [STLMap.insert, STLMap.search]
    by_cases h : k = k2
    · simp [h]
    · simp [h, Ne.symm h]
  | cons e rest ih =>
    obtain ⟨k0, v0⟩ := e
    simp only [STLMap.insert]
    by_cases h1 : k < k0
    · rw [if_pos h1]
      simp only [STLMap.search]
      by_cases h : k = k2
      · simp [h]
      · simp [h, Ne.symm h]
    · rw [if_neg h1]
      by_cases h2 : k = k0
      · rw [if_pos h2]
        subst h2
        simp only [STLMap.search]
        by_cases h : k = k2
        · simp [h]
        · simp [h, Ne.symm h]
      · rw [if_neg h2]
        simp only [STLMap.search, ih]
        by_cases h : k2 = k
        · subst h
          simp [Ne.symm h2]
        · simp [h]

theorem STLMap.mem_insert (k : Byte) (v : Int) (e : Byte × Int) : ∀ (m : STLMap),
    (∀ x ∈ m, x.1 ≠ k) → (e ∈ STLMap.insert m k v ↔ e = (k, v) ∨ e ∈ m) := by
  intro m
  induction m with
  | nil => intro _; simp [STLMap.insert]
  | cons x rest ih =>
    intro habs
    obtain ⟨k0, v0⟩ := x
    have hk0 : k0 ≠ k := habs (k0, v0) (List.mem_cons_self _ _)
    simp only [STLMap.insert]
    by_cases h1 : k < k0
    · rw [if_pos h1]; simp
    · rw [if_neg h1, if_neg (Ne.symm hk0)]
      simp only [List.mem_cons]
      rw [ih (fun x hx => habs x (List.mem_cons_of_mem _ hx))]
      tauto

theorem STLMap.sorted_insert (k : Byte) (v : Int) : ∀ (m : STLMap),
    m.Pairwise (fun a b => a.1 < b.1) → (∀ x ∈ m, x.1 ≠ k) →
    (STLMap.insert m k v).Pairwise (fun a b => a.1 < b.1) := by
  intro m
  induction m with
  | nil => intro _ _; simp [STLMap.insert]
  | cons x rest ih =>
    intro hs habs
    obtain ⟨k0, v0⟩ := x
    have hk0 : k0 ≠ k := habs (k0, v0) (List.mem_cons_self _ _)
    have hrest : ∀ x ∈ rest, x.1 ≠ k := fun x hx => habs x (List.mem_cons_of_mem _ hx)
    rw [List.pairwise_cons] at hs
    simp only [STLMap.insert]
    by_cases h1 : k < k0
    · rw [if_pos h1]
      refine List.Pairwise.cons ?_ (List.Pairwise.cons hs.1 hs.2)
      intro b hb
      rcases List.mem_cons.mp hb with rfl | hb
      · exact h1
      · exact lt_trans h1 (hs.1 b hb)
    · rw [if_neg h1, if_neg (Ne.symm hk0)]
      refine List.Pairwise.cons ?_ (ih hs.2 hrest)
      intro b hb
      rcases (STLMap.mem_insert k v b rest hrest).mp hb with rfl | hb
      · exact lt_of_le_of_ne (not_lt.mp h1) hk0
      · exact hs.1 b hb

theorem STLMap.search_mem (k : Byte) : ∀ (m : STLMap),
    STLMap.search m k ≠ NOT_FOUND → (k, STLMap.search m k) ∈ m := by
  intro m
  induction m with
  | nil => intro h; exact absurd rfl h
  | cons x rest ih =>
    obtain ⟨k0, v0⟩ := x
    simp only [STLMap.search]
    by_cases h : k0 = k
    · subst h; simp
    · simp only [if_neg h]
      intro hne
      exact List.mem_cons_of_mem _ (ih hne)

theorem STLMap.search_absent (k : Byte) : ∀ (m : STLMap),
    (∀ x ∈ m, x.1 ≠ k) → STLMap.search m k = NOT_FOUND := by
  intro m
  induction m with
  | nil => intro _; rfl
  | cons x rest ih =>
    intro habs
    obtain ⟨k0, v0⟩ := x
    simp only [STLMap.search]
    rw [if_neg (habs (k0, v0) (List.mem_cons_self _ _))]
    exact ih (fun x hx => habs x (List.mem_cons_of_mem _ hx))

theorem STLMap.mem_search (k : Byte) (v : Int) : ∀ (m : STLMap),
    m.Pairwise (fun a b => a.1 < b.1) → (k, v) ∈ m → STLMap.search m k = v := by
  intro m
  induction m with
  | nil => intro _ h; simp at h
  | cons x rest ih =>
    intro hs hmem
    obtain ⟨k0, v0⟩ := x
    rw [List.pairwise_cons] at hs
    simp only [STLMap.search]
    rcases List.mem_cons.mp hmem with h | h
    · simp only [Prod.mk.injEq] at h
      simp [h.1, h.2]
    · have := hs.1 _ h
      simp only [] at this
      rw [if_neg (ne_of_lt this), ih hs.2 h]

theorem MapVector.at_nat (maps : MapVector) (u : Nat) :
    MapVector.at maps (u : Int) = maps.getD u [] := by
  simp [MapVector.at]

theorem MapVector.at_neg (maps : MapVector) (x : Int) (h : x < 0) :
    MapVector.at maps x = [] := by
  unfold MapVector.at
  rw [if_neg (by omega)]

theorem MapVector.search_nat (maps : MapVector) (u : Nat) (c : Byte) :
    MapVector.search maps (u : Int) c = STLMap.search (maps.getD u []) c := by
  simp [MapVector.search, MapVector.at_nat]

theorem walk_append (maps : MapVector) : ∀ (s1 s2 : List Byte) (node : Int),
    walk maps node (s1 ++ s2) = (walk maps node s1).bind (fun m => walk maps m s2) := by
  intro s1
  induction s1 with
  | nil => intro s2 node; simp [walk]
  | cons c s1 ih =>
    intro s2 node
    simp only [List.cons_append, walk]
    split
    · rfl
    · exact ih s2 _

theorem walk_snoc (maps : MapVector) (s : List Byte) (c : Byte) (node n : Int) :
    walk maps node (s ++ [c]) = some n ↔
      ∃ p, walk maps node s = some p ∧ MapVector.search maps p c = n ∧ n ≠ NOT_FOUND := by
  rw [walk_append]
  cases h : walk maps node s with
  | none => simp
  | some p =>
    simp only [Option.some_bind, walk, Option.some.injEq, exists_eq_left']
    by_cases hn : MapVector.search maps p c = NOT_FOUND
    · simp only [if_pos hn]
      constructor
      · intro h2; simp at h2
      · rintro ⟨h2, h3⟩
        rw [hn] at h2
        exact absurd h2.symm h3
    · simp only [if_neg hn, Option.some.injEq]
      constructor
      · intro h2; exact ⟨h2, h2 ▸ hn⟩
      · rintro ⟨h2, _⟩; exact h2

theorem search_from_eq_walk (maps : MapVector) : ∀ (s : List Byte) (node : Int),
    BaseTrie.search_from maps node s =
      match walk maps node s with
      | none => false
      | some n => MapVector.outdegree maps n == 0 := by
  intro s
  induction s with
  | nil => intro node; simp [BaseTrie.search_from, walk]
  | cons c s ih =>
    intro node
    simp only [BaseTrie.search_from, walk]
    split
    · rfl
    · exact ih _

theorem trie_edge_mem (t : BaseTrie) (inv : TrieInv t) (u : Nat) (e : Byte × Int)
    (he : e ∈ t.maps.getD u []) : u < t.node_count := by
  by_contra hcon
  rw [List.getD_eq_default _ _ (by rw [inv.len]; omega)] at he
  simp at he

theorem trie_search_found (t : BaseTrie) (inv : TrieInv t) (u : Nat) (c : Byte)
    (h : MapVector.search t.maps (u : Int) c ≠ NOT_FOUND) :
    (c, MapVector.search t.maps (u : Int) c) ∈ t.maps.getD u [] ∧ u < t.node_count ∧
    (u : Int) < MapVector.search t.maps (u : Int) c ∧
    MapVector.search t.maps (u : Int) c < (t.node_count : Int) := by
  rw [MapVector.search_nat] at h ⊢
  have hm := STLMap.search_mem c _ h
  have hu := trie_edge_mem t inv u _ hm
  have := inv.edge_up u hu _ hm
  exact ⟨hm, hu, this.1, this.2⟩

theorem trie_search_not_found (t : BaseTrie) (inv : TrieInv t) (u : Nat) (c : Byte) :
    MapVector.search t.maps (u : Int) c = NOT_FOUND ↔ ∀ e ∈ t.maps.getD u [], e.1 ≠ c := by
  constructor
  · intro h e he hc
    have hu := trie_edge_mem t inv u e he
    have hs := STLMap.mem_search e.1 e.2 _ (inv.sorted u hu) he
    rw [MapVector.search_nat, ← hc, hs] at h
    have := (inv.edge_up u hu e he).1
    unfold NOT_FOUND at h
    omega
  · intro h
    rw [MapVector.search_nat]
    exact STLMap.search_absent c _ h

theorem trie_mem_search (t : BaseTrie) (inv : TrieInv t) (u : Nat) (e : Byte × Int)
    (he : e ∈ t.maps.getD u []) : MapVector.search t.maps (u : Int) e.1 = e.2 := by
  rw [MapVector.search_nat]
  exact STLMap.mem_search e.1 e.2 _ (inv.sorted u (trie_edge_mem t inv u e he)) he

/-- A walk in the trie climbs by at least one id per byte. -/
theorem walk_range (t : BaseTrie) (inv : TrieInv t) : ∀ (s : List Byte) (u : Nat) (n : Int),
    u < t.node_count → walk t.maps (u : Int) s = some n →
    ∃ w : Nat, n = (w : Int) ∧ u + s.length ≤ w ∧ w < t.node_count := by
  intro s
  induction s with
  | nil =>
    intro u n hu h
    simp only [walk, Option.some.injEq] at h
    exact ⟨u, h.symm, by simp, hu⟩
  | cons c s ih =>
    intro u n hu h
    simp only [walk] at h
    split at h
    · simp at h
    · rename_i hne
      obtain ⟨_, _, h3, h4⟩ := trie_search_found t inv u c hne
      have hx : MapVector.search t.maps (u : Int) c
          = ((MapVector.search t.maps (u : Int) c).toNat : Int) := by omega
      rw [hx] at h
      obtain ⟨w, hw1, hw2, hw3⟩ := ih _ n (by omega) h
      refine ⟨w, hw1, ?_, hw3⟩
      simp only [List.length_cons]
      omega

theorem walk_inj (t : BaseTrie) (inv : TrieInv t) : ∀ (s1 s2 : List Byte) (n : Int),
    walk t.maps 0 s1 = some n → walk t.maps 0 s2 = some n → s1 = s2 := by
  intro s1
  induction s1 using List.reverseRecOn with
  | nil =>
    intro s2 n h1 h2
    simp only [walk, Option.some.injEq] at h1
    subst h1
    obtain ⟨w, hw1, hw2, _⟩ := walk_range t inv s2 0 0 inv.count_pos h2
    have : s2.length = 0 := by omega
    exact (List.length_eq_zero.mp this).symm
  | append_singleton s1 c1 ih =>
    intro s2 n h1 h2
    rcases List.eq_nil_or_concat s2 with rfl | ⟨s2, c2, rfl⟩
    on_goal 2 => rw [List.concat_eq_append] at h2 ⊢
    · simp only [walk, Option.some.injEq] at h2
      subst h2
      obtain ⟨w, hw1, hw2, _⟩ := walk_range t inv (s1 ++ [c1]) 0 0 inv.count_pos h1
      simp at hw2
      omega
    · obtain ⟨p1, hp1, hs1, hn1⟩ := (walk_snoc _ _ _ _ _).mp h1
      obtain ⟨p2, hp2, hs2, hn2⟩ := (walk_snoc _ _ _ _ _).mp h2
      obtain ⟨w1, hw1, _, hw1b⟩ := walk_range t inv s1 0 p1 inv.count_pos hp1
      obtain ⟨w2, hw2, _, hw2b⟩ := walk_range t inv s2 0 p2 inv.count_pos hp2
      subst hw1 hw2
      rw [← hs1] at hn1
      rw [← hs2] at hn2
      obtain ⟨m1, _, _, _⟩ := trie_search_found t inv w1 c1 hn1
      obtain ⟨m2, _, _, _⟩ := trie_search_found t inv w2 c2 hn2
      obtain ⟨e1, e2⟩ := inv.parent_unique w1 w2 _ _ hw1b hw2b m1 m2 (by rw [hs1, hs2])
      subst e1
      have hc : c1 = c2 := (Prod.mk.injEq _ _ _ _ ▸ e2).1
      subst hc
      rw [ih s2 _ hp1 hp2]

theorem add_edge_length (maps : MapVector) (n : Nat) (u : Int) (ch : Byte) (v : Int) :
    (MapVector.insert (MapVector.extend maps n) u ch v).length = n := by
  unfold MapVector.insert MapVector.extend
  split <;> simp [length_resize]

theorem add_edge_getD (maps : MapVector) (u : Nat) (hu : u < maps.length) (ch : Byte) (v : Int)
    (w : Nat) :
    (MapVector.insert (MapVector.extend maps (maps.length + 1)) (u : Int) ch v).getD w []
      = if w = u then STLMap.insert (maps.getD u []) ch v else maps.getD w [] := by
  unfold MapVector.insert
  have h0 : (0 : Int) ≤ (u : Int) := by omega
  rw [if_pos h0, MapVector.at_nat]
  have hext : ∀ p, (MapVector.extend maps (maps.length + 1)).getD p [] = maps.getD p [] :=
    fun p => getD_resize maps _ [] (by omega) p
  have e : (u : Int).toNat = u := by omega
  rw [e, hext]
  by_cases hw : w = u
  · subst hw
    rw [if_pos rfl]
    exact getD_set_same _ _ _ _ (by unfold MapVector.extend; rw [length_resize]; omega)
  · rw [if_neg hw, getD_set_other _ _ _ _ _ (Ne.symm hw), hext]

/-- Adding a fresh leaf below node `u` keeps the shape of the trie. -/
theorem add_edge_inv (t : BaseTrie) (inv : TrieInv t) (u : Nat) (hu : u < t.node_count)
    (ch : Byte) (habs : MapVector.search t.maps (u : Int) ch = NOT_FOUND) :
    TrieInv { node_count := t.node_count + 1,
              maps := MapVector.insert (MapVector.extend t.maps (t.node_count + 1)) (u : Int) ch
                (t.node_count : Int) } := by
  have hlen := inv.len
  have hu2 : u < t.maps.length := by omega
  have hget : ∀ w, (MapVector.insert (MapVector.extend t.maps (t.node_count + 1)) (u : Int) ch
      (t.node_count : Int)).getD w []
      = if w = u then STLMap.insert (t.maps.getD u []) ch (t.node_count : Int)
        else t.maps.getD w [] := by
    intro w
    have := add_edge_getD t.maps u hu2 ch (t.node_count : Int) w
    rw [hlen] at this
    exact this
  have habs2 := (trie_search_not_found t inv u ch).mp habs
  have hmem : ∀ w e, e ∈ (MapVector.insert (MapVector.extend t.maps (t.node_count + 1)) (u : Int)
      ch (t.node_count : Int)).getD w [] ↔
      (w = u ∧ e = (ch, (t.node_count : Int))) ∨ e ∈ t.maps.getD w [] := by
    intro w e
    rw [hget]
    by_cases hw : w = u
    · subst hw
      simp only [if_true, true_and]
      exact STLMap.mem_insert ch _ e _ habs2
    · simp [hw]
  refine ⟨by simp, by simp only []; exact add_edge_length _ _ _ _ _, ?_, ?_, ?_, ?_⟩
  · intro w hw e he
    simp only [] at hw he ⊢
    rcases (hmem w e).mp he with ⟨rfl, rfl⟩ | h
    · simp only []
      push_cast
      omega
    · have := inv.edge_up w (trie_edge_mem t inv w e h) e h
      push_cast
      omega
  · intro w1 w2 e1 e2 _ _ he1 he2 heq
    simp only [] at he1 he2
    rcases (hmem w1 e1).mp he1 with ⟨rfl, rfl⟩ | h1 <;>
      rcases (hmem w2 e2).mp he2 with ⟨rfl, rfl⟩ | h2
    · exact ⟨rfl, rfl⟩
    · have := inv.edge_up w2 (trie_edge_mem t inv w2 e2 h2) e2 h2
      simp only [] at heq
      omega
    · have := inv.edge_up w1 (trie_edge_mem t inv w1 e1 h1) e1 h1
      simp only [] at heq
      omega
    · exact inv.parent_unique w1 w2 e1 e2 (trie_edge_mem t inv w1 e1 h1)
        (trie_edge_mem t inv w2 e2 h2) h1 h2 heq
  · intro v hv0 hv
    simp only [] at hv ⊢
    by_cases hvn : v = t.node_count
    · subst hvn
      exact ⟨u, by omega, (ch, (t.node_count : Int)), (hmem u _).mpr (Or.inl ⟨rfl, rfl⟩), rfl⟩
    · obtain ⟨p, hp, e, he, hev⟩ := inv.has_parent v hv0 (by omega)
      exact ⟨p, by omega, e, (hmem p e).mpr (Or.inr he), hev⟩
  · intro w hw
    simp only [] at hw ⊢
    rw [hget]
    by_cases hwu : w = u
    · subst hwu
      rw [if_pos rfl]
      exact STLMap.sorted_insert ch _ _ (inv.sorted w hu) habs2
    · rw [if_neg hwu]
      by_cases hwn : w < t.node_count
      · exact inv.sorted w hwn
      · rw [List.getD_eq_default _ _ (by omega)]
        exact List.Pairwise.nil

theorem add_edge_search (t : BaseTrie) (inv : TrieInv t) (u : Nat) (hu : u < t.node_count)
    (ch : Byte) (w : Nat) (c : Byte) :
    MapVector.search (MapVector.insert (MapVector.extend t.maps (t.node_count + 1)) (u : Int) ch
        (t.node_count : Int)) (w : Int) c
      = if w = u ∧ c = ch then (t.node_count : Int) else MapVector.search t.maps (w : Int) c := by
  rw [MapVector.search_nat, MapVector.search_nat]
  have := add_edge_getD t.maps u (by rw [inv.len]; exact hu) ch (t.node_count : Int) w
  rw [inv.len] at this
  rw [this]
  by_cases hw : w = u
  · subst hw
    simp only [if_true, true_and]
    exact STLMap.search_insert ch _ c _
  · simp [hw]

theorem walk_new_of_old (t : BaseTrie) (inv : TrieInv t) (u : Nat) (hu : u < t.node_count)
    (ch : Byte) (habs : MapVector.search t.maps (u : Int) ch = NOT_FOUND) :
    ∀ (s : List Byte) (w : Nat) (n : Int), walk t.maps (w : Int) s = some n →
    walk (MapVector.insert (MapVector.extend t.maps (t.node_count + 1)) (u : Int) ch
      (t.node_count : Int)) (w : Int) s = some n := by
  intro s
  induction s with
  | nil => intro w n h; simpa [walk] using h
  | cons c s ih =>
    intro w n h
    simp only [walk] at h ⊢
    split at h
    · simp at h
    · rename_i hne
      obtain ⟨_, _, h3, h4⟩ := trie_search_found t inv w c hne
      have hsame : MapVector.search (MapVector.insert (MapVector.extend t.maps (t.node_count + 1))
          (u : Int) ch (t.node_count : Int)) (w : Int) c = MapVector.search t.maps (w : Int) c := by
        rw [add_edge_search t inv u hu ch w c]
        split
        · rename_i hc
          rw [hc.1, hc.2] at hne
          exact absurd habs hne
        · rfl
      rw [hsame, if_neg hne]
      have hx : MapVector.search t.maps (w : Int) c
          = ((MapVector.search t.maps (w : Int) c).toNat : Int) := by omega
      rw [hx] at h ⊢
      exact ih _ n h

theorem walk_old_of_new (t : BaseTrie) (inv : TrieInv t) (u : Nat) (hu : u < t.node_count)
    (ch : Byte) (pre : List Byte) (hpre : walk t.maps 0 pre = some (u : Int)) :
    ∀ (s : List Byte) (n : Int),
    walk (MapVector.insert (MapVector.extend t.maps (t.node_count + 1)) (u : Int) ch
      (t.node_count : Int)) 0 s = some n →
    walk t.maps 0 s = some n ∨ (s = pre ++ [ch] ∧ n = (t.node_count : Int)) := by
  intro s
  induction s using List.reverseRecOn with
  | nil => intro n h; left; simpa [walk] using h
  | append_singleton s0 c ih =>
    intro n h
    obtain ⟨p, hp, hs, hn⟩ := (walk_snoc _ _ _ _ _).mp h
    rcases ih p hp with hold | ⟨_, hpn⟩
    · obtain ⟨w, hw1, _, hw3⟩ := walk_range t inv s0 0 p inv.count_pos hold
      subst hw1
      rw [add_edge_search t inv u hu ch w c] at hs
      split at hs
      · rename_i hc
        right
        have hwu : w = u := hc.1
        subst hwu
        rw [walk_inj t inv s0 pre _ hold hpre, hc.2]
        exact ⟨rfl, hs.symm⟩
      · left
        exact (walk_snoc _ _ _ _ _).mpr ⟨_, hold, hs, hn⟩
    · exfalso
      subst hpn
      rw [add_edge_search t inv u hu ch t.node_count c] at hs
      have hne : ¬ (t.node_count = u ∧ c = ch) := by omega
      rw [if_neg hne, MapVector.search_nat,
        List.getD_eq_default _ _ (by rw [inv.len])] at hs
      exact hn hs.symm

/-- One round of the insertion loop: the trie keeps its shape, the walk along
the consumed bytes ends in the new current node, and the only walk that is new
is the one along the consumed bytes. -/
theorem insert_char_spec (t : BaseTrie) (inv : TrieInv t) (pre : List Byte) (u : Nat)
    (hu : u < t.node_count) (hpre : walk t.maps 0 pre = some (u : Int)) (ch : Byte) :
    TrieInv (BaseTrie.insert_char (t, (u : Int)) ch).1 ∧
    (∃ u2 : Nat, (BaseTrie.insert_char (t, (u : Int)) ch).2 = (u2 : Int) ∧
      u2 < (BaseTrie.insert_char (t, (u : Int)) ch).1.node_count ∧
      walk (BaseTrie.insert_char (t, (u : Int)) ch).1.maps 0 (pre ++ [ch]) = some (u2 : Int)) ∧
    (∀ s, (walk (BaseTrie.insert_char (t, (u : Int)) ch).1.maps 0 s).isSome ↔
      ((walk t.maps 0 s).isSome ∨ s = pre ++ [ch])) := by
  unfold BaseTrie.insert_char
  simp only []
  by_cases habs : MapVector.search t.maps (u : Int) ch = NOT_FOUND
  · rw [if_pos habs]
    simp only []
    have hnew : walk (MapVector.insert (MapVector.extend t.maps (t.node_count + 1)) (u : Int) ch
        (t.node_count : Int)) 0 (pre ++ [ch]) = some (t.node_count : Int) := by
      refine (walk_snoc _ _ _ _ _).mpr ⟨(u : Int), ?_, ?_, ?_⟩
      · exact walk_new_of_old t inv u hu ch habs pre 0 _ hpre
      · rw [add_edge_search t inv u hu ch u ch]; simp
      · unfold NOT_FOUND; omega
    refine ⟨add_edge_inv t inv u hu ch habs, ⟨t.node_count, rfl, by omega, hnew⟩, ?_⟩
    intro s
    constructor
    · intro h
      obtain ⟨n, hn⟩ := Option.isSome_iff_exists.mp h
      rcases walk_old_of_new t inv u hu ch pre hpre s n hn with h1 | ⟨h1, _⟩
      · left; rw [h1]; rfl
      · right; exact h1
    · rintro (h | h)
      · obtain ⟨n, hn⟩ := Option.isSome_iff_exists.mp h
        have := walk_new_of_old t inv u hu ch habs s 0 n hn
        simp only [Nat.cast_zero] at this
        rw [this]; rfl
      · rw [h, hnew]; rfl
  · rw [if_neg habs]
    simp only []
    obtain ⟨_, _, h3, h4⟩ := trie_search_found t inv u ch habs
    have hx : MapVector.search t.maps (u : Int) ch
        = ((MapVector.search t.maps (u : Int) ch).toNat : Int) := by omega
    have hnew : walk t.maps 0 (pre ++ [ch]) = some (MapVector.search t.maps (u : Int) ch) :=
      (walk_snoc _ _ _ _ _).mpr ⟨(u : Int), hpre, rfl, habs⟩
    refine ⟨inv, ⟨_, hx, by omega, by rw [← hx]; exact hnew⟩, ?_⟩
    intro s
    constructor
    · intro h; exact Or.inl h
    · rintro (h | h)
      · exact h
      · rw [h, hnew]; rfl

theorem walk_isSome_prefix (maps : MapVector) (s1 s2 : List Byte) (node : Int)
    (h : (walk maps node (s1 ++ s2)).isSome) : (walk maps node s1).isSome := by
  rw [walk_append] at h
  cases h1 : walk maps node s1 with
  | none => rw [h1] at h; simp at h
  | some _ => rfl

theorem insert_fold_spec : ∀ (suf pre : List Byte) (t : BaseTrie) (u : Nat), TrieInv t →
    u < t.node_count → walk t.maps 0 pre = some (u : Int) →
    TrieInv (suf.foldl BaseTrie.insert_char (t, (u : Int))).1 ∧
    (∀ s, (walk (suf.foldl BaseTrie.insert_char (t, (u : Int))).1.maps 0 s).isSome ↔
      ((walk t.maps 0 s).isSome ∨ s <+: pre ++ suf)) := by
  intro suf
  induction suf with
  | nil =>
    intro pre t u inv hu hpre
    refine ⟨inv, fun s => ⟨fun h => Or.inl h, ?_⟩⟩
    rintro (h | ⟨r, hr⟩)
    · exact h
    · simp only [List.append_nil] at hr
      apply walk_isSome_prefix t.maps s r
      rw [hr, hpre]; rfl
  | cons ch suf ih =>
    intro pre t u inv hu hpre
    obtain ⟨h1, ⟨u2, hu2, hu2b, hw2⟩, h3⟩ := insert_char_spec t inv pre u hu hpre ch
    simp only [List.foldl_cons]
    have hst : BaseTrie.insert_char (t, (u : Int)) ch
        = ((BaseTrie.insert_char (t, (u : Int)) ch).1, (u2 : Int)) := by
      rw [← hu2]
    rw [hst]
    obtain ⟨g1, g2⟩ := ih (pre ++ [ch]) _ u2 h1 hu2b hw2
    refine ⟨g1, ?_⟩
    intro s
    rw [g2 s, h3 s]
    have e : pre ++ [ch] ++ suf = pre ++ ch :: suf := by simp
    rw [e]
    constructor
    · rintro ((h | h) | h)
      · exact Or.inl h
      · right; rw [h]; exact ⟨suf, by simp⟩
      · exact Or.inr h
    · rintro (h | h)
      · exact Or.inl (Or.inl h)
      · exact Or.inr h

/-- `BaseTrie::insert` keeps the shape of the trie and adds the prefixes of
`line` to the strings that can be walked from the root. -/
theorem insert_spec (t : BaseTrie) (inv : TrieInv t) (line : List Byte) :
    TrieInv (t.insert line) ∧
    (∀ s, (walk (t.insert line).maps 0 s).isSome ↔ ((walk t.maps 0 s).isSome ∨ s <+: line)) := by
  have := insert_fold_spec line [] t 0 inv inv.count_pos (by simp [walk])
  simpa [BaseTrie.insert] using this

theorem trieInv_init : TrieInv { node_count := 1, maps := MapVector.mk 1 } := by
  refine ⟨le_refl _, by simp [MapVector.mk], ?_, ?_, ?_, ?_⟩
  · intro u hu e he
    simp only [] at hu
    have : u = 0 := by omega
    subst this
    simp [MapVector.mk] at he
  · intro u v e1 e2 hu _ he1
    simp only [] at hu
    have : u = 0 := by omega
    subst this
    simp [MapVector.mk] at he1
  · intro v h0 hv
    simp only [] at hv
    omega
  · intro u hu
    simp only [] at hu
    have : u = 0 := by omega
    subst this
    simp [MapVector.mk]

theorem construct_fold_spec : ∀ (D : List (List Byte)) (t : BaseTrie), TrieInv t →
    TrieInv (D.foldl BaseTrie.insert t) ∧
    (∀ s, (walk (D.foldl BaseTrie.insert t).maps 0 s).isSome ↔
      ((walk t.maps 0 s).isSome ∨ ∃ d ∈ D, s <+: d)) := by
  intro D
  induction D with
  | nil => intro t inv; simp [inv]
  | cons d D ih =>
    intro t inv
    obtain ⟨h1, h2⟩ := insert_spec t inv d
    obtain ⟨g1, g2⟩ := ih (t.insert d) h1
    simp only [List.foldl_cons]
    refine ⟨g1, ?_⟩
    intro s
    rw [g2 s, h2 s]
    simp only [List.mem_cons, exists_eq_or_imp]
    tauto

/-- The trie of `D` has the shape of a trie, and the strings that can be walked
from its root are the empty string and the prefixes of the strings of `D`. -/
theorem construct_spec (D : List (List Byte)) :
    TrieInv (BaseTrie.construct D) ∧
    (∀ s, (walk (BaseTrie.construct D).maps 0 s).isSome ↔ (s = [] ∨ ∃ d ∈ D, s <+: d)) := by
  obtain ⟨h1, h2⟩ := construct_fold_spec D _ trieInv_init
  refine ⟨h1, ?_⟩
  intro s
  unfold BaseTrie.construct
  rw [h2 s]
  have hinit : (walk (MapVector.mk 1) 0 s).isSome ↔ s = [] := by
    cases s with
    | nil => simp [walk]
    | cons c s =>
      have : MapVector.search (MapVector.mk 1) 0 c = NOT_FOUND := by
        simp [MapVector.search, MapVector.at, MapVector.mk, STLMap.search]
      simp [walk, this]
  rw [hinit]

/-- What `BaseTrie::search` accepts, for any list of strings: the walkable
strings that cannot be extended by a byte. -/
theorem trie_accept_iff (D : List (List Byte)) (s : List Byte) :
    (BaseTrie.construct D).search s = true ↔
      ((s = [] ∨ ∃ d ∈ D, s <+: d) ∧ ∀ c, ¬ ∃ d ∈ D, s ++ [c] <+: d) := by
  obtain ⟨inv, hdom⟩ := construct_spec D
  unfold BaseTrie.search
  rw [search_from_eq_walk]
  constructor
  · intro h
    cases hw : walk (BaseTrie.construct D).maps 0 s with
    | none => rw [hw] at h; simp at h
    | some n =>
      rw [hw] at h
      simp only [beq_iff_eq] at h
      refine ⟨(hdom s).mp (by rw [hw]; rfl), ?_⟩
      intro c hc
      have hsome := (hdom (s ++ [c])).mpr (Or.inr hc)
      obtain ⟨m, hm⟩ := Option.isSome_iff_exists.mp hsome
      obtain ⟨p, hp, hs, hn⟩ := (walk_snoc _ _ _ _ _).mp hm
      rw [hw] at hp
      have hpn : n = p := Option.some.inj hp
      subst hpn
      rw [← hs] at hn
      have := STLMap.search_mem c _ hn
      unfold MapVector.outdegree STLMap.outdegree at h
      rw [List.length_eq_zero.mp h] at this
      simp at this
  · rintro ⟨h1, h2⟩
    obtain ⟨n, hn⟩ := Option.isSome_iff_exists.mp ((hdom s).mpr h1)
    rw [hn]
    simp only [beq_iff_eq]
    obtain ⟨w, hw1, _, hw3⟩ := walk_range _ inv s 0 n inv.count_pos hn
    subst hw1
    unfold MapVector.outdegree STLMap.outdegree
    rw [MapVector.at_nat]
    cases hm : (BaseTrie.construct D).maps.getD w [] with
    | nil => rfl
    | cons e rest =>
      exfalso
      have he : e ∈ (BaseTrie.construct D).maps.getD w [] := by rw [hm]; simp
      have hs := trie_mem_search _ inv w e he
      have hup := (inv.edge_up w hw3 e he).1
      have hwalk : walk (BaseTrie.construct D).maps 0 (s ++ [e.1]) = some e.2 :=
        (walk_snoc _ _ _ _ _).mpr ⟨_, hn, hs, by unfold NOT_FOUND; omega⟩
      rcases (hdom (s ++ [e.1])).mp (by rw [hwalk]; rfl) with h | h
      · simp at h
      · exact h2 e.1 h

theorem wellFormed_ne_nil (s : List Byte) (h : WellFormed s) : s ≠ [] := by
  intro hs
  subst hs
  simp [WellFormed] at h

theorem wellFormed_eow_mem (s : List Byte) (h : WellFormed s) : EOW ∈ s :=
  List.mem_of_getLast?_eq_some h.1

/-- A well-formed string is a prefix of no other well-formed string. -/
theorem wellFormed_prefix_eq (s d : List Byte) (hs : WellFormed s) (hd : WellFormed d)
    (h : s <+: d) : s = d := by
  obtain ⟨r, hr⟩ := h
  cases r with
  | nil => simpa using hr
  | cons c r =>
    exfalso
    apply hd.2
    rw [← hr, List.dropLast_append_of_ne_nil _ (by simp)]
    exact List.mem_append_left _ (wellFormed_eow_mem s hs)

/-- The trie of a non-empty well-formed dictionary accepts its strings and no
other string. -/
theorem trie_search_mem_iff (D : List (List Byte)) (hne : D ≠ [])
    (hwf : ∀ d ∈ D, WellFormed d) (s : List Byte) :
    (BaseTrie.construct D).search s = true ↔ s ∈ D := by
  rw [trie_accept_iff]
  constructor
  · rintro ⟨h1, h2⟩
    rcases h1 with h1 | ⟨d, hd, r, hr⟩
    · exfalso
      subst h1
      obtain ⟨d, hd⟩ := List.exists_mem_of_ne_nil D hne
      cases hdd : d with
      | nil => exact wellFormed_ne_nil d (hwf d hd) hdd
      | cons c r => exact h2 c ⟨d, hd, r, by rw [hdd]; simp⟩
    · cases r with
      | nil =>
        simp only [List.append_nil] at hr
        rw [hr]; exact hd
      | cons c r => exact absurd ⟨d, hd, r, by rw [← hr]; simp⟩ (h2 c)
  · intro hs
    refine ⟨Or.inr ⟨s, hs, List.prefix_refl s⟩, ?_⟩
    rintro c ⟨d, hd, r, hr⟩
    have hpre : s <+: d := ⟨[c] ++ r, by rw [← hr]; simp⟩
    have := wellFormed_prefix_eq s d (hwf s hs) (hwf d hd) hpre
    rw [← this] at hr
    have hlen := congrArg List.length hr
    simp at hlen

/-- C1 (BaseTrie membership). For every non-empty list `D` of strings that end
with `EOW` and hold `EOW` nowhere else, and for every byte string `s`,
well-formed or not, `BaseTrie(D).search(s)` is true if and only if `s` is an
element of `D`. -/
theorem BaseTrie_search_iff_mem (D : List (List Byte)) (hne : D ≠ [])
    (hwf : ∀ d ∈ D, WellFormed d) (s : List Byte) :
    (BaseTrie.construct D).search s = true ↔ s ∈ D :=
  trie_search_mem_iff D hne hwf s

/-- C1 at a concrete input: the dictionary `{hello, help, helm}`. -/
theorem BaseTrie_search_iff_mem_witness :
    (BaseTrie.construct [[104, 101, 108, 108, 111, 1], [104, 101, 108, 112, 1],
        [104, 101, 108, 109, 1]]).search [104, 101, 108, 112, 1] = true ↔
      [104, 101, 108, 112, 1] ∈ ([[104, 101, 108, 108, 111, 1], [104, 101, 108, 112, 1],
        [104, 101, 108, 109, 1]] : List (List Byte)) :=
  BaseTrie_search_iff_mem [[104, 101, 108, 108, 111, 1], [104, 101, 108, 112, 1],
    [104, 101, 108, 109, 1]] (by decide) (by decide) [104, 101, 108, 112, 1]

/-! ## The minimal acyclic automaton -/

theorem IdMap.find_insert (k : List (Byte × Int)) (v : Int) (k2 : List (Byte × Int)) :
    ∀ (m : IdMap), IdMap.find (IdMap.insert m k v) k2
      = if k2 = k then some v else IdMap.find m k2 := by
  intro m
  induction m with
  | nil =>
    simp only [IdMap.insert, IdMap.find]
    by_cases h : k = k2
    · simp [h]
    · simp [h, Ne.symm h]
  | cons e rest ih =>
    obtain ⟨k0, v0⟩ := e
    simp only [IdMap.insert]
    by_cases h1 : sig_lt k k0 = true
    · rw [if_pos h1]
      simp only [IdMap.find]
      by_cases h : k = k2
      · simp [h]
      · simp [h, Ne.symm h]
    · rw [if_neg h1]
      by_cases h2 : k = k0
      · rw [if_pos h2]
        subst h2
        simp only [IdMap.find]
        by_cases h : k = k2
        · simp [h]
        · simp [h, Ne.symm h]
      · rw [if_neg h2]
        simp only [IdMap.find, ih]
        by_cases h : k2 = k
        · subst h
          simp [Ne.symm h2]
        · simp [h]

theorem IdMap.insert_perm (k : List (Byte × Int)) (v : Int) : ∀ (m : IdMap),
    (∀ x ∈ m, x.1 ≠ k) → (IdMap.insert m k v).Perm ((k, v) :: m) := by
  intro m
  induction m with
  | nil => intro _; simp [IdMap.insert]
  | cons x rest ih =>
    intro habs
    obtain ⟨k0, v0⟩ := x
    have hk0 : k0 ≠ k := habs (k0, v0) (List.mem_cons_self _ _)
    simp only [IdMap.insert]
    by_cases h1 : sig_lt k k0 = true
    · rw [if_pos h1]
    · rw [if_neg h1, if_neg (Ne.symm hk0)]
      exact ((ih (fun x hx => habs x (List.mem_cons_of_mem _ hx))).cons (k0, v0)).trans
        (List.Perm.swap _ _ _)

theorem IdMap.find_none (k : List (Byte × Int)) : ∀ (m : IdMap),
    IdMap.find m k = none → ∀ x ∈ m, x.1 ≠ k := by
  intro m
  induction m with
  | nil => intro _ x hx; simp at hx
  | cons e rest ih =>
    intro h x hx
    obtain ⟨k0, v0⟩ := e
    simp only [IdMap.find] at h
    split at h
    · simp at h
    · rename_i hne
      rcases List.mem_cons.mp hx with rfl | hx
      · exact hne
      · exact ih h x hx

theorem IdMap.find_mem (k : List (Byte × Int)) (v : Int) : ∀ (m : IdMap),
    IdMap.find m k = some v → (k, v) ∈ m := by
  intro m
  induction m with
  | nil => intro h; simp [IdMap.find] at h
  | cons e rest ih =>
    intro h
    obtain ⟨k0, v0⟩ := e
    simp only [IdMap.find] at h
    split at h
    · rename_i heq
      simp only [Option.some.injEq] at h
      rw [heq, h]; exact List.mem_cons_self _ _
    · exact List.mem_cons_of_mem _ (ih h)

theorem IdMap.mem_find (k : List (Byte × Int)) (v : Int) : ∀ (m : IdMap),
    m.Pairwise (fun a b => a.1 ≠ b.1) → (k, v) ∈ m → IdMap.find m k = some v := by
  intro m
  induction m with
  | nil => intro _ h; simp at h
  | cons e rest ih =>
    intro hs hmem
    obtain ⟨k0, v0⟩ := e
    rw [List.pairwise_cons] at hs
    simp only [IdMap.find]
    rcases List.mem_cons.mp hmem with h | h
    · simp only [Prod.mk.injEq] at h
      simp [h.1, h.2]
    · have := hs.1 _ h
      simp only [] at this
      rw [if_neg this, ih hs.2 h]

theorem getD_set_eq {α : Type} (l : List α) (p q : Nat) (v d : α) (h : p < l.length) :
    (l.set p v).getD q d = if q = p then v else l.getD q d := by
  by_cases hq : q = p
  · subst hq; rw [if_pos rfl]; exact getD_set_same _ _ _ _ h
  · rw [if_neg hq]; exact getD_set_other _ _ _ _ _ (Ne.symm hq)

/-- Writing the class of node `i` does not change the children lists of the
nodes at or after `i`, whose edges lead past `i`. -/
theorem adfa_children_set (data : Adjacency) (ht : TopoOk data) (ids : List Int) (i : Nat)
    (c : Int) (v : Nat) (hv : i ≤ v) (hvn : v < data.length) :
    adfa_children data (ids.set i c) v = adfa_children data ids v := by
  unfold adfa_children
  apply List.map_congr_left
  intro e he
  have := ht v hvn e he
  have hne : i ≠ e.2.toNat := by omega
  rw [getD_set_other _ _ _ _ _ hne]

theorem classInv_init (data : Adjacency) :
    ClassInv data data.length ([], List.replicate data.length NOT_FOUND) := by
  refine ⟨by simp, List.Pairwise.nil, List.Pairwise.nil, ?_, ?_, ?_, ?_, ?_⟩
  · intro e he; simp at he
  · intro c hc; simp at hc
  · intro v h1 h2; omega
  · intro e he; simp at he
  · intro e he; simp at he

theorem classInv_step (data : Adjacency) (ht : TopoOk data) (i : Nat) (hi : i < data.length)
    (st : IdMap × List Int) (inv : ClassInv data (i + 1) st) :
    ClassInv data i (adfa_step data st i) := by
  obtain ⟨id_map, ids⟩ := st
  have hilen : i < ids.length := by rw [inv.ids_len]; exact hi
  have hrange : ∀ e ∈ id_map, 0 ≤ e.2 ∧ e.2 < (id_map.length : Int) := inv.id_range
  have honto : ∀ c : Nat, c < id_map.length → ∃ s, (s, (c : Int)) ∈ id_map := inv.id_onto
  have hkeep : ∀ v c, i + 1 ≤ v → (ids.set i c).getD v NOT_FOUND = ids.getD v NOT_FOUND :=
    fun v c hv => getD_set_other _ _ _ _ _ (by omega)
  have hchild : ∀ x ∈ adfa_children data ids i, 0 ≤ x.2 ∧ x.2 < (id_map.length : Int) := by
    intro x hx
    unfold adfa_children at hx
    obtain ⟨e, he, rfl⟩ := List.mem_map.mp hx
    have hup := ht i hi e he
    exact hrange _ (inv.node_class e.2.toNat (by omega) (by omega))
  unfold adfa_step
  simp only []
  cases hfind : IdMap.find id_map (adfa_children data ids i) with
  | some c =>
    simp only [Option.isSome_some, if_true, hfind, Option.getD_some]
    have hmem := IdMap.find_mem _ _ _ hfind
    refine ⟨by simpa using inv.ids_len, inv.keys_nodup, inv.ids_nodup, inv.id_range,
      inv.id_onto, ?_, ?_, inv.child_lt⟩
    · intro v hv hvn
      simp only []
      rw [adfa_children_set data ht ids i c v hv hvn]
      rcases Nat.eq_or_lt_of_le hv with h | h
      · subst h
        rw [getD_set_same _ _ _ _ hilen]
        exact hmem
      · rw [hkeep v c h]
        exact inv.node_class v h hvn
    · intro e he
      obtain ⟨v, hv1, hv2, hv3⟩ := inv.class_node e he
      exact ⟨v, by omega, hv2, by simp only []; rw [hkeep v c hv1]; exact hv3⟩
  | none =>
    simp only [Option.isSome_none, Bool.false_eq_true, if_false]
    have habs := IdMap.find_none _ _ hfind
    have hperm := IdMap.insert_perm (adfa_children data ids i) (id_map.length : Int) id_map habs
    have hlen : (IdMap.insert id_map (adfa_children data ids i) (id_map.length : Int)).length
        = id_map.length + 1 := by rw [hperm.length_eq]; simp
    have hmemiff : ∀ e, e ∈ IdMap.insert id_map (adfa_children data ids i) (id_map.length : Int)
        ↔ e = (adfa_children data ids i, (id_map.length : Int)) ∨ e ∈ id_map := by
      intro e; rw [hperm.mem_iff]; simp
    rw [IdMap.find_insert, if_pos rfl]
    simp only [Option.getD_some]
    refine ⟨by simpa using inv.ids_len, ?_, ?_, ?_, ?_, ?_, ?_, ?_⟩
    · refine (hperm.pairwise_iff (fun h => Ne.symm h)).mpr (List.Pairwise.cons ?_ inv.keys_nodup)
      intro x hx
      exact Ne.symm (habs x hx)
    · refine (hperm.pairwise_iff (fun h => Ne.symm h)).mpr (List.Pairwise.cons ?_ inv.ids_nodup)
      intro x hx
      have := hrange x hx
      simp only []
      omega
    · intro e he
      simp only [] at he ⊢
      rw [hlen]
      rcases (hmemiff e).mp he with rfl | h
      · simp only []
        push_cast
        omega
      · have := hrange e h
        push_cast
        omega
    · intro c hc
      simp only [] at hc ⊢
      rw [hlen] at hc
      by_cases hcl : c = id_map.length
      · subst hcl
        exact ⟨_, (hmemiff _).mpr (Or.inl rfl)⟩
      · obtain ⟨s, hs⟩ := honto c (by omega)
        exact ⟨s, (hmemiff _).mpr (Or.inr hs)⟩
    · intro v hv hvn
      simp only []
      rw [adfa_children_set data ht ids i _ v hv hvn]
      rcases Nat.eq_or_lt_of_le hv with h | h
      · subst h
        rw [getD_set_same _ _ _ _ hilen]
        exact (hmemiff _).mpr (Or.inl rfl)
      · rw [hkeep v _ h]
        exact (hmemiff _).mpr (Or.inr (inv.node_class v h hvn))
    · intro e he
      simp only [] at he ⊢
      rcases (hmemiff e).mp he with rfl | h
      · exact ⟨i, le_refl _, hi, getD_set_same _ _ _ _ hilen⟩
      · obtain ⟨v, hv1, hv2, hv3⟩ := inv.class_node e h
        exact ⟨v, by omega, hv2, by rw [hkeep v _ hv1]; exact hv3⟩
    · intro e he x hx
      simp only [] at he
      rcases (hmemiff e).mp he with rfl | h
      · exact hchild x hx
      · exact inv.child_lt e h x hx

theorem classInv_loop (data : Adjacency) (ht : TopoOk data) : ∀ (k : Nat) (st : IdMap × List Int),
    k ≤ data.length → ClassInv data k st → ClassInv data 0 (adfa_loop data k st) := by
  intro k
  induction k with
  | zero => intro st _ inv; exact inv
  | succ k ih =>
    intro st hk inv
    simp only [adfa_loop]
    exact ih _ (by omega) (classInv_step data ht k (by omega) st inv)

/-- The classes of a topologically numbered adjacency list. -/
theorem classInv_final (data : Adjacency) (ht : TopoOk data) :
    ClassInv data 0 (adfa_classes data) :=
  classInv_loop data ht data.length _ (le_refl _) (classInv_init data)

theorem sorted_fold_spec : ∀ (l : IdMap) (init : List (Int × List (Byte × Int))),
    (∀ e ∈ l, 0 ≤ e.2 ∧ e.2.toNat < init.length) → l.Pairwise (fun a b => a.2 ≠ b.2) →
    (l.foldl (fun s e => s.set e.2.toNat (e.2, e.1)) init).length = init.length ∧
    (∀ e ∈ l, (l.foldl (fun s e => s.set e.2.toNat (e.2, e.1)) init).getD e.2.toNat (0, [])
      = (e.2, e.1)) ∧
    (∀ p, (∀ e ∈ l, e.2.toNat ≠ p) →
      (l.foldl (fun s e => s.set e.2.toNat (e.2, e.1)) init).getD p (0, [])
        = init.getD p (0, [])) := by
  intro l
  induction l with
  | nil => intro init _ _; simp
  | cons x l ih =>
    intro init hr hn
    rw [List.pairwise_cons] at hn
    have hx := hr x (List.mem_cons_self _ _)
    obtain ⟨h1, h2, h3⟩ := ih (init.set x.2.toNat (x.2, x.1))
      (fun e he => by simpa using hr e (List.mem_cons_of_mem _ he)) hn.2
    simp only [List.foldl_cons]
    refine ⟨by simpa using h1, ?_, ?_⟩
    · intro e he
      rcases List.mem_cons.mp he with rfl | he
      · rw [h3]
        · exact getD_set_same _ _ _ _ hx.2
        · intro e2 he2 heq
          have h1 := hn.1 e2 he2
          have h2 := (hr e2 (List.mem_cons_of_mem _ he2)).1
          apply h1
          have h0 := hx.1
          omega
      · exact h2 e he
    · intro p hp
      rw [h3 p (fun e he => hp e (List.mem_cons_of_mem _ he))]
      exact getD_set_other _ _ _ _ _ (hp x (List.mem_cons_self _ _))

theorem sorted_id_map_spec (data : Adjacency) (k : Nat) (st : IdMap × List Int)
    (inv : ClassInv data k st) :
    (sorted_id_map st.1).length = st.1.length ∧
    ∀ e ∈ st.1, (sorted_id_map st.1).getD e.2.toNat (0, []) = (e.2, e.1) := by
  obtain ⟨h1, h2, _⟩ := sorted_fold_spec st.1 (List.replicate st.1.length (0, []))
    (fun e he => by
      have := inv.id_range e he
      simp only [List.length_replicate]
      omega) inv.ids_nodup
  exact ⟨by simpa using h1, h2⟩

theorem STLMap.insert_last (k : Byte) (v : Int) : ∀ (m : STLMap),
    (∀ x ∈ m, x.1 < k) → STLMap.insert m k v = m ++ [(k, v)] := by
  intro m
  induction m with
  | nil => intro _; rfl
  | cons x rest ih =>
    intro h
    obtain ⟨k0, v0⟩ := x
    have h0 : k0 < k := h (k0, v0) (List.mem_cons_self _ _)
    simp only [STLMap.insert]
    rw [if_neg (not_lt_of_gt h0), if_neg (ne_of_gt h0),
      ih (fun x hx => h x (List.mem_cons_of_mem _ hx))]
    rfl

theorem STLMap.insert_fold (g : Int → Int) : ∀ (s : List (Byte × Int)) (acc : STLMap),
    (acc ++ s).Pairwise (fun a b => a.1 < b.1) →
    s.foldl (fun m e => STLMap.insert m e.1 (g e.2)) acc = acc ++ s.map (fun e => (e.1, g e.2)) := by
  intro s
  induction s with
  | nil => intro acc _; simp
  | cons x s ih =>
    intro acc hs
    simp only [List.foldl_cons, List.map_cons]
    have hlast : ∀ y ∈ acc, y.1 < x.1 := by
      intro y hy
      exact (List.pairwise_append.mp hs).2.2 y hy x (List.mem_cons_self _ _)
    rw [STLMap.insert_last x.1 _ acc hlast]
    have hpw : ((acc ++ [(x.1, g x.2)]) ++ s).Pairwise (fun a b => a.1 < b.1) := by
      have e : acc ++ x :: s = (acc ++ [x]) ++ s := by simp
      rw [e] at hs
      rw [List.pairwise_append] at hs ⊢
      obtain ⟨p1, p2, p3⟩ := hs
      refine ⟨?_, p2, ?_⟩
      · rw [List.pairwise_append] at p1 ⊢
        exact ⟨p1.1, by simp, fun a ha b hb => by
          simp only [List.mem_singleton] at hb
          subst hb
          exact p1.2.2 a ha x (by simp)⟩
      · intro a ha b hb
        rcases List.mem_append.mp ha with h | h
        · exact p3 a (List.mem_append_left _ h) b hb
        · simp only [List.mem_singleton] at h
          subst h
          exact p3 x (by simp) b hb
    rw [ih _ hpw]
    simp

theorem install_inner (g : Int → Int) (a : Nat) : ∀ (s : List (Byte × Int)) (maps : MapVector),
    a < maps.length →
    s.foldl (fun maps e => MapVector.insert maps (a : Int) e.1 (g e.2)) maps
      = maps.set a (s.foldl (fun m e => STLMap.insert m e.1 (g e.2)) (maps.getD a [])) := by
  intro s
  induction s with
  | nil =>
    intro maps ha
    simp only [List.foldl_nil]
    apply List.ext_getElem
    · simp
    · intro n h1 h2
      rw [List.getElem_set]
      split
      · rename_i he
        subst he
        rw [List.getD_eq_getElem _ _ ha]
      · rfl
  | cons x s ih =>
    intro maps ha
    simp only [List.foldl_cons]
    have hins : MapVector.insert maps (a : Int) x.1 (g x.2)
        = maps.set a (STLMap.insert (maps.getD a []) x.1 (g x.2)) := by
      unfold MapVector.insert
      rw [if_pos (by omega), MapVector.at_nat]
      simp
    rw [hins, ih _ (by simpa using ha), getD_set_same _ _ _ _ ha]
    simp

theorem install_outer (K : Nat) : ∀ (l : List (Int × List (Byte × Int))) (maps : MapVector),
    maps.length = K → (∀ e ∈ l, 0 ≤ e.1 ∧ e.1 < (K : Int)) →
    l.Pairwise (fun a b => a.1 ≠ b.1) →
    (∀ e ∈ l, e.2.Pairwise (fun a b => a.1 < b.1)) →
    (∀ e ∈ l, maps.getD ((K : Int) - 1 - e.1).toNat [] = []) →
    (l.foldl (fun maps entry => entry.2.foldl (fun maps e =>
        MapVector.insert maps ((K : Int) - 1 - entry.1) e.1 ((K : Int) - 1 - e.2)) maps)
      maps).length = K ∧
    (∀ e ∈ l, (l.foldl (fun maps entry => entry.2.foldl (fun maps e =>
        MapVector.insert maps ((K : Int) - 1 - entry.1) e.1 ((K : Int) - 1 - e.2)) maps)
      maps).getD ((K : Int) - 1 - e.1).toNat [] = e.2.map (fun x => (x.1, (K : Int) - 1 - x.2))) ∧
    (∀ q, (∀ e ∈ l, ((K : Int) - 1 - e.1).toNat ≠ q) →
      (l.foldl (fun maps entry => entry.2.foldl (fun maps e =>
        MapVector.insert maps ((K : Int) - 1 - entry.1) e.1 ((K : Int) - 1 - e.2)) maps)
      maps).getD q [] = maps.getD q []) := by
  intro l
  induction l with
  | nil => intro maps hl _ _ _ _; simp [hl]
  | cons x l ih =>
    intro maps hl hr hn hs hempty
    rw [List.pairwise_cons] at hn
    have hx := hr x (List.mem_cons_self _ _)
    have ha : (K : Int) - 1 - x.1 = ((((K : Int) - 1 - x.1).toNat : Nat) : Int) := by omega
    have hlt : ((K : Int) - 1 - x.1).toNat < maps.length := by omega
    have hdiff : ∀ e ∈ l, ((K : Int) - 1 - e.1).toNat ≠ ((K : Int) - 1 - x.1).toNat := by
      intro e he heq
      have h1 := hn.1 e he
      have h2 := hr e (List.mem_cons_of_mem _ he)
      apply h1
      omega
    simp only [List.foldl_cons]
    have hinner : x.2.foldl (fun maps e =>
        MapVector.insert maps ((K : Int) - 1 - x.1) e.1 ((K : Int) - 1 - e.2)) maps
        = maps.set ((K : Int) - 1 - x.1).toNat (x.2.map (fun y => (y.1, (K : Int) - 1 - y.2))) := by
      rw [ha]
      rw [install_inner (fun c => (K : Int) - 1 - c) _ x.2 maps (by omega)]
      have hem := hempty x (List.mem_cons_self _ _)
      simp only [Int.toNat_ofNat]
      rw [hem, STLMap.insert_fold (fun c => (K : Int) - 1 - c) x.2 []
        (by simpa using hs x (List.mem_cons_self _ _))]
      simp
    rw [hinner]
    obtain ⟨h1, h2, h3⟩ := ih (maps.set ((K : Int) - 1 - x.1).toNat
        (x.2.map (fun y => (y.1, (K : Int) - 1 - y.2))))
      (by simpa using hl) (fun e he => hr e (List.mem_cons_of_mem _ he)) hn.2
      (fun e he => hs e (List.mem_cons_of_mem _ he))
      (fun e he => by
        rw [getD_set_other _ _ _ _ _ (Ne.symm (hdiff e he))]
        exact hempty e (List.mem_cons_of_mem _ he))
    refine ⟨h1, ?_, ?_⟩
    · intro e he
      rcases List.mem_cons.mp he with rfl | he
      · rw [h3 _ hdiff]
        exact getD_set_same _ _ _ _ hlt
      · exact h2 e he
    · intro q hq
      rw [h3 q (fun e he => hq e (List.mem_cons_of_mem _ he))]
      exact getD_set_other _ _ _ _ _ (hq x (List.mem_cons_self _ _))

theorem to_vector_eq (maps : MapVector) : MapVector.to_vector maps = maps := by
  unfold MapVector.to_vector
  have h : STLMap.to_vector = id := by funext m; rfl
  rw [h, List.map_id]

theorem trie_topoOk (t : BaseTrie) (inv : TrieInv t) : TopoOk t.to_vector := by
  intro u hu e he
  unfold BaseTrie.to_vector at hu he ⊢
  rw [to_vector_eq] at hu he ⊢
  rw [inv.len] at hu ⊢
  exact inv.edge_up u hu e he

theorem adfa_children_sorted (t : BaseTrie) (inv : TrieInv t) (ids : List Int) (v : Nat)
    (hv : v < t.node_count) :
    (adfa_children t.to_vector ids v).Pairwise (fun a b => a.1 < b.1) := by
  unfold adfa_children BaseTrie.to_vector
  rw [to_vector_eq, List.pairwise_map]
  exact inv.sorted v hv

theorem pairwise_ne_inj {α β : Type} (f : α → β) (l : List α)
    (h : l.Pairwise (fun a b => f a ≠ f b)) (x y : α) (hx : x ∈ l) (hy : y ∈ l)
    (hxy : f x = f y) : x = y :=
  List.inj_on_of_nodup_map (List.pairwise_map.mpr h) hx hy hxy

theorem mem_of_getD_ne {α : Type} (l : List α) (p : Nat) (d : α) (hp : p < l.length) :
    l.getD p d ∈ l := by
  rw [List.getD_eq_getElem _ _ hp]
  exact List.getElem_mem hp

/-- The constructor of `BaseADFA` builds the quotient of the trie by its
classes. -/
theorem adfa_spec (t : BaseTrie) (inv : TrieInv t) : AdfaSpec t (BaseADFA.construct t) := by
  have htopo := trie_topoOk t inv
  have hdata : t.to_vector = t.maps := to_vector_eq t.maps
  have hn : t.to_vector.length = t.node_count := by rw [hdata, inv.len]
  have cinv := classInv_final t.to_vector htopo
  obtain ⟨hsl, hsget⟩ := sorted_id_map_spec _ _ _ cinv
  generalize hcls : adfa_classes t.to_vector = cls at cinv hsl hsget
  obtain ⟨idm, ids⟩ := cls
  simp only [] at hsl hsget
  have hrange : ∀ e ∈ idm, 0 ≤ e.2 ∧ e.2 < (idm.length : Int) := cinv.id_range
  have honto : ∀ c : Nat, c < idm.length → ∃ s, (s, (c : Int)) ∈ idm := cinv.id_onto
  have hnode : ∀ v, v < t.node_count →
      (adfa_children t.to_vector ids v, ids.getD v NOT_FOUND) ∈ idm :=
    fun v hv => cinv.node_class v (Nat.zero_le _) (by rw [hn]; exact hv)
  have hcnode : ∀ e ∈ idm, ∃ v, v < t.node_count ∧ ids.getD v NOT_FOUND = e.2 := by
    intro e he
    obtain ⟨v, _, h2, h3⟩ := cinv.class_node e he
    exact ⟨v, by rw [← hn]; exact h2, h3⟩
  have hchild : ∀ e ∈ idm, ∀ x ∈ e.1, 0 ≤ x.2 ∧ x.2 < e.2 := cinv.child_lt
  have hidinj : ∀ e1 ∈ idm, ∀ e2 ∈ idm, e1.2 = e2.2 → e1 = e2 :=
    fun e1 h1 e2 h2 h => pairwise_ne_inj Prod.snd idm cinv.ids_nodup e1 e2 h1 h2 h
  have hkeyinj : ∀ e1 ∈ idm, ∀ e2 ∈ idm, e1.1 = e2.1 → e1 = e2 :=
    fun e1 h1 e2 h2 h => pairwise_ne_inj Prod.fst idm cinv.keys_nodup e1 e2 h1 h2 h
  have hstate : ∀ v, adfa_state t.to_vector v = (idm.length : Int) - 1 - ids.getD v NOT_FOUND := by
    intro v; unfold adfa_state; rw [hcls]
  have hK : 1 ≤ idm.length := by
    have := hnode 0 inv.count_pos
    cases idm with
    | nil => simp at this
    | cons _ _ => simp
  -- the entries of `sorted_id_map`
  have hsorted_entry : ∀ x ∈ sorted_id_map idm, (x.2, x.1) ∈ idm := by
    intro x hx
    obtain ⟨p, hp, hpx⟩ := List.mem_iff_getElem.mp hx
    obtain ⟨s, hs⟩ := honto p (by omega)
    have := hsget _ hs
    simp only [Int.toNat_ofNat] at this
    rw [List.getD_eq_getElem _ _ hp, hpx] at this
    rw [this]; exact hs
  have hentry_sorted : ∀ e ∈ idm, (e.2, e.1) ∈ sorted_id_map idm := by
    intro e he
    rw [← hsget e he]
    exact mem_of_getD_ne _ _ _ (by have := hrange e he; omega)
  have hkeys_sorted : ∀ e ∈ idm, e.1.Pairwise (fun a b => a.1 < b.1) := by
    intro e he
    obtain ⟨v, hv, hve⟩ := hcnode e he
    have := hidinj _ (hnode v hv) e he hve
    rw [← this]
    exact adfa_children_sorted t inv ids v hv
  obtain ⟨o1, o2, _⟩ := install_outer idm.length (sorted_id_map idm)
    (MapVector.extend (MapVector.mk 0) (sorted_id_map idm).length)
    (by unfold MapVector.extend; rw [length_resize, hsl])
    (fun x hx => hrange _ (hsorted_entry x hx))
    (by
      rw [List.pairwise_iff_getElem]
      intro i j hi hj hij heq
      obtain ⟨s1, hs1⟩ := honto i (by omega)
      obtain ⟨s2, hs2⟩ := honto j (by omega)
      have g1 := hsget _ hs1
      have g2 := hsget _ hs2
      simp only [Int.toNat_ofNat] at g1 g2
      rw [List.getD_eq_getElem _ _ hi] at g1
      rw [List.getD_eq_getElem _ _ hj] at g2
      rw [g1, g2] at heq
      simp only [] at heq
      omega)
    (fun x hx => hkeys_sorted _ (hsorted_entry x hx))
    (fun x _ => by
      unfold MapVector.extend MapVector.mk
      rw [getD_resize _ _ _ (by simp)]
      simp)
  have hmaps : (BaseADFA.construct t).maps
      = (sorted_id_map idm).foldl (fun maps entry => entry.2.foldl (fun maps e =>
          MapVector.insert maps ((idm.length : Int) - 1 - entry.1) e.1
            ((idm.length : Int) - 1 - e.2)) maps)
        (MapVector.extend (MapVector.mk 0) (sorted_id_map idm).length) := by
    unfold BaseADFA.construct adfa_install
    simp only [hcls, hsl]
  rw [← hmaps] at o1 o2
  have hup : ∀ v, v < t.node_count → ∀ e ∈ t.maps.getD v [],
      0 ≤ ids.getD e.2.toNat NOT_FOUND ∧ ids.getD e.2.toNat NOT_FOUND < ids.getD v NOT_FOUND := by
    intro v hv e he
    apply hchild _ (hnode v hv) (e.1, ids.getD e.2.toNat NOT_FOUND)
    unfold adfa_children
    rw [hdata]
    exact List.mem_map.mpr ⟨e, he, rfl⟩
  have hbelow : ∀ v, 0 < v → v < t.node_count → ids.getD v NOT_FOUND < ids.getD 0 NOT_FOUND := by
    intro v
    induction v using Nat.strong_induction_on with
    | _ v ih =>
      intro hv0 hv
      obtain ⟨u, hu, e, he, hev⟩ := inv.has_parent v hv0 hv
      have h1 := (hup u hu e he).2
      have huv := (inv.edge_up u hu e he).1
      have e1 : e.2.toNat = v := by omega
      rw [e1] at h1
      by_cases hu0 : u = 0
      · subst hu0; exact h1
      · have := ih u (by omega) (by omega) hu
        omega
  have hnil_zero : ∀ v, v < t.node_count →
      (ids.getD v NOT_FOUND = 0 ↔ t.maps.getD v [] = []) := by
    intro v hv
    constructor
    · intro h0
      have hm := hnode v hv
      rw [h0] at hm
      have hc := hchild _ hm
      simp only [] at hc
      unfold adfa_children at hc
      rw [hdata] at hc
      cases hd : t.maps.getD v [] with
      | nil => rfl
      | cons e rest =>
        rw [hd] at hc
        have := hc (e.1, ids.getD e.2.toNat NOT_FOUND) (by simp)
        simp only [] at this
        omega
    · intro hnil
      have hm := hnode v hv
      have hch : adfa_children t.to_vector ids v = [] := by
        unfold adfa_children; rw [hdata, hnil]; rfl
      rw [hch] at hm
      obtain ⟨s0, hs0⟩ := honto 0 (by omega)
      have hs0nil : s0 = [] := by
        cases s0 with
        | nil => rfl
        | cons x rest =>
          have := hchild _ hs0 x (by simp)
          simp only [Nat.cast_zero] at this
          omega
      subst hs0nil
      have := hkeyinj _ hm _ hs0 rfl
      simpa using congrArg Prod.snd this
  refine ⟨by rw [o1]; exact hK, by rw [o1, hcls], ?_, ?_, ?_, ?_, ?_, ?_, ?_⟩
  · intro v hv
    rw [hstate, o1]
    have := hrange _ (hnode v hv)
    simp only [] at this
    omega
  · intro v hv
    rw [hstate]
    have := o2 _ (hentry_sorted _ (hnode v hv))
    simp only [] at this
    rw [this]
    unfold adfa_children
    rw [hdata, List.map_map]
    apply List.map_congr_left
    intro e _
    simp only [Function.comp]
    rw [← hdata, hstate]
  · intro q hq
    rw [o1] at hq
    obtain ⟨s, hs⟩ := honto (idm.length - 1 - q) (by omega)
    obtain ⟨v, hv, hve⟩ := hcnode _ hs
    refine ⟨v, hv, ?_⟩
    rw [hstate, hve]
    simp only []
    omega
  · intro v hv e he
    rw [hstate, hstate]
    have := hup v hv e he
    omega
  · intro v hv
    rw [hstate, o1, ← hnil_zero v hv]
    constructor <;> intro h <;> omega
  · intro v hv
    rw [hstate]
    constructor
    · intro h
      by_contra hv0
      have h1 := hbelow v (by omega) hv
      have h2 := hrange _ (hnode 0 inv.count_pos)
      simp only [] at h2
      omega
    · intro hv0
      subst hv0
      obtain ⟨s, hs⟩ := honto (idm.length - 1) (by omega)
      obtain ⟨v, hv, hve⟩ := hcnode _ hs
      simp only [] at hve
      by_cases hv0 : v = 0
      · subst hv0
        rw [hve]
        omega
      · have h1 := hbelow v (by omega) hv
        have h2 := hrange _ (hnode 0 inv.count_pos)
        simp only [] at h2
        omega
  · rw [hcls]
    intro entry hentry e he
    have := hchild _ (hsorted_entry entry hentry) e he
    simp only [] at this ⊢
    omega

theorem search_map_absent (g : Byte × Int → Byte × Int) (hg : ∀ e, (g e).1 = e.1) (c : Byte) :
    ∀ (m : STLMap), (∀ e ∈ m, e.1 ≠ c) → STLMap.search (m.map g) c = NOT_FOUND := by
  intro m h
  apply STLMap.search_absent
  intro x hx
  obtain ⟨e, he, rfl⟩ := List.mem_map.mp hx
  rw [hg]
  exact h e he

theorem search_map_mem (g : Byte × Int → Byte × Int) (hg : ∀ e, (g e).1 = e.1) (m : STLMap)
    (hs : m.Pairwise (fun a b => a.1 < b.1)) (e : Byte × Int) (he : e ∈ m) :
    STLMap.search (m.map g) e.1 = (g e).2 := by
  apply STLMap.mem_search
  · rw [List.pairwise_map]
    simpa [hg] using hs
  · have : (e.1, (g e).2) = g e := by rw [← hg e]
    rw [this]
    exact List.mem_map_of_mem _ he

/-- From the state of a trie node the automaton answers as the trie does from
that node. -/
theorem adfa_search_from_eq (t : BaseTrie) (inv : TrieInv t)
    (spec : AdfaSpec t (BaseADFA.construct t)) : ∀ (s : List Byte) (v : Nat),
    v < t.node_count →
    BaseADFA.search_from (BaseADFA.construct t).maps (adfa_state t.to_vector v) s
      = BaseTrie.search_from t.maps (v : Int) s := by
  intro s
  induction s with
  | nil =>
    intro v hv
    simp only [BaseADFA.search_from, BaseTrie.search_from, MapVector.size, MapVector.outdegree,
      STLMap.outdegree, MapVector.at_nat]
    have := spec.state_sink v hv
    by_cases hnil : t.maps.getD v [] = []
    · rw [hnil]
      simpa using this.mpr hnil
    · have h1 : ¬ adfa_state t.to_vector v = ((BaseADFA.construct t).maps.length : Int) - 1 :=
        fun h => hnil (this.mp h)
      have h2 : (t.maps.getD v []).length ≠ 0 := fun h => hnil (List.length_eq_zero.mp h)
      rw [decide_eq_false h1, beq_eq_false_iff_ne.mpr h2]
  | cons c s ih =>
    intro v hv
    have hr := spec.state_range v hv
    have hq : adfa_state t.to_vector v = ((adfa_state t.to_vector v).toNat : Int) := by omega
    have hsearch : MapVector.search (BaseADFA.construct t).maps (adfa_state t.to_vector v) c
        = STLMap.search ((t.maps.getD v []).map
            (fun e => (e.1, adfa_state t.to_vector e.2.toNat))) c := by
      rw [hq, MapVector.search_nat, spec.state_edges v hv]
    simp only [BaseADFA.search_from, BaseTrie.search_from]
    rw [hsearch]
    by_cases habs : MapVector.search t.maps (v : Int) c = NOT_FOUND
    · rw [if_pos habs]
      rw [search_map_absent (fun e => (e.1, adfa_state t.to_vector e.2.toNat)) (fun _ => rfl) c _
        ((trie_search_not_found t inv v c).mp habs)]
      simp
    · rw [if_neg habs]
      obtain ⟨hm, _, h3, h4⟩ := trie_search_found t inv v c habs
      have := search_map_mem (fun e => (e.1, adfa_state t.to_vector e.2.toNat)) (fun _ => rfl)
        _ (inv.sorted v hv) _ hm
      simp only [] at this
      rw [this]
      have hx : MapVector.search t.maps (v : Int) c
          = ((MapVector.search t.maps (v : Int) c).toNat : Int) := by omega
      have hr2 := spec.state_range (MapVector.search t.maps (v : Int) c).toNat (by omega)
      rw [if_neg (by unfold NOT_FOUND; omega)]
      rw [ih _ (by omega), ← hx]

/-- C2 (minimisation preserves the language). For every list `D` of byte
strings and every byte string `s`, `BaseADFA(BaseTrie(D)).search(s)` equals
`BaseTrie(D).search(s)`. -/
theorem BaseADFA_search_eq (D : List (List Byte)) (s : List Byte) :
    (BaseADFA.construct (BaseTrie.construct D)).search s = (BaseTrie.construct D).search s := by
  have inv := (construct_spec D).1
  have spec := adfa_spec _ inv
  have h := adfa_search_from_eq _ inv spec s 0 inv.count_pos
  rw [(spec.state_root 0 inv.count_pos).mpr rfl] at h
  exact h

/-- C10 (topological numbering of BaseADFA). For every `D`, empty or not, in
`BaseADFA(BaseTrie(D))` every edge `(u, v)` has `u < v` below the number of
states, every pair the assertion `after_id < after_to` is evaluated on passes
it, state 0 is the class of the trie root, and the last state is the only
state without outgoing edges. The automaton has at least one state, so state 0
and the last state exist; every trie node `v` has its state `adfa_state v`
among the states, whose row holds the edges of `v` with the targets replaced
by their states; row 0 holds the edges of the trie root in this way, and the
root is the only node with state 0; and the trie nodes with the last state are
the leaves. -/
theorem BaseADFA_topological (D : List (List Byte)) :
    (∀ u, u < (BaseADFA.construct (BaseTrie.construct D)).maps.length →
      ∀ e ∈ (BaseADFA.construct (BaseTrie.construct D)).maps.getD u [],
        (u : Int) < e.2 ∧
        e.2 < ((BaseADFA.construct (BaseTrie.construct D)).maps.length : Int)) ∧
    (∀ entry ∈ sorted_id_map (adfa_classes (BaseTrie.construct D).to_vector).1, ∀ e ∈ entry.2,
      ((sorted_id_map (adfa_classes (BaseTrie.construct D).to_vector).1).length : Int) - 1
          - entry.1
        < ((sorted_id_map (adfa_classes (BaseTrie.construct D).to_vector).1).length : Int) - 1
          - e.2) ∧
    adfa_state (BaseTrie.construct D).to_vector 0 = 0 ∧
    (BaseADFA.construct (BaseTrie.construct D)).maps.getD
      ((BaseADFA.construct (BaseTrie.construct D)).maps.length - 1) [] = [] ∧
    (∀ u, u < (BaseADFA.construct (BaseTrie.construct D)).maps.length →
      (BaseADFA.construct (BaseTrie.construct D)).maps.getD u [] = [] →
      u = (BaseADFA.construct (BaseTrie.construct D)).maps.length - 1) ∧
    1 ≤ (BaseADFA.construct (BaseTrie.construct D)).maps.length ∧
    (∀ v, v < (BaseTrie.construct D).node_count →
      0 ≤ adfa_state (BaseTrie.construct D).to_vector v ∧
      adfa_state (BaseTrie.construct D).to_vector v
        < ((BaseADFA.construct (BaseTrie.construct D)).maps.length : Int) ∧
      (BaseADFA.construct (BaseTrie.construct D)).maps.getD
          (adfa_state (BaseTrie.construct D).to_vector v).toNat []
        = ((BaseTrie.construct D).maps.getD v []).map
            (fun e => (e.1, adfa_state (BaseTrie.construct D).to_vector e.2.toNat))) ∧
    (BaseADFA.construct (BaseTrie.construct D)).maps.getD 0 []
      = ((BaseTrie.construct D).maps.getD 0 []).map
          (fun e => (e.1, adfa_state (BaseTrie.construct D).to_vector e.2.toNat)) ∧
    (∀ v, v < (BaseTrie.construct D).node_count →
      (adfa_state (BaseTrie.construct D).to_vector v = 0 ↔ v = 0)) ∧
    (∀ v, v < (BaseTrie.construct D).node_count →
      (adfa_state (BaseTrie.construct D).to_vector v
          = ((BaseADFA.construct (BaseTrie.construct D)).maps.length : Int) - 1 ↔
        (BaseTrie.construct D).maps.getD v [] = [])) ∧
    (∀ q, q < (BaseADFA.construct (BaseTrie.construct D)).maps.length →
      ∃ v, v < (BaseTrie.construct D).node_count ∧
        adfa_state (BaseTrie.construct D).to_vector v = (q : Int)) := by
  have inv := (construct_spec D).1
  have spec := adfa_spec _ inv
  have hpos := spec.size_pos
  have hroot : adfa_state (BaseTrie.construct D).to_vector 0 = 0 :=
    (spec.state_root 0 inv.count_pos).mpr rfl
  have hrow0 := spec.state_edges 0 inv.count_pos
  rw [hroot] at hrow0
  refine ⟨?_, spec.assert_ok, hroot, ?_, ?_, hpos,
    fun v hv => ⟨(spec.state_range v hv).1, (spec.state_range v hv).2, spec.state_edges v hv⟩,
    hrow0, spec.state_root, spec.state_sink, spec.state_onto⟩
  · intro u hu e he
    obtain ⟨v, hv, hvu⟩ := spec.state_onto u hu
    have hed := spec.state_edges v hv
    rw [hvu, Int.toNat_ofNat] at hed
    rw [hed] at he
    obtain ⟨x, hx, rfl⟩ := List.mem_map.mp he
    have h1 := spec.state_up v hv x hx
    have hxr := inv.edge_up v hv x hx
    have h2 := spec.state_range x.2.toNat (by omega)
    simp only []
    omega
  · obtain ⟨v, hv, hvu⟩ := spec.state_onto
      ((BaseADFA.construct (BaseTrie.construct D)).maps.length - 1) (by omega)
    have hed := spec.state_edges v hv
    rw [hvu, Int.toNat_ofNat] at hed
    rw [hed]
    have := (spec.state_sink v hv).mp (by rw [hvu]; omega)
    rw [this]; rfl
  · intro u hu hnil
    obtain ⟨v, hv, hvu⟩ := spec.state_onto u hu
    have hed := spec.state_edges v hv
    rw [hvu, Int.toNat_ofNat, hnil] at hed
    have hvnil : (BaseTrie.construct D).maps.getD v [] = [] := by
      cases h : (BaseTrie.construct D).maps.getD v [] with
      | nil => rfl
      | cons _ _ => rw [h] at hed; simp at hed
    have := (spec.state_sink v hv).mpr hvnil
    omega

/-! ## Tail compaction -/

theorem paths_inner (i : Nat) : ∀ (edges : List (Byte × Int)) (paths : List Int),
    i < paths.length → (∀ e ∈ edges, e.2.toNat ≠ i) →
    edges.foldl (fun paths e => paths.set i (paths.getD i 0 + paths.getD e.2.toNat 0)) paths
      = paths.set i (paths.getD i 0 + child_paths paths edges) := by
  intro edges
  induction edges with
  | nil =>
    intro paths hi _
    simp only [List.foldl_nil, child_paths, List.map_nil, List.sum_nil, add_zero]
    apply List.ext_getElem
    · simp
    · intro n h1 h2
      rw [List.getElem_set]
      split
      · rename_i he
        subst he
        rw [List.getD_eq_getElem _ _ hi]
      · rfl
  | cons e rest ih =>
    intro paths hi hne
    simp only [List.foldl_cons]
    rw [ih _ (by simpa using hi) (fun x hx => hne x (List.mem_cons_of_mem _ hx))]
    have h1 : (paths.set i (paths.getD i 0 + paths.getD e.2.toNat 0)).getD i 0
        = paths.getD i 0 + paths.getD e.2.toNat 0 := getD_set_same _ _ _ _ hi
    have h2 : child_paths (paths.set i (paths.getD i 0 + paths.getD e.2.toNat 0)) rest
        = child_paths paths rest := by
      unfold child_paths
      congr 1
      apply List.map_congr_left
      intro x hx
      exact getD_set_other _ _ _ _ _ (Ne.symm (hne x (List.mem_cons_of_mem _ hx)))
    rw [h1, h2, List.set_set]
    congr 1
    simp only [child_paths, List.map_cons, List.sum_cons]
    omega

/-- What `paths_step` writes: the count of node `i`, from the counts of its
children; nothing else changes. -/
theorem paths_step_spec (data : Adjacency) (ht : TopoOk data) (paths : List Int) (i : Nat)
    (hi : i < data.length) (hlen : paths.length = data.length) (hzero : paths.getD i 0 = 0) :
    paths_step data paths i = paths.set i
      ((if data.getD i [] = [] then 1 else 0) + child_paths paths (data.getD i [])) := by
  have hne : ∀ e ∈ data.getD i [], e.2.toNat ≠ i := by
    intro e he
    have := ht i hi e he
    omega
  unfold paths_step
  by_cases hnil : data.getD i [] = []
  · rw [hnil]
    simp [child_paths]
  · have hemp : (data.getD i []).isEmpty = false := by
      cases h : data.getD i [] with
      | nil => exact absurd h hnil
      | cons _ _ => rfl
    rw [hemp]
    simp only [Bool.false_eq_true, if_false, if_neg hnil]
    rw [paths_inner i _ paths (by omega) hne, hzero]

theorem child_paths_congr (p1 p2 : List Int) (edges : List (Byte × Int))
    (h : ∀ e ∈ edges, p1.getD e.2.toNat 0 = p2.getD e.2.toNat 0) :
    child_paths p1 edges = child_paths p2 edges := by
  unfold child_paths
  congr 1
  exact List.map_congr_left h

theorem child_paths_pos (paths : List Int) : ∀ (edges : List (Byte × Int)), edges ≠ [] →
    (∀ e ∈ edges, 1 ≤ paths.getD e.2.toNat 0) → 1 ≤ child_paths paths edges := by
  intro edges
  induction edges with
  | nil => intro h; exact absurd rfl h
  | cons e rest ih =>
    intro _ hall
    simp only [child_paths, List.map_cons, List.sum_cons]
    have h1 := hall e (List.mem_cons_self _ _)
    by_cases hr : rest = []
    · subst hr
      simp only [List.map_nil, List.sum_nil, add_zero]
      exact h1
    · have := ih hr (fun x hx => hall x (List.mem_cons_of_mem _ hx))
      unfold child_paths at this
      omega

theorem paths_loop_spec (data : Adjacency) (ht : TopoOk data) : ∀ (k : Nat) (paths : List Int),
    k ≤ data.length → paths.length = data.length →
    (∀ v, v < k → paths.getD v 0 = 0) →
    (∀ v, k ≤ v → v < data.length → 1 ≤ paths.getD v 0 ∧
      paths.getD v 0 = (if data.getD v [] = [] then 1 else 0)
        + child_paths paths (data.getD v [])) →
    (paths_loop data k paths).length = data.length ∧
    ∀ v, v < data.length → 1 ≤ (paths_loop data k paths).getD v 0 ∧
      (paths_loop data k paths).getD v 0 = (if data.getD v [] = [] then 1 else 0)
        + child_paths (paths_loop data k paths) (data.getD v []) := by
  intro k
  induction k with
  | zero =>
    intro paths _ hlen _ hdone
    exact ⟨hlen, fun v hv => hdone v (Nat.zero_le _) hv⟩
  | succ k ih =>
    intro paths hk hlen hzero hdone
    simp only [paths_loop]
    have hstep := paths_step_spec data ht paths k (by omega) hlen (hzero k (by omega))
    rw [hstep]
    have hkl : k < paths.length := by omega
    have hother : ∀ v, v ≠ k → (paths.set k ((if data.getD k [] = [] then 1 else 0)
        + child_paths paths (data.getD k []))).getD v 0 = paths.getD v 0 :=
      fun v hv => getD_set_other _ _ _ _ _ (Ne.symm hv)
    have hcp : ∀ v, k ≤ v → v < data.length →
        child_paths (paths.set k ((if data.getD k [] = [] then 1 else 0)
          + child_paths paths (data.getD k []))) (data.getD v [])
        = child_paths paths (data.getD v []) := by
      intro v hv hvn
      apply child_paths_congr
      intro e he
      have := ht v hvn e he
      exact hother _ (by omega)
    apply ih _ (by omega) (by simpa using hlen)
    · intro v hv
      rw [hother v (by omega)]
      exact hzero v (by omega)
    · intro v hv hvn
      rw [hcp v hv hvn]
      rcases Nat.eq_or_lt_of_le hv with h | h
      · subst h
        rw [getD_set_same _ _ _ _ hkl]
        refine ⟨?_, rfl⟩
        by_cases hnil : data.getD k [] = []
        · rw [hnil]; simp [child_paths]
        · rw [if_neg hnil]
          have := child_paths_pos paths (data.getD k []) hnil (fun e he => by
            have hup := ht k (by omega) e he
            exact (hdone e.2.toNat (by omega) (by omega)).1)
          omega
      · rw [hother v (by omega)]
        exact hdone v h hvn

theorem getD_replicate_zero (n v : Nat) : (List.replicate n (0 : Int)).getD v 0 = 0 := by
  by_cases h : v < n
  · rw [List.getD_eq_getElem _ _ (by simpa using h)]; simp
  · rw [List.getD_eq_default _ _ (by simpa using h)]

theorem paths_spec (data : Adjacency) (ht : TopoOk data) :
    PathsSpec data (number_of_paths_leaf data) := by
  obtain ⟨h1, h2⟩ := paths_loop_spec data ht data.length (List.replicate data.length 0)
    (le_refl _) (by simp) (fun v _ => getD_replicate_zero _ _) (fun v h1 h2 => by omega)
  refine ⟨h1, ?_, ?_, fun v hv => (h2 v hv).1⟩
  · intro v hv hnil
    have := (h2 v hv).2
    rw [hnil] at this
    simpa [child_paths, number_of_paths_leaf] using this
  · intro v hv hnil
    have := (h2 v hv).2
    rw [if_neg hnil] at this
    simpa [number_of_paths_leaf] using this

/-- A node with one leaf below it is a leaf or has one edge, to a node with
one leaf below it. -/
theorem paths_one (data : Adjacency) (ht : TopoOk data) (paths : List Int)
    (spec : PathsSpec data paths) (v : Nat) (hv : v < data.length)
    (h1 : paths.getD v 0 = 1) :
    data.getD v [] = [] ∨ ∃ e, data.getD v [] = [e] ∧ paths.getD e.2.toNat 0 = 1 := by
  cases hd : data.getD v [] with
  | nil => exact Or.inl rfl
  | cons e rest =>
    right
    have hin := spec.inner v hv (by rw [hd]; simp)
    rw [hd, h1] at hin
    simp only [child_paths, List.map_cons, List.sum_cons] at hin
    have hpos : ∀ x ∈ data.getD v [], 1 ≤ paths.getD x.2.toNat 0 := by
      intro x hx
      have := ht v hv x hx
      exact spec.pos x.2.toNat (by omega)
    have he := hpos e (by rw [hd]; simp)
    cases rest with
    | nil => exact ⟨e, rfl, by simpa using hin.symm⟩
    | cons e2 rest2 =>
      exfalso
      have := child_paths_pos paths (e2 :: rest2) (by simp)
        (fun x hx => hpos x (by rw [hd]; exact List.mem_cons_of_mem _ hx))
      unfold child_paths at this
      omega

/-- Below a node with one leaf the chain is found within the fuel, and the
trie accepts from that node exactly the labels of the chain. -/
theorem tail_chain_spec (t : BaseTrie) (inv : TrieInv t) (paths : List Int)
    (spec : PathsSpec t.maps paths) (ht : TopoOk t.maps) : ∀ (fuel v : Nat),
    v < t.node_count → t.node_count - v ≤ fuel → paths.getD v 0 = 1 →
    ∃ chain, tail_chain t.maps fuel (v : Int) = some chain ∧
      ∀ rest, BaseTrie.search_from t.maps (v : Int) rest = true ↔ rest = chain := by
  intro fuel
  induction fuel with
  | zero => intro v hv hf; omega
  | succ fuel ih =>
    intro v hv hf h1
    have hvn : v < t.maps.length := by rw [inv.len]; exact hv
    simp only [tail_chain, Int.toNat_ofNat]
    rcases paths_one t.maps ht paths spec v hvn h1 with hnil | ⟨e, he, hp⟩
    · rw [hnil]
      refine ⟨[], rfl, ?_⟩
      intro rest
      cases rest with
      | nil =>
        simp only [BaseTrie.search_from, MapVector.outdegree, STLMap.outdegree, MapVector.at_nat,
          hnil]
        simp
      | cons c r =>
        have : MapVector.search t.maps (v : Int) c = NOT_FOUND := by
          rw [trie_search_not_found t inv]
          rw [hnil]; simp
        simp [BaseTrie.search_from, this]
    · rw [he]
      have hup := inv.edge_up v hv e (by rw [he]; simp)
      have hx : e.2 = ((e.2.toNat : Nat) : Int) := by omega
      obtain ⟨chain, hc1, hc2⟩ := ih e.2.toNat (by omega) (by omega) hp
      rw [← hx] at hc1 hc2
      refine ⟨e.1 :: chain, by simp [hc1], ?_⟩
      intro rest
      cases rest with
      | nil =>
        simp only [BaseTrie.search_from, MapVector.outdegree, STLMap.outdegree, MapVector.at_nat,
          he]
        simp
      | cons c r =>
        simp only [BaseTrie.search_from]
        by_cases hce : c = e.1
        · subst hce
          have hs := trie_mem_search t inv v e (by rw [he]; simp)
          rw [hs, if_neg (by unfold NOT_FOUND; omega), hc2]
          simp
        · have : MapVector.search t.maps (v : Int) c = NOT_FOUND := by
            rw [trie_search_not_found t inv, he]
            intro x hx
            simp only [List.mem_singleton] at hx
            subst hx
            exact Ne.symm hce
          rw [if_pos this]
          simp [hce]

theorem tailRel_mono (data : Adjacency) (paths : List Int) (tail more : List Byte)
    (e : Byte × Int) (r : Byte × (Bool × Int)) (h : TailRel data paths tail e r) :
    TailRel data paths (tail ++ more) e r := by
  obtain ⟨h1, h2, h3⟩ := h
  refine ⟨h1, h2, ?_⟩
  intro hk
  obtain ⟨off, chain, g1, g2, g3⟩ := h3 hk
  refine ⟨off, chain, g1, g2, ?_⟩
  intro j hj
  have := g3 j hj
  have hlt : off + j < tail.length := by
    by_contra hcon
    rw [List.getElem?_eq_none (by omega)] at this
    have h2 : (e.1 :: chain)[j]? ≠ none := by
      rw [List.getElem?_eq_getElem (by simpa using hj)]
      simp
    exact h2 this.symm
  rw [List.getElem?_append_left hlt]
  exact this

theorem tail_edges_spec (data : Adjacency) (paths : List Int) :
    ∀ (edges : List (Byte × Int)) (row : List (Byte × (Bool × Int))) (tail : List Byte),
    (∀ e ∈ edges, ¬ paths.getD e.2.toNat 0 > 1 →
      ∃ chain, tail_chain data data.length e.2 = some chain) →
    ∃ row2 more, tail_edges data paths edges (row, tail) = some (row ++ row2, tail ++ more) ∧
      List.Forall₂ (TailRel data paths (tail ++ more)) edges row2 := by
  intro edges
  induction edges with
  | nil => intro row tail _; exact ⟨[], [], by simp [tail_edges], List.Forall₂.nil⟩
  | cons e rest ih =>
    intro row tail hch
    have hrest : ∀ x ∈ rest, ¬ paths.getD x.2.toNat 0 > 1 →
        ∃ chain, tail_chain data data.length x.2 = some chain :=
      fun x hx => hch x (List.mem_cons_of_mem _ hx)
    simp only [tail_edges]
    by_cases hk : paths.getD e.2.toNat 0 > 1
    · rw [if_pos hk]
      obtain ⟨row2, more, h1, h2⟩ := ih (row ++ [(e.1, (false, e.2))]) tail hrest
      refine ⟨(e.1, (false, e.2)) :: row2, more, by rw [h1]; simp, ?_⟩
      refine List.Forall₂.cons ⟨rfl, fun _ => rfl, fun h => absurd hk h⟩ h2
    · rw [if_neg hk]
      obtain ⟨chain, hc⟩ := hch e (List.mem_cons_self _ _) hk
      rw [hc]
      simp only []
      obtain ⟨row2, more, h1, h2⟩ := ih (row ++ [(e.1, (true, (tail.length : Int)))])
        (tail ++ e.1 :: chain) hrest
      refine ⟨(e.1, (true, (tail.length : Int))) :: row2, (e.1 :: chain) ++ more,
        by rw [h1]; simp, ?_⟩
      have hassoc : tail ++ ((e.1 :: chain) ++ more) = (tail ++ e.1 :: chain) ++ more := by simp
      rw [hassoc]
      refine List.Forall₂.cons ⟨rfl, fun h => absurd h hk, fun _ => ?_⟩ h2
      refine ⟨tail.length, chain, rfl, hc, ?_⟩
      intro j hj
      rw [List.append_assoc, List.getElem?_append_right (by omega)]
      have e1 : tail.length + j - tail.length = j := by omega
      rw [e1, List.getElem?_append_left (by simpa using hj)]

theorem forall₂_keys {data : Adjacency} {paths : List Int} {tail : List Byte} :
    ∀ {l1 : List (Byte × Int)} {l2 : List (Byte × (Bool × Int))},
    List.Forall₂ (TailRel data paths tail) l1 l2 → l2.map Prod.fst = l1.map Prod.fst := by
  intro l1 l2 h
  induction h with
  | nil => rfl
  | cons hr _ ih => simp [hr.1, ih]

theorem forall₂_sorted {data : Adjacency} {paths : List Int} {tail : List Byte}
    {l1 : List (Byte × Int)} {l2 : List (Byte × (Bool × Int))}
    (h : List.Forall₂ (TailRel data paths tail) l1 l2)
    (hs : l1.Pairwise (fun a b => a.1 < b.1)) : l2.Pairwise (fun a b => a.1 < b.1) := by
  have h1 : (l1.map Prod.fst).Pairwise (· < ·) := List.pairwise_map.mpr hs
  rw [← forall₂_keys h] at h1
  exact List.pairwise_map.mp h1

theorem forall₂_mono {data : Adjacency} {paths : List Int} {tail : List Byte} (more : List Byte)
    {l1 : List (Byte × Int)} {l2 : List (Byte × (Bool × Int))}
    (h : List.Forall₂ (TailRel data paths tail) l1 l2) :
    List.Forall₂ (TailRel data paths (tail ++ more)) l1 l2 :=
  h.imp (fun e r hr => tailRel_mono data paths tail more e r hr)

theorem getD_append_left' {α : Type} (l l2 : List α) (d : α) (m : Nat) (h : m < l.length) :
    (l ++ l2).getD m d = l.getD m d := List.getD_append _ _ _ _ h

theorem tail_step_spec (data : Adjacency) (paths : List Int) (i : Nat) (hi : i < data.length)
    (st : TailState) (inv : TailInv data paths i st)
    (hchain : ∀ e ∈ data.getD i [], ¬ paths.getD e.2.toNat 0 > 1 →
      ∃ chain, tail_chain data data.length e.2 = some chain)
    (hsorted : (data.getD i []).Pairwise (fun a b => a.1 < b.1)) :
    ∃ st2, tail_step data paths st i = some st2 ∧ TailInv data paths (i + 1) st2 := by
  unfold tail_step
  by_cases h1 : paths.getD i 0 = 1
  · rw [if_pos h1]
    refine ⟨st, rfl, inv.mlen, ?_, inv.sorted_rows, fun h => by omega, ?_⟩
    · intro v hv hk
      have hvi : v ≠ i := fun h => hk (h ▸ h1)
      exact inv.rows v (by omega) hk
    · intro _ h0
      have hi0 : i ≠ 0 := fun h => h0 (h ▸ h1)
      exact inv.root (by omega) h0
  · rw [if_neg h1]
    obtain ⟨row2, more, g1, g2⟩ := tail_edges_spec data paths (data.getD i []) [] st.tail_str
      hchain
    rw [g1]
    simp only [List.nil_append]
    refine ⟨_, rfl, by simpa using inv.mlen, ?_, ?_, fun h => by omega, ?_⟩
    · intro v hv hk
      simp only []
      by_cases hvi : v = i
      · subst hvi
        refine ⟨st.new_edges.length, getD_set_same _ _ _ _ (by rw [inv.mlen]; exact hi),
          by simp, ?_⟩
        rw [List.getD_append_right _ _ _ _ (le_refl _)]
        simpa using g2
      · obtain ⟨m, hm1, hm2, hm3⟩ := inv.rows v (by omega) hk
        refine ⟨m, by rw [getD_set_other _ _ _ _ _ (Ne.symm hvi)]; exact hm1,
          by simp; omega, ?_⟩
        rw [getD_append_left' _ _ _ _ hm2]
        exact forall₂_mono more hm3
    · intro row hrow
      simp only [List.mem_append, List.mem_singleton] at hrow
      rcases hrow with h | h
      · exact inv.sorted_rows row h
      · rw [h]; exact forall₂_sorted g2 hsorted
    · intro _ h0
      simp only []
      by_cases hi0 : i = 0
      · subst hi0
        rw [getD_set_same _ _ _ _ (by rw [inv.mlen]; exact hi), inv.start rfl]
        rfl
      · rw [getD_set_other _ _ _ _ _ hi0]
        exact inv.root (by omega) h0

theorem tail_loop_spec (data : Adjacency) (paths : List Int)
    (hchain : ∀ i, i < data.length → ∀ e ∈ data.getD i [], ¬ paths.getD e.2.toNat 0 > 1 →
      ∃ chain, tail_chain data data.length e.2 = some chain)
    (hsorted : ∀ i, i < data.length → (data.getD i []).Pairwise (fun a b => a.1 < b.1)) :
    ∀ (cnt i : Nat) (st : TailState), i + cnt = data.length → TailInv data paths i st →
    ∃ st2, tail_loop data paths (List.range' i cnt) st = some st2 ∧
      TailInv data paths data.length st2 := by
  intro cnt
  induction cnt with
  | zero =>
    intro i st hi inv
    have : i = data.length := by omega
    subst this
    exact ⟨st, rfl, inv⟩
  | succ cnt ih =>
    intro i st hi inv
    obtain ⟨st2, h1, h2⟩ := tail_step_spec data paths i (by omega) st inv
      (hchain i (by omega)) (hsorted i (by omega))
    obtain ⟨st3, g1, g2⟩ := ih (i + 1) st2 (by omega) h2
    refine ⟨st3, ?_, g2⟩
    simp only [List.range', tail_loop, h1]
    exact g1

theorem construct_maps_fold : ∀ (rest done : Adjacency),
    (∀ row ∈ rest, row.Pairwise (fun a b => a.1 < b.1)) →
    (rest.foldl (fun (st : MapVector × Nat) edges =>
      (edges.foldl (fun maps e => MapVector.insert maps st.2 e.1 e.2) st.1, st.2 + 1))
      (done ++ List.replicate rest.length [], done.length)).1 = done ++ rest := by
  intro rest
  induction rest with
  | nil => intro done _; simp
  | cons row rest ih =>
    intro done hs
    simp only [List.foldl_cons]
    have hin := install_inner (fun x => x) done.length row
      (done ++ List.replicate (row :: rest).length []) (by simp)
    simp only [] at hin
    have hstep : row.foldl (fun maps e => MapVector.insert maps (done.length : Int) e.1 e.2)
        (done ++ List.replicate (row :: rest).length [])
        = (done ++ [row]) ++ List.replicate rest.length [] := by
      rw [hin, List.getD_append_right _ _ _ _ (le_refl _)]
      simp only [Nat.sub_self, List.length_cons, List.replicate_succ, List.getD_cons_zero]
      rw [STLMap.insert_fold (fun x => x) row [] (by simpa using hs row (List.mem_cons_self _ _))]
      simp
    rw [hstep]
    have hl : done.length + 1 = (done ++ [row]).length := by simp
    rw [hl, ih (done ++ [row]) (fun r hr => hs r (List.mem_cons_of_mem _ hr))]
    simp

/-- Built from rows in label order, the map vector holds the rows as given. -/
theorem construct_maps_eq (data : Adjacency)
    (hs : ∀ row ∈ data, row.Pairwise (fun a b => a.1 < b.1)) : construct_maps data = data := by
  have := construct_maps_fold data [] hs
  simpa [construct_maps, MapVector.mk] using this

theorem search_from_append (maps : MapVector) : ∀ (pre suf : List Byte) (u v : Int),
    walk maps u pre = some v →
    BaseTrie.search_from maps u (pre ++ suf) = BaseTrie.search_from maps v suf := by
  intro pre
  induction pre with
  | nil =>
    intro suf u v h
    simp only [walk, Option.some.injEq] at h
    subst h; rfl
  | cons c pre ih =>
    intro suf u v h
    simp only [walk] at h
    simp only [List.cons_append, BaseTrie.search_from]
    split at h
    · simp at h
    · rename_i hne
      rw [if_neg hne]
      exact ih suf _ v h

theorem wellFormed_suffix (pre suf : List Byte) (hne : suf ≠ [])
    (h : WellFormed (pre ++ suf)) : WellFormed suf := by
  obtain ⟨h1, h2⟩ := h
  constructor
  · rw [List.getLast?_append_of_ne_nil _ hne] at h1
    exact h1
  · rw [List.dropLast_append_of_ne_nil _ hne] at h2
    exact fun hm => h2 (List.mem_append_right _ hm)

theorem wellFormed_last (s : List Byte) (h : WellFormed s) :
    0 < s.length ∧ s[s.length - 1]? = some EOW ∧
    ∀ j, j < s.length → s[j]? = some EOW → j = s.length - 1 := by
  have hne := wellFormed_ne_nil s h
  have hpos : 0 < s.length := List.length_pos.mpr hne
  obtain ⟨h1, h2⟩ := h
  refine ⟨hpos, ?_, ?_⟩
  · rw [List.getLast?_eq_getElem?] at h1
    exact h1
  · intro j hj hje
    by_contra hcon
    apply h2
    have hj2 : j < s.dropLast.length := by simp; omega
    have : s.dropLast[j]? = some EOW := by
      rw [List.dropLast_eq_take, List.getElem?_take_of_lt (by omega)]
      exact hje
    exact List.getElem?_mem this

/-- Two well-formed strings: a byte source that holds `Y` agrees with `X` on
the length of `X` exactly when `X = Y`. -/
theorem eow_match (X Y : List Byte) (hX : WellFormed X) (hY : WellFormed Y) (f : Nat → Byte)
    (hf : ∀ j, j < Y.length → some (f j) = Y[j]?) :
    (∀ j, j < X.length → some (f j) = X[j]?) ↔ X = Y := by
  obtain ⟨x0, x1, x2⟩ := wellFormed_last X hX
  obtain ⟨y0, y1, y2⟩ := wellFormed_last Y hY
  constructor
  · intro hall
    have hlen : X.length = Y.length := by
      rcases Nat.lt_trichotomy X.length Y.length with h | h | h
      · have a1 := hall (X.length - 1) (by omega)
        have a2 := hf (X.length - 1) (by omega)
        rw [a1, x1] at a2
        have := y2 (X.length - 1) (by omega) a2.symm
        omega
      · exact h
      · have a1 := hall (Y.length - 1) (by omega)
        have a2 := hf (Y.length - 1) (by omega)
        rw [a2, y1] at a1
        have := x2 (Y.length - 1) (by omega) a1.symm
        omega
    apply List.ext_getElem? 
    intro j
    by_cases hj : j < X.length
    · rw [← hall j hj, ← hf j (by omega)]
    · rw [List.getElem?_eq_none (by omega), List.getElem?_eq_none (by omega)]
  · intro h
    subst h
    exact hf

/-- The comparison `get_lcp(...) == max_len` passes exactly when the first
`max_len` bytes agree. -/
theorem get_lcp_full_iff (str1 : List Byte) (junk1 : Nat → Byte) (ofs1 : Nat)
    (str2 : List Byte) (junk2 : Nat → Byte) (ofs2 : Nat) (max_len : Nat) :
    get_lcp str1 junk1 ofs1 str2 junk2 ofs2 max_len = max_len ↔
      ∀ j, j < max_len → byteAt str1 junk1 (ofs1 + j) = byteAt str2 junk2 (ofs2 + j) := by
  obtain ⟨h1, h2, h3⟩ := get_lcp_spec str1 junk1 ofs1 str2 junk2 ofs2 max_len
  constructor
  · intro h j hj
    exact h2 j (by omega)
  · intro hall
    by_contra hne
    have hlt : get_lcp str1 junk1 ofs1 str2 junk2 ofs2 max_len < max_len := by omega
    exact h3 hlt (hall _ hlt)

theorem forall₂_exists_right {α β : Type} {R : α → β → Prop} :
    ∀ {l1 : List α} {l2 : List β}, List.Forall₂ R l1 l2 → ∀ e ∈ l1, ∃ r ∈ l2, R e r := by
  intro l1 l2 h
  induction h with
  | nil => intro e he; simp at he
  | cons hr _ ih =>
    intro e he
    rcases List.mem_cons.mp he with rfl | he
    · exact ⟨_, List.mem_cons_self _ _, hr⟩
    · obtain ⟨r, hr1, hr2⟩ := ih e he
      exact ⟨r, List.mem_cons_of_mem _ hr1, hr2⟩

theorem tailInv_init (data : Adjacency) (paths : List Int) :
    TailInv data paths 0
      { mapping := List.replicate data.length NOT_FOUND, new_edges := [], tail_str := [] } :=
  ⟨by simp, fun v hv => by omega, fun row hrow => by simp at hrow, fun _ => rfl,
    fun h => by omega⟩

/-- The constructor of `TailTrie` ends on a trie, with the rows of the kept
nodes as its maps. -/
theorem tail_construct_spec (t : BaseTrie) (inv : TrieInv t) :
    ∃ st, TailInv t.maps (number_of_paths_leaf t.maps) t.maps.length st ∧
      tail_state t.maps = some st ∧
      TailTrie.construct t =
        if tail_root_assert t.maps then
          some { tail_str := st.tail_str, maps := tail_new_data st.mapping st.new_edges }
        else none := by
  have ht : TopoOk t.maps := by
    have := trie_topoOk t inv
    unfold BaseTrie.to_vector at this
    rw [to_vector_eq] at this
    exact this
  have pspec := paths_spec t.maps ht
  have hchain : ∀ i, i < t.maps.length → ∀ e ∈ t.maps.getD i [],
      ¬ (number_of_paths_leaf t.maps).getD e.2.toNat 0 > 1 →
      ∃ chain, tail_chain t.maps t.maps.length e.2 = some chain := by
    intro i hi e he hk
    have hup := ht i hi e he
    have hpos := pspec.pos e.2.toNat (by omega)
    obtain ⟨chain, hc, _⟩ := tail_chain_spec t inv _ pspec ht t.maps.length e.2.toNat
      (by rw [← inv.len]; omega) (by rw [inv.len]; omega) (by omega)
    have hx : e.2 = ((e.2.toNat : Nat) : Int) := by omega
    rw [← hx] at hc
    exact ⟨chain, hc⟩
  obtain ⟨st, h1, h2⟩ := tail_loop_spec t.maps (number_of_paths_leaf t.maps) hchain
    (fun i hi => inv.sorted i (by rw [← inv.len]; exact hi)) t.maps.length 0 _ (by simp)
    (tailInv_init t.maps _)
  have hstate : tail_state t.maps = some st := by
    unfold tail_state
    rw [List.range_eq_range', h1]
  refine ⟨st, h2, hstate, ?_⟩
  unfold TailTrie.construct BaseTrie.to_vector
  simp only [to_vector_eq, hstate]
  rw [construct_maps_eq]
  intro row hrow
  unfold tail_new_data at hrow
  obtain ⟨r, hr, rfl⟩ := List.mem_map.mp hrow
  rw [List.pairwise_map]
  exact h2.sorted_rows r hr

theorem getD_map_lt {α β : Type} (f : α → β) (l : List α) (m : Nat) (d1 : α) (d2 : β)
    (h : m < l.length) : (l.map f).getD m d2 = f (l.getD m d1) := by
  rw [List.getD_eq_getElem _ _ (by simpa using h), List.getD_eq_getElem _ _ h]
  simp

/-- What a lookup in the row of a kept node returns. -/
theorem tail_row_search (data : Adjacency) (paths : List Int) (st : TailState)
    (inv : TailInv data paths data.length st) (v : Nat) (hv : v < data.length)
    (hk : paths.getD v 0 ≠ 1) (hs : (data.getD v []).Pairwise (fun a b => a.1 < b.1)) :
    ∃ m : Nat, st.mapping.getD v NOT_FOUND = (m : Int) ∧
      (∀ c, (∀ e ∈ data.getD v [], e.1 ≠ c) →
        MapVector.search (tail_new_data st.mapping st.new_edges) (m : Int) c = NOT_FOUND) ∧
      (∀ e ∈ data.getD v [], paths.getD e.2.toNat 0 > 1 →
        MapVector.search (tail_new_data st.mapping st.new_edges) (m : Int) e.1
          = st.mapping.getD e.2.toNat NOT_FOUND) ∧
      (∀ e ∈ data.getD v [], ¬ paths.getD e.2.toNat 0 > 1 →
        ∃ (off : Nat) (chain : List Byte),
          MapVector.search (tail_new_data st.mapping st.new_edges) (m : Int) e.1
            = set_tail_flag (off : Int) ∧
          tail_chain data data.length e.2 = some chain ∧
          ∀ j, j < chain.length + 1 → st.tail_str[off + j]? = (e.1 :: chain)[j]?) := by
  obtain ⟨m, hm1, hm2, hm3⟩ := inv.rows v hv hk
  have hrow : (tail_new_data st.mapping st.new_edges).getD m []
      = (st.new_edges.getD m []).map (fun e =>
          (e.1, if e.2.1 then set_tail_flag e.2.2
                else st.mapping.getD e.2.2.toNat NOT_FOUND)) := by
    unfold tail_new_data
    rw [getD_map_lt _ _ m [] [] hm2]
  have hkeys := forall₂_keys hm3
  have hsorted : ((st.new_edges.getD m []).map (fun e =>
      (e.1, if e.2.1 then set_tail_flag e.2.2
            else st.mapping.getD e.2.2.toNat NOT_FOUND))).Pairwise (fun a b => a.1 < b.1) := by
    rw [List.pairwise_map]
    exact forall₂_sorted hm3 hs
  have hfind : ∀ e ∈ data.getD v [], ∃ r ∈ st.new_edges.getD m [],
      TailRel data paths st.tail_str e r ∧
      MapVector.search (tail_new_data st.mapping st.new_edges) (m : Int) e.1
        = (if r.2.1 then set_tail_flag r.2.2 else st.mapping.getD r.2.2.toNat NOT_FOUND) := by
    intro e he
    obtain ⟨r, hr1, hr2⟩ := forall₂_exists_right hm3 e he
    refine ⟨r, hr1, hr2, ?_⟩
    rw [MapVector.search_nat, hrow]
    apply STLMap.mem_search _ _ _ hsorted
    rw [← hr2.1]
    exact List.mem_map.mpr ⟨r, hr1, rfl⟩
  refine ⟨m, hm1, ?_, ?_, ?_⟩
  · intro c hc
    rw [MapVector.search_nat, hrow]
    apply STLMap.search_absent
    intro x hx
    obtain ⟨r, hr, rfl⟩ := List.mem_map.mp hx
    simp only []
    have : r.1 ∈ (st.new_edges.getD m []).map Prod.fst := List.mem_map_of_mem _ hr
    rw [hkeys] at this
    obtain ⟨e, he, hee⟩ := List.mem_map.mp this
    rw [← hee]
    exact hc e he
  · intro e he hkept
    obtain ⟨r, _, hrel, hsr⟩ := hfind e he
    rw [hsr, hrel.2.1 hkept]
    simp
  · intro e he hkept
    obtain ⟨r, _, hrel, hsr⟩ := hfind e he
    obtain ⟨off, chain, g1, g2, g3⟩ := hrel.2.2 hkept
    refine ⟨off, chain, ?_, g2, g3⟩
    rw [hsr, g1]
    simp

theorem eow_edge_leaf (D : List (List Byte)) (hwf : ∀ d ∈ D, WellFormed d) (pre : List Byte)
    (c : Byte) (h : ∃ d ∈ D, pre ++ [EOW] ++ [c] <+: d) : False := by
  obtain ⟨d, hd, r, hr⟩ := h
  apply (hwf d hd).2
  rw [← hr]
  have e : pre ++ [EOW] ++ [c] ++ r = (pre ++ [EOW]) ++ (c :: r) := by simp
  rw [e, List.dropLast_append_of_ne_nil _ (by simp)]
  simp

/-- From a kept node the tail-compacted trie answers a well-formed query as
the trie does. -/
theorem tail_search_from_eq (D : List (List Byte)) (hne : D ≠ []) (hwf : ∀ d ∈ D, WellFormed d)
    (st : TailState)
    (tinv : TailInv (BaseTrie.construct D).maps
      (number_of_paths_leaf (BaseTrie.construct D).maps) (BaseTrie.construct D).maps.length st)
    (hsz : st.tail_str.length < 2 ^ 31) (line : List Byte) (hline : WellFormed line)
    (jt jl : Nat → Byte) :
    ∀ (suf pre : List Byte) (v m : Nat), line = pre ++ suf → suf ≠ [] →
    walk (BaseTrie.construct D).maps 0 pre = some (v : Int) →
    v < (BaseTrie.construct D).node_count →
    (number_of_paths_leaf (BaseTrie.construct D).maps).getD v 0 ≠ 1 →
    st.mapping.getD v NOT_FOUND = (m : Int) →
    TailTrie.search_from { tail_str := st.tail_str,
                           maps := tail_new_data st.mapping st.new_edges }
        jt jl line suf pre.length (m : Int)
      = BaseTrie.search_from (BaseTrie.construct D).maps (v : Int) suf := by
  obtain ⟨inv, hdom⟩ := construct_spec D
  have ht : TopoOk (BaseTrie.construct D).maps := by
    have := trie_topoOk _ inv
    unfold BaseTrie.to_vector at this
    rw [to_vector_eq] at this
    exact this
  have pspec := paths_spec _ ht
  have hlen := inv.len
  intro suf
  induction suf with
  | nil => intro pre v m _ h; exact absurd rfl h
  | cons ch rest ih =>
    intro pre v m hl _ hwalk hv hk hm
    obtain ⟨m2, hm2, ha, hb, hc⟩ := tail_row_search _ _ st tinv v (by omega) hk (inv.sorted v hv)
    have hmm : m2 = m := by rw [hm] at hm2; omega
    subst hmm
    simp only [TailTrie.search_from, BaseTrie.search_from]
    by_cases habs : MapVector.search (BaseTrie.construct D).maps (v : Int) ch = NOT_FOUND
    · rw [if_pos habs, if_pos (ha ch ((trie_search_not_found _ inv v ch).mp habs))]
    · rw [if_neg habs]
      obtain ⟨hmem, _, hx1, hx2⟩ := trie_search_found _ inv v ch habs
      generalize hxdef : MapVector.search (BaseTrie.construct D).maps (v : Int) ch = x
        at hmem hx1 hx2 habs
      have hxn : x = ((x.toNat : Nat) : Int) := by omega
      have hwalk2 : walk (BaseTrie.construct D).maps 0 (pre ++ [ch]) = some x :=
        (walk_snoc _ _ _ _ _).mpr ⟨_, hwalk, hxdef, habs⟩
      by_cases hkept : (number_of_paths_leaf (BaseTrie.construct D).maps).getD x.toNat 0 > 1
      · have hsr := hb (ch, x) hmem hkept
        simp only [] at hsr
        obtain ⟨m3, hm3, _, _, _⟩ := tail_row_search _ _ st tinv x.toNat (by omega) (by omega)
          (inv.sorted _ (by omega))
        rw [hsr, hm3]
        rw [if_neg (by unfold NOT_FOUND; omega)]
        have hflag : has_tail_flag (m3 : Int) = false := by
          unfold has_tail_flag; simp
        rw [hflag]
        simp only [Bool.false_eq_true, if_false]
        have hrest : rest ≠ [] := by
          intro hr
          subst hr
          have hch : ch = EOW := by
            have := hline.1
            rw [hl] at this
            simpa using this
          subst hch
          cases hd : (BaseTrie.construct D).maps.getD x.toNat [] with
          | nil =>
            have := pspec.leaf x.toNat (by omega) hd
            omega
          | cons e2 _ =>
            have he2 : e2 ∈ (BaseTrie.construct D).maps.getD x.toNat [] := by rw [hd]; simp
            have hs2 := trie_mem_search _ inv x.toNat e2 he2
            have hup2 := inv.edge_up x.toNat (by omega) e2 he2
            rw [← hxn] at hs2
            have hw3 : walk (BaseTrie.construct D).maps 0 (pre ++ [EOW] ++ [e2.1]) = some e2.2 :=
              (walk_snoc _ _ _ _ _).mpr ⟨_, hwalk2, hs2, by unfold NOT_FOUND; omega⟩
            rcases (hdom _).mp (by rw [hw3]; rfl) with h | h
            · simp at h
            · exact eow_edge_leaf D hwf pre e2.1 h
        have := ih (pre ++ [ch]) x.toNat m3 (by rw [hl]; simp) hrest (by rw [← hxn]; exact hwalk2)
          (by omega) (by omega) hm3
        rw [← hxn] at this
        simpa using this
      · obtain ⟨off, chain, hsr, hchain, hpool⟩ := hc (ch, x) hmem hkept
        simp only [] at hsr hchain hpool
        have hp1 : (number_of_paths_leaf (BaseTrie.construct D).maps).getD x.toNat 0 = 1 := by
          have := pspec.pos x.toNat (by omega)
          omega
        obtain ⟨chain2, hc2, hacc⟩ := tail_chain_spec _ inv _ pspec ht
          (BaseTrie.construct D).maps.length x.toNat (by omega) (by omega) hp1
        rw [← hxn, hchain] at hc2
        have hcc : chain2 = chain := (Option.some.inj hc2).symm
        subst hcc
        rw [← hxn] at hacc
        have hoff : off + chain2.length < st.tail_str.length := by
          have := hpool chain2.length (by omega)
          by_contra hcon
          rw [List.getElem?_eq_none (by omega)] at this
          have h2 : (ch :: chain2)[chain2.length]? ≠ none := by
            rw [List.getElem?_eq_getElem (by simp)]
            simp
          exact h2 this.symm
        have hpow : (2 : Int) ^ 31 = 2147483648 := by norm_num
        have hpown : (2 : Nat) ^ 31 = 2147483648 := by norm_num
        rw [hpown] at hsz
        have hflagv : set_tail_flag (off : Int) = (off : Int) - 2147483648 := by
          unfold set_tail_flag
          rw [if_pos (by omega), hpow]
        rw [hsr, hflagv, if_neg (by unfold NOT_FOUND; omega)]
        have hflag : has_tail_flag ((off : Int) - 2147483648) = true := by
          unfold has_tail_flag; simp; omega
        have hclear : (clear_tail_flag ((off : Int) - 2147483648)).toNat = off := by
          unfold clear_tail_flag
          rw [hpow]
          omega
        rw [hflag, hclear]
        simp only [if_true]
        -- both sides say that the rest of the query is the chain
        have hY : WellFormed (ch :: chain2) := by
          have hacc2 : (BaseTrie.construct D).search (pre ++ ch :: chain2) = true := by
            unfold BaseTrie.search
            rw [search_from_append _ pre _ 0 _ hwalk]
            simp only [BaseTrie.search_from, hxdef, if_neg habs]
            exact (hacc chain2).mpr rfl
          have hin := (trie_search_mem_iff D hne hwf _).mp hacc2
          exact wellFormed_suffix pre _ (by simp) (hwf _ hin)
        have hX : WellFormed (ch :: rest) := wellFormed_suffix pre _ (by simp) (hl ▸ hline)
        have hmatch := eow_match (ch :: rest) (ch :: chain2) hX hY
          (fun j => byteAt st.tail_str jt (off + j))
          (fun j hj => by
            have hj2 : j < chain2.length + 1 := by simpa using hj
            rw [byteAt_inb _ _ _ (by omega)]
            exact hpool j hj2)
        have hlenl : line.length - pre.length = (ch :: rest).length := by
          rw [hl]; simp
        have hline_at : ∀ j, j < (ch :: rest).length →
            some (byteAt line jl (pre.length + j)) = (ch :: rest)[j]? := by
          intro j hj
          rw [byteAt_inb _ _ _ (by rw [hl]; simp at hj ⊢; omega), hl,
            List.getElem?_append_right (by omega)]
          congr 1
          omega
        rw [Bool.eq_iff_iff, decide_eq_true_iff, hacc, hlenl, get_lcp_full_iff]
        have hiff : (∀ j, j < (ch :: rest).length →
            byteAt st.tail_str jt (off + j) = byteAt line jl (pre.length + j)) ↔
            (∀ j, j < (ch :: rest).length →
              some (byteAt st.tail_str jt (off + j)) = (ch :: rest)[j]?) := by
          constructor
          · intro h j hj
            rw [h j hj]; exact hline_at j hj
          · intro h j hj
            have := h j hj
            rw [← hline_at j hj] at this
            exact Option.some.inj this
        rw [hiff, hmatch]
        simp

/-- With two different strings in a well-formed dictionary the root has more
than one leaf below it, so it is kept. -/
theorem root_kept (D : List (List Byte)) (hwf : ∀ d ∈ D, WellFormed d)
    (h2 : ∃ d1 ∈ D, ∃ d2 ∈ D, d1 ≠ d2) :
    (number_of_paths_leaf (BaseTrie.construct D).maps).getD 0 0 ≠ 1 := by
  obtain ⟨inv, _⟩ := construct_spec D
  have ht : TopoOk (BaseTrie.construct D).maps := by
    have := trie_topoOk _ inv
    unfold BaseTrie.to_vector at this
    rw [to_vector_eq] at this
    exact this
  have pspec := paths_spec _ ht
  obtain ⟨d1, hd1, d2, hd2, hne⟩ := h2
  have hD : D ≠ [] := List.ne_nil_of_mem hd1
  intro h1
  obtain ⟨chain, _, hacc⟩ := tail_chain_spec _ inv _ pspec ht
    (BaseTrie.construct D).maps.length 0 inv.count_pos (by rw [inv.len]; omega) h1
  have a1 := (hacc d1).mp ((trie_search_mem_iff D hD hwf d1).mpr hd1)
  have a2 := (hacc d2).mp ((trie_search_mem_iff D hD hwf d2).mpr hd2)
  exact hne (a1.trans a2.symm)

/-- On a well-formed query the tail-compacted trie of a dictionary with two
different well-formed strings is built and answers as the trie does. -/
theorem tail_search_eq_trie (D : List (List Byte)) (hwf : ∀ d ∈ D, WellFormed d)
    (h2 : ∃ d1 ∈ D, ∃ d2 ∈ D, d1 ≠ d2) (hsz : tail_pool_length D < 2 ^ 31)
    (s : List Byte) (hs : WellFormed s) (jt jl : Nat → Byte) :
    ∃ tt, TailTrie.construct (BaseTrie.construct D) = some tt ∧
      tt.search jt jl s = (BaseTrie.construct D).search s := by
  obtain ⟨inv, _⟩ := construct_spec D
  obtain ⟨st, tinv, _, hcon0⟩ := tail_construct_spec _ inv
  have hD : D ≠ [] := by
    obtain ⟨d1, hd1, _⟩ := h2
    exact List.ne_nil_of_mem hd1
  have hroot := root_kept D hwf h2
  have hpos : 0 < (BaseTrie.construct D).maps.length := by rw [inv.len]; exact inv.count_pos
  have hassert : tail_root_assert (BaseTrie.construct D).maps = true := by
    have ht : TopoOk (BaseTrie.construct D).maps := by
      have := trie_topoOk _ inv
      unfold BaseTrie.to_vector at this
      rw [to_vector_eq] at this
      exact this
    have := (paths_spec _ ht).pos 0 hpos
    unfold tail_root_assert
    simp only [gt_iff_lt, decide_eq_true_eq]
    omega
  have hcon : TailTrie.construct (BaseTrie.construct D)
      = some { tail_str := st.tail_str, maps := tail_new_data st.mapping st.new_edges } := by
    rw [hcon0, if_pos hassert]
  have hm0 := tinv.root hpos hroot
  have hsz2 : st.tail_str.length < 2 ^ 31 := by
    unfold tail_pool_length at hsz
    rw [hcon] at hsz
    exact hsz
  refine ⟨_, hcon, ?_⟩
  have := tail_search_from_eq D hD hwf st tinv hsz2 s hs jt jl s [] 0 0 rfl
    (wellFormed_ne_nil s hs) rfl inv.count_pos hroot hm0
  unfold TailTrie.search
  simp only [List.length_nil, Nat.cast_zero] at this
  rw [this]
  rfl

/-- C3 (TailTrie membership on well-formed input). For every list `D` that
holds at least two different strings, all ending with `EOW` and holding `EOW`
nowhere else, whose tail pool is shorter than `2^31` bytes (so that offsets fit
below the flag bit), and for every query `s` that ends with `EOW` and holds
`EOW` nowhere else, the constructor of `TailTrie` ends and `search(s)` is true
if and only if `s` is in `D`, whatever the memory holds behind the tail pool
and behind the query. -/
theorem TailTrie_search_iff_mem (D : List (List Byte)) (hwf : ∀ d ∈ D, WellFormed d)
    (h2 : ∃ d1 ∈ D, ∃ d2 ∈ D, d1 ≠ d2) (hsz : tail_pool_length D < 2 ^ 31)
    (s : List Byte) (hs : WellFormed s) (jt jl : Nat → Byte) :
    ∃ tt, TailTrie.construct (BaseTrie.construct D) = some tt ∧
      (tt.search jt jl s = true ↔ s ∈ D) := by
  obtain ⟨tt, h1, h3⟩ := tail_search_eq_trie D hwf h2 hsz s hs jt jl
  have hD : D ≠ [] := by
    obtain ⟨d1, hd1, _⟩ := h2
    exact List.ne_nil_of_mem hd1
  refine ⟨tt, h1, ?_⟩
  rw [h3]
  exact trie_search_mem_iff D hD hwf s

/-- C3 at a concrete input: the dictionary `{hello, help, helm}` and the query
`help`. -/
theorem TailTrie_search_iff_mem_witness :
    ∃ tt, TailTrie.construct (BaseTrie.construct [[104, 101, 108, 108, 111, 1],
        [104, 101, 108, 112, 1], [104, 101, 108, 109, 1]]) = some tt ∧
      (tt.search (fun _ => 0) (fun _ => 0) [104, 101, 108, 112, 1] = true ↔
        [104, 101, 108, 112, 1] ∈ ([[104, 101, 108, 108, 111, 1], [104, 101, 108, 112, 1],
          [104, 101, 108, 109, 1]] : List (List Byte))) :=
  TailTrie_search_iff_mem [[104, 101, 108, 108, 111, 1], [104, 101, 108, 112, 1],
    [104, 101, 108, 109, 1]] (by decide) (by decide) (by decide) [104, 101, 108, 112, 1]
    (by decide) (fun _ => 0) (fun _ => 0)

/-! ## Search over a heavy-path layout -/

theorem data_search_mem (data : Adjacency) (v : Nat)
    (hs : (data.getD v []).Pairwise (fun a b => a.1 < b.1)) (e : Byte × Int)
    (he : e ∈ data.getD v []) : MapVector.search data (v : Int) e.1 = e.2 := by
  rw [MapVector.search_nat]
  exact STLMap.mem_search e.1 e.2 _ hs he

/-- The run along the heavy path: as long as `heavy_str` from the position of
`v` agrees with the query, the walk in `data` follows, position by position. -/
theorem pd_heavy_run (data : Adjacency) (heavy_str : List Byte) (maps : MapVector)
    (pos : Nat → Nat) (spec : PDSpec data heavy_str maps pos) (jh : Nat → Byte) :
    ∀ (run : List Byte) (v : Nat), v < data.length → (∀ c ∈ run, c ≠ NULL_CHAR) →
    (∀ j, j < run.length → some (byteAt heavy_str jh (pos v + j)) = run[j]?) →
    ∃ w : Nat, w < data.length ∧ walk data (v : Int) run = some (w : Int) ∧
      pos w = pos v + run.length := by
  intro run
  induction run with
  | nil => intro v hv _ _; exact ⟨v, hv, rfl, rfl⟩
  | cons c run ih =>
    intro v hv hnn hag
    have h0 := hag 0 (by simp)
    simp only [Nat.add_zero, List.getElem?_cons_zero, Option.some.injEq] at h0
    have hc : heavy_str[pos v]? = some c := by
      rw [← byteAt_inb heavy_str jh _ (spec.pos_lt v hv), h0]
    obtain ⟨e, he, hec, hpos⟩ := spec.heavy v hv c (hnn c (List.mem_cons_self _ _)) hc
    have hr := spec.range v hv e he
    have hs := data_search_mem data v (spec.sorted v hv) e he
    rw [hec] at hs
    have hx : e.2 = ((e.2.toNat : Nat) : Int) := by omega
    obtain ⟨w, hw1, hw2, hw3⟩ := ih e.2.toNat (by omega)
      (fun x hx => hnn x (List.mem_cons_of_mem _ hx))
      (fun j hj => by
        have := hag (j + 1) (by simp; omega)
        rw [hpos]
        simp only [List.getElem?_cons_succ] at this
        rw [← this]
        congr 2
        omega)
    refine ⟨w, hw1, ?_, by rw [hw3, hpos]; simp; omega⟩
    simp only [walk, hs]
    rw [if_neg (by unfold NOT_FOUND; omega), hx]
    exact hw2

theorem list_take_getElem? {α : Type} (l : List α) (k j : Nat) (hj : j < k) :
    (l.take k)[j]? = l[j]? := by
  rw [List.getElem?_take_of_lt hj]

/-- The loop shared by the heavy-path searches ends within `line.size() + 1`
rounds, in the position of the node the walk in `data` ends in, and it returns
`false` exactly when that walk misses an edge. -/
theorem pd_walk_spec (data : Adjacency) (heavy_str : List Byte) (maps : MapVector)
    (pos : Nat → Nat) (spec : PDSpec data heavy_str maps pos) (jh jl : Nat → Byte)
    (line : List Byte) (hline : ∀ c ∈ line, c ≠ NULL_CHAR) :
    ∀ (fuel : Nat) (suf pre : List Byte) (v : Nat), line = pre ++ suf → suf.length < fuel →
    v < data.length →
    pd_walk heavy_str maps jh jl line fuel pre.length (pos v : Int)
      = some ((walk data (v : Int) suf).map (fun w => (pos w.toNat : Int))) := by
  intro fuel
  induction fuel with
  | zero => intro suf pre v _ h; omega
  | succ fuel ih =>
    intro suf pre v hl hf hv
    have hlen : line.length = pre.length + suf.length := by rw [hl]; simp
    simp only [pd_walk]
    by_cases hi : pre.length < line.length
    swap
    · rw [if_neg hi]
      have : suf = [] := List.length_eq_zero.mp (by omega)
      subst this
      simp [walk]
    rw [if_pos hi]
    simp only [Int.toNat_ofNat]
    have hrem : line.length - pre.length = suf.length := by omega
    rw [hrem]
    obtain ⟨l1, l2, l3⟩ := get_lcp_spec heavy_str jh (pos v) line jl pre.length suf.length
    generalize get_lcp heavy_str jh (pos v) line jl pre.length suf.length = k at l1 l2 l3
    have hline_at : ∀ j, j < suf.length → some (byteAt line jl (pre.length + j)) = suf[j]? := by
      intro j hj
      rw [byteAt_inb _ _ _ (by omega), hl, List.getElem?_append_right (by omega)]
      congr 1
      omega
    have hnn : ∀ c ∈ suf, c ≠ NULL_CHAR := fun c hc => hline c (by rw [hl]; simp [hc])
    obtain ⟨w, hw1, hw2, hw3⟩ := pd_heavy_run data heavy_str maps pos spec jh (suf.take k) v hv
      (fun c hc => hnn c (List.mem_of_mem_take hc))
      (fun j hj => by
        have hjk : j < k := by simp at hj; omega
        rw [l2 j hjk, hline_at j (by omega), list_take_getElem? _ _ _ hjk])
    have htl : (suf.take k).length = k := by simp; omega
    rw [htl] at hw3
    have hsplit : suf = suf.take k ++ suf.drop k := (List.take_append_drop k suf).symm
    have hwalk : walk data (v : Int) suf = walk data (w : Int) (suf.drop k) := by
      conv_lhs => rw [hsplit]
      rw [walk_append, hw2]
      rfl
    have hnode : (pos v : Int) + (k : Int) = ((pos w : Nat) : Int) := by rw [hw3]; push_cast; rfl
    rw [hnode]
    by_cases hend : pre.length + k = line.length
    · rw [if_pos hend]
      have : suf.drop k = [] := by
        apply List.drop_eq_nil_of_le
        omega
      rw [hwalk, this]
      simp [walk]
    · rw [if_neg hend]
      have hk : k < suf.length := by omega
      have hmis := l3 hk
      obtain ⟨c, rest, hcr⟩ : ∃ c rest, suf.drop k = c :: rest := by
        cases hd : suf.drop k with
        | nil =>
          have := congrArg List.length hd
          simp at this
          omega
        | cons c rest => exact ⟨c, rest, rfl⟩
      have hck : suf[k]? = some c := by
        have h0 : (suf.drop k)[0]? = suf[k]? := by
          rw [List.getElem?_drop]
          rfl
        rw [← h0, hcr]
        simp
      have hgetD : line.getD (pre.length + k) 0 = c := by
        have h1 := hline_at k hk
        rw [hck, byteAt_inb _ _ _ (by omega)] at h1
        rw [List.getD_eq_getElem?_getD, h1]
        rfl
      rw [hgetD, hwalk, hcr]
      have hbyte : byteAt line jl (pre.length + k) = c := by
        have h1 := hline_at k hk
        rw [hck] at h1
        exact Option.some.inj h1
      rw [hbyte, hw3.symm] at hmis
      have hne : heavy_str[pos w]? ≠ some c := by
        rw [← byteAt_inb heavy_str jh _ (spec.pos_lt w hw1)]
        intro h
        exact hmis (Option.some.inj h)
      simp only [walk]
      by_cases habs : MapVector.search data (w : Int) c = NOT_FOUND
      · have hall : ∀ e ∈ data.getD w [], e.1 ≠ c := by
          intro e he hec
          have hs := data_search_mem data w (spec.sorted w hw1) e he
          have hr := spec.range w hw1 e he
          rw [hec, habs] at hs
          unfold NOT_FOUND at hs
          omega
        rw [spec.light_absent w hw1 c hall, if_pos rfl, if_pos habs]
        rfl
      · rw [if_neg habs]
        have hmem : (c, MapVector.search data (w : Int) c) ∈ data.getD w [] := by
          rw [MapVector.search_nat] at habs ⊢
          exact STLMap.search_mem c _ habs
        have hr := spec.range w hw1 _ hmem
        have hfound := spec.light_found w hw1 _ hmem hne
        simp only [] at hfound hr
        rw [hfound, if_neg (by unfold NOT_FOUND; omega)]
        have hx : MapVector.search data (w : Int) c
            = (((MapVector.search data (w : Int) c).toNat : Nat) : Int) := by omega
        have := ih rest (pre ++ suf.take (k + 1)) (MapVector.search data (w : Int) c).toNat
          (by
            rw [hl]
            have h2 : suf = suf.take (k + 1) ++ rest := by
              have : suf.drop (k + 1) = rest := by
                have h3 : suf.drop (k + 1) = (suf.drop k).drop 1 := by
                  rw [List.drop_drop]
                rw [h3, hcr]
                rfl
              rw [← this]
              exact (List.take_append_drop (k + 1) suf).symm
            conv_lhs => rw [h2]
            simp)
          (by
            have h1 := congrArg List.length hcr
            simp at h1
            omega)
          (by omega)
        have hpl : (pre ++ suf.take (k + 1)).length = pre.length + k + 1 := by
          simp
          omega
        rw [hpl, ← hx] at this
        exact this

/-! ## Laying out the heavy paths -/

theorem getD_set_true (flags : List Bool) (c v : Nat) (hc : c < flags.length) :
    (flags.set c true).getD v false = true ↔ (v = c ∨ flags.getD v false = true) := by
  rw [getD_set_eq _ _ _ _ _ hc]
  by_cases h : v = c
  · simp [h]
  · simp [h]

theorem getElem?_append_one {α : Type} (l : List α) (x : α) (p : Nat) (y : α)
    (h : l[p]? = some y) : (l ++ [x])[p]? = some y := by
  have hp : p < l.length := by
    by_contra hcon
    rw [List.getElem?_eq_none (by omega)] at h
    simp at h
  rw [List.getElem?_append_left hp]
  exact h

theorem getElem?_append_last {α : Type} (l : List α) (x : α) : (l ++ [x])[l.length]? = some x := by
  rw [List.getElem?_append_right (le_refl _)]
  simp

theorem getElem?_snoc_cases {α : Type} (l : List α) (x : α) (p : Nat) (y : α)
    (h : (l ++ [x])[p]? = some y) : l[p]? = some y ∨ (p = l.length ∧ y = x) := by
  by_cases hp : p < l.length
  · rw [List.getElem?_append_left hp] at h
    exact Or.inl h
  · right
    rw [List.getElem?_append_right (by omega)] at h
    have hp2 : p - l.length = 0 := by
      by_contra hcon
      rw [List.getElem?_eq_none (by simp; omega)] at h
      simp at h
    rw [hp2] at h
    simp at h
    exact ⟨by omega, h.symm⟩

/-- One step inside a path: the pending node is appended and flagged. -/
theorem pathInv_push (n : Nat) (heavy_of : Int → Option (Byte × Int)) (ok : HeavyOk n heavy_of)
    (i : Nat) (ps : PathState) (cur : Int) (inv : PathInv n heavy_of (i + 1) ps [cur])
    (hic : (i : Int) ≤ cur) (c : Byte) (pend : List Int)
    (hc : (heavy_of cur = none → c = NULL_CHAR ∧ pend = []) ∧
      (∀ e, heavy_of cur = some e → c = e.1 ∧ pend = [e.2])) :
    PathInv n heavy_of (i + 1)
      { heavy_path := ps.heavy_path ++ [cur],
        flags := ps.flags.set cur.toNat true,
        heavy_str := ps.heavy_str ++ [c] } pend := by
  have hcur := inv.range cur (by simp)
  have hcn : cur = ((cur.toNat : Nat) : Int) := by omega
  have hnd := inv.nodup
  rw [List.nodup_append] at hnd
  have hcur_notin : cur ∉ ps.heavy_path := by
    intro h
    exact hnd.2.2 h (by simp)
  have hpend : ∀ x ∈ pend, ∃ e, heavy_of cur = some e ∧ e.2 = x ∧ pend = [e.2] := by
    intro x hx
    cases h : heavy_of cur with
    | none => rw [(hc.1 h).2] at hx; simp at hx
    | some e =>
      have := (hc.2 e h).2
      rw [this] at hx
      simp only [List.mem_singleton] at hx
      exact ⟨e, rfl, hx.symm, this⟩
  refine ⟨by simpa using inv.flen, by simp [inv.slen], ?_, ?_, ?_, ?_, ?_⟩
  · intro x hx
    simp only [List.mem_append] at hx
    rcases hx with hx | hx
    · exact inv.range x (List.mem_append.mpr (by simpa using hx))
    · obtain ⟨e, he, hex, _⟩ := hpend x hx
      rw [hcn] at he
      have := ok.up cur.toNat e (by omega) he
      omega
  · simp only []
    rw [List.nodup_append]
    refine ⟨inv.nodup, ?_, ?_⟩
    · cases h : heavy_of cur with
      | none => rw [(hc.1 h).2]; exact List.nodup_nil
      | some e => rw [(hc.2 e h).2]; exact List.nodup_singleton _
    · intro x hx1 hx2
      obtain ⟨e, he, hex, _⟩ := hpend x hx2
      have hup : cur < x := by
        rw [hcn] at he
        have := ok.up cur.toNat e (by omega) he
        omega
      simp only [List.mem_append, List.mem_singleton] at hx1
      rcases hx1 with hx1 | hx1
      · rcases inv.origin x (List.mem_append_left _ hx1) with h | ⟨u, hu, e2, he2, he2x⟩
        · omega
        · have hur := inv.range u (List.mem_append_left _ hu)
          have hun : u = ((u.toNat : Nat) : Int) := by omega
          rw [hun] at he2
          rw [hcn] at he
          have := ok.inj u.toNat cur.toNat e2 e (by omega) (by omega) he2 he
            (by rw [he2x, hex])
          apply hcur_notin
          rw [hcn, ← this, ← hun]
          exact hu
      · omega
  · intro v hv
    simp only []
    rw [getD_set_true _ _ _ (by rw [inv.flen]; omega), inv.flag_iff v hv]
    simp only [List.mem_append, List.mem_singleton]
    constructor
    · rintro (h | h)
      · right; omega
      · left; exact h
    · rintro (h | h)
      · right; exact h
      · left; omega
  · intro p x hpx
    simp only [] at hpx ⊢
    rcases getElem?_snoc_cases _ _ _ _ hpx with h | ⟨hp, hx⟩
    · obtain ⟨l1, l2⟩ := inv.layout p x h
      refine ⟨fun hn => getElem?_append_one _ _ _ _ (l1 hn), fun e he => ?_⟩
      obtain ⟨g1, g2⟩ := l2 e he
      refine ⟨getElem?_append_one _ _ _ _ g1, ?_⟩
      rw [List.append_assoc]
      have hlt : p + 1 < (ps.heavy_path ++ [cur]).length := by
        by_contra hcon
        rw [List.getElem?_eq_none (by omega)] at g2
        simp at g2
      rw [← List.append_assoc, List.getElem?_append_left hlt]
      exact g2
    · subst hx
      rw [hp, ← inv.slen]
      refine ⟨fun hn => ?_, fun e he => ?_⟩
      · rw [(hc.1 hn).1]; exact getElem?_append_last _ _
      · rw [(hc.2 e he).1, (hc.2 e he).2]
        refine ⟨getElem?_append_last _ _, ?_⟩
        rw [inv.slen]
        have : ps.heavy_path.length + 1 = (ps.heavy_path ++ [x]).length := by simp
        rw [this]
        exact getElem?_append_last _ _
  · intro x hx
    simp only [List.mem_append] at hx
    rcases hx with hx | hx
    · rcases inv.origin x (List.mem_append.mpr (by simpa using hx)) with h | ⟨u, hu, e, he, hex⟩
      · exact Or.inl h
      · exact Or.inr ⟨u, List.mem_append_left _ hu, e, he, hex⟩
    · obtain ⟨e, he, hex, _⟩ := hpend x hx
      exact Or.inr ⟨cur, by simp, e, he, hex⟩

/-- The walk along heavy edges ends within the nodes left, and lays out a path. -/
theorem pd_follow_spec (n : Nat) (heavy_of : Int → Option (Byte × Int)) (ok : HeavyOk n heavy_of)
    (i : Nat) :
    ∀ (fuel : Nat) (cur : Int) (ps : PathState), PathInv n heavy_of (i + 1) ps [cur] →
      (i : Int) ≤ cur → (n : Int) - cur ≤ (fuel : Int) →
      ∃ ps2, pd_follow heavy_of fuel cur ps = some ps2 ∧ PathInv n heavy_of (i + 1) ps2 [] ∧
        (ps.heavy_path ++ [cur]) <+: ps2.heavy_path := by
  intro fuel
  induction fuel with
  | zero =>
    intro cur ps inv hic hf
    have := inv.range cur (by simp)
    omega
  | succ fuel ih =>
    intro cur ps inv hic hf
    have hcur := inv.range cur (by simp)
    have hcn : cur = ((cur.toNat : Nat) : Int) := by omega
    cases h : heavy_of cur with
    | none =>
      refine ⟨{ heavy_path := ps.heavy_path ++ [cur], flags := ps.flags.set cur.toNat true,
                heavy_str := ps.heavy_str ++ [NULL_CHAR] }, ?_, ?_, List.prefix_refl _⟩
      · simp only [pd_follow, h]
      · refine pathInv_push n heavy_of ok i ps cur inv hic NULL_CHAR [] ⟨fun _ => ⟨rfl, rfl⟩, ?_⟩
        intro e he
        rw [h] at he
        cases he
    | some e =>
      have hpush : PathInv n heavy_of (i + 1)
          { heavy_path := ps.heavy_path ++ [cur], flags := ps.flags.set cur.toNat true,
            heavy_str := ps.heavy_str ++ [e.1] } [e.2] := by
        refine pathInv_push n heavy_of ok i ps cur inv hic e.1 [e.2] ⟨?_, ?_⟩
        · intro hn
          rw [h] at hn
          cases hn
        · intro e2 he
          rw [h] at he
          cases he
          exact ⟨rfl, rfl⟩
      have hup : cur < e.2 := by
        have h2 := h
        rw [hcn] at h2
        have := ok.up cur.toNat e (by omega) h2
        omega
      obtain ⟨ps2, h1, h2, h3⟩ := ih e.2 _ hpush (by omega) (by omega)
      refine ⟨ps2, ?_, h2, ?_⟩
      · simp only [pd_follow, h]
        exact h1
      · exact List.IsPrefix.trans (List.prefix_append _ _) h3

theorem prefix_getElem? {α : Type} (l1 l2 : List α) (h : l1 <+: l2) (p : Nat) (x : α)
    (hx : l1[p]? = some x) : l2[p]? = some x := by
  obtain ⟨t, rfl⟩ := h
  have hp : p < l1.length := by
    by_contra hcon
    rw [List.getElem?_eq_none (by omega)] at hx
    simp at hx
  rw [List.getElem?_append_left hp]
  exact hx

/-- A node that is not laid out may start a path. -/
theorem pathInv_open (n : Nat) (heavy_of : Int → Option (Byte × Int)) (i : Nat) (hi : i < n)
    (ps : PathState) (d : PathsDone n heavy_of i ps) (hnot : (i : Int) ∉ ps.heavy_path) :
    PathInv n heavy_of (i + 1) ps [(i : Int)] := by
  refine ⟨d.inv.flen, d.inv.slen, ?_, ?_, d.inv.flag_iff, ?_, ?_⟩
  · intro x hx
    simp only [List.mem_append, List.mem_singleton] at hx
    rcases hx with hx | hx
    · exact d.inv.range x (by simpa using hx)
    · omega
  · rw [List.nodup_append]
    refine ⟨by simpa using d.inv.nodup, List.nodup_singleton _, ?_⟩
    intro x hx1 hx2
    simp only [List.mem_singleton] at hx2
    rw [hx2] at hx1
    exact hnot hx1
  · intro p x hpx
    obtain ⟨l1, l2⟩ := d.inv.layout p x hpx
    refine ⟨l1, fun e he => ?_⟩
    obtain ⟨g1, g2⟩ := l2 e he
    refine ⟨g1, ?_⟩
    rw [List.append_nil] at g2
    exact getElem?_append_one _ _ _ _ g2
  · intro x hx
    simp only [List.mem_append, List.mem_singleton] at hx
    rcases hx with hx | hx
    · rcases d.inv.origin x (by simpa using hx) with h | h
      · left; omega
      · right; exact h
    · left; omega

theorem pd_path_step_spec (n : Nat) (heavy_of : Int → Option (Byte × Int))
    (ok : HeavyOk n heavy_of) (i : Nat) (hi : i < n) (ps : PathState)
    (d : PathsDone n heavy_of i ps) :
    ∃ ps2, pd_path_step n heavy_of ps i = some ps2 ∧ PathsDone n heavy_of (i + 1) ps2 := by
  unfold pd_path_step
  by_cases hf : ps.flags.getD i false = true
  · rw [if_pos hf]
    have hmem := (d.inv.flag_iff i hi).mp hf
    refine ⟨ps, rfl, ⟨?_, ?_, ?_⟩⟩
    · refine ⟨d.inv.flen, d.inv.slen, d.inv.range, d.inv.nodup, d.inv.flag_iff, d.inv.layout, ?_⟩
      intro x hx
      rcases d.inv.origin x hx with h | h
      · left; omega
      · right; exact h
    · intro v hv
      by_cases hvi : v = i
      · rw [hvi]; exact hmem
      · exact d.all v (by omega)
    · have h1 := d.first
      by_cases h0 : i = 0
      · subst h0
        rw [if_pos rfl] at h1
        have : ps.heavy_path = [] := by
          cases hp : ps.heavy_path with
          | nil => rfl
          | cons a t => rw [hp] at h1; simp at h1
        rw [this] at hmem
        simp at hmem
      · rw [if_neg h0] at h1
        rw [if_neg (by omega)]
        exact h1
  · rw [if_neg hf]
    have hnot : (i : Int) ∉ ps.heavy_path := fun h => hf ((d.inv.flag_iff i hi).mpr h)
    have hopen := pathInv_open n heavy_of i hi ps d hnot
    obtain ⟨ps2, h1, h2, h3⟩ := pd_follow_spec n heavy_of ok i n (i : Int) ps hopen
      (le_refl _) (by omega)
    refine ⟨ps2, h1, ⟨h2, ?_, ?_⟩⟩
    · intro v hv
      have hsub : ∀ x ∈ ps.heavy_path ++ [(i : Int)], x ∈ ps2.heavy_path := fun x hx =>
        List.IsPrefix.subset h3 hx
      by_cases hvi : v = i
      · rw [hvi]; exact hsub _ (by simp)
      · exact hsub _ (List.mem_append_left _ (d.all v (by omega)))
    · rw [if_neg (by omega)]
      apply prefix_getElem? _ _ h3
      have h1 := d.first
      by_cases h0 : i = 0
      · subst h0
        rw [if_pos rfl] at h1
        have : ps.heavy_path = [] := by
          cases hp : ps.heavy_path with
          | nil => rfl
          | cons a t => rw [hp] at h1; simp at h1
        rw [this]
        simp
      · rw [if_neg h0] at h1
        exact getElem?_append_one _ _ _ _ h1

theorem pd_path_loop_spec (n : Nat) (heavy_of : Int → Option (Byte × Int))
    (ok : HeavyOk n heavy_of) :
    ∀ (cnt i : Nat) (ps : PathState), i + cnt ≤ n → PathsDone n heavy_of i ps →
      ∃ ps2, pd_path_loop n heavy_of (List.range' i cnt) ps = some ps2 ∧
        PathsDone n heavy_of (i + cnt) ps2 := by
  intro cnt
  induction cnt with
  | zero =>
    intro i ps _ d
    exact ⟨ps, rfl, d⟩
  | succ cnt ih =>
    intro i ps hle d
    obtain ⟨ps1, h1, d1⟩ := pd_path_step_spec n heavy_of ok i (by omega) ps d
    obtain ⟨ps2, h2, d2⟩ := ih (i + 1) ps1 (by omega) d1
    refine ⟨ps2, ?_, ?_⟩
    · simp only [List.range', pd_path_loop, h1]
      exact h2
    · have : i + (cnt + 1) = i + 1 + cnt := by omega
      rw [this]
      exact d2

/-- The heavy paths of a layout that fits: every node lies at one position. -/
theorem pd_paths_spec (n : Nat) (heavy_of : Int → Option (Byte × Int))
    (ok : HeavyOk n heavy_of) :
    ∃ ps, pd_paths n heavy_of = some ps ∧ PathsDone n heavy_of n ps := by
  have h0 : PathsDone n heavy_of 0
      { heavy_path := [], flags := List.replicate n false, heavy_str := [] } := by
    refine ⟨⟨by simp, rfl, by simp, by simp, ?_, by simp, by simp⟩, by simp, by simp⟩
    intro v hv
    simp [List.getD_eq_getElem?_getD, List.getElem?_replicate, hv]
  obtain ⟨ps, h1, h2⟩ := pd_path_loop_spec n heavy_of ok n 0 _ (by omega) h0
  refine ⟨ps, ?_, by simpa using h2⟩
  unfold pd_paths
  rw [List.range_eq_range']
  exact h1

/-! ## Positions of the nodes in the heavy-path layout -/

theorem fold_set_spec {α : Type} (f : Nat → Nat) (g : Nat → α) (d : α) (init : List α) :
    ∀ m : Nat, (∀ p, p < m → f p < init.length) →
      (∀ p q, p < m → q < m → f p = f q → p = q) →
      ((List.range m).foldl (fun l p => l.set (f p) (g p)) init).length = init.length ∧
      (∀ p, p < m → ((List.range m).foldl (fun l p => l.set (f p) (g p)) init).getD (f p) d = g p) ∧
      (∀ k, (∀ p, p < m → f p ≠ k) →
        ((List.range m).foldl (fun l p => l.set (f p) (g p)) init).getD k d = init.getD k d) := by
  intro m
  induction m with
  | zero =>
    intro _ _
    refine ⟨rfl, fun p hp => by omega, fun k _ => rfl⟩
  | succ m ih =>
    intro hlt hinj
    obtain ⟨h1, h2, h3⟩ := ih (fun p hp => hlt p (by omega))
      (fun p q hp hq => hinj p q (by omega) (by omega))
    rw [List.range_succ, List.foldl_append]
    simp only [List.foldl_cons, List.foldl_nil, List.length_set]
    refine ⟨h1, ?_, ?_⟩
    · intro p hp
      by_cases hpm : p = m
      · subst hpm
        rw [getD_set_eq _ _ _ _ _ (by rw [h1]; exact hlt p (by omega))]
        simp
      · rw [getD_set_eq _ _ _ _ _ (by rw [h1]; exact hlt m (by omega))]
        have : f p ≠ f m := fun h => hpm (hinj p m (by omega) (by omega) h)
        rw [if_neg this]
        exact h2 p (by omega)
    · intro k hk
      rw [getD_set_eq _ _ _ _ _ (by rw [h1]; exact hlt m (by omega))]
      rw [if_neg (fun h => hk m (by omega) h.symm)]
      exact h3 k (fun p hp => hk p (by omega))

theorem paths_length (n : Nat) (heavy_of : Int → Option (Byte × Int)) (ps : PathState)
    (d : PathsDone n heavy_of n ps) : ps.heavy_path.length = n := by
  have hr : ∀ x ∈ ps.heavy_path, 0 ≤ x ∧ x < (n : Int) := fun x hx =>
    d.inv.range x (List.mem_append_left _ hx)
  have hnd : ps.heavy_path.Nodup := by simpa using d.inv.nodup
  have hnd2 : (ps.heavy_path.map Int.toNat).Nodup := by
    apply List.Nodup.map_on _ hnd
    intro x hx y hy hxy
    have := hr x hx
    have := hr y hy
    omega
  have hperm : (ps.heavy_path.map Int.toNat).Perm (List.range n) := by
    rw [List.perm_ext_iff_of_nodup hnd2 (List.nodup_range n)]
    intro a
    simp only [List.mem_map, List.mem_range]
    constructor
    · rintro ⟨x, hx, rfl⟩
      have := hr x hx
      omega
    · intro ha
      exact ⟨(a : Int), d.all a ha, by simp⟩
  have := hperm.length_eq
  simpa using this

/-- Every node lies at its position, and the root at position 0. -/
theorem paths_pos_spec (n : Nat) (heavy_of : Int → Option (Byte × Int)) (ps : PathState)
    (d : PathsDone n heavy_of n ps) :
    (heavy_path_inv n ps.heavy_path).length = n ∧
    (∀ v, v < n → ps.heavy_path[pd_pos (heavy_path_inv n ps.heavy_path) v]? = some (v : Int) ∧
      (heavy_path_inv n ps.heavy_path).getD v 0
        = (pd_pos (heavy_path_inv n ps.heavy_path) v : Int) ∧
      pd_pos (heavy_path_inv n ps.heavy_path) v < n) ∧
    (∀ p x, ps.heavy_path[p]? = some x → pd_pos (heavy_path_inv n ps.heavy_path) x.toNat = p) ∧
    (0 < n → pd_pos (heavy_path_inv n ps.heavy_path) 0 = 0) := by
  have hlen := paths_length n heavy_of ps d
  have hr : ∀ x ∈ ps.heavy_path, 0 ≤ x ∧ x < (n : Int) := fun x hx =>
    d.inv.range x (List.mem_append_left _ hx)
  have hnd : ps.heavy_path.Nodup := by simpa using d.inv.nodup
  have hget : ∀ p, p < ps.heavy_path.length →
      ps.heavy_path[p]? = some (ps.heavy_path.getD p 0) := by
    intro p hp
    rw [List.getD_eq_getElem?_getD, List.getElem?_eq_getElem hp]
    rfl
  have hspec := fold_set_spec (fun p => (ps.heavy_path.getD p 0).toNat) (fun p => (p : Int)) 0
    (List.replicate n 0) ps.heavy_path.length
    (by
      intro p hp
      have := hr _ (List.getElem?_mem (hget p hp))
      simp only [List.length_replicate]
      omega)
    (by
      intro p q hp hq hpq
      have h1 := hr _ (List.getElem?_mem (hget p hp))
      have h2 := hr _ (List.getElem?_mem (hget q hq))
      have h3 : ps.heavy_path.getD p 0 = ps.heavy_path.getD q 0 := by
        simp only [] at hpq
        omega
      apply List.getElem?_inj hp hnd
      rw [hget p hp, hget q hq, h3])
  obtain ⟨s1, s2, _⟩ := hspec
  have hat : ∀ p x, ps.heavy_path[p]? = some x →
      pd_pos (heavy_path_inv n ps.heavy_path) x.toNat = p := by
    intro p x hpx
    have hp : p < ps.heavy_path.length := by
      by_contra hcon
      rw [List.getElem?_eq_none (by omega)] at hpx
      simp at hpx
    have h2 := s2 p hp
    have hx : ps.heavy_path.getD p 0 = x := by
      have := hget p hp
      rw [hpx] at this
      exact (Option.some.inj this).symm
    simp only [hx] at h2
    unfold pd_pos heavy_path_inv
    rw [h2]
    simp
  refine ⟨by unfold heavy_path_inv; rw [s1]; simp, ?_, hat, ?_⟩
  · intro v hv
    obtain ⟨p, hp⟩ := List.mem_iff_getElem?.mp (d.all v hv)
    have hpos := hat p _ hp
    simp only [Int.toNat_ofNat] at hpos
    have hp2 : p < ps.heavy_path.length := by
      by_contra hcon
      rw [List.getElem?_eq_none (by omega)] at hp
      simp at hp
    refine ⟨by rw [hpos]; exact hp, ?_, by omega⟩
    have h2 := s2 p hp2
    have hx : ps.heavy_path.getD p 0 = (v : Int) := by
      have := hget p hp2
      rw [hp] at this
      exact (Option.some.inj this).symm
    simp only [hx, Int.toNat_ofNat] at h2
    unfold pd_pos
    unfold heavy_path_inv at hpos ⊢
    rw [h2]
    simp
  · intro hn
    have h1 := d.first
    rw [if_neg (by omega)] at h1
    have := hat 0 0 h1
    simpa using this

/-- The layout, read through the positions: `heavy_str` holds at the position
of a node the label of its heavy edge, whose target lies at the next position,
or `NULL_CHAR`. -/
theorem paths_layout (n : Nat) (heavy_of : Int → Option (Byte × Int)) (ps : PathState)
    (d : PathsDone n heavy_of n ps) (v : Nat) (hv : v < n) :
    ps.heavy_str.length = n ∧
    (heavy_of (v : Int) = none →
      ps.heavy_str[pd_pos (heavy_path_inv n ps.heavy_path) v]? = some NULL_CHAR) ∧
    (∀ e, heavy_of (v : Int) = some e →
      ps.heavy_str[pd_pos (heavy_path_inv n ps.heavy_path) v]? = some e.1 ∧
      pd_pos (heavy_path_inv n ps.heavy_path) e.2.toNat
        = pd_pos (heavy_path_inv n ps.heavy_path) v + 1) := by
  obtain ⟨_, p1, p2, _⟩ := paths_pos_spec n heavy_of ps d
  obtain ⟨l1, l2⟩ := d.inv.layout _ _ (p1 v hv).1
  refine ⟨by rw [d.inv.slen]; exact paths_length n heavy_of ps d, l1, fun e he => ?_⟩
  obtain ⟨g1, g2⟩ := l2 e he
  rw [List.append_nil] at g2
  exact ⟨g1, p2 _ _ g2⟩

theorem pd_pos_inj (n : Nat) (heavy_of : Int → Option (Byte × Int)) (ps : PathState)
    (d : PathsDone n heavy_of n ps) (u v : Nat) (hu : u < n) (hv : v < n)
    (h : pd_pos (heavy_path_inv n ps.heavy_path) u = pd_pos (heavy_path_inv n ps.heavy_path) v) :
    u = v := by
  obtain ⟨_, p1, _, _⟩ := paths_pos_spec n heavy_of ps d
  have h1 := (p1 u hu).1
  have h2 := (p1 v hv).1
  rw [h, h2] at h1
  have := Option.some.inj h1
  omega

/-! ## The heavy and light edges of `PathDecomposedTrie` -/

theorem getD_modify {α : Type} (f : α → α) (k : Nat) (l : List α) (j : Nat) (d : α) :
    (List.modify f k l).getD j d = if j = k ∧ k < l.length then f (l.getD k d) else l.getD j d := by
  rw [List.getD_eq_getElem?_getD, List.getElem?_modify]
  by_cases hj : j < l.length
  · rw [List.getElem?_eq_getElem hj]
    by_cases hjk : j = k
    · subst hjk
      simp [hj, List.getD_eq_getElem?_getD, List.getElem?_eq_getElem hj]
    · have : ¬ k = j := fun h => hjk h.symm
      simp [hjk, this, List.getD_eq_getElem?_getD, List.getElem?_eq_getElem hj]
  · rw [List.getElem?_eq_none (by omega)]
    have : ¬ (j = k ∧ k < l.length) := by omega
    rw [if_neg this, List.getD_eq_getElem?_getD, List.getElem?_eq_none (by omega)]
    rfl

theorem take_succ_getD {α : Type} (l : List α) (j : Nat) (d : α) (hj : j < l.length) :
    l.take (j + 1) = l.take j ++ [l.getD j d] := by
  rw [List.take_succ, List.getD_eq_getElem?_getD, List.getElem?_eq_getElem hj]
  rfl

/-- One edge of node `i`: the heavy edge is one of the edges seen, the light
edges are the other edges seen. -/
theorem pd_edge_step_spec (data : Adjacency) (i : Nat) (st : HeavyState) (j : Nat)
    (hj : j < (data.getD i []).length) (hi : i < st.heavy_edges.length)
    (hi2 : i < st.light_edges.length)
    (hinv : (j = 0 ∧ st.heavy_edges.getD i NOT_FOUND = NOT_FOUND ∧ st.light_edges.getD i [] = []) ∨
      (∃ h : Nat, h < j ∧ st.heavy_edges.getD i NOT_FOUND = (h : Int) ∧
        (st.light_edges.getD i [] ++ [edge_at data i h]).Perm ((data.getD i []).take j))) :
    (pd_edge_step data i st j).heavy_edges.length = st.heavy_edges.length ∧
    (pd_edge_step data i st j).light_edges.length = st.light_edges.length ∧
    (∀ v, v ≠ i →
      (pd_edge_step data i st j).heavy_edges.getD v NOT_FOUND = st.heavy_edges.getD v NOT_FOUND ∧
      (pd_edge_step data i st j).light_edges.getD v [] = st.light_edges.getD v []) ∧
    (∃ h : Nat, h < j + 1 ∧ (pd_edge_step data i st j).heavy_edges.getD i NOT_FOUND = (h : Int) ∧
      ((pd_edge_step data i st j).light_edges.getD i [] ++ [edge_at data i h]).Perm
        ((data.getD i []).take (j + 1))) := by
  have htake := take_succ_getD (data.getD i []) j (0, 0) hj
  have hej : edge_at data i (j : Int) = (data.getD i []).getD j (0, 0) := by
    simp [edge_at]
  unfold pd_edge_step
  simp only []
  by_cases h1 : st.heavy_edges.getD i NOT_FOUND = NOT_FOUND
  · rw [if_pos h1]
    simp only [List.length_set]
    refine ⟨trivial, trivial, ?_, ?_⟩
    · intro v hv
      rw [getD_set_eq _ _ _ _ _ hi, if_neg hv]
      constructor <;> first | rfl | trivial
    · rcases hinv with ⟨hj0, _, hl⟩ | ⟨h, _, hh, _⟩
      · subst hj0
        refine ⟨0, by omega, ?_, ?_⟩
        · rw [getD_set_eq _ _ _ _ _ hi, if_pos rfl]
        · rw [hl, htake]
          simp [edge_at]
      · rw [hh] at h1
        simp only [NOT_FOUND] at h1
        omega
  · rw [if_neg h1]
    rcases hinv with ⟨_, h0, _⟩ | ⟨h, hhj, hh, hperm⟩
    · exact absurd h0 h1
    · by_cases h2 : st.paths.getD (edge_at data i (j : Int)).2.toNat 0
          > st.paths.getD (edge_at data i (st.heavy_edges.getD i NOT_FOUND)).2.toNat 0
      · rw [if_pos h2]
        simp only [List.length_set, List.length_modify]
        refine ⟨trivial, trivial, ?_, ?_⟩
        · intro v hv
          rw [getD_set_eq _ _ _ _ _ hi, if_neg hv, getD_modify, if_neg (fun hc => hv hc.1)]
          exact ⟨rfl, rfl⟩
        · refine ⟨j, by omega, ?_, ?_⟩
          · rw [getD_set_eq _ _ _ _ _ hi, if_pos rfl]
          · rw [getD_modify, if_pos ⟨rfl, hi2⟩, hh, htake, hej]
            exact List.Perm.append_right _ hperm
      · rw [if_neg h2]
        simp only [List.length_modify]
        refine ⟨trivial, trivial, ?_, ?_⟩
        · intro v hv
          rw [getD_modify, if_neg (fun hc => hv hc.1)]
          constructor <;> first | rfl | trivial
        · refine ⟨h, by omega, hh, ?_⟩
          rw [getD_modify, if_pos ⟨rfl, hi2⟩, htake, hej]
          refine List.Perm.trans ?_ (List.Perm.append_right _ hperm)
          rw [List.append_assoc, List.append_assoc]
          exact List.Perm.append_left _ (List.Perm.swap _ _ _)

theorem pd_edge_fold_spec (data : Adjacency) (i : Nat) (st : HeavyState)
    (hi : i < st.heavy_edges.length) (hi2 : i < st.light_edges.length)
    (h0 : st.heavy_edges.getD i NOT_FOUND = NOT_FOUND) (l0 : st.light_edges.getD i [] = []) :
    ∀ j, j ≤ (data.getD i []).length →
      ((List.range j).foldl (pd_edge_step data i) st).heavy_edges.length = st.heavy_edges.length ∧
      ((List.range j).foldl (pd_edge_step data i) st).light_edges.length = st.light_edges.length ∧
      (∀ v, v ≠ i →
        ((List.range j).foldl (pd_edge_step data i) st).heavy_edges.getD v NOT_FOUND
          = st.heavy_edges.getD v NOT_FOUND ∧
        ((List.range j).foldl (pd_edge_step data i) st).light_edges.getD v []
          = st.light_edges.getD v []) ∧
      ((j = 0 ∧
          ((List.range j).foldl (pd_edge_step data i) st).heavy_edges.getD i NOT_FOUND = NOT_FOUND ∧
          ((List.range j).foldl (pd_edge_step data i) st).light_edges.getD i [] = []) ∨
        (∃ h : Nat, h < j ∧
          ((List.range j).foldl (pd_edge_step data i) st).heavy_edges.getD i NOT_FOUND = (h : Int) ∧
          (((List.range j).foldl (pd_edge_step data i) st).light_edges.getD i []
            ++ [edge_at data i h]).Perm ((data.getD i []).take j))) := by
  intro j
  induction j with
  | zero =>
    intro _
    exact ⟨rfl, rfl, fun v _ => ⟨rfl, rfl⟩, Or.inl ⟨rfl, h0, l0⟩⟩
  | succ j ih =>
    intro hj
    obtain ⟨a1, a2, a3, a4⟩ := ih (by omega)
    rw [List.range_succ, List.foldl_append]
    simp only [List.foldl_cons, List.foldl_nil]
    obtain ⟨b1, b2, b3, b4⟩ := pd_edge_step_spec data i _ j (by omega) (by rw [a1]; exact hi)
      (by rw [a2]; exact hi2) a4
    refine ⟨by rw [b1, a1], by rw [b2, a2], ?_, Or.inr b4⟩
    intro v hv
    rw [(b3 v hv).1, (b3 v hv).2]
    exact a3 v hv

/-- The body of the first loop sets the heavy and the light edges of node `i`
and leaves those of the other nodes. -/
theorem pd_node_step_spec (data : Adjacency) (st : HeavyState) (i : Nat)
    (hi : i < st.heavy_edges.length) (hi2 : i < st.light_edges.length)
    (h0 : st.heavy_edges.getD i NOT_FOUND = NOT_FOUND) (l0 : st.light_edges.getD i [] = []) :
    (pd_node_step data st i).heavy_edges.length = st.heavy_edges.length ∧
    (pd_node_step data st i).light_edges.length = st.light_edges.length ∧
    (∀ v, v ≠ i →
      (pd_node_step data st i).heavy_edges.getD v NOT_FOUND = st.heavy_edges.getD v NOT_FOUND ∧
      (pd_node_step data st i).light_edges.getD v [] = st.light_edges.getD v []) ∧
    (data.getD i [] = [] →
      (pd_node_step data st i).heavy_edges.getD i NOT_FOUND = NOT_FOUND ∧
      (pd_node_step data st i).light_edges.getD i [] = []) ∧
    (data.getD i [] ≠ [] →
      ∃ j : Nat, j < (data.getD i []).length ∧
        (pd_node_step data st i).heavy_edges.getD i NOT_FOUND = (j : Int) ∧
        ((pd_node_step data st i).light_edges.getD i [] ++ [edge_at data i j]).Perm
          (data.getD i [])) := by
  have key : ∀ st0 : HeavyState, st0.heavy_edges = st.heavy_edges →
      st0.light_edges = st.light_edges →
      ((List.range (data.getD i []).length).foldl (pd_edge_step data i) st0).heavy_edges.length
        = st.heavy_edges.length ∧
      ((List.range (data.getD i []).length).foldl (pd_edge_step data i) st0).light_edges.length
        = st.light_edges.length ∧
      (∀ v, v ≠ i →
        ((List.range (data.getD i []).length).foldl (pd_edge_step data i) st0).heavy_edges.getD v
          NOT_FOUND = st.heavy_edges.getD v NOT_FOUND ∧
        ((List.range (data.getD i []).length).foldl (pd_edge_step data i) st0).light_edges.getD v []
          = st.light_edges.getD v []) ∧
      (data.getD i [] = [] →
        ((List.range (data.getD i []).length).foldl (pd_edge_step data i) st0).heavy_edges.getD i
          NOT_FOUND = NOT_FOUND ∧
        ((List.range (data.getD i []).length).foldl (pd_edge_step data i) st0).light_edges.getD i []
          = []) ∧
      (data.getD i [] ≠ [] →
        ∃ j : Nat, j < (data.getD i []).length ∧
          ((List.range (data.getD i []).length).foldl (pd_edge_step data i) st0).heavy_edges.getD i
            NOT_FOUND = (j : Int) ∧
          (((List.range (data.getD i []).length).foldl (pd_edge_step data i) st0).light_edges.getD
            i [] ++ [edge_at data i j]).Perm (data.getD i [])) := by
    intro st0 e1 e2
    obtain ⟨a1, a2, a3, a4⟩ := pd_edge_fold_spec data i st0 (by rw [e1]; exact hi)
      (by rw [e2]; exact hi2) (by rw [e1]; exact h0) (by rw [e2]; exact l0)
      (data.getD i []).length (le_refl _)
    rw [e1] at a1
    rw [e2] at a2
    rw [e1, e2] at a3
    refine ⟨a1, a2, a3, ?_, ?_⟩
    · intro hemp
      rcases a4 with ⟨_, b1, b2⟩ | ⟨h, hh, _, _⟩
      · exact ⟨b1, b2⟩
      · rw [hemp] at hh
        simp at hh
    · intro hne
      rcases a4 with ⟨b0, _, _⟩ | ⟨h, hh, b1, b2⟩
      · exact absurd (List.length_eq_zero.mp b0) hne
      · rw [List.take_length] at b2
        exact ⟨h, hh, b1, b2⟩
  unfold pd_node_step
  by_cases hemp : (data.getD i []).isEmpty = true
  · rw [if_pos hemp]
    exact key _ rfl rfl
  · rw [if_neg hemp]
    exact key _ rfl rfl

theorem pd_heavy_loop_spec (data : Adjacency) :
    ∀ (k : Nat) (st : HeavyState), k ≤ data.length →
      st.heavy_edges.length = data.length → st.light_edges.length = data.length →
      (∀ v, v < k → st.heavy_edges.getD v NOT_FOUND = NOT_FOUND ∧ st.light_edges.getD v [] = []) →
      (∀ v, k ≤ v → v < data.length →
        (data.getD v [] = [] →
          st.heavy_edges.getD v NOT_FOUND = NOT_FOUND ∧ st.light_edges.getD v [] = []) ∧
        (data.getD v [] ≠ [] →
          ∃ j : Nat, j < (data.getD v []).length ∧ st.heavy_edges.getD v NOT_FOUND = (j : Int) ∧
            (st.light_edges.getD v [] ++ [edge_at data v j]).Perm (data.getD v []))) →
      HeavySpec data (pd_heavy_loop data k st) := by
  intro k
  induction k with
  | zero =>
    intro st _ h1 h2 _ h4
    exact ⟨h1, h2, fun v hv => (h4 v (by omega) hv).1, fun v hv => (h4 v (by omega) hv).2⟩
  | succ k ih =>
    intro st hk h1 h2 h3 h4
    obtain ⟨a1, a2, a3, a4, a5⟩ := pd_node_step_spec data st k (by omega) (by omega)
      (h3 k (by omega)).1 (h3 k (by omega)).2
    simp only [pd_heavy_loop]
    apply ih _ (by omega) (by rw [a1, h1]) (by rw [a2, h2])
    · intro v hv
      rw [(a3 v (by omega)).1, (a3 v (by omega)).2]
      exact h3 v (by omega)
    · intro v hkv hv
      by_cases hvk : v = k
      · subst hvk
        exact ⟨a4, a5⟩
      · rw [(a3 v hvk).1, (a3 v hvk).2]
        exact h4 v (by omega) hv

/-- The first loop picks for every inner node one heavy edge and keeps the
other edges as light edges. -/
theorem pd_heavy_spec (data : Adjacency) : HeavySpec data (pd_heavy data) := by
  unfold pd_heavy
  apply pd_heavy_loop_spec data data.length _ (le_refl _) (by simp) (by simp)
  · intro v hv
    simp [List.getD_eq_getElem?_getD, List.getElem?_replicate, hv]
  · intro v hkv hv
    omega

/-! ## From the layout to the search: the light-edge maps -/

theorem modify_fold_spec {α β : Type} (h : β → α) (k : Nat) :
    ∀ (l : List β) (acc : List (List α)), k < acc.length →
      (l.foldl (fun acc e => List.modify (fun r => r ++ [h e]) k acc) acc).length = acc.length ∧
      ∀ j, (l.foldl (fun acc e => List.modify (fun r => r ++ [h e]) k acc) acc).getD j []
        = if j = k then acc.getD k [] ++ l.map h else acc.getD j [] := by
  intro l
  induction l with
  | nil =>
    intro acc _
    refine ⟨rfl, fun j => ?_⟩
    by_cases hj : j = k
    · simp [hj]
    · simp [hj]
  | cons x t ih =>
    intro acc hk
    simp only [List.foldl_cons]
    obtain ⟨a1, a2⟩ := ih (List.modify (fun r => r ++ [h x]) k acc)
      (by rw [List.length_modify]; exact hk)
    refine ⟨by rw [a1, List.length_modify], fun j => ?_⟩
    rw [a2 j, getD_modify, getD_modify]
    by_cases hj : j = k
    · rw [if_pos hj, if_pos hj, if_pos ⟨rfl, hk⟩]
      simp
    · rw [if_neg hj, if_neg hj, if_neg (fun hc => hj hc.1)]

theorem modify_rows_spec {α β : Type} (h : β → α) (f : Nat → Nat) (rows : Nat → List β)
    (init : List (List α)) :
    ∀ m : Nat, (∀ p, p < m → f p < init.length) →
      (∀ p q, p < m → q < m → f p = f q → p = q) →
      ((List.range m).foldl (fun acc i =>
        (rows i).foldl (fun acc e => List.modify (fun r => r ++ [h e]) (f i) acc) acc) init).length
        = init.length ∧
      (∀ p, p < m → ((List.range m).foldl (fun acc i =>
        (rows i).foldl (fun acc e => List.modify (fun r => r ++ [h e]) (f i) acc) acc) init).getD
          (f p) [] = init.getD (f p) [] ++ (rows p).map h) ∧
      (∀ k, (∀ p, p < m → f p ≠ k) → ((List.range m).foldl (fun acc i =>
        (rows i).foldl (fun acc e => List.modify (fun r => r ++ [h e]) (f i) acc) acc) init).getD
          k [] = init.getD k []) := by
  intro m
  induction m with
  | zero =>
    intro _ _
    exact ⟨rfl, fun p hp => by omega, fun k _ => rfl⟩
  | succ m ih =>
    intro hlt hinj
    obtain ⟨h1, h2, h3⟩ := ih (fun p hp => hlt p (by omega))
      (fun p q hp hq => hinj p q (by omega) (by omega))
    rw [List.range_succ, List.foldl_append]
    simp only [List.foldl_cons, List.foldl_nil]
    obtain ⟨a1, a2⟩ := modify_fold_spec h (f m) (rows m) _
      (show f m < _ by rw [h1]; exact hlt m (by omega))
    refine ⟨by rw [a1, h1], ?_, ?_⟩
    · intro p hp
      rw [a2]
      by_cases hpm : p = m
      · subst hpm
        rw [if_pos rfl, h3 (f p) (fun q hq hc => by
          have := hinj q p (by omega) (by omega) hc
          omega)]
      · have : f p ≠ f m := fun hc => hpm (hinj p m (by omega) (by omega) hc)
        rw [if_neg this]
        exact h2 p (by omega)
    · intro k hk
      rw [a2, if_neg (fun hc => hk m (by omega) hc.symm)]
      exact h3 k (fun p hp => hk p (by omega))

/-- The row of `light_edges_inv` at the position of node `v` holds the light
edges of `v`, their targets renumbered. -/
theorem light_rows_spec (n : Nat) (light : List (List (Byte × Int))) (inv : List Int)
    (hlt : ∀ v, v < n → pd_pos inv v < n)
    (hinj : ∀ u v, u < n → v < n → pd_pos inv u = pd_pos inv v → u = v) :
    (pd_light_edges_inv n light inv).length = n ∧
    ∀ v, v < n → (pd_light_edges_inv n light inv).getD (pd_pos inv v) []
      = (light.getD v []).map (fun e => (e.1, inv.getD e.2.toNat 0)) := by
  obtain ⟨h1, h2, _⟩ := modify_rows_spec (fun e : Byte × Int => (e.1, inv.getD e.2.toNat 0))
    (pd_pos inv) (fun i => light.getD i []) (List.replicate n []) n
    (by simpa using hlt) hinj
  refine ⟨by simpa [pd_light_edges_inv, pd_pos] using h1, fun v hv => ?_⟩
  have := h2 v hv
  have hrep : (List.replicate n ([] : List (Byte × Int))).getD (pd_pos inv v) [] = [] := by
    simp [List.getD_eq_getElem?_getD, List.getElem?_replicate, hlt v hv]
  rw [hrep, List.nil_append] at this
  exact this

theorem construct_maps_rows_fold : ∀ (rest : Adjacency) (done : MapVector),
    (rest.foldl (fun (st : MapVector × Nat) edges =>
      (edges.foldl (fun maps e => MapVector.insert maps st.2 e.1 e.2) st.1, st.2 + 1))
      (done ++ List.replicate rest.length [], done.length)).1
      = done ++ rest.map (fun row => row.foldl (fun m e => STLMap.insert m e.1 e.2) []) := by
  intro rest
  induction rest with
  | nil => intro done; simp
  | cons row rest ih =>
    intro done
    simp only [List.foldl_cons]
    have hin := install_inner (fun x => x) done.length row
      (done ++ List.replicate (row :: rest).length []) (by simp)
    simp only [] at hin
    have hstep : row.foldl (fun maps e => MapVector.insert maps (done.length : Int) e.1 e.2)
        (done ++ List.replicate (row :: rest).length [])
        = (done ++ [row.foldl (fun m e => STLMap.insert m e.1 e.2) []])
          ++ List.replicate rest.length [] := by
      rw [hin, List.getD_append_right _ _ _ _ (le_refl _)]
      simp only [Nat.sub_self, List.length_cons, List.replicate_succ, List.getD_cons_zero]
      simp
    rw [hstep]
    have hl : done.length + 1
        = (done ++ [row.foldl (fun m e => STLMap.insert m e.1 e.2) []]).length := by simp
    rw [hl, ih]
    simp

/-- The map vector built from rows in any order: every row becomes the map
of its insertions. -/
theorem construct_maps_rows (data : Adjacency) :
    construct_maps data
      = data.map (fun row => row.foldl (fun m e => STLMap.insert m e.1 e.2) []) := by
  have := construct_maps_rows_fold data []
  simpa [construct_maps, MapVector.mk] using this

theorem search_fold_absent (c : Byte) : ∀ (l : List (Byte × Int)) (acc : STLMap),
    (∀ e ∈ l, e.1 ≠ c) →
    STLMap.search (l.foldl (fun m e => STLMap.insert m e.1 e.2) acc) c = STLMap.search acc c := by
  intro l
  induction l with
  | nil => intro acc _; rfl
  | cons x t ih =>
    intro acc h
    simp only [List.foldl_cons]
    rw [ih _ (fun e he => h e (List.mem_cons_of_mem _ he)), STLMap.search_insert,
      if_neg (fun hc => h x (List.mem_cons_self _ _) hc.symm)]

theorem search_fold_found (c : Byte) (v : Int) : ∀ (l : List (Byte × Int)) (acc : STLMap),
    l.Pairwise (fun a b => a.1 ≠ b.1) → (c, v) ∈ l →
    STLMap.search (l.foldl (fun m e => STLMap.insert m e.1 e.2) acc) c = v := by
  intro l
  induction l with
  | nil => intro acc _ h; simp at h
  | cons x t ih =>
    intro acc hp hm
    simp only [List.foldl_cons]
    rw [List.pairwise_cons] at hp
    rcases List.mem_cons.mp hm with h | h
    · subst h
      rw [search_fold_absent _ t _ (fun e he hc => hp.1 e he hc.symm), STLMap.search_insert,
        if_pos rfl]
    · exact ih _ hp.2 h

/-- The light edges of a node are among its edges, hold every edge but the
heavy one, and carry distinct labels. -/
theorem light_row_facts (data : Adjacency) (heavy_of : Int → Option (Byte × Int))
    (light : List (List (Byte × Int))) (ls : LightSpec data heavy_of light) (v : Nat)
    (hv : v < data.length) (hs : (data.getD v []).Pairwise (fun a b => a.1 < b.1)) :
    (light.getD v []).Pairwise (fun a b => a.1 ≠ b.1) ∧
    (∀ e ∈ light.getD v [], e ∈ data.getD v []) ∧
    (∀ e ∈ data.getD v [], (∀ h, heavy_of (v : Int) = some h → h.1 ≠ e.1) → e ∈ light.getD v []) ∧
    (∀ h, heavy_of (v : Int) = some h → h ∈ data.getD v []) := by
  have hne : (data.getD v []).Pairwise (fun a b => a.1 ≠ b.1) :=
    List.Pairwise.imp (fun h => ne_of_lt h) hs
  cases hh : heavy_of (v : Int) with
  | none =>
    rw [ls.none_all v hv hh]
    exact ⟨hne, fun e he => he, fun e he _ => he, fun h hc => by cases hc⟩
  | some h =>
    have hperm := ls.some_rest v hv h hh
    have hpw : (light.getD v [] ++ [h]).Pairwise (fun a b => a.1 ≠ b.1) :=
      (List.Perm.pairwise_iff (fun hxy => Ne.symm hxy) hperm).mpr hne
    refine ⟨(List.pairwise_append.mp hpw).1, ?_, ?_, ?_⟩
    · intro e he
      exact hperm.mem_iff.mp (List.mem_append_left _ he)
    · intro e he hdiff
      have := hperm.mem_iff.mpr he
      rcases List.mem_append.mp this with h1 | h1
      · exact h1
      · simp only [List.mem_singleton] at h1
        subst h1
        exact absurd rfl (hdiff e rfl)
    · intro h2 hh2
      cases hh2
      exact hperm.mem_iff.mp (by simp)

/-- A layout in heavy paths with its light-edge maps is what the search
relies on. -/
theorem pd_spec_of_layout (data : Adjacency) (heavy_of : Int → Option (Byte × Int))
    (light : List (List (Byte × Int))) (ps : PathState)
    (hsorted : ∀ v, v < data.length → (data.getD v []).Pairwise (fun a b => a.1 < b.1))
    (hrange : ∀ v, v < data.length → ∀ e ∈ data.getD v [], 0 ≤ e.2 ∧ e.2 < (data.length : Int))
    (ls : LightSpec data heavy_of light) (d : PathsDone data.length heavy_of data.length ps) :
    PDSpec data ps.heavy_str
      (construct_maps (pd_light_edges_inv data.length light
        (heavy_path_inv data.length ps.heavy_path)))
      (pd_pos (heavy_path_inv data.length ps.heavy_path)) := by
  obtain ⟨_, p1, _, _⟩ := paths_pos_spec data.length heavy_of ps d
  obtain ⟨r1, r2⟩ := light_rows_spec data.length light (heavy_path_inv data.length ps.heavy_path)
    (fun v hv => (p1 v hv).2.2) (pd_pos_inj data.length heavy_of ps d)
  have hrow : ∀ v, v < data.length → ∀ c,
      MapVector.search (construct_maps (pd_light_edges_inv data.length light
        (heavy_path_inv data.length ps.heavy_path)))
        ((pd_pos (heavy_path_inv data.length ps.heavy_path) v : Nat) : Int) c
      = STLMap.search (((light.getD v []).map (fun e =>
          (e.1, (heavy_path_inv data.length ps.heavy_path).getD e.2.toNat 0))).foldl
          (fun m e => STLMap.insert m e.1 e.2) []) c := by
    intro v hv c
    rw [MapVector.search_nat, construct_maps_rows,
      getD_map_lt _ _ _ [] [] (by rw [r1]; exact (p1 v hv).2.2), r2 v hv]
  refine ⟨hsorted, hrange, ?_, ?_, ?_, ?_⟩
  · intro v hv
    rw [(paths_layout data.length heavy_of ps d v hv).1]
    exact (p1 v hv).2.2
  · intro v hv c hc hstr
    obtain ⟨_, l1, l2⟩ := paths_layout data.length heavy_of ps d v hv
    cases hh : heavy_of (v : Int) with
    | none =>
      rw [l1 hh] at hstr
      exact absurd (Option.some.inj hstr).symm hc
    | some h =>
      obtain ⟨g1, g2⟩ := l2 h hh
      rw [g1] at hstr
      refine ⟨h, ?_, Option.some.inj hstr, g2⟩
      exact (light_row_facts data heavy_of light ls v hv (hsorted v hv)).2.2.2 h hh
  · intro v hv e he hstr
    obtain ⟨_, l1, l2⟩ := paths_layout data.length heavy_of ps d v hv
    obtain ⟨f1, f2, f3, f4⟩ := light_row_facts data heavy_of light ls v hv (hsorted v hv)
    have hmem : e ∈ light.getD v [] := by
      apply f3 e he
      intro h hh hc
      apply hstr
      rw [(l2 h hh).1, hc]
    rw [hrow v hv]
    have hr := hrange v hv e he
    rw [← (p1 e.2.toNat (by omega)).2.1]
    apply search_fold_found
    · rw [List.pairwise_map]
      exact f1
    · rw [List.mem_map]
      exact ⟨e, hmem, rfl⟩
  · intro v hv c hall
    obtain ⟨f1, f2, f3, f4⟩ := light_row_facts data heavy_of light ls v hv (hsorted v hv)
    rw [hrow v hv, search_fold_absent]
    · rfl
    · intro e he
      rw [List.mem_map] at he
      obtain ⟨e2, he2, rfl⟩ := he
      exact hall e2 (f2 e2 he2)

/-! ## `PathDecomposedTrie` answers as the trie it is built from -/

theorem walk_in_range (data : Adjacency)
    (hrange : ∀ v, v < data.length → ∀ e ∈ data.getD v [], 0 ≤ e.2 ∧ e.2 < (data.length : Int)) :
    ∀ (s : List Byte) (u : Nat) (w : Int), u < data.length → walk data (u : Int) s = some w →
      0 ≤ w ∧ w < (data.length : Int) := by
  intro s
  induction s with
  | nil =>
    intro u w hu h
    simp only [walk, Option.some.injEq] at h
    omega
  | cons c s ih =>
    intro u w hu h
    simp only [walk] at h
    split at h
    · cases h
    · rename_i hne
      rw [MapVector.search_nat] at hne h
      have hmem := STLMap.search_mem c _ hne
      have hr := hrange u hu _ hmem
      simp only [] at hr
      have hcast : STLMap.search (data.getD u []) c
          = (((STLMap.search (data.getD u []) c).toNat : Nat) : Int) := by omega
      rw [hcast] at h
      exact ih _ w (by omega) h

theorem trie_heavy_cases (data : Adjacency) (hs : HeavyState) (spec : HeavySpec data hs) (v : Nat)
    (hv : v < data.length) :
    (trie_heavy_of data hs.heavy_edges (v : Int) = none ∧ data.getD v [] = [] ∧
      hs.light_edges.getD v [] = []) ∨
    (∃ e, trie_heavy_of data hs.heavy_edges (v : Int) = some e ∧
      (hs.light_edges.getD v [] ++ [e]).Perm (data.getD v [])) := by
  unfold trie_heavy_of
  simp only [Int.toNat_ofNat]
  by_cases hemp : data.getD v [] = []
  · left
    obtain ⟨h1, h2⟩ := spec.leaf v hv hemp
    exact ⟨by rw [if_pos h1], hemp, h2⟩
  · right
    obtain ⟨j, _, h1, h2⟩ := spec.inner v hv hemp
    have hne : hs.heavy_edges.getD v NOT_FOUND ≠ NOT_FOUND := by
      rw [h1]
      simp only [NOT_FOUND]
      omega
    refine ⟨edge_at data v (j : Int), by rw [if_neg hne, h1], h2⟩

theorem trie_lightSpec (data : Adjacency) (hs : HeavyState) (spec : HeavySpec data hs) :
    LightSpec data (trie_heavy_of data hs.heavy_edges) hs.light_edges := by
  refine ⟨?_, ?_⟩
  · intro v hv hnone
    rcases trie_heavy_cases data hs spec v hv with ⟨_, h2, h3⟩ | ⟨e, h1, _⟩
    · rw [h2, h3]
    · rw [hnone] at h1
      cases h1
  · intro v hv e hsome
    rcases trie_heavy_cases data hs spec v hv with ⟨h1, _, _⟩ | ⟨e2, h1, h2⟩
    · rw [hsome] at h1
      cases h1
    · rw [hsome] at h1
      cases h1
      exact h2

theorem trie_heavyOk (t : BaseTrie) (inv : TrieInv t) (hs : HeavyState)
    (spec : HeavySpec t.maps hs) :
    HeavyOk t.maps.length (trie_heavy_of t.maps hs.heavy_edges) := by
  have hmem : ∀ (u : Nat) (e : Byte × Int), u < t.maps.length →
      trie_heavy_of t.maps hs.heavy_edges (u : Int) = some e → e ∈ t.maps.getD u [] := by
    intro u e hu he
    rcases trie_heavy_cases t.maps hs spec u hu with ⟨h1, _, _⟩ | ⟨e2, h1, h2⟩
    · rw [he] at h1
      cases h1
    · rw [he] at h1
      cases h1
      exact h2.mem_iff.mp (by simp)
  have hlen := inv.len
  refine ⟨?_, ?_⟩
  · intro u e hu he
    have := inv.edge_up u (by omega) e (hmem u e hu he)
    omega
  · intro u v e1 e2 hu hv h1 h2 heq
    exact (inv.parent_unique u v e1 e2 (by omega) (by omega) (hmem u e1 hu h1)
      (hmem v e2 hv h2) heq).1

/-- The bit of `is_leaf` at the position of a node tells whether the node has
no edge. -/
theorem pd_is_leaf_spec (data : Adjacency) (inv : List Int)
    (hlt : ∀ v, v < data.length → pd_pos inv v < data.length)
    (hinj : ∀ u v, u < data.length → v < data.length → pd_pos inv u = pd_pos inv v → u = v)
    (v : Nat) (hv : v < data.length) :
    (pd_is_leaf data inv).getD (pd_pos inv v) false = (data.getD v []).isEmpty := by
  obtain ⟨_, h2, _⟩ := fold_set_spec (pd_pos inv) (fun i => (data.getD i []).isEmpty) false
    (List.replicate data.length false) data.length (by simpa using hlt) hinj
  exact h2 v hv

/-- **C4.** The heavy-path trie preserves the language: for every list `D` of
strings and every query `s` that holds no `NULL_CHAR`, whatever the memory
holds behind `heavy_str` and behind the query, the constructor of
`PathDecomposedTrie` ends, and `PathDecomposedTrie(BaseTrie(D)).search(s)`
returns what `BaseTrie(D).search(s)` returns. -/
theorem PathDecomposedTrie_search_eq (D : List (List Byte)) (s : List Byte)
    (hs : ∀ c ∈ s, c ≠ NULL_CHAR) (jh jl : Nat → Byte) :
    ∃ pd, PathDecomposedTrie.construct (BaseTrie.construct D) = some pd ∧
      pd.search jh jl s = some ((BaseTrie.construct D).search s) := by
  obtain ⟨inv, _⟩ := construct_spec D
  have hcount := inv.count_pos
  have hlen := inv.len
  have hspec := pd_heavy_spec (BaseTrie.construct D).maps
  have hok := trie_heavyOk _ inv _ hspec
  obtain ⟨ps, hps, hdone⟩ := pd_paths_spec _ _ hok
  have hsorted : ∀ v, v < (BaseTrie.construct D).maps.length →
      ((BaseTrie.construct D).maps.getD v []).Pairwise (fun a b => a.1 < b.1) :=
    fun v hv => inv.sorted v (by omega)
  have hrange : ∀ v, v < (BaseTrie.construct D).maps.length →
      ∀ e ∈ (BaseTrie.construct D).maps.getD v [],
        0 ≤ e.2 ∧ e.2 < ((BaseTrie.construct D).maps.length : Int) := by
    intro v hv e he
    have := inv.edge_up v (by omega) e he
    omega
  have hpd := pd_spec_of_layout _ _ _ ps hsorted hrange (trie_lightSpec _ _ hspec) hdone
  obtain ⟨_, p1, _, p0⟩ := paths_pos_spec _ _ ps hdone
  refine ⟨{ is_leaf := pd_is_leaf (BaseTrie.construct D).maps
               (heavy_path_inv (BaseTrie.construct D).maps.length ps.heavy_path),
             heavy_str := ps.heavy_str,
             maps := construct_maps (pd_light_edges_inv (BaseTrie.construct D).maps.length
               (pd_heavy (BaseTrie.construct D).maps).light_edges
               (heavy_path_inv (BaseTrie.construct D).maps.length ps.heavy_path)) }, ?_, ?_⟩
  · unfold PathDecomposedTrie.construct BaseTrie.to_vector
    simp only [to_vector_eq, hps]
  · have hwalk := pd_walk_spec _ _ _ _ hpd jh jl s hs (s.length + 1) s [] 0 rfl (by omega)
      (by omega)
    rw [p0 (by omega)] at hwalk
    simp only [List.length_nil, Nat.cast_zero] at hwalk
    unfold PathDecomposedTrie.search
    simp only []
    rw [hwalk]
    unfold BaseTrie.search
    rw [search_from_eq_walk]
    cases hw : walk (BaseTrie.construct D).maps 0 s with
    | none => rfl
    | some w =>
      have hr := walk_in_range _ hrange s 0 w (by omega) (by simpa using hw)
      simp only [Option.map, Int.toNat_ofNat]
      rw [pd_is_leaf_spec _ _ (fun v hv => (p1 v hv).2.2) (pd_pos_inj _ _ ps hdone) w.toNat
        (by omega)]
      have hcast : w = ((w.toNat : Nat) : Int) := by omega
      rw [hcast, MapVector.outdegree, MapVector.at_nat, STLMap.outdegree]
      simp only [Int.toNat_ofNat]
      cases (BaseTrie.construct D).maps.getD w.toNat [] with
      | nil => rfl
      | cons a t => rfl

theorem PathDecomposedTrie_search_eq_witness :
    (∀ c ∈ ([97, 98, 1] : List Byte), c ≠ NULL_CHAR) ∧
    ∃ pd, PathDecomposedTrie.construct
        (BaseTrie.construct [[97, 98, 1], [97, 99, 1], [98, 1]]) = some pd ∧
      pd.search (fun _ => 0) (fun _ => 0) [97, 98, 1]
        = some ((BaseTrie.construct [[97, 98, 1], [97, 99, 1], [98, 1]]).search [97, 98, 1]) :=
  ⟨by simp [NULL_CHAR], PathDecomposedTrie_search_eq [[97, 98, 1], [97, 99, 1], [98, 1]]
    [97, 98, 1] (by simp [NULL_CHAR]) (fun _ => 0) (fun _ => 0)⟩

/-! ## The flags of `PathDecomposedADFA` -/

theorem flag_at_set (dwf : List (List (Byte × Int × Bool))) (a b : Nat) (v : Bool) (i j : Nat) :
    flag_at (set_flag dwf a b v) i j
      = if i = a ∧ j = b ∧ a < dwf.length ∧ b < (dwf.getD a []).length then
          ((flag_at dwf a b).1, (flag_at dwf a b).2.1, v)
        else flag_at dwf i j := by
  unfold flag_at set_flag
  rw [getD_modify]
  by_cases h1 : i = a ∧ a < dwf.length
  · rw [if_pos h1, getD_modify]
    obtain ⟨h1a, h1b⟩ := h1
    subst h1a
    by_cases h2 : j = b ∧ b < (dwf.getD i []).length
    · rw [if_pos h2, if_pos ⟨rfl, h2.1, h1b, h2.2⟩]
    · rw [if_neg h2, if_neg (fun hc => h2 ⟨hc.2.1, hc.2.2.2⟩)]
  · rw [if_neg h1, if_neg (fun hc => h1 ⟨hc.1, hc.2.2.1⟩)]

theorem flag_at_oob (dwf : List (List (Byte × Int × Bool))) (i j : Nat)
    (h : flagged dwf i j = true) : i < dwf.length ∧ j < (dwf.getD i []).length := by
  unfold flagged flag_at at h
  by_contra hcon
  by_cases hi : i < dwf.length
  · have hj : ¬ j < (dwf.getD i []).length := fun hj => hcon ⟨hi, hj⟩
    rw [List.getD_eq_getElem?_getD (dwf.getD i []), List.getElem?_eq_none (by omega)] at h
    simp at h
  · rw [List.getD_eq_getElem?_getD dwf, List.getElem?_eq_none (by omega)] at h
    simp at h

theorem flagged_clear (dwf : List (List (Byte × Int × Bool))) (a b : Nat) (i j : Nat) :
    flagged (set_flag dwf a b false) i j = true ↔
      (flagged dwf i j = true ∧ ¬ (i = a ∧ j = b)) := by
  unfold flagged
  rw [flag_at_set]
  by_cases h : i = a ∧ j = b ∧ a < dwf.length ∧ b < (dwf.getD a []).length
  · rw [if_pos h]
    simp [h.1, h.2.1]
  · rw [if_neg h]
    constructor
    · intro hf
      refine ⟨hf, fun hc => h ⟨hc.1, hc.2, ?_⟩⟩
      have := flag_at_oob dwf i j hf
      rw [hc.1, hc.2] at this
      exact this
    · intro hf
      exact hf.1

theorem flag_target_set (dwf : List (List (Byte × Int × Bool))) (a b : Nat) (v : Bool)
    (i j : Nat) : flag_target (set_flag dwf a b v) i j = flag_target dwf i j := by
  unfold flag_target
  rw [flag_at_set]
  by_cases h : i = a ∧ j = b ∧ a < dwf.length ∧ b < (dwf.getD a []).length
  · rw [if_pos h, h.1, h.2.1]
  · rw [if_neg h]

/-- Setting a flag leaves the edges as they are. -/
theorem flagShape_set (data : Adjacency) (dwf : List (List (Byte × Int × Bool))) (a b : Nat)
    (v : Bool) (h : FlagShape data dwf) : FlagShape data (set_flag dwf a b v) := by
  unfold FlagShape at h ⊢
  rw [← h]
  apply List.ext_getElem?
  intro i
  simp only [List.getElem?_map, set_flag, List.getElem?_modify]
  cases hi : dwf[i]? with
  | none => rfl
  | some row =>
    simp only [Option.map_eq_map, Option.map_some', Option.some.injEq]
    by_cases hia : a = i
    · rw [if_pos hia]
      apply List.ext_getElem?
      intro j
      simp only [List.getElem?_map, List.getElem?_modify]
      cases hj : row[j]? with
      | none => rfl
      | some t =>
        simp only [Option.map_eq_map, Option.map_some', Option.some.injEq]
        by_cases hjb : b = j
        · rw [if_pos hjb]
          rfl
        · rw [if_neg hjb]
    · rw [if_neg hia]

theorem flagShape_facts (data : Adjacency) (dwf : List (List (Byte × Int × Bool)))
    (h : FlagShape data dwf) :
    data.length = dwf.length ∧
    ∀ i, (data.getD i []).length = (dwf.getD i []).length ∧
      data.getD i [] = (dwf.getD i []).map flag_edge := by
  unfold FlagShape at h
  refine ⟨by rw [← h]; simp, fun i => ?_⟩
  have hrow : data.getD i [] = (dwf.getD i []).map flag_edge := by
    rw [← h]
    by_cases hi : i < dwf.length
    · rw [getD_map_lt _ _ _ [] [] hi]
    · rw [List.getD_eq_getElem?_getD, List.getD_eq_getElem?_getD,
        List.getElem?_eq_none (by simp; omega), List.getElem?_eq_none (by omega)]
      rfl
  exact ⟨by rw [hrow]; simp, hrow⟩

/-- A flagged entry is an edge of `data`. -/
theorem flagged_edge (data : Adjacency) (dwf : List (List (Byte × Int × Bool)))
    (h : FlagShape data dwf) (i j : Nat) (hf : flagged dwf i j = true) :
    i < data.length ∧ j < (data.getD i []).length ∧
    flag_edge (flag_at dwf i j) ∈ data.getD i [] ∧
    flag_at dwf i j ∈ dwf.getD i [] := by
  obtain ⟨h1, h2⟩ := flagShape_facts data dwf h
  obtain ⟨hi, hj⟩ := flag_at_oob dwf i j hf
  have hmem : flag_at dwf i j ∈ dwf.getD i [] := by
    unfold flag_at
    rw [List.getD_eq_getElem _ _ hj]
    exact List.getElem_mem _
  refine ⟨by omega, by rw [(h2 i).1]; exact hj, ?_, hmem⟩
  rw [(h2 i).2]
  exact List.mem_map_of_mem _ hmem

theorem first_pass_fold (i : Nat) (mx : Int) :
    ∀ (m : Nat) (dwf : List (List (Byte × Int × Bool))),
      (∀ a b, flagged ((List.range m).foldl (fun dwf (j : Nat) =>
          if (j : Int) ≠ mx then set_flag dwf i j false else dwf) dwf) a b = true ↔
        (flagged dwf a b = true ∧ ¬ (a = i ∧ b < m ∧ (b : Int) ≠ mx))) ∧
      (∀ data, FlagShape data dwf → FlagShape data ((List.range m).foldl (fun dwf (j : Nat) =>
          if (j : Int) ≠ mx then set_flag dwf i j false else dwf) dwf)) := by
  intro m
  induction m with
  | zero =>
    intro dwf
    refine ⟨fun a b => ?_, fun data h => h⟩
    simp
  | succ m ih =>
    intro dwf
    obtain ⟨a1, a2⟩ := ih dwf
    rw [List.range_succ, List.foldl_append]
    simp only [List.foldl_cons, List.foldl_nil]
    by_cases hc : (m : Int) ≠ mx
    · rw [if_pos hc]
      refine ⟨fun a b => ?_, fun data h => flagShape_set data _ _ _ _ (a2 data h)⟩
      rw [flagged_clear, a1]
      constructor
      · rintro ⟨⟨h1, h2⟩, h3⟩
        refine ⟨h1, fun hcon => ?_⟩
        by_cases hb : b = m
        · exact h3 ⟨hcon.1, hb⟩
        · exact h2 ⟨hcon.1, by omega, hcon.2.2⟩
      · rintro ⟨h1, h2⟩
        refine ⟨⟨h1, fun hcon => h2 ⟨hcon.1, by omega, hcon.2.2⟩⟩, fun hcon => ?_⟩
        apply h2
        refine ⟨hcon.1, by omega, ?_⟩
        rw [hcon.2]
        exact hc
    · rw [if_neg hc]
      refine ⟨fun a b => ?_, a2⟩
      rw [a1]
      constructor
      · rintro ⟨h1, h2⟩
        refine ⟨h1, fun hcon => ?_⟩
        by_cases hb : b = m
        · apply hc
          rw [← hb]
          exact hcon.2.2
        · exact h2 ⟨hcon.1, by omega, hcon.2.2⟩
      · rintro ⟨h1, h2⟩
        exact ⟨h1, fun hcon => h2 ⟨hcon.1, by omega, hcon.2.2⟩⟩

/-- After the first decomposition every node has at most one flagged edge. -/
theorem first_pass_spec (data : Adjacency) (nps : List Int) :
    ∀ (k : Nat) (dwf : List (List (Byte × Int × Bool))), FlagShape data dwf →
      FlagShape data ((List.range k).foldl (first_pass_step data nps) dwf) ∧
      (∀ i j1 j2, i < k →
        flagged ((List.range k).foldl (first_pass_step data nps) dwf) i j1 = true →
        flagged ((List.range k).foldl (first_pass_step data nps) dwf) i j2 = true → j1 = j2) := by
  intro k
  induction k with
  | zero =>
    intro dwf h
    exact ⟨h, fun i j1 j2 hi => by omega⟩
  | succ k ih =>
    intro dwf h
    obtain ⟨a1, a2⟩ := ih dwf h
    rw [List.range_succ, List.foldl_append]
    simp only [List.foldl_cons, List.foldl_nil]
    obtain ⟨b1, b2⟩ := first_pass_fold k (first_pass_max data nps k).1
      (data.getD k []).length ((List.range k).foldl (first_pass_step data nps) dwf)
    refine ⟨b2 data a1, ?_⟩
    intro i j1 j2 hi h1 h2
    replace h1 := (b1 i j1).mp h1
    replace h2 := (b1 i j2).mp h2
    by_cases hik : i = k
    · subst hik
      have c1 := (flagged_edge data _ a1 i j1 h1.1).2.1
      have c2 := (flagged_edge data _ a1 i j2 h2.1).2.1
      have d1 : (j1 : Int) = (first_pass_max data nps i).1 := by
        by_contra hne
        exact h1.2 ⟨rfl, c1, hne⟩
      have d2 : (j2 : Int) = (first_pass_max data nps i).1 := by
        by_contra hne
        exact h2.2 ⟨rfl, c2, hne⟩
      omega
    · exact a2 i j1 j2 (by omega) h1.1 h2.1

theorem flagShape_init (data : Adjacency) : FlagShape data (adfa_flag_init data) := by
  unfold FlagShape adfa_flag_init
  rw [List.map_map]
  have : ((fun row : List (Byte × Int × Bool) => List.map flag_edge row) ∘
      fun row : List (Byte × Int) => List.map (fun e => (e.1, e.2, true)) row) = id := by
    funext row
    simp only [Function.comp, List.map_map, id]
    have : (flag_edge ∘ fun e : Byte × Int => (e.1, e.2, true)) = id := by
      funext e
      rfl
    rw [this, List.map_id]
  rw [this, List.map_id]

/-! ## The second decomposition: one heavy edge into every node -/

theorem secondInv_keep (n : Nat) (proc : Nat → Nat → Prop) (st : SecondState)
    (flags2 : List (List (Byte × Int × Bool))) (inv : SecondInv n proc st)
    (hsub : ∀ a b, flagged flags2 a b = true → flagged st.flags a b = true)
    (htg : ∀ a b, flag_target flags2 a b = flag_target st.flags a b) (i j : Nat)
    (hnot : ¬ flagged flags2 i j = true) :
    SecondInv n (fun a b => proc a b ∨ (a = i ∧ b = j))
      { flags := flags2, heavy_edges := st.heavy_edges } := by
  refine ⟨inv.he_len, ?_, ?_, ?_⟩
  · intro a b hf
    rw [htg]
    exact inv.tg_range a b (hsub a b hf)
  · intro a j1 j2 h1 h2
    exact inv.row_one a j1 j2 (hsub a j1 h1) (hsub a j2 h2)
  · intro w hw
    rcases inv.he_ok w hw with ⟨h1, h2⟩ | ⟨u, k, h1, h2⟩
    · left
      refine ⟨h1, ?_⟩
      intro a b hp hf
      rw [htg]
      rcases hp with hp | ⟨rfl, rfl⟩
      · exact h2 a b hp (hsub a b hf)
      · exact absurd hf hnot
    · right
      refine ⟨u, k, h1, ?_⟩
      intro a b hp hf ht
      rw [htg] at ht
      rcases hp with hp | ⟨rfl, rfl⟩
      · exact h2 a b hp (hsub a b hf) ht
      · exact absurd hf hnot

theorem secondInv_update (n : Nat) (proc : Nat → Nat → Prop) (st : SecondState)
    (flags2 : List (List (Byte × Int × Bool))) (inv : SecondInv n proc st)
    (hsub : ∀ a b, flagged flags2 a b = true → flagged st.flags a b = true)
    (htg : ∀ a b, flag_target flags2 a b = flag_target st.flags a b) (i j : Nat)
    (w0 : Nat) (hw0 : w0 < n) (htgt : flag_target st.flags i j = (w0 : Int))
    (hnone : ∀ a b, proc a b → flagged flags2 a b = true →
      flag_target st.flags a b ≠ (w0 : Int)) :
    SecondInv n (fun a b => proc a b ∨ (a = i ∧ b = j))
      { flags := flags2, heavy_edges := st.heavy_edges.set w0 ((i : Int), (j : Int)) } := by
  have hlen := inv.he_len
  refine ⟨by simp only [List.length_set]; exact hlen, ?_, ?_, ?_⟩
  · intro a b hf
    simp only [] at hf ⊢
    rw [htg]
    exact inv.tg_range a b (hsub a b hf)
  · intro a j1 j2 h1 h2
    exact inv.row_one a j1 j2 (hsub a j1 h1) (hsub a j2 h2)
  · intro w hw
    simp only []
    rw [getD_set_eq _ _ _ _ _ (by omega)]
    by_cases hww : w = w0
    · rw [if_pos hww]
      right
      refine ⟨i, j, rfl, ?_⟩
      intro a b hp hf ht
      rw [htg, hww] at ht
      rcases hp with hp | hp
      · exact absurd ht (hnone a b hp hf)
      · exact hp
    · rw [if_neg hww]
      rcases inv.he_ok w hw with ⟨h1, h2⟩ | ⟨u, k, h1, h2⟩
      · left
        refine ⟨h1, ?_⟩
        intro a b hp hf
        rw [htg]
        rcases hp with hp | ⟨rfl, rfl⟩
        · exact h2 a b hp (hsub a b hf)
        · rw [htgt]
          omega
      · right
        refine ⟨u, k, h1, ?_⟩
        intro a b hp hf ht
        rw [htg] at ht
        rcases hp with hp | ⟨rfl, rfl⟩
        · exact h2 a b hp (hsub a b hf) ht
        · rw [htgt] at ht
          omega

/-- One edge of the second decomposition. -/
theorem second_edge_step_spec (n : Nat) (npr : List Int) (proc : Nat → Nat → Prop)
    (st : SecondState) (inv : SecondInv n proc st) (i j : Nat) :
    SecondInv n (fun a b => proc a b ∨ (a = i ∧ b = j)) (second_edge_step npr i st j) ∧
    (∀ data, FlagShape data st.flags → FlagShape data (second_edge_step npr i st j).flags) := by
  unfold second_edge_step
  simp only []
  by_cases hf : flagged st.flags i j = true
  · have hf2 : (flag_at st.flags i j).2.2 = true := hf
    rw [if_neg (by rw [hf2]; simp)]
    obtain ⟨r1, r2⟩ := inv.tg_range i j hf
    have htgt : flag_target st.flags i j = (((flag_target st.flags i j).toNat : Nat) : Int) := by
      omega
    have hw0 : (flag_target st.flags i j).toNat < n := by omega
    have hok := inv.he_ok _ hw0
    by_cases hnf : (st.heavy_edges.getD (flag_at st.flags i j).2.1.toNat
        (NOT_FOUND, NOT_FOUND)).1 = NOT_FOUND
    · rw [if_pos hnf]
      refine ⟨?_, fun data h => h⟩
      apply secondInv_update n proc st st.flags inv (fun a b h => h) (fun a b => rfl) i j
        (flag_target st.flags i j).toNat hw0 htgt
      rcases hok with ⟨_, h2⟩ | ⟨u, k, h1, _⟩
      · intro a b hp hfl
        exact h2 a b hp hfl
      · exfalso
        have : (st.heavy_edges.getD (flag_target st.flags i j).toNat (NOT_FOUND, NOT_FOUND)).1
            = NOT_FOUND := hnf
        rw [h1] at this
        simp only [NOT_FOUND] at this
        omega
    · rw [if_neg hnf]
      rcases hok with ⟨h1, _⟩ | ⟨u, k, h1, h2⟩
      · exact absurd h1 hnf
      · have hhe : st.heavy_edges.getD (flag_at st.flags i j).2.1.toNat (NOT_FOUND, NOT_FOUND)
            = ((u : Int), (k : Int)) := h1
        by_cases hgt : npr.getD i 0 > npr.getD
            (st.heavy_edges.getD (flag_at st.flags i j).2.1.toNat (NOT_FOUND, NOT_FOUND)).1.toNat 0
        · rw [if_pos hgt]
          rw [hhe]
          simp only [Int.toNat_ofNat]
          refine ⟨?_, fun data h => flagShape_set data _ _ _ _ h⟩
          apply secondInv_update n proc st _ inv
            (fun a b h => ((flagged_clear _ _ _ _ _).mp h).1)
            (fun a b => flag_target_set _ _ _ _ _ _) i j
            (flag_target st.flags i j).toNat hw0 htgt
          intro a b hp hfl hcon
          rw [flagged_clear] at hfl
          exact hfl.2 (h2 a b hp hfl.1 (by rw [hcon]))
        · rw [if_neg hgt]
          refine ⟨?_, fun data h => flagShape_set data _ _ _ _ h⟩
          apply secondInv_keep n proc st _ inv
            (fun a b h => ((flagged_clear _ _ _ _ _).mp h).1)
            (fun a b => flag_target_set _ _ _ _ _ _) i j
          intro hcon
          rw [flagged_clear] at hcon
          exact hcon.2 ⟨rfl, rfl⟩
  · have hf2 : ¬ (flag_at st.flags i j).2.2 = true := hf
    rw [if_pos (by simpa using hf2)]
    exact ⟨secondInv_keep n proc st st.flags inv (fun a b h => h) (fun a b => rfl) i j hf,
      fun data h => h⟩

theorem secondInv_weaken (n : Nat) (proc proc2 : Nat → Nat → Prop) (st : SecondState)
    (inv : SecondInv n proc st)
    (h : ∀ a b, proc2 a b → flagged st.flags a b = true → proc a b) :
    SecondInv n proc2 st := by
  refine ⟨inv.he_len, inv.tg_range, inv.row_one, ?_⟩
  intro w hw
  rcases inv.he_ok w hw with ⟨h1, h2⟩ | ⟨u, k, h1, h2⟩
  · exact Or.inl ⟨h1, fun a b hp hf => h2 a b (h a b hp hf) hf⟩
  · exact Or.inr ⟨u, k, h1, fun a b hp hf => h2 a b (h a b hp hf) hf⟩

theorem second_edge_fold_spec (n : Nat) (npr : List Int) (proc : Nat → Nat → Prop) (i : Nat) :
    ∀ (m : Nat) (st : SecondState), SecondInv n proc st →
      SecondInv n (fun a b => proc a b ∨ (a = i ∧ b < m))
        ((List.range m).foldl (second_edge_step npr i) st) ∧
      (∀ data, FlagShape data st.flags →
        FlagShape data ((List.range m).foldl (second_edge_step npr i) st).flags) := by
  intro m
  induction m with
  | zero =>
    intro st inv
    refine ⟨secondInv_weaken n proc _ st inv ?_, fun data h => h⟩
    rintro a b (h | h) _
    · exact h
    · omega
  | succ m ih =>
    intro st inv
    obtain ⟨a1, a2⟩ := ih st inv
    rw [List.range_succ, List.foldl_append]
    simp only [List.foldl_cons, List.foldl_nil]
    obtain ⟨b1, b2⟩ := second_edge_step_spec n npr _ _ a1 i m
    refine ⟨secondInv_weaken n _ _ _ b1 ?_, fun data h => b2 data (a2 data h)⟩
    rintro a b (h | h) _
    · exact Or.inl (Or.inl h)
    · by_cases hb : b = m
      · exact Or.inr ⟨h.1, hb⟩
      · exact Or.inl (Or.inr ⟨h.1, by omega⟩)

theorem second_loop_spec (data : Adjacency) (npr : List Int) :
    ∀ (k : Nat) (st : SecondState), FlagShape data st.flags →
      SecondInv data.length (fun a _ => k ≤ a) st →
      SecondInv data.length (fun _ _ => True) (second_loop data npr k st) ∧
      FlagShape data (second_loop data npr k st).flags := by
  intro k
  induction k with
  | zero =>
    intro st hs inv
    exact ⟨secondInv_weaken _ _ _ st inv (fun a b _ _ => Nat.zero_le a), hs⟩
  | succ k ih =>
    intro st hs inv
    simp only [second_loop]
    obtain ⟨a1, a2⟩ := second_edge_fold_spec data.length npr _ k (data.getD k []).length st inv
    have hs2 := a2 data hs
    apply ih _ hs2
    apply secondInv_weaken _ _ _ _ a1
    intro a b hka hf
    by_cases hak : a = k
    · right
      refine ⟨hak, ?_⟩
      have := (flagged_edge data _ hs2 a b hf).2.1
      rw [hak] at this
      exact this
    · left
      show k + 1 ≤ a
      omega

theorem flagsOk_of_secondInv (n : Nat) (st : SecondState)
    (s1 : SecondInv n (fun _ _ => True) st) : FlagsOk st.flags := by
  refine ⟨s1.row_one, ?_⟩
  intro i1 j1 i2 j2 h1 h2 heq
  obtain ⟨r1, r2⟩ := s1.tg_range i1 j1 h1
  have hcast : flag_target st.flags i1 j1
      = (((flag_target st.flags i1 j1).toNat : Nat) : Int) := by omega
  rcases s1.he_ok (flag_target st.flags i1 j1).toNat (by omega) with ⟨_, h⟩ | ⟨u, k, _, h⟩
  · exact absurd hcast (h i1 j1 trivial h1)
  · have e1 := h i1 j1 trivial h1 hcast
    have e2 := h i2 j2 trivial h2 (by rw [← heq]; exact hcast)
    omega

/-- The flags after both decompositions: the entries are the edges of `data`,
every node has at most one flagged edge, and no two flagged edges lead to the
same node. -/
theorem adfa_flags_spec (data : Adjacency) (dag : DagOk data) :
    FlagShape data (adfa_flags data) ∧ FlagsOk (adfa_flags data) := by
  have f1 : FlagShape data (first_pass data (number_of_paths_sink data) (adfa_flag_init data)) :=
    (first_pass_spec data (number_of_paths_sink data) data.length
      (adfa_flag_init data) (flagShape_init data)).1
  have f2 : ∀ i j1 j2, i < data.length →
      flagged (first_pass data (number_of_paths_sink data) (adfa_flag_init data)) i j1 = true →
      flagged (first_pass data (number_of_paths_sink data) (adfa_flag_init data)) i j2 = true →
      j1 = j2 :=
    (first_pass_spec data (number_of_paths_sink data) data.length
      (adfa_flag_init data) (flagShape_init data)).2
  have hinit : SecondInv data.length (fun a _ => data.length ≤ a)
      { flags := first_pass data (number_of_paths_sink data) (adfa_flag_init data),
        heavy_edges := List.replicate data.length (NOT_FOUND, NOT_FOUND) } := by
    refine ⟨by simp, ?_, ?_, ?_⟩
    · intro i j hf
      obtain ⟨h1, _, h3, _⟩ := flagged_edge data _ f1 i j hf
      have := dag.up i h1 _ h3
      have h4 : (i : Int) < (flag_at
          (first_pass data (number_of_paths_sink data) (adfa_flag_init data)) i j).2.1 ∧
          (flag_at (first_pass data (number_of_paths_sink data) (adfa_flag_init data)) i j).2.1
            < (data.length : Int) := this
      show 0 ≤ (flag_at
          (first_pass data (number_of_paths_sink data) (adfa_flag_init data)) i j).2.1 ∧
          (flag_at (first_pass data (number_of_paths_sink data) (adfa_flag_init data)) i j).2.1
            < (data.length : Int)
      omega
    · intro i j1 j2 h1 h2
      exact f2 i j1 j2 (flagged_edge data _ f1 i j1 h1).1 h1 h2
    · intro w hw
      left
      refine ⟨by simp [List.getD_eq_getElem?_getD, List.getElem?_replicate, hw], ?_⟩
      intro i j hp hf
      have := (flagged_edge data _ f1 i j hf).1
      omega
  obtain ⟨s1, s2⟩ := second_loop_spec data (number_of_paths_root data) data.length _ f1 hinit
  exact ⟨s2, flagsOk_of_secondInv _ _ s1⟩

/-! ## `PathDecomposedADFA` answers as the automaton it is built from -/

theorem adfa_light_getD (dwf : List (List (Byte × Int × Bool))) (v : Nat) :
    (adfa_light dwf).getD v []
      = ((dwf.getD v []).filter (fun t => !t.2.2)).map flag_edge := by
  unfold adfa_light
  exact List.getD_map dwf []
    (fun row : List (Byte × Int × Bool) => (row.filter (fun t => !t.2.2)).map flag_edge)

/-- The heavy edge of a node is its flagged edge: the entry at some index
`j`, with the entries before and behind it without flag. -/
theorem adfa_heavy_some (dwf : List (List (Byte × Int × Bool))) (ok : FlagsOk dwf) (v : Nat)
    (e : Byte × Int) (h : adfa_heavy_of dwf (v : Int) = some e) :
    ∃ (t : Byte × Int × Bool) (l1 l2 : List (Byte × Int × Bool)),
      flag_edge t = e ∧ dwf.getD v [] = l1 ++ t :: l2 ∧
      flagged dwf v l1.length = true ∧ flag_at dwf v l1.length = t ∧
      (l1 ++ t :: l2).filter (fun t => !t.2.2) = l1 ++ l2 := by
  unfold adfa_heavy_of at h
  simp only [Int.toNat_ofNat] at h
  cases hf : (dwf.getD v []).find? (fun t => t.2.2) with
  | none => rw [hf] at h; cases h
  | some t =>
    rw [hf] at h
    simp only [Option.map_some', Option.some.injEq] at h
    obtain ⟨ht, l1, l2, hrow, hl1⟩ := List.find?_eq_some.mp hf
    have hat : flag_at dwf v l1.length = t := by
      unfold flag_at
      rw [hrow, List.getD_eq_getElem?_getD, List.getElem?_append_right (le_refl _)]
      simp
    have hfl : flagged dwf v l1.length = true := by
      unfold flagged
      rw [hat]
      exact ht
    refine ⟨t, l1, l2, h, hrow, hfl, hat, ?_⟩
    rw [List.filter_append, List.filter_cons]
    have h1 : l1.filter (fun t => !t.2.2) = l1 := List.filter_eq_self.mpr hl1
    have h2 : l2.filter (fun t => !t.2.2) = l2 := by
      apply List.filter_eq_self.mpr
      intro x hx
      obtain ⟨k, hk⟩ := List.mem_iff_getElem?.mp hx
      have hat2 : flag_at dwf v (l1.length + 1 + k) = x := by
        unfold flag_at
        rw [hrow, List.getD_eq_getElem?_getD, List.getElem?_append_right (by omega)]
        have : l1.length + 1 + k - l1.length = k + 1 := by omega
        rw [this, List.getElem?_cons_succ, hk]
        rfl
      cases hx2 : x.2.2 with
      | false => rfl
      | true =>
        have : flagged dwf v (l1.length + 1 + k) = true := by
          unfold flagged
          rw [hat2]
          exact hx2
        have := ok.row_one v _ _ hfl this
        omega
    rw [h1, h2]
    have : (!t.2.2) = false := by rw [ht]; rfl
    simp [this]

theorem adfa_lightSpec (data : Adjacency) (dwf : List (List (Byte × Int × Bool)))
    (hs : FlagShape data dwf) (ok : FlagsOk dwf) :
    LightSpec data (adfa_heavy_of dwf) (adfa_light dwf) := by
  obtain ⟨_, hrows⟩ := flagShape_facts data dwf hs
  refine ⟨?_, ?_⟩
  · intro v hv hnone
    rw [adfa_light_getD, (hrows v).2]
    unfold adfa_heavy_of at hnone
    simp only [Int.toNat_ofNat, Option.map_eq_none'] at hnone
    have := List.find?_eq_none.mp hnone
    have hfil : (dwf.getD v []).filter (fun t => !t.2.2) = dwf.getD v [] := by
      apply List.filter_eq_self.mpr
      intro x hx
      have := this x hx
      simpa using this
    rw [hfil]
  · intro v hv e hsome
    obtain ⟨t, l1, l2, h1, h2, _, _, h5⟩ := adfa_heavy_some dwf ok v e hsome
    rw [adfa_light_getD, (hrows v).2, h2, h5, ← h1]
    simp only [List.map_append, List.map_cons]
    refine List.Perm.trans ?_ List.perm_middle.symm
    rw [← List.map_append]
    exact (List.perm_append_singleton _ _)

theorem adfa_heavyOk (data : Adjacency) (dag : DagOk data)
    (dwf : List (List (Byte × Int × Bool))) (hs : FlagShape data dwf) (ok : FlagsOk dwf) :
    HeavyOk data.length (adfa_heavy_of dwf) := by
  obtain ⟨_, hrows⟩ := flagShape_facts data dwf hs
  refine ⟨?_, ?_⟩
  · intro u e hu he
    obtain ⟨t, l1, l2, h1, h2, _, _, _⟩ := adfa_heavy_some dwf ok u e he
    have hmem : e ∈ data.getD u [] := by
      rw [(hrows u).2, h2, ← h1]
      apply List.mem_map_of_mem
      simp
    exact dag.up u hu e hmem
  · intro u v e1 e2 hu hv h1 h2 heq
    obtain ⟨t1, a1, a2, b1, _, b3, b4, _⟩ := adfa_heavy_some dwf ok u e1 h1
    obtain ⟨t2, c1, c2, d1, _, d3, d4, _⟩ := adfa_heavy_some dwf ok v e2 h2
    apply ok.target_one u a1.length v c1.length b3 d3
    unfold flag_target
    rw [b4, d4]
    have e3 : t1.2.1 = e1.2 := by rw [← b1]; rfl
    have e4 : t2.2.1 = e2.2 := by rw [← d1]; rfl
    rw [e3, e4, heq]

theorem adfa_light_inner (inv : List Int) (k : Nat) :
    ∀ (row : List (Byte × Int × Bool)) (acc : Adjacency),
      row.foldl (fun acc t =>
        if !t.2.2 then List.modify (fun l => l ++ [(t.1, inv.getD t.2.1.toNat 0)]) k acc
        else acc) acc
      = ((row.filter (fun t => !t.2.2)).map flag_edge).foldl
          (fun acc e => List.modify (fun l => l ++ [(e.1, inv.getD e.2.toNat 0)]) k acc) acc := by
  intro row
  induction row with
  | nil => intro acc; rfl
  | cons t row ih =>
    intro acc
    simp only [List.foldl_cons, List.filter_cons]
    by_cases ht : (!t.2.2) = true
    · rw [if_pos ht, if_pos ht, List.map_cons, List.foldl_cons, ih]
      rfl
    · rw [if_neg ht, if_neg ht, ih]

/-- The light edges as `PathDecomposedADFA` collects them are the edges
without flag, renumbered row by row. -/
theorem adfa_light_edges_eq (n : Nat) (dwf : List (List (Byte × Int × Bool))) (inv : List Int) :
    adfa_light_edges n dwf inv = pd_light_edges_inv n (adfa_light dwf) inv := by
  unfold adfa_light_edges pd_light_edges_inv
  apply List.foldl_ext
  intro acc i _
  rw [adfa_light_getD, adfa_light_inner]

/-- The walk along heavy edges of `PathDecomposedADFA`, which appends a node
when it reaches it and ends the path afterwards, lays out the same path as the
walk of `PathDecomposedTrie`, and its assertion holds. -/
theorem adfa_follow_eq (n : Nat) (heavy_of : Int → Option (Byte × Int)) (ok : HeavyOk n heavy_of)
    (i : Nat) :
    ∀ (fuel : Nat) (cur : Int) (ps : PathState), PathInv n heavy_of (i + 1) ps [cur] →
      (i : Int) ≤ cur →
      (adfa_follow heavy_of fuel cur
        { heavy_path := ps.heavy_path ++ [cur],
          flags := ps.flags.set cur.toNat true,
          heavy_str := ps.heavy_str }).map
        (fun st2 => { st2 with heavy_str := st2.heavy_str ++ [NULL_CHAR] })
      = pd_follow heavy_of fuel cur ps := by
  intro fuel
  induction fuel with
  | zero =>
    intro cur ps _ _
    rfl
  | succ fuel ih =>
    intro cur ps inv hic
    have hcur := inv.range cur (by simp)
    have hcn : cur = ((cur.toNat : Nat) : Int) := by omega
    cases h : heavy_of cur with
    | none =>
      simp only [adfa_follow, pd_follow, h, Option.map_some']
    | some e =>
      have hpush : PathInv n heavy_of (i + 1)
          { heavy_path := ps.heavy_path ++ [cur], flags := ps.flags.set cur.toNat true,
            heavy_str := ps.heavy_str ++ [e.1] } [e.2] := by
        refine pathInv_push n heavy_of ok i ps cur inv hic e.1 [e.2] ⟨?_, ?_⟩
        · intro hn
          rw [h] at hn
          cases hn
        · intro e2 he
          rw [h] at he
          cases he
          exact ⟨rfl, rfl⟩
      have hup : cur < e.2 := by
        have h2 := h
        rw [hcn] at h2
        have := ok.up cur.toNat e (by omega) h2
        omega
      have her := hpush.range e.2 (by simp)
      have hnotflag : ¬ (ps.flags.set cur.toNat true).getD e.2.toNat false = true := by
        intro hcon
        have hmem := (hpush.flag_iff e.2.toNat (by omega)).mp hcon
        have hnd := hpush.nodup
        rw [List.nodup_append] at hnd
        apply hnd.2.2 hmem
        simp only [List.mem_singleton]
        omega
      simp only [adfa_follow, pd_follow, h]
      rw [if_neg hnotflag]
      exact ih e.2 _ hpush (by omega)

theorem adfa_path_step_eq (n : Nat) (heavy_of : Int → Option (Byte × Int))
    (ok : HeavyOk n heavy_of) (i : Nat) (hi : i < n) (ps : PathState)
    (d : PathsDone n heavy_of i ps) :
    adfa_path_step n heavy_of ps i = pd_path_step n heavy_of ps i := by
  unfold adfa_path_step pd_path_step
  by_cases hf : ps.flags.getD i false = true
  · rw [if_pos hf, if_pos hf]
  · rw [if_neg hf, if_neg hf]
    have hnot : (i : Int) ∉ ps.heavy_path := fun h => hf ((d.inv.flag_iff i hi).mpr h)
    have hopen := pathInv_open n heavy_of i hi ps d hnot
    have := adfa_follow_eq n heavy_of ok i n (i : Int) ps hopen (le_refl _)
    simp only [Int.toNat_ofNat] at this
    rw [← this]
    cases adfa_follow heavy_of n (i : Int)
      { heavy_path := ps.heavy_path ++ [(i : Int)], flags := ps.flags.set i true,
        heavy_str := ps.heavy_str } with
    | none => rfl
    | some st2 => rfl

theorem adfa_path_loop_eq (n : Nat) (heavy_of : Int → Option (Byte × Int))
    (ok : HeavyOk n heavy_of) :
    ∀ (cnt i : Nat) (ps : PathState), i + cnt ≤ n → PathsDone n heavy_of i ps →
      adfa_path_loop n heavy_of (List.range' i cnt) ps
        = pd_path_loop n heavy_of (List.range' i cnt) ps := by
  intro cnt
  induction cnt with
  | zero =>
    intro i ps _ _
    rfl
  | succ cnt ih =>
    intro i ps hle d
    obtain ⟨ps1, h1, d1⟩ := pd_path_step_spec n heavy_of ok i (by omega) ps d
    simp only [List.range', adfa_path_loop, pd_path_loop]
    rw [adfa_path_step_eq n heavy_of ok i (by omega) ps d, h1]
    exact ih (i + 1) ps1 (by omega) d1

/-- The heavy paths of `PathDecomposedADFA`: the walks end, the assertions
hold, and every node lies at one position. -/
theorem adfa_paths_spec (n : Nat) (heavy_of : Int → Option (Byte × Int))
    (ok : HeavyOk n heavy_of) :
    ∃ ps, adfa_paths n heavy_of = some ps ∧ PathsDone n heavy_of n ps := by
  obtain ⟨ps, h1, h2⟩ := pd_paths_spec n heavy_of ok
  refine ⟨ps, ?_, h2⟩
  rw [← h1]
  unfold adfa_paths pd_paths
  rw [List.range_eq_range']
  apply adfa_path_loop_eq n heavy_of ok n 0 _ (by omega)
  refine ⟨⟨by simp, rfl, by simp, by simp, ?_, by simp, by simp⟩, by simp, by simp⟩
  intro v hv
  simp [List.getD_eq_getElem?_getD, List.getElem?_replicate, hv]

theorem adfa_search_from_eq_walk (maps : MapVector) : ∀ (s : List Byte) (node : Int),
    BaseADFA.search_from maps node s =
      match walk maps node s with
      | none => false
      | some w => decide (w = MapVector.size maps - 1) := by
  intro s
  induction s with
  | nil => intro node; simp [BaseADFA.search_from, walk]
  | cons c s ih =>
    intro node
    simp only [BaseADFA.search_from, walk]
    split
    · rfl
    · exact ih _

/-- Over an automaton whose edges ascend, `PathDecomposedADFA` is built and
answers as the automaton does. -/
theorem pdadfa_search_eq (base : BaseADFA) (dag : DagOk base.maps) (s : List Byte)
    (hs : ∀ c ∈ s, c ≠ NULL_CHAR) (jh jl : Nat → Byte) :
    ∃ pd, PathDecomposedADFA.construct base = some pd ∧
      pd.search jh jl s = some (base.search s) := by
  have hpos := dag.size_pos
  obtain ⟨hshape, hflags⟩ := adfa_flags_spec base.maps dag
  have hok := adfa_heavyOk base.maps dag _ hshape hflags
  obtain ⟨ps, hps, hdone⟩ := adfa_paths_spec _ _ hok
  have hrange : ∀ v, v < base.maps.length → ∀ e ∈ base.maps.getD v [],
      0 ≤ e.2 ∧ e.2 < (base.maps.length : Int) := by
    intro v hv e he
    have := dag.up v hv e he
    omega
  have hpd := pd_spec_of_layout _ _ _ ps dag.sorted hrange
    (adfa_lightSpec _ _ hshape hflags) hdone
  obtain ⟨_, p1, _, p0⟩ := paths_pos_spec _ _ ps hdone
  have hlen := paths_length _ _ ps hdone
  refine ⟨{ root := (heavy_path_inv base.maps.length ps.heavy_path).getD 0 0,
            sink := (heavy_path_inv base.maps.length ps.heavy_path).getD
              (base.maps.length - 1) 0,
            heavy_str := ps.heavy_str,
            maps := construct_maps (adfa_light_edges base.maps.length (adfa_flags base.maps)
              (heavy_path_inv base.maps.length ps.heavy_path)) }, ?_, ?_⟩
  · unfold PathDecomposedADFA.construct BaseADFA.to_vector
    simp only [to_vector_eq, hps]
    rw [if_neg (by rw [hlen]; simp)]
  · have hwalk := pd_walk_spec _ _ _ _ hpd jh jl s hs (s.length + 1) s [] 0 rfl (by omega)
      (by omega)
    unfold PathDecomposedADFA.search
    simp only []
    rw [(p1 0 (by omega)).2.1, adfa_light_edges_eq]
    simp only [List.length_nil] at hwalk
    rw [hwalk]
    unfold BaseADFA.search
    rw [adfa_search_from_eq_walk]
    cases hw : walk base.maps 0 s with
    | none => rfl
    | some w =>
      have hr := walk_in_range _ hrange s 0 w (by omega) (by simpa using hw)
      simp only [Option.map, Option.some.injEq, MapVector.size]
      rw [(p1 (base.maps.length - 1) (by omega)).2.1]
      by_cases hlast : w = (base.maps.length : Int) - 1
      · have : w.toNat = base.maps.length - 1 := by omega
        rw [this]
        simp [hlast]
      · have hne : pd_pos (heavy_path_inv base.maps.length ps.heavy_path) w.toNat
            ≠ pd_pos (heavy_path_inv base.maps.length ps.heavy_path) (base.maps.length - 1) := by
          intro hcon
          have := pd_pos_inj _ _ ps hdone _ _ (by omega) (by omega) hcon
          omega
        have hne2 : ¬ ((pd_pos (heavy_path_inv base.maps.length ps.heavy_path) w.toNat : Nat) : Int)
            = ((pd_pos (heavy_path_inv base.maps.length ps.heavy_path)
                (base.maps.length - 1) : Nat) : Int) := by
          intro hcon
          exact hne (by exact_mod_cast hcon)
        simp [hne2, hlast]

/-- The automaton of a trie has its labels in order and its edges ascending. -/
theorem adfa_dagOk (t : BaseTrie) (inv : TrieInv t) : DagOk (BaseADFA.construct t).maps := by
  have spec := adfa_spec t inv
  refine ⟨spec.size_pos, ?_, ?_⟩
  · intro q hq
    obtain ⟨v, hv, hvq⟩ := spec.state_onto q hq
    have hed := spec.state_edges v hv
    rw [hvq, Int.toNat_ofNat] at hed
    rw [hed, List.pairwise_map]
    exact inv.sorted v hv
  · intro q hq e he
    obtain ⟨v, hv, hvq⟩ := spec.state_onto q hq
    have hed := spec.state_edges v hv
    rw [hvq, Int.toNat_ofNat] at hed
    rw [hed] at he
    obtain ⟨x, hx, rfl⟩ := List.mem_map.mp he
    have h1 := spec.state_up v hv x hx
    have hxr := inv.edge_up v hv x hx
    have h2 := spec.state_range x.2.toNat (by omega)
    simp only []
    omega

/-- **C5.** The heavy-path automaton preserves the language: for every list `D`
of strings and every query `s` that holds no `NULL_CHAR`, whatever the memory
holds behind `heavy_str` and behind the query, the constructor of
`PathDecomposedADFA` ends with its assertions passed, and
`PathDecomposedADFA(BaseADFA(BaseTrie(D))).search(s)` returns what
`BaseADFA(BaseTrie(D)).search(s)` returns. -/
theorem PathDecomposedADFA_search_eq (D : List (List Byte)) (s : List Byte)
    (hs : ∀ c ∈ s, c ≠ NULL_CHAR) (jh jl : Nat → Byte) :
    ∃ pd, PathDecomposedADFA.construct (BaseADFA.construct (BaseTrie.construct D)) = some pd ∧
      pd.search jh jl s = some ((BaseADFA.construct (BaseTrie.construct D)).search s) :=
  pdadfa_search_eq _ (adfa_dagOk _ (construct_spec D).1) s hs jh jl

theorem PathDecomposedADFA_search_eq_witness :
    (∀ c ∈ ([98, 97, 1] : List Byte), c ≠ NULL_CHAR) ∧
    ∃ pd, PathDecomposedADFA.construct
        (BaseADFA.construct (BaseTrie.construct [[97, 98, 1], [98, 97, 1], [97, 1]])) = some pd ∧
      pd.search (fun _ => 0) (fun _ => 0) [98, 97, 1]
        = some ((BaseADFA.construct
            (BaseTrie.construct [[97, 98, 1], [98, 97, 1], [97, 1]])).search [98, 97, 1]) :=
  ⟨by simp [NULL_CHAR], PathDecomposedADFA_search_eq [[97, 98, 1], [98, 97, 1], [97, 1]]
    [98, 97, 1] (by simp [NULL_CHAR]) (fun _ => 0) (fun _ => 0)⟩

/-! ## The automaton has no duplicate state -/

/-- Two trie nodes whose states have the same edges are in the same class. -/
theorem adfa_state_of_edges (t : BaseTrie) (inv : TrieInv t) (v1 v2 : Nat)
    (h1 : v1 < t.node_count) (h2 : v2 < t.node_count)
    (heq : (BaseADFA.construct t).maps.getD (adfa_state t.to_vector v1).toNat []
      = (BaseADFA.construct t).maps.getD (adfa_state t.to_vector v2).toNat []) :
    adfa_state t.to_vector v1 = adfa_state t.to_vector v2 := by
  have spec := adfa_spec t inv
  have htopo := trie_topoOk t inv
  have hdata : t.to_vector = t.maps := to_vector_eq t.maps
  have hn : t.to_vector.length = t.node_count := by rw [hdata, inv.len]
  have cinv := classInv_final t.to_vector htopo
  rw [spec.state_edges v1 h1, spec.state_edges v2 h2] at heq
  have hchildren : adfa_children t.to_vector (adfa_classes t.to_vector).2 v1
      = adfa_children t.to_vector (adfa_classes t.to_vector).2 v2 := by
    unfold adfa_children
    rw [hdata]
    have hmap := congrArg (List.map (fun x : Byte × Int =>
      (x.1, ((adfa_classes t.maps).1.length : Int) - 1 - x.2))) heq
    rw [List.map_map, List.map_map] at hmap
    have hfun : ((fun x : Byte × Int => (x.1, ((adfa_classes t.maps).1.length : Int) - 1 - x.2)) ∘
        fun e : Byte × Int => (e.1, adfa_state t.to_vector e.2.toNat))
        = fun e : Byte × Int => (e.1, (adfa_classes t.maps).2.getD e.2.toNat NOT_FOUND) := by
      funext e
      simp only [Function.comp, adfa_state, hdata, Prod.mk.injEq, true_and]
      omega
    rw [hfun] at hmap
    exact hmap
  have m1 := cinv.node_class v1 (Nat.zero_le _) (by rw [hn]; exact h1)
  have m2 := cinv.node_class v2 (Nat.zero_le _) (by rw [hn]; exact h2)
  have := pairwise_ne_inj Prod.fst _ cinv.keys_nodup _ _ m1 m2 hchildren
  have hid : (adfa_classes t.to_vector).2.getD v1 NOT_FOUND
      = (adfa_classes t.to_vector).2.getD v2 NOT_FOUND := congrArg Prod.snd this
  unfold adfa_state
  rw [hid]

/-- From every state but the last one a walk leads to the last state. -/
theorem dag_reach_sink (data : Adjacency) (dag : DagOk data)
    (hsink : ∀ q, q < data.length → data.getD q [] = [] → q = data.length - 1) :
    ∀ (k q : Nat), q < data.length → data.length - 1 - q ≤ k →
      ∃ s, walk data (q : Int) s = some ((data.length : Int) - 1) := by
  intro k
  induction k with
  | zero =>
    intro q hq hk
    refine ⟨[], ?_⟩
    simp only [walk, Option.some.injEq]
    omega
  | succ k ih =>
    intro q hq hk
    by_cases hlast : q = data.length - 1
    · refine ⟨[], ?_⟩
      simp only [walk, Option.some.injEq]
      omega
    · cases hrow : data.getD q [] with
      | nil => exact absurd (hsink q hq hrow) hlast
      | cons e rest =>
        have hmem : e ∈ data.getD q [] := by rw [hrow]; simp
        have hup := dag.up q hq e hmem
        have hsearch := data_search_mem data q (dag.sorted q hq) e hmem
        have hcast : e.2 = ((e.2.toNat : Nat) : Int) := by omega
        obtain ⟨s, hs⟩ := ih e.2.toNat (by omega) (by omega)
        refine ⟨e.1 :: s, ?_⟩
        simp only [walk]
        rw [hsearch, if_neg (by simp only [NOT_FOUND]; omega), hcast]
        exact hs

/-- **C11.** `BaseADFA` has no duplicate states: for every `D`, no two distinct
states of `BaseADFA(BaseTrie(D))` have the same list of outgoing edges, and
from every state but the sink, the last state, a walk along edges leads to the
sink. -/
theorem BaseADFA_minimal (D : List (List Byte)) :
    (∀ p q, p < (BaseADFA.construct (BaseTrie.construct D)).maps.length →
      q < (BaseADFA.construct (BaseTrie.construct D)).maps.length →
      (BaseADFA.construct (BaseTrie.construct D)).maps.getD p []
        = (BaseADFA.construct (BaseTrie.construct D)).maps.getD q [] → p = q) ∧
    (∀ q, q < (BaseADFA.construct (BaseTrie.construct D)).maps.length →
      q ≠ (BaseADFA.construct (BaseTrie.construct D)).maps.length - 1 →
      ∃ s, walk (BaseADFA.construct (BaseTrie.construct D)).maps (q : Int) s
        = some (((BaseADFA.construct (BaseTrie.construct D)).maps.length : Int) - 1)) := by
  have inv := (construct_spec D).1
  have spec := adfa_spec _ inv
  have dag := adfa_dagOk _ inv
  refine ⟨?_, ?_⟩
  · intro p q hp hq heq
    obtain ⟨v1, h1, e1⟩ := spec.state_onto p hp
    obtain ⟨v2, h2, e2⟩ := spec.state_onto q hq
    have := adfa_state_of_edges _ inv v1 v2 h1 h2 (by
      rw [e1, e2]
      simpa using heq)
    rw [e1, e2] at this
    omega
  · intro q hq _
    apply dag_reach_sink _ dag ?_ _ q hq (le_refl _)
    intro u hu hnil
    obtain ⟨v, hv, hvu⟩ := spec.state_onto u hu
    have hed := spec.state_edges v hv
    rw [hvu, Int.toNat_ofNat, hnil] at hed
    have hvnil : (BaseTrie.construct D).maps.getD v [] = [] := by
      cases h : (BaseTrie.construct D).maps.getD v [] with
      | nil => rfl
      | cons _ _ => rw [h] at hed; simp at hed
    have := (spec.state_sink v hv).mpr hvnil
    omega

/-! ## The sentinel of the double array -/

theorem commit_reindex_check (cur : Nat) : ∀ (edges : List (Byte × Int))
    (st : DoubleArrayMaps × List (List Nat)),
    st.1.next.length = st.1.check.length → (edges.map Prod.fst).Nodup →
    (∀ e ∈ edges, cur + e.1.val < st.1.next.length) →
    (commit_reindex cur st edges).1.next = st.1.next ∧
    (commit_reindex cur st edges).1.check.length = st.1.check.length ∧
    (∀ e ∈ edges, (commit_reindex cur st edges).1.chk (cur + e.1.val) = e.1) ∧
    (∀ p, (∀ e ∈ edges, cur + e.1.val ≠ p) →
      (commit_reindex cur st edges).1.chk p = st.1.chk p) := by
  intro edges
  induction edges with
  | nil => intro st _ _ _; simp [commit_reindex]
  | cons e rest ih =>
    intro st hl hn hr
    simp only [List.map_cons, List.nodup_cons] at hn
    have hin := hr e (List.mem_cons_self _ _)
    have hstep : commit_reindex cur st (e :: rest)
        = commit_reindex cur
            ({ next := st.1.next, check := st.1.check.set (cur + e.1.val) e.1 },
             if has_tail_flag e.2 then st.2
             else st.2.modify (fun cells => cells ++ [cur + e.1.val]) e.2.toNat) rest := by
      simp [commit_reindex]
    rw [hstep]
    obtain ⟨h1, h2, h3, h4⟩ := ih
      ({ next := st.1.next, check := st.1.check.set (cur + e.1.val) e.1 },
       if has_tail_flag e.2 then st.2
       else st.2.modify (fun cells => cells ++ [cur + e.1.val]) e.2.toNat)
      (by simp [hl]) hn.2
      (fun e2 he2 => by simpa using hr e2 (List.mem_cons_of_mem _ he2))
    simp only [] at h1 h2 h3 h4
    refine ⟨h1, by rw [h2]; simp, ?_, ?_⟩
    · intro e2 he2
      rcases List.mem_cons.mp he2 with rfl | he2
      · rw [h4 _ ?_]
        · unfold DoubleArrayMaps.chk
          simp only []
          rw [getD_set_same _ _ _ _ (by omega)]
        · intro e3 he3 heq
          apply hn.1
          have hv : e3.1.val = e2.1.val := by omega
          have : e3.1 = e2.1 := Fin.ext hv
          rw [← this]
          exact List.mem_map_of_mem _ he3
      · exact h3 e2 he2
    · intro p hp
      rw [h4 p (fun e2 he2 => hp e2 (List.mem_cons_of_mem _ he2))]
      unfold DoubleArrayMaps.chk
      simp only []
      rw [getD_set_other _ _ _ _ _ (hp e (List.mem_cons_self _ _))]

theorem patch_check (cur : Nat) : ∀ (cells : List Nat) (maps : DoubleArrayMaps),
    (cells.foldl (fun (m : DoubleArrayMaps) idx =>
        { next := m.next.set idx (cur : Int), check := m.check }) maps).check = maps.check ∧
    (cells.foldl (fun (m : DoubleArrayMaps) idx =>
        { next := m.next.set idx (cur : Int), check := m.check }) maps).next.length
      = maps.next.length := by
  intro cells
  induction cells with
  | nil => intro maps; simp
  | cons c rest ih =>
    intro maps
    simp only [List.foldl_cons]
    obtain ⟨h1, h2⟩ := ih { next := maps.next.set c (cur : Int), check := maps.check }
    exact ⟨h1, by simpa using h2⟩

/-- One round of `construct_with_reindexing` places one more node, whatever
the targets of its edges are. -/
theorem with_step_placed (data : Adjacency) (hd : LabelsOk data) (st : WithState)
    (base : Nat → Nat) (inv : PlacedInv data st.maps st.curs st.cur st.i base)
    (hi : st.i < data.length) :
    ∃ st2 base2, with_step st (data.getD st.i []) = some st2 ∧ st2.i = st.i + 1 ∧
      PlacedInv data st2.maps st2.curs st2.cur st2.i base2 := by
  have hmem : ∀ u, u < data.length → data.getD u [] ∈ data := by
    intro u hu
    rw [List.getD_eq_getElem _ _ hu]; exact List.getElem_mem hu
  obtain ⟨maps2, cur2, f0, f1, f2, f3, f4, f5, f6⟩ := find_base_spec (data.getD st.i [])
    st.maps.next.length (st.maps.next.length + 1) st.maps st.cur inv.len_eq
    (chk_null_above st.maps inv.len_eq) (by omega)
  obtain ⟨c1, c2, c4, c5⟩ := commit_reindex_check cur2 (data.getD st.i [])
    (maps2, st.inv) f2 (hd _ (hmem _ hi)).1 (fun e he => (f6 e he).1)
  simp only [] at c1 c2 c4 c5
  obtain ⟨p1, p2⟩ := patch_check cur2
    ((commit_reindex cur2 (maps2, st.inv) (data.getD st.i [])).2.getD st.i [])
    (commit_reindex cur2 (maps2, st.inv) (data.getD st.i [])).1
  generalize hpatched : ((commit_reindex cur2 (maps2, st.inv) (data.getD st.i [])).2.getD st.i []).foldl
      (fun (m : DoubleArrayMaps) idx => { next := m.next.set idx (cur2 : Int), check := m.check })
      (commit_reindex cur2 (maps2, st.inv) (data.getD st.i [])).1 = patched at p1 p2
  generalize hcom : commit_reindex cur2 (maps2, st.inv) (data.getD st.i []) = com
    at c1 c2 c4 c5 p1 p2 hpatched
  have hchk : ∀ p, patched.chk p = com.1.chk p := by
    intro p; unfold DoubleArrayMaps.chk; rw [p1]
  refine ⟨{ maps := patched, inv := com.2, curs := st.curs.set st.i (cur2 : Int),
            cur := cur2 + 1, i := st.i + 1 },
    fun u => if u = st.i then cur2 else base u, ?_, rfl, ?_⟩
  · unfold with_step
    rw [f0]
    simp only [hcom, hpatched]
  · exact placed_step data hd st.maps patched st.curs st.cur st.i base cur2 inv hi f1
      (by rw [p2, p1, c1, c2]; exact f2)
      (by rw [p2, c1]; exact f3)
      (fun e he => ⟨by rw [p2, c1]; exact (f6 e he).1, (f6 e he).2⟩)
      (fun e he => by rw [hchk]; exact c4 e he)
      (fun p hp => by rw [hchk, c5 p hp, f4])

theorem with_loop_placed (data : Adjacency) (hd : LabelsOk data) :
    ∀ (rest done : List (List (Byte × Int))) (st : WithState) (base : Nat → Nat),
    data = done ++ rest → st.i = done.length →
    PlacedInv data st.maps st.curs st.cur st.i base →
    ∃ st2 base2, with_loop rest st = some st2 ∧ st2.i = data.length ∧
      PlacedInv data st2.maps st2.curs st2.cur st2.i base2 := by
  intro rest
  induction rest with
  | nil =>
    intro done st base hdata hi inv
    refine ⟨st, base, rfl, ?_, inv⟩
    rw [hi, hdata]; simp
  | cons edges rest ih =>
    intro done st base hdata hi inv
    have hget : data.getD st.i [] = edges := by
      rw [hdata, hi]; exact getD_append_cons done rest edges []
    have hlt : st.i < data.length := by rw [hdata, hi]; simp
    obtain ⟨st2, base2, h1, h2, h3⟩ := with_step_placed data hd st base inv hlt
    rw [hget] at h1
    obtain ⟨st3, base3, g1, g2, g3⟩ := ih (done ++ [edges]) st2 base2
      (by rw [hdata]; simp) (by rw [h2, hi]; simp) h3
    refine ⟨st3, base3, ?_, g2, g3⟩
    simp only [with_loop, h1]
    exact g1

/-- Once all nodes are placed, the check bytes are the sentinel the claim
describes. -/
theorem sentinel_of_placed (data : Adjacency) (hd : LabelsOk data) (maps : DoubleArrayMaps)
    (curs : List Int) (cur : Nat) (base : Nat → Nat)
    (inv : PlacedInv data maps curs cur data.length base) : SentinelOk data maps curs := by
  refine ⟨inv.len_eq, ?_, ?_, ?_⟩
  · intro i
    constructor
    · intro h
      obtain ⟨u, hu, e, he, h1, _⟩ := inv.used i h
      refine ⟨u, hu, e, he, ?_⟩
      rw [inv.curs_eq u hu]
      exact_mod_cast h1
    · rintro ⟨u, hu, e, he, h1⟩
      rw [inv.curs_eq u hu] at h1
      have h2 : base u + e.1.val = i := by exact_mod_cast h1
      have := (inv.owned u hu e he).2
      unfold DoubleArrayMaps.chk at this
      rw [h2] at this
      rw [this]
      have hmem : data.getD u [] ∈ data := by
        rw [List.getD_eq_getElem _ _ hu]; exact List.getElem_mem hu
      exact (hd _ hmem).2 e he
  · intro u hu e he i h1
    rw [inv.curs_eq u hu] at h1
    have h2 : base u + e.1.val = i := by exact_mod_cast h1
    have := inv.owned u hu e he
    unfold DoubleArrayMaps.chk at this
    rw [h2] at this
    have hl := inv.len_eq
    exact ⟨by omega, this.2⟩
  · intro u v hu hv e1 h1 e2 h2 heq
    rw [inv.curs_eq u hu, inv.curs_eq v hv] at heq
    exact placed_cell_edge data hd maps curs cur data.length base inv u v hu hv e1 e2 h1 h2
      (by exact_mod_cast heq)

/-- **C12.** Double-array sentinel and non-overlap: for every adjacency list
whose labels are non-zero and pairwise distinct per node, both
`construct_without_reindexing` and `construct_with_reindexing` return arrays and
one base per node such that a cell `i` has `check[i] != NULL_CHAR` exactly when
`i = base(u) + c` for an edge with label `c` of a node `u`, that cell lies in
the arrays and holds `c`, and the node and the edge of a cell are unique. -/
theorem double_array_sentinel (data : Adjacency) (hd : LabelsOk data) :
    (∃ maps base, construct_without_reindexing data = some (maps, base) ∧
      base.length = data.length ∧ SentinelOk data maps base) ∧
    (∃ maps base, construct_with_reindexing data = some (maps, base) ∧
      base.length = data.length ∧ SentinelOk data maps base) := by
  constructor
  · obtain ⟨st, base, h1, h2, inv, _⟩ := without_loop_spec data hd data []
      { maps := DoubleArrayMaps.mk0 data.length, curs := List.replicate data.length 0,
        cur := 0, i := 0 } (fun _ => 0) rfl rfl (placed_init data)
      (fun u hu => by simp only [] at hu; omega)
    refine ⟨st.maps, st.curs, ?_, inv.curs_len, ?_⟩
    · unfold construct_without_reindexing
      rw [h1]
    · rw [h2] at inv
      exact sentinel_of_placed data hd _ _ _ base inv
  · obtain ⟨st, base, h1, h2, inv⟩ := with_loop_placed data hd data []
      { maps := DoubleArrayMaps.mk0 data.length, inv := List.replicate data.length [],
        curs := List.replicate data.length 0, cur := 0, i := 0 } (fun _ => 0) rfl rfl
      (placed_init data)
    refine ⟨st.maps, st.curs, ?_, inv.curs_len, ?_⟩
    · unfold construct_with_reindexing
      rw [h1]
    · rw [h2] at inv
      exact sentinel_of_placed data hd _ _ _ base inv

/-- C12 at a concrete input: three nodes, one of whose targets carries the
tail flag. -/
theorem double_array_sentinel_witness :
    LabelsOk [[(5, 1), (3, -2147483648)], [(4, 2)], []] ∧
    (∃ maps base, construct_without_reindexing [[(5, 1), (3, -2147483648)], [(4, 2)], []]
        = some (maps, base) ∧
      base.length = 3 ∧ SentinelOk [[(5, 1), (3, -2147483648)], [(4, 2)], []] maps base) ∧
    (∃ maps base, construct_with_reindexing [[(5, 1), (3, -2147483648)], [(4, 2)], []]
        = some (maps, base) ∧
      base.length = 3 ∧ SentinelOk [[(5, 1), (3, -2147483648)], [(4, 2)], []] maps base) :=
  ⟨by decide, double_array_sentinel [[(5, 1), (3, -2147483648)], [(4, 2)], []] (by decide)⟩

/-! ## The delimiter vector and the element array of `static_construct` -/

theorem layout_bv_length : ∀ (data : Adjacency),
    (layout_bv data).length = (data.map List.length).sum + data.length + 1 := by
  intro data
  induction data with
  | nil => simp [layout_bv]
  | cons edges rest ih =>
    simp only [layout_bv, List.length_cons, List.length_append, List.length_replicate, ih,
      List.map_cons, List.sum_cons]
    omega

theorem layout_bv_count : ∀ (data : Adjacency),
    (layout_bv data).count true = data.length + 1 := by
  intro data
  induction data with
  | nil => simp [layout_bv]
  | cons edges rest ih =>
    simp only [layout_bv, List.count_cons_self, List.count_append, List.count_replicate, ih,
      List.length_cons]
    simp

theorem layout_bv_one : ∀ (data : Adjacency) (i : Nat), i ≤ data.length →
    (layout_bv data).getD (i + edge_offset data i) false = true := by
  intro data
  induction data with
  | nil =>
    intro i hi
    simp at hi
    subst hi
    simp [layout_bv, edge_offset]
  | cons edges rest ih =>
    intro i hi
    cases i with
    | zero => simp [layout_bv, edge_offset]
    | succ i =>
      simp only [List.length_cons] at hi
      rw [edge_offset_cons]
      have e : i + 1 + (edges.length + edge_offset rest i)
          = (edges.length + (i + edge_offset rest i)) + 1 := by omega
      rw [e]
      simp only [layout_bv, List.getD_cons_succ]
      rw [List.getD_append_right _ _ _ _ (by simp)]
      simp only [List.length_replicate, Nat.add_sub_cancel_left]
      exact ih i (by omega)

theorem edge_offset_total : ∀ (data : Adjacency),
    edge_offset data data.length = (data.map List.length).sum := by
  intro data
  simp [edge_offset]

/-- Counterexample to C13 as stated, where labels may repeat: over the one node with the
edges `(97, 1)` and `(97, 2)`, the segment of the node in `elms` is not strictly
ascending by byte. -/
theorem static_construct_duplicate_labels :
    (static_construct [[(97, 1), (97, 2)]]).elms = [(97, 1), (97, 2)] ∧
    edge_offset [[(97, 1), (97, 2)]] 0 = 0 ∧ edge_offset [[(97, 1), (97, 2)]] 1 = 2 ∧
    ¬ StrictOn (static_construct [[(97, 1), (97, 2)]]).elms 0 2 := by
  have h : (static_construct [[(97, 1), (97, 2)]]).elms = [(97, 1), (97, 2)] := by decide
  refine ⟨h, by decide, by decide, ?_⟩
  intro hs
  have := hs 0 1 (le_refl _) (by omega) (by omega)
  rw [h] at this
  simp at this

/-- **C13**, amended. Sorted-array layout: for every adjacency list with `N`
nodes and `E` edges, `static_construct` produces a delimiter vector of length
`E + N + 1` with exactly `N + 1` one-bits, the one-bit of node `i` at position
`i +` the number of edges of the nodes before `i` and a final one-bit at the
last position `N + E`; `elms` holds, node after node, the edges of each node
in the order of `std::sort`, by byte and then by target; and the segment of a
node whose labels are pairwise distinct is strictly ascending by byte. -/
theorem static_construct_layout (data : Adjacency) :
    (static_construct data).bv.length = (data.map List.length).sum + data.length + 1 ∧
    (static_construct data).bv.count true = data.length + 1 ∧
    (∀ i, i ≤ data.length →
      (static_construct data).bv.getD (i + edge_offset data i) false = true) ∧
    edge_offset data data.length = (data.map List.length).sum ∧
    (static_construct data).elms.length = (data.map List.length).sum ∧
    (∀ u, u < data.length →
      ((data.getD u []).insertionSort pair_le).Perm (data.getD u []) ∧
      ((data.getD u []).insertionSort pair_le).Pairwise pair_le ∧
      ∀ j, j < (data.getD u []).length →
        (static_construct data).elms.getD (edge_offset data u + j) (0, NOT_FOUND)
          = ((data.getD u []).insertionSort pair_le).getD j (0, NOT_FOUND)) ∧
    (∀ u, u < data.length → ((data.getD u []).map Prod.fst).Nodup →
      StrictOn (static_construct data).elms (edge_offset data u) (edge_offset data (u + 1))) := by
  rw [static_construct_eq]
  simp only []
  refine ⟨layout_bv_length data, layout_bv_count data, layout_bv_one data, edge_offset_total data,
    ?_, ?_, ?_⟩
  · rw [layout_elms_length, edge_offset_total]
  · intro u hu
    exact ⟨List.perm_insertionSort pair_le _, List.sorted_insertionSort pair_le _,
      layout_elms_get data u hu⟩
  · intro u hu hn
    exact strictOn_layout data u hu hn

/-! ## The heavy-path layout of the trie -/

theorem mem_fold_insert (e : Byte × Int) : ∀ (l : List (Byte × Int)) (acc : STLMap),
    l.Pairwise (fun a b => a.1 ≠ b.1) → (∀ x ∈ acc, ∀ y ∈ l, x.1 ≠ y.1) →
    (e ∈ l.foldl (fun m x => STLMap.insert m x.1 x.2) acc ↔ e ∈ acc ∨ e ∈ l) := by
  intro l
  induction l with
  | nil => intro acc _ _; simp
  | cons y t ih =>
    intro acc hp hd
    rw [List.pairwise_cons] at hp
    simp only [List.foldl_cons]
    have hins : ∀ z, z ∈ STLMap.insert acc y.1 y.2 ↔ z = (y.1, y.2) ∨ z ∈ acc :=
      fun z => STLMap.mem_insert y.1 y.2 z acc (fun x hx => hd x hx y (List.mem_cons_self _ _))
    rw [ih _ hp.2 ?_, hins]
    · simp only [List.mem_cons]
      constructor
      · rintro ((h | h) | h)
        · right; left; exact h
        · left; exact h
        · right; right; exact h
      · rintro (h | h | h)
        · left; right; exact h
        · left; left; exact h
        · right; exact h
    · intro x hx z hz
      rcases (hins x).mp hx with h | h
      · rw [h]
        exact hp.1 z hz
      · exact hd x h z (List.mem_cons_of_mem _ hz)

/-- The row of the light-edge maps at the position of node `v`: the light
edges of `v`, renumbered. -/
theorem light_map_mem (data : Adjacency) (heavy_of : Int → Option (Byte × Int))
    (light : List (List (Byte × Int))) (ps : PathState)
    (hsorted : ∀ v, v < data.length → (data.getD v []).Pairwise (fun a b => a.1 < b.1))
    (ls : LightSpec data heavy_of light) (d : PathsDone data.length heavy_of data.length ps)
    (v : Nat) (hv : v < data.length) (x : Byte × Int) :
    x ∈ (construct_maps (pd_light_edges_inv data.length light
        (heavy_path_inv data.length ps.heavy_path))).getD
          (pd_pos (heavy_path_inv data.length ps.heavy_path) v) [] ↔
      ∃ e ∈ light.getD v [],
        x = (e.1, (heavy_path_inv data.length ps.heavy_path).getD e.2.toNat 0) := by
  obtain ⟨_, p1, _, _⟩ := paths_pos_spec data.length heavy_of ps d
  obtain ⟨r1, r2⟩ := light_rows_spec data.length light (heavy_path_inv data.length ps.heavy_path)
    (fun v hv => (p1 v hv).2.2) (pd_pos_inj data.length heavy_of ps d)
  obtain ⟨f1, _, _, _⟩ := light_row_facts data heavy_of light ls v hv (hsorted v hv)
  rw [construct_maps_rows, getD_map_lt _ _ _ [] [] (by rw [r1]; exact (p1 v hv).2.2), r2 v hv,
    mem_fold_insert x _ [] (by rw [List.pairwise_map]; exact f1) (by simp)]
  simp only [List.not_mem_nil, false_or, List.mem_map]
  constructor
  · rintro ⟨e, he, rfl⟩
    exact ⟨e, he, rfl⟩
  · rintro ⟨e, he, rfl⟩
    exact ⟨e, he, rfl⟩

/-- **C14.** Heavy-path layout of the trie: for every `D`, `PathDecomposedTrie`
is built, and its `n` nodes are renumbered by an injective `new_id` into
`0 .. n - 1` with `new_id(root) = 0` such that `heavy_str` has length `n`; a
leaf `u` has `heavy_str[new_id(u)] = NULL_CHAR`, its bit in `is_leaf` set and
no light edge; and a node `u` with edges has its bit clear and exactly one
edge `h` to a child at `new_id(u) + 1`, the label of `h` is
`heavy_str[new_id(u)]`, and the light edges at `new_id(u)` are the other edges
`(c, v)` of `u` as `(c, new_id(v))`. -/
theorem PathDecomposedTrie_layout (D : List (List Byte)) :
    ∃ (pd : PathDecomposedTrie) (new_id : Nat → Nat),
      PathDecomposedTrie.construct (BaseTrie.construct D) = some pd ∧
      (∀ u, u < (BaseTrie.construct D).maps.length →
        new_id u < (BaseTrie.construct D).maps.length) ∧
      (∀ u v, u < (BaseTrie.construct D).maps.length → v < (BaseTrie.construct D).maps.length →
        new_id u = new_id v → u = v) ∧
      new_id 0 = 0 ∧
      pd.heavy_str.length = (BaseTrie.construct D).maps.length ∧
      (∀ u, u < (BaseTrie.construct D).maps.length →
        (BaseTrie.construct D).maps.getD u [] = [] →
        pd.heavy_str[new_id u]? = some NULL_CHAR ∧ pd.is_leaf.getD (new_id u) false = true ∧
        pd.maps.getD (new_id u) [] = []) ∧
      (∀ u, u < (BaseTrie.construct D).maps.length →
        (BaseTrie.construct D).maps.getD u [] ≠ [] →
        pd.is_leaf.getD (new_id u) false = false ∧
        ∃ h ∈ (BaseTrie.construct D).maps.getD u [],
          pd.heavy_str[new_id u]? = some h.1 ∧ new_id h.2.toNat = new_id u + 1 ∧
          (∀ e ∈ (BaseTrie.construct D).maps.getD u [],
            new_id e.2.toNat = new_id u + 1 → e = h) ∧
          (∀ x, x ∈ pd.maps.getD (new_id u) [] ↔
            ∃ e ∈ (BaseTrie.construct D).maps.getD u [],
              e ≠ h ∧ x = (e.1, (new_id e.2.toNat : Int)))) := by
  obtain ⟨inv, _⟩ := construct_spec D
  have hcount := inv.count_pos
  have hlen := inv.len
  have hspec := pd_heavy_spec (BaseTrie.construct D).maps
  have hok := trie_heavyOk _ inv _ hspec
  obtain ⟨ps, hps, hdone⟩ := pd_paths_spec _ _ hok
  have hsorted : ∀ v, v < (BaseTrie.construct D).maps.length →
      ((BaseTrie.construct D).maps.getD v []).Pairwise (fun a b => a.1 < b.1) :=
    fun v hv => inv.sorted v (by omega)
  have hls := trie_lightSpec _ _ hspec
  obtain ⟨_, p1, _, p0⟩ := paths_pos_spec _ _ ps hdone
  have hinj := pd_pos_inj _ _ ps hdone
  have hmemrow := light_map_mem _ _ _ ps hsorted hls hdone
  refine ⟨{ is_leaf := pd_is_leaf (BaseTrie.construct D).maps
               (heavy_path_inv (BaseTrie.construct D).maps.length ps.heavy_path),
             heavy_str := ps.heavy_str,
             maps := construct_maps (pd_light_edges_inv (BaseTrie.construct D).maps.length
               (pd_heavy (BaseTrie.construct D).maps).light_edges
               (heavy_path_inv (BaseTrie.construct D).maps.length ps.heavy_path)) },
    pd_pos (heavy_path_inv (BaseTrie.construct D).maps.length ps.heavy_path), ?_,
    fun u hu => (p1 u hu).2.2, hinj, p0 (by omega),
    (paths_layout _ _ ps hdone 0 (by omega)).1, ?_, ?_⟩
  · unfold PathDecomposedTrie.construct BaseTrie.to_vector
    simp only [to_vector_eq, hps]
  · intro u hu hnil
    obtain ⟨_, l1, _⟩ := paths_layout _ _ ps hdone u hu
    rcases trie_heavy_cases _ _ hspec u hu with ⟨h1, _, h3⟩ | ⟨e, _, h2⟩
    · refine ⟨l1 h1, ?_, ?_⟩
      · simp only []
        rw [pd_is_leaf_spec _ _ (fun v hv => (p1 v hv).2.2) hinj u hu, hnil]
        rfl
      · simp only []
        apply List.eq_nil_iff_forall_not_mem.mpr
        intro x hx
        obtain ⟨e, he, _⟩ := (hmemrow u hu x).mp hx
        rw [h3] at he
        simp at he
    · rw [hnil] at h2
      have := h2.length_eq
      simp at this
  · intro u hu hne
    obtain ⟨_, _, l2⟩ := paths_layout _ _ ps hdone u hu
    rcases trie_heavy_cases _ _ hspec u hu with ⟨_, h2, _⟩ | ⟨h, hh, hperm⟩
    · exact absurd h2 hne
    · obtain ⟨g1, g2⟩ := l2 h hh
      have hhmem : h ∈ (BaseTrie.construct D).maps.getD u [] := hperm.mem_iff.mp (by simp)
      have hnd : ((BaseTrie.construct D).maps.getD u []).Nodup := by
        have := hsorted u hu
        exact List.Pairwise.imp (fun hab heq => by rw [heq] at hab; exact lt_irrefl _ hab) this
      have hnd2 : ((pd_heavy (BaseTrie.construct D).maps).light_edges.getD u [] ++ [h]).Nodup :=
        hperm.nodup_iff.mpr hnd
      refine ⟨?_, h, hhmem, g1, g2, ?_, ?_⟩
      · simp only []
        rw [pd_is_leaf_spec _ _ (fun v hv => (p1 v hv).2.2) hinj u hu]
        cases hrow : (BaseTrie.construct D).maps.getD u [] with
        | nil => exact absurd hrow hne
        | cons _ _ => rfl
      · intro e he hpos
        have r1 := inv.edge_up u (by omega) e he
        have r2 := inv.edge_up u (by omega) h hhmem
        have heq : e.2.toNat = h.2.toNat := hinj _ _ (by omega) (by omega) (by rw [hpos, g2])
        exact (inv.parent_unique u u e h (by omega) (by omega) he hhmem (by omega)).2
      · intro x
        simp only []
        rw [hmemrow u hu x]
        constructor
        · rintro ⟨e, he, rfl⟩
          have hemem : e ∈ (BaseTrie.construct D).maps.getD u [] :=
            hperm.mem_iff.mp (List.mem_append_left _ he)
          have r1 := inv.edge_up u (by omega) e hemem
          refine ⟨e, hemem, ?_, ?_⟩
          · intro hcon
            rw [hcon] at he
            rw [List.nodup_append] at hnd2
            exact hnd2.2.2 he (by simp)
          · rw [(p1 e.2.toNat (by omega)).2.1]
        · rintro ⟨e, he, hne2, rfl⟩
          have r1 := inv.edge_up u (by omega) e he
          have := hperm.mem_iff.mpr he
          rcases List.mem_append.mp this with h1 | h1
          · exact ⟨e, h1, by rw [(p1 e.2.toNat (by omega)).2.1]⟩
          · simp only [List.mem_singleton] at h1
            exact absurd h1 hne2

/-! ## The heavy-path layout of the automaton -/

/-- A flagged edge of a node is the heavy edge the path extraction finds. -/
theorem adfa_heavy_of_flagged (dwf : List (List (Byte × Int × Bool))) (ok : FlagsOk dwf)
    (u j : Nat) (hf : flagged dwf u j = true) :
    adfa_heavy_of dwf (u : Int) = some (flag_edge (flag_at dwf u j)) := by
  cases h : adfa_heavy_of dwf (u : Int) with
  | none =>
    exfalso
    unfold adfa_heavy_of at h
    simp only [Int.toNat_ofNat, Option.map_eq_none'] at h
    have hall := List.find?_eq_none.mp h
    obtain ⟨_, hj⟩ := flag_at_oob dwf u j hf
    have hmem : flag_at dwf u j ∈ dwf.getD u [] := by
      unfold flag_at
      rw [List.getD_eq_getElem _ _ hj]
      exact List.getElem_mem _
    exact hall _ hmem hf
  | some e =>
    obtain ⟨t, l1, l2, h1, _, h3, h4, _⟩ := adfa_heavy_some dwf ok u e h
    have := ok.row_one u j l1.length hf h3
    rw [this, h4, h1]

/-- **C15.** Heavy-path layout of the automaton: for every `D`, after both
passes of `PathDecomposedADFA` over `BaseADFA(BaseTrie(D))` the flagged entries
are edges of the automaton, every state has at most one flagged outgoing edge
and at most one flagged incoming edge; the path extraction ends with both
assertions passed and `heavy_path` holding every state exactly once; the
constructor returns; and with `new_id` the position in `heavy_path`, every
flagged edge `(u, v)` has `new_id(v) = new_id(u) + 1`, `root = new_id(0) = 0`
and `sink = new_id(n - 1)`. -/
theorem PathDecomposedADFA_layout (D : List (List Byte)) :
    FlagShape (BaseADFA.construct (BaseTrie.construct D)).maps
      (adfa_flags (BaseADFA.construct (BaseTrie.construct D)).maps) ∧
    (∀ i j1 j2,
      flagged (adfa_flags (BaseADFA.construct (BaseTrie.construct D)).maps) i j1 = true →
      flagged (adfa_flags (BaseADFA.construct (BaseTrie.construct D)).maps) i j2 = true →
      j1 = j2) ∧
    (∀ i1 j1 i2 j2,
      flagged (adfa_flags (BaseADFA.construct (BaseTrie.construct D)).maps) i1 j1 = true →
      flagged (adfa_flags (BaseADFA.construct (BaseTrie.construct D)).maps) i2 j2 = true →
      flag_target (adfa_flags (BaseADFA.construct (BaseTrie.construct D)).maps) i1 j1
        = flag_target (adfa_flags (BaseADFA.construct (BaseTrie.construct D)).maps) i2 j2 →
      i1 = i2 ∧ j1 = j2) ∧
    ∃ (pd : PathDecomposedADFA) (ps : PathState) (new_id : Nat → Nat),
      adfa_paths (BaseADFA.construct (BaseTrie.construct D)).maps.length
        (adfa_heavy_of (adfa_flags (BaseADFA.construct (BaseTrie.construct D)).maps)) = some ps ∧
      ps.heavy_path.Nodup ∧
      ps.heavy_path.length = (BaseADFA.construct (BaseTrie.construct D)).maps.length ∧
      (∀ v, v < (BaseADFA.construct (BaseTrie.construct D)).maps.length →
        ps.heavy_path[new_id v]? = some (v : Int)) ∧
      PathDecomposedADFA.construct (BaseADFA.construct (BaseTrie.construct D)) = some pd ∧
      (∀ u, u < (BaseADFA.construct (BaseTrie.construct D)).maps.length →
        new_id u < (BaseADFA.construct (BaseTrie.construct D)).maps.length) ∧
      (∀ u v, u < (BaseADFA.construct (BaseTrie.construct D)).maps.length →
        v < (BaseADFA.construct (BaseTrie.construct D)).maps.length →
        new_id u = new_id v → u = v) ∧
      (∀ u j, flagged (adfa_flags (BaseADFA.construct (BaseTrie.construct D)).maps) u j = true →
        new_id (flag_target (adfa_flags (BaseADFA.construct (BaseTrie.construct D)).maps)
          u j).toNat = new_id u + 1) ∧
      pd.root = (new_id 0 : Int) ∧ new_id 0 = 0 ∧
      pd.sink = (new_id ((BaseADFA.construct (BaseTrie.construct D)).maps.length - 1) : Int) := by
  have dag := adfa_dagOk _ (construct_spec D).1
  have hpos := dag.size_pos
  obtain ⟨hshape, hflags⟩ := adfa_flags_spec _ dag
  have hok := adfa_heavyOk _ dag _ hshape hflags
  obtain ⟨ps, hps, hdone⟩ := adfa_paths_spec _ _ hok
  obtain ⟨_, p1, _, p0⟩ := paths_pos_spec _ _ ps hdone
  have hlen := paths_length _ _ ps hdone
  refine ⟨hshape, hflags.row_one, ?_, ?_⟩
  · intro i1 j1 i2 j2 h1 h2 heq
    have := hflags.target_one i1 j1 i2 j2 h1 h2 heq
    subst this
    exact ⟨rfl, hflags.row_one i1 j1 j2 h1 h2⟩
  · refine ⟨{ root := (heavy_path_inv (BaseADFA.construct (BaseTrie.construct D)).maps.length
                ps.heavy_path).getD 0 0,
              sink := (heavy_path_inv (BaseADFA.construct (BaseTrie.construct D)).maps.length
                ps.heavy_path).getD
                  ((BaseADFA.construct (BaseTrie.construct D)).maps.length - 1) 0,
              heavy_str := ps.heavy_str,
              maps := construct_maps (adfa_light_edges
                (BaseADFA.construct (BaseTrie.construct D)).maps.length
                (adfa_flags (BaseADFA.construct (BaseTrie.construct D)).maps)
                (heavy_path_inv (BaseADFA.construct (BaseTrie.construct D)).maps.length
                  ps.heavy_path)) },
      ps,
      pd_pos (heavy_path_inv (BaseADFA.construct (BaseTrie.construct D)).maps.length
        ps.heavy_path),
      hps, by simpa using hdone.inv.nodup, hlen, fun v hv => (p1 v hv).1, ?_,
      fun u hu => (p1 u hu).2.2, pd_pos_inj _ _ ps hdone, ?_, (p1 0 (by omega)).2.1,
      p0 (by omega), (p1 _ (by omega)).2.1⟩
    · unfold PathDecomposedADFA.construct BaseADFA.to_vector
      simp only [to_vector_eq, hps]
      rw [if_neg (by rw [hlen]; simp)]
    · intro u j hf
      have hu := (flagged_edge _ _ hshape u j hf).1
      have hheavy := adfa_heavy_of_flagged _ hflags u j hf
      exact ((paths_layout _ _ ps hdone u hu).2.2 _ hheavy).2

/-! ## When the root of the tail-compacted trie is kept -/

theorem trie_search_step (t : BaseTrie) (inv : TrieInv t) (v : Nat) (hv : v < t.node_count)
    (e : Byte × Int) (he : e ∈ t.maps.getD v []) (s : List Byte) :
    BaseTrie.search_from t.maps (v : Int) (e.1 :: s) = BaseTrie.search_from t.maps e.2 s := by
  have hs := trie_mem_search t inv v e he
  have hup := inv.edge_up v hv e he
  simp only [BaseTrie.search_from]
  rw [hs, if_neg (by unfold NOT_FOUND; omega)]

/-- From every node of the trie some string is accepted. -/
theorem trie_reach_leaf (t : BaseTrie) (inv : TrieInv t) : ∀ (k v : Nat), v < t.node_count →
    t.node_count - v ≤ k → ∃ s, BaseTrie.search_from t.maps (v : Int) s = true := by
  intro k
  induction k with
  | zero => intro v hv hk; omega
  | succ k ih =>
    intro v hv hk
    cases hrow : t.maps.getD v [] with
    | nil =>
      refine ⟨[], ?_⟩
      simp only [BaseTrie.search_from, MapVector.outdegree, STLMap.outdegree, MapVector.at_nat,
        hrow]
      simp
    | cons e rest =>
      have he : e ∈ t.maps.getD v [] := by rw [hrow]; simp
      have hup := inv.edge_up v hv e he
      obtain ⟨s, hs⟩ := ih e.2.toNat (by omega) (by omega)
      have hx : e.2 = ((e.2.toNat : Nat) : Int) := by omega
      refine ⟨e.1 :: s, ?_⟩
      rw [trie_search_step t inv v hv e he, hx]
      exact hs

theorem child_paths_ones (paths : List Int) : ∀ (edges : List (Byte × Int)),
    (∀ e ∈ edges, paths.getD e.2.toNat 0 = 1) → child_paths paths edges = (edges.length : Int) := by
  intro edges
  induction edges with
  | nil => intro _; rfl
  | cons e rest ih =>
    intro h
    have h1 := h e (List.mem_cons_self _ _)
    have h2 := ih (fun x hx => h x (List.mem_cons_of_mem _ hx))
    unfold child_paths at h2 ⊢
    simp only [List.map_cons, List.sum_cons, List.length_cons, h1, h2]
    push_cast
    omega

/-- From a node with more than one leaf below it two different strings are
accepted. -/
theorem trie_two_leaves (t : BaseTrie) (inv : TrieInv t) (paths : List Int)
    (spec : PathsSpec t.maps paths) : ∀ (k v : Nat), v < t.node_count →
    t.node_count - v ≤ k → 2 ≤ paths.getD v 0 →
    ∃ s1 s2, s1 ≠ s2 ∧ BaseTrie.search_from t.maps (v : Int) s1 = true ∧
      BaseTrie.search_from t.maps (v : Int) s2 = true := by
  intro k
  induction k with
  | zero => intro v hv hk; omega
  | succ k ih =>
    intro v hv hk h2
    have hvn : v < t.maps.length := by rw [inv.len]; exact hv
    have hne : t.maps.getD v [] ≠ [] := by
      intro hnil
      have := spec.leaf v hvn hnil
      omega
    have hin := spec.inner v hvn hne
    by_cases hbig : ∃ e ∈ t.maps.getD v [], 2 ≤ paths.getD e.2.toNat 0
    · obtain ⟨e, he, hp⟩ := hbig
      have hup := inv.edge_up v hv e he
      have hx : e.2 = ((e.2.toNat : Nat) : Int) := by omega
      obtain ⟨s1, s2, hd, a1, a2⟩ := ih e.2.toNat (by omega) (by omega) hp
      refine ⟨e.1 :: s1, e.1 :: s2, by simpa using hd, ?_, ?_⟩
      · rw [trie_search_step t inv v hv e he, hx]; exact a1
      · rw [trie_search_step t inv v hv e he, hx]; exact a2
    · have hall : ∀ e ∈ t.maps.getD v [], paths.getD e.2.toNat 0 = 1 := by
        intro e he
        have hup := inv.edge_up v hv e he
        have hpos := spec.pos e.2.toNat (by rw [inv.len]; omega)
        have : ¬ 2 ≤ paths.getD e.2.toNat 0 := fun hcon => hbig ⟨e, he, hcon⟩
        omega
      rw [child_paths_ones paths _ hall] at hin
      have hsorted := inv.sorted v hv
      cases hrow : t.maps.getD v [] with
      | nil => exact absurd hrow hne
      | cons e1 rest =>
        cases rest with
        | nil =>
          rw [hrow] at hin
          simp only [List.length_singleton, Nat.cast_one] at hin
          omega
        | cons e2 rest2 =>
          have he1 : e1 ∈ t.maps.getD v [] := by rw [hrow]; simp
          have he2 : e2 ∈ t.maps.getD v [] := by rw [hrow]; simp
          have hu1 := inv.edge_up v hv e1 he1
          have hu2 := inv.edge_up v hv e2 he2
          obtain ⟨s1, a1⟩ := trie_reach_leaf t inv t.node_count e1.2.toNat (by omega) (by omega)
          obtain ⟨s2, a2⟩ := trie_reach_leaf t inv t.node_count e2.2.toNat (by omega) (by omega)
          have hx1 : e1.2 = ((e1.2.toNat : Nat) : Int) := by omega
          have hx2 : e2.2 = ((e2.2.toNat : Nat) : Int) := by omega
          have hlt : e1.1 < e2.1 := by
            rw [hrow, List.pairwise_cons] at hsorted
            exact hsorted.1 e2 (by simp)
          refine ⟨e1.1 :: s1, e2.1 :: s2, ?_, ?_, ?_⟩
          · intro hcon
            have := (List.cons.inj hcon).1
            rw [this] at hlt
            exact lt_irrefl _ hlt
          · rw [trie_search_step t inv v hv e1 he1, hx1]; exact a1
          · rw [trie_search_step t inv v hv e2 he2, hx2]; exact a2

/-- The assertion of the constructor of `TailTrie` passes exactly on the
dictionaries with two different strings. -/
theorem tail_root_assert_iff (D : List (List Byte)) (hwf : ∀ d ∈ D, WellFormed d) :
    tail_root_assert (BaseTrie.construct D).maps = true ↔ ∃ d1 ∈ D, ∃ d2 ∈ D, d1 ≠ d2 := by
  obtain ⟨inv, _⟩ := construct_spec D
  have ht : TopoOk (BaseTrie.construct D).maps := by
    have := trie_topoOk _ inv
    unfold BaseTrie.to_vector at this
    rw [to_vector_eq] at this
    exact this
  have pspec := paths_spec _ ht
  have hpos : 0 < (BaseTrie.construct D).maps.length := by rw [inv.len]; exact inv.count_pos
  unfold tail_root_assert
  simp only [gt_iff_lt, decide_eq_true_eq]
  constructor
  · intro h
    by_cases hD : D = []
    · exfalso
      subst hD
      have := pspec.leaf 0 hpos (by decide)
      omega
    · obtain ⟨s1, s2, hd, a1, a2⟩ := trie_two_leaves _ inv _ pspec
        (BaseTrie.construct D).node_count 0 inv.count_pos (by omega) (by omega)
      exact ⟨s1, (trie_search_mem_iff D hD hwf s1).mp a1, s2,
        (trie_search_mem_iff D hD hwf s2).mp a2, hd⟩
  · intro h2
    have := root_kept D hwf h2
    have := pspec.pos 0 hpos
    omega

/-- **C17.** TailTrie build failure: for every list `D` of well-formed strings,
the assertion `number_of_paths_leaf[0] > 1` of the constructor fails if and
only if `D` holds fewer than two different strings, and the constructor fails
exactly then; with two or more different strings the second loop ends, the
root is kept, and `mapping[0] = 0`. -/
theorem TailTrie_root_assert (D : List (List Byte)) (hwf : ∀ d ∈ D, WellFormed d) :
    (tail_root_assert (BaseTrie.construct D).to_vector = false ↔
      ¬ ∃ d1 ∈ D, ∃ d2 ∈ D, d1 ≠ d2) ∧
    (TailTrie.construct (BaseTrie.construct D) = none ↔ ¬ ∃ d1 ∈ D, ∃ d2 ∈ D, d1 ≠ d2) ∧
    ((∃ d1 ∈ D, ∃ d2 ∈ D, d1 ≠ d2) →
      ∃ st, tail_state (BaseTrie.construct D).to_vector = some st ∧
        (number_of_paths_leaf (BaseTrie.construct D).to_vector).getD 0 0 > 1 ∧
        st.mapping.getD 0 NOT_FOUND = 0) := by
  obtain ⟨inv, _⟩ := construct_spec D
  obtain ⟨st, tinv, hstate, hcon⟩ := tail_construct_spec _ inv
  have hiff := tail_root_assert_iff D hwf
  have hpos : 0 < (BaseTrie.construct D).maps.length := by rw [inv.len]; exact inv.count_pos
  unfold BaseTrie.to_vector
  rw [to_vector_eq]
  refine ⟨?_, ?_, ?_⟩
  · rw [← hiff]
    simp
  · rw [hcon, ← hiff]
    cases tail_root_assert (BaseTrie.construct D).maps with
    | true => simp
    | false => simp
  · intro h2
    have ha := hiff.mpr h2
    refine ⟨st, hstate, ?_, ?_⟩
    · unfold tail_root_assert at ha
      simpa using ha
    · exact tinv.root hpos (root_kept D hwf h2)

/-- C17 at concrete inputs: the assertion fails on the dictionary `{x}`. -/
theorem TailTrie_root_assert_witness :
    (∀ d ∈ ([[120, 1]] : List (List Byte)), WellFormed d) ∧
    tail_root_assert (BaseTrie.construct [[120, 1]]).to_vector = false ∧
    TailTrie.construct (BaseTrie.construct [[120, 1]]) = none :=
  ⟨by decide,
    (TailTrie_root_assert [[120, 1]] (by decide)).1.mpr (by decide),
    (TailTrie_root_assert [[120, 1]] (by decide)).2.1.mpr (by decide)⟩

/-! ## The tail-compacted trie and the trie on arbitrary queries -/

/-- Counterexample to C18 as stated: over the dictionary `{hello, help, helm}`
the tail-compacted trie accepts the query `help` without `EOW` and the empty
query, and the trie rejects both. -/
theorem TailTrie_accepts_unterminated :
    ∃ tt, TailTrie.construct (BaseTrie.construct [[104, 101, 108, 108, 111, 1],
        [104, 101, 108, 112, 1], [104, 101, 108, 109, 1]]) = some tt ∧
      tt.search (fun _ => 0) (fun _ => 0) [104, 101, 108, 112] = true ∧
      (BaseTrie.construct [[104, 101, 108, 108, 111, 1], [104, 101, 108, 112, 1],
        [104, 101, 108, 109, 1]]).search [104, 101, 108, 112] = false ∧
      tt.search (fun _ => 0) (fun _ => 0) [] = true ∧
      (BaseTrie.construct [[104, 101, 108, 108, 111, 1], [104, 101, 108, 112, 1],
        [104, 101, 108, 109, 1]]).search [] = false := by
  refine ⟨{ tail_str := [108, 111, 1, 109, 1, 112, 1],
            maps := [[(104, 1)], [(101, 2)], [(108, 3)],
              [(108, -2147483648), (109, -2147483645), (112, -2147483643)]] },
    by decide, by decide, by decide, by decide, by decide⟩

/-- **C18**, amended. TailTrie agrees with BaseTrie on well-formed input: for
every `D` of at least two different well-formed strings whose tail pool is
shorter than `2^31` bytes and every query `s` that ends with `EOW` and holds
`EOW` nowhere else, the constructor of `TailTrie` ends and
`TailTrie.search(s) = BaseTrie.search(s)`, whatever the memory holds behind
the tail pool and behind the query. -/
theorem TailTrie_search_eq_BaseTrie (D : List (List Byte)) (hwf : ∀ d ∈ D, WellFormed d)
    (h2 : ∃ d1 ∈ D, ∃ d2 ∈ D, d1 ≠ d2) (hsz : tail_pool_length D < 2 ^ 31)
    (s : List Byte) (hs : WellFormed s) (jt jl : Nat → Byte) :
    ∃ tt, TailTrie.construct (BaseTrie.construct D) = some tt ∧
      tt.search jt jl s = (BaseTrie.construct D).search s :=
  tail_search_eq_trie D hwf h2 hsz s hs jt jl

/-- C18 (amended) at a concrete input: the dictionary `{hello, help, helm}` and
the well-formed query `held`, which is rejected. -/
theorem TailTrie_search_eq_BaseTrie_witness :
    ∃ tt, TailTrie.construct (BaseTrie.construct [[104, 101, 108, 108, 111, 1],
        [104, 101, 108, 112, 1], [104, 101, 108, 109, 1]]) = some tt ∧
      tt.search (fun _ => 0) (fun _ => 0) [104, 101, 108, 100, 1]
        = (BaseTrie.construct [[104, 101, 108, 108, 111, 1], [104, 101, 108, 112, 1],
            [104, 101, 108, 109, 1]]).search [104, 101, 108, 100, 1] :=
  TailTrie_search_eq_BaseTrie [[104, 101, 108, 108, 111, 1], [104, 101, 108, 112, 1],
    [104, 101, 108, 109, 1]] (by decide) (by decide) (by decide) [104, 101, 108, 100, 1]
    (by decide) (fun _ => 0) (fun _ => 0)

/-! ## The strings read back from the tail-compacted trie -/

theorem kept_before_succ (paths : List Int) (i : Nat) :
    kept_before paths (i + 1)
      = kept_before paths i + (if paths.getD i 0 ≠ 1 then 1 else 0) := by
  unfold kept_before
  rw [List.range_succ, List.filter_append, List.length_append]
  by_cases h : paths.getD i 0 ≠ 1
  · rw [if_pos h]
    have : List.filter (fun u => decide (paths.getD u 0 ≠ 1)) [i] = [i] := by
      simp only [List.filter_cons, List.filter_nil]
      rw [if_pos (by simpa using h)]
    rw [this]
    rfl
  · rw [if_neg h]
    have : List.filter (fun u => decide (paths.getD u 0 ≠ 1)) [i] = [] := by
      simp only [List.filter_cons, List.filter_nil]
      rw [if_neg (by simpa using h)]
    rw [this]
    rfl

theorem kept_before_mono (paths : List Int) (v : Nat) : ∀ w, v ≤ w →
    kept_before paths v ≤ kept_before paths w := by
  intro w
  induction w with
  | zero => intro h; have : v = 0 := by omega
            subst this; exact le_refl _
  | succ w ih =>
    intro h
    by_cases hv : v = w + 1
    · subst hv; exact le_refl _
    · have := ih (by omega)
      rw [kept_before_succ]
      omega

theorem kept_before_lt (paths : List Int) (v w : Nat) (h : v < w) (hk : paths.getD v 0 ≠ 1) :
    kept_before paths v < kept_before paths w := by
  have h1 := kept_before_mono paths (v + 1) w (by omega)
  rw [kept_before_succ, if_pos hk] at h1
  omega

/-- The new id of a kept node is the number of kept nodes before it. -/
theorem tail_loop_ids (data : Adjacency) (paths : List Int) :
    ∀ (cnt i : Nat) (st st2 : TailState),
    tail_loop data paths (List.range' i cnt) st = some st2 →
    i + cnt ≤ st.mapping.length →
    st.new_edges.length = kept_before paths i →
    (∀ v, v < i → paths.getD v 0 ≠ 1 →
      st.mapping.getD v NOT_FOUND = (kept_before paths v : Int)) →
    st2.new_edges.length = kept_before paths (i + cnt) ∧
    (∀ v, v < i + cnt → paths.getD v 0 ≠ 1 →
      st2.mapping.getD v NOT_FOUND = (kept_before paths v : Int)) := by
  intro cnt
  induction cnt with
  | zero =>
    intro i st st2 h _ h1 h2
    simp only [List.range', tail_loop, Option.some.injEq] at h
    subst h
    exact ⟨h1, h2⟩
  | succ cnt ih =>
    intro i st st2 h hlen h1 h2
    simp only [List.range', tail_loop] at h
    cases hstep : tail_step data paths st i with
    | none => rw [hstep] at h; cases h
    | some st1 =>
      rw [hstep] at h
      simp only [] at h
      have e : i + (cnt + 1) = i + 1 + cnt := by omega
      rw [e]
      unfold tail_step at hstep
      by_cases hp : paths.getD i 0 = 1
      · rw [if_pos hp] at hstep
        simp only [Option.some.injEq] at hstep
        subst hstep
        apply ih (i + 1) st st2 h (by omega)
        · rw [kept_before_succ, if_neg (by simpa using hp)]
          exact h1
        · intro v hv hk
          by_cases hvi : v = i
          · subst hvi; exact absurd hp hk
          · exact h2 v (by omega) hk
      · rw [if_neg hp] at hstep
        cases hedges : tail_edges data paths (data.getD i []) ([], st.tail_str) with
        | none => rw [hedges] at hstep; cases hstep
        | some res =>
          obtain ⟨row, tail⟩ := res
          rw [hedges] at hstep
          simp only [Option.some.injEq] at hstep
          subst hstep
          apply ih (i + 1) _ st2 h (by simp only [List.length_set]; omega)
          · simp only [List.length_append, List.length_singleton]
            rw [kept_before_succ, if_pos hp, h1]
          · intro v hv hk
            simp only []
            rw [getD_set_eq _ _ _ _ _ (by omega)]
            by_cases hvi : v = i
            · rw [if_pos hvi, h1, hvi]
            · rw [if_neg hvi]
              exact h2 v (by omega) hk

theorem spec_tail_read_wf : ∀ (L : List Byte), WellFormed L → ∀ rest,
    spec_tail_read (L ++ rest) = L := by
  intro L
  induction L with
  | nil => intro h; exact absurd rfl (wellFormed_ne_nil [] h)
  | cons c L ih =>
    intro h rest
    cases L with
    | nil =>
      have : c = EOW := by
        have := h.1
        simpa using this
      simp [spec_tail_read, this]
    | cons d L2 =>
      have hc : c ≠ EOW := by
        intro hcon
        apply h.2
        rw [hcon]
        simp [List.dropLast]
      have hw : WellFormed (d :: L2) := wellFormed_suffix [c] (d :: L2) (by simp) h
      have hstep : spec_tail_read (c :: d :: L2 ++ rest)
          = c :: spec_tail_read (d :: L2 ++ rest) := by
        show spec_tail_read (c :: (d :: L2 ++ rest)) = _
        rw [spec_tail_read, if_neg hc]
      rw [hstep, ih hw rest]

theorem drop_eq_of_get (tail L : List Byte) (off : Nat)
    (h : ∀ j, j < L.length → tail[off + j]? = L[j]?) :
    ∃ rest, tail.drop off = L ++ rest := by
  refine ⟨(tail.drop off).drop L.length, ?_⟩
  have htake : (tail.drop off).take L.length = L := by
    apply List.ext_getElem?
    intro j
    by_cases hj : j < L.length
    · rw [List.getElem?_take_of_lt hj, List.getElem?_drop]
      exact h j hj
    · rw [List.getElem?_eq_none (by simp; omega), List.getElem?_eq_none (by omega)]
  conv_lhs => rw [← List.take_append_drop L.length (tail.drop off)]
  rw [htake]

theorem forall₂_exists_left {α β : Type} {R : α → β → Prop} :
    ∀ {l1 : List α} {l2 : List β}, List.Forall₂ R l1 l2 → ∀ r ∈ l2, ∃ e ∈ l1, R e r := by
  intro l1 l2 h
  induction h with
  | nil => intro r hr; simp at hr
  | cons hr _ ih =>
    intro r hmem
    rcases List.mem_cons.mp hmem with rfl | hmem
    · exact ⟨_, List.mem_cons_self _ _, hr⟩
    · obtain ⟨e, he1, he2⟩ := ih r hmem
      exact ⟨e, List.mem_cons_of_mem _ he1, he2⟩

theorem mem_flatten_map {α β : Type} (f : α → List β) (l : List α) (s : β) :
    s ∈ (l.map f).flatten ↔ ∃ x ∈ l, s ∈ f x := by
  rw [List.mem_flatten]
  constructor
  · rintro ⟨ys, hys, hs⟩
    obtain ⟨x, hx, rfl⟩ := List.mem_map.mp hys
    exact ⟨x, hx, hs⟩
  · rintro ⟨x, hx, hs⟩
    exact ⟨f x, List.mem_map_of_mem _ hx, hs⟩

/-- How an entry `x` of the maps of `TailTrie` stands for the trie edge `e`:
the same label; the new id of the target when it is kept; otherwise the
flagged offset at which the pool holds the label and the chain below. -/
theorem tail_row_entries (data : Adjacency) (paths : List Int) (st : TailState)
    (inv : TailInv data paths data.length st) (v : Nat) (hv : v < data.length)
    (hk : paths.getD v 0 ≠ 1) :
    ∃ m : Nat, st.mapping.getD v NOT_FOUND = (m : Int) ∧ m < st.new_edges.length ∧
      (∀ x ∈ (tail_new_data st.mapping st.new_edges).getD m [], ∃ e ∈ data.getD v [],
        x.1 = e.1 ∧
        (paths.getD e.2.toNat 0 > 1 → x.2 = st.mapping.getD e.2.toNat NOT_FOUND) ∧
        (¬ paths.getD e.2.toNat 0 > 1 → ∃ (off : Nat) (chain : List Byte),
          x.2 = set_tail_flag (off : Int) ∧ tail_chain data data.length e.2 = some chain ∧
          ∀ j, j < chain.length + 1 → st.tail_str[off + j]? = (e.1 :: chain)[j]?)) ∧
      (∀ e ∈ data.getD v [], ∃ x ∈ (tail_new_data st.mapping st.new_edges).getD m [],
        x.1 = e.1 ∧
        (paths.getD e.2.toNat 0 > 1 → x.2 = st.mapping.getD e.2.toNat NOT_FOUND) ∧
        (¬ paths.getD e.2.toNat 0 > 1 → ∃ (off : Nat) (chain : List Byte),
          x.2 = set_tail_flag (off : Int) ∧ tail_chain data data.length e.2 = some chain ∧
          ∀ j, j < chain.length + 1 → st.tail_str[off + j]? = (e.1 :: chain)[j]?)) := by
  obtain ⟨m, hm1, hm2, hm3⟩ := inv.rows v hv hk
  have hrow : (tail_new_data st.mapping st.new_edges).getD m []
      = (st.new_edges.getD m []).map (fun e =>
          (e.1, if e.2.1 then set_tail_flag e.2.2
                else st.mapping.getD e.2.2.toNat NOT_FOUND)) := by
    unfold tail_new_data
    rw [getD_map_lt _ _ m [] [] hm2]
  have hrel : ∀ (e : Byte × Int) (r : Byte × (Bool × Int)), TailRel data paths st.tail_str e r →
      (r.1, if r.2.1 then set_tail_flag r.2.2
            else st.mapping.getD r.2.2.toNat NOT_FOUND).1 = e.1 ∧
      (paths.getD e.2.toNat 0 > 1 →
        (r.1, if r.2.1 then set_tail_flag r.2.2
              else st.mapping.getD r.2.2.toNat NOT_FOUND).2
          = st.mapping.getD e.2.toNat NOT_FOUND) ∧
      (¬ paths.getD e.2.toNat 0 > 1 → ∃ (off : Nat) (chain : List Byte),
        (r.1, if r.2.1 then set_tail_flag r.2.2
              else st.mapping.getD r.2.2.toNat NOT_FOUND).2 = set_tail_flag (off : Int) ∧
        tail_chain data data.length e.2 = some chain ∧
        ∀ j, j < chain.length + 1 → st.tail_str[off + j]? = (e.1 :: chain)[j]?) := by
    intro e r hr
    refine ⟨hr.1, ?_, ?_⟩
    · intro hkept
      rw [hr.2.1 hkept]
      simp
    · intro hkept
      obtain ⟨off, chain, g1, g2, g3⟩ := hr.2.2 hkept
      refine ⟨off, chain, ?_, g2, g3⟩
      rw [g1]
      simp
  refine ⟨m, hm1, hm2, ?_, ?_⟩
  · intro x hx
    rw [hrow] at hx
    obtain ⟨r, hr, rfl⟩ := List.mem_map.mp hx
    obtain ⟨e, he, hre⟩ := forall₂_exists_left hm3 r hr
    exact ⟨e, he, hrel e r hre⟩
  · intro e he
    obtain ⟨r, hr, hre⟩ := forall₂_exists_right hm3 e he
    refine ⟨_, ?_, hrel e r hre⟩
    rw [hrow]
    exact List.mem_map_of_mem _ hr

theorem tail_flag_roundtrip (off : Nat) (h : off < 2 ^ 31) :
    has_tail_flag (set_tail_flag (off : Int)) = true ∧
    (clear_tail_flag (set_tail_flag (off : Int))).toNat = off := by
  have hpow : (2 : Int) ^ 31 = 2147483648 := by norm_num
  have hpown : (2 : Nat) ^ 31 = 2147483648 := by norm_num
  rw [hpown] at h
  have hflagv : set_tail_flag (off : Int) = (off : Int) - 2147483648 := by
    unfold set_tail_flag
    rw [if_pos (by omega), hpow]
  rw [hflagv]
  constructor
  · unfold has_tail_flag; simp; omega
  · unfold clear_tail_flag
    rw [hpow]
    omega

/-- From a kept node the strings read back are the strings the trie accepts
from that node. -/
theorem tail_enum_spec (D : List (List Byte)) (hD : D ≠ []) (hwf : ∀ d ∈ D, WellFormed d)
    (st : TailState)
    (tinv : TailInv (BaseTrie.construct D).maps
      (number_of_paths_leaf (BaseTrie.construct D).maps) (BaseTrie.construct D).maps.length st)
    (hids : ∀ v, v < (BaseTrie.construct D).maps.length →
      (number_of_paths_leaf (BaseTrie.construct D).maps).getD v 0 ≠ 1 →
      st.mapping.getD v NOT_FOUND
        = (kept_before (number_of_paths_leaf (BaseTrie.construct D).maps) v : Int))
    (hK : st.new_edges.length = kept_before (number_of_paths_leaf (BaseTrie.construct D).maps)
      (BaseTrie.construct D).maps.length)
    (hsz : st.tail_str.length < 2 ^ 31) :
    ∀ (fuel : Nat) (pre : List Byte) (v : Nat),
    walk (BaseTrie.construct D).maps 0 pre = some (v : Int) →
    v < (BaseTrie.construct D).maps.length →
    (number_of_paths_leaf (BaseTrie.construct D).maps).getD v 0 ≠ 1 →
    st.new_edges.length - kept_before (number_of_paths_leaf (BaseTrie.construct D).maps) v
      ≤ fuel →
    ∀ s, s ∈ spec_tail_enum
        { tail_str := st.tail_str, maps := tail_new_data st.mapping st.new_edges } fuel
        (kept_before (number_of_paths_leaf (BaseTrie.construct D).maps) v : Int) ↔
      BaseTrie.search_from (BaseTrie.construct D).maps (v : Int) s = true := by
  obtain ⟨inv, _⟩ := construct_spec D
  have ht : TopoOk (BaseTrie.construct D).maps := by
    have := trie_topoOk _ inv
    unfold BaseTrie.to_vector at this
    rw [to_vector_eq] at this
    exact this
  have pspec := paths_spec _ ht
  have hlen := inv.len
  intro fuel
  induction fuel with
  | zero =>
    intro pre v _ hv hk hf
    obtain ⟨m, hm1, hm2, _, _⟩ := tail_row_entries _ _ st tinv v hv hk
    rw [hids v hv hk] at hm1
    have : kept_before (number_of_paths_leaf (BaseTrie.construct D).maps) v = m := by
      exact_mod_cast hm1
    omega
  | succ fuel ih =>
    intro pre v hwalk hv hk hf s
    obtain ⟨m, hm1, hm2, ha, hb⟩ := tail_row_entries _ _ st tinv v hv hk
    rw [hids v hv hk] at hm1
    have hm : kept_before (number_of_paths_leaf (BaseTrie.construct D).maps) v = m := by
      exact_mod_cast hm1
    rw [hm]
    simp only [spec_tail_enum]
    rw [MapVector.at_nat, mem_flatten_map]
    -- what one entry contributes
    have key : ∀ e ∈ (BaseTrie.construct D).maps.getD v [], ∀ x : Byte × Int,
        (x.1 = e.1 ∧
          ((number_of_paths_leaf (BaseTrie.construct D).maps).getD e.2.toNat 0 > 1 →
            x.2 = st.mapping.getD e.2.toNat NOT_FOUND) ∧
          (¬ (number_of_paths_leaf (BaseTrie.construct D).maps).getD e.2.toNat 0 > 1 →
            ∃ (off : Nat) (chain : List Byte),
              x.2 = set_tail_flag (off : Int) ∧
              tail_chain (BaseTrie.construct D).maps (BaseTrie.construct D).maps.length e.2
                = some chain ∧
              ∀ j, j < chain.length + 1 → st.tail_str[off + j]? = (e.1 :: chain)[j]?)) →
        (s ∈ (if has_tail_flag x.2 then
            [spec_tail_read (st.tail_str.drop (clear_tail_flag x.2).toNat)]
          else (spec_tail_enum
            { tail_str := st.tail_str, maps := tail_new_data st.mapping st.new_edges }
            fuel x.2).map (fun s => x.1 :: s)) ↔
          ∃ s2, s = e.1 :: s2 ∧
            BaseTrie.search_from (BaseTrie.construct D).maps e.2 s2 = true) := by
      intro e he x hx
      obtain ⟨hx1, hx2, hx3⟩ := hx
      have hup := inv.edge_up v (by omega) e he
      have hxn : e.2 = ((e.2.toNat : Nat) : Int) := by omega
      by_cases hkept : (number_of_paths_leaf (BaseTrie.construct D).maps).getD e.2.toNat 0 > 1
      · have hk2 : (number_of_paths_leaf (BaseTrie.construct D).maps).getD e.2.toNat 0 ≠ 1 := by
          omega
        have hx2v := hx2 hkept
        rw [hids e.2.toNat (by omega) hk2] at hx2v
        have hflag : has_tail_flag x.2 = false := by
          rw [hx2v]; unfold has_tail_flag; simp
        rw [hflag]
        simp only [Bool.false_eq_true, if_false, List.mem_map]
        have hwalk2 : walk (BaseTrie.construct D).maps 0 (pre ++ [e.1])
            = some ((e.2.toNat : Nat) : Int) := by
          rw [walk_snoc]
          refine ⟨(v : Int), hwalk, ?_, by unfold NOT_FOUND; omega⟩
          rw [trie_mem_search _ inv v e he]
          exact hxn
        have hlt := kept_before_lt (number_of_paths_leaf (BaseTrie.construct D).maps) v
          e.2.toNat (by omega) hk
        have hih := ih (pre ++ [e.1]) e.2.toNat hwalk2 (by omega) hk2 (by omega)
        rw [hx2v, hx1]
        constructor
        · rintro ⟨s2, hs2, rfl⟩
          refine ⟨s2, rfl, ?_⟩
          rw [hxn]
          exact (hih s2).mp hs2
        · rintro ⟨s2, rfl, hs2⟩
          refine ⟨s2, (hih s2).mpr ?_, rfl⟩
          rw [← hxn]
          exact hs2
      · obtain ⟨off, chain, hsr, hchain, hpool⟩ := hx3 hkept
        have hp1 : (number_of_paths_leaf (BaseTrie.construct D).maps).getD e.2.toNat 0 = 1 := by
          have := pspec.pos e.2.toNat (by omega)
          omega
        obtain ⟨chain2, hc2, hacc⟩ := tail_chain_spec _ inv _ pspec ht
          (BaseTrie.construct D).maps.length e.2.toNat (by omega) (by omega) hp1
        rw [← hxn, hchain] at hc2
        have hcc : chain2 = chain := (Option.some.inj hc2).symm
        subst hcc
        rw [← hxn] at hacc
        have hoff : off < st.tail_str.length := by
          have := hpool 0 (by omega)
          by_contra hcon
          rw [List.getElem?_eq_none (by omega)] at this
          simp at this
        obtain ⟨f1, f2⟩ := tail_flag_roundtrip off (by omega)
        rw [hsr, f1, f2]
        simp only [if_true, List.mem_singleton]
        have hY : WellFormed (e.1 :: chain2) := by
          have hacc2 : (BaseTrie.construct D).search (pre ++ e.1 :: chain2) = true := by
            unfold BaseTrie.search
            rw [search_from_append _ pre _ 0 _ hwalk, trie_search_step _ inv v (by omega) e he]
            exact (hacc chain2).mpr rfl
          have hin := (trie_search_mem_iff D hD hwf _).mp hacc2
          exact wellFormed_suffix pre _ (by simp) (hwf _ hin)
        obtain ⟨rest, hrest⟩ := drop_eq_of_get st.tail_str (e.1 :: chain2) off
          (fun j hj => hpool j (by simpa using hj))
        rw [hrest, spec_tail_read_wf _ hY]
        constructor
        · intro hs
          exact ⟨chain2, hs, (hacc chain2).mpr rfl⟩
        · rintro ⟨s2, rfl, hs2⟩
          rw [(hacc s2).mp hs2]
    constructor
    · rintro ⟨x, hx, hs⟩
      obtain ⟨e, he, hP⟩ := ha x hx
      obtain ⟨s2, rfl, hs2⟩ := (key e he x hP).mp hs
      rw [trie_search_step _ inv v (by omega) e he]
      exact hs2
    · intro hacc
      cases s with
      | nil =>
        exfalso
        simp only [BaseTrie.search_from, MapVector.outdegree, STLMap.outdegree,
          MapVector.at_nat] at hacc
        have hnil : (BaseTrie.construct D).maps.getD v [] = [] := by
          cases hrow : (BaseTrie.construct D).maps.getD v [] with
          | nil => rfl
          | cons _ _ => rw [hrow] at hacc; simp at hacc
        exact hk (pspec.leaf v hv hnil)
      | cons c s2 =>
        have hfound : MapVector.search (BaseTrie.construct D).maps (v : Int) c ≠ NOT_FOUND := by
          intro hcon
          simp only [BaseTrie.search_from, hcon, if_true] at hacc
          cases hacc
        obtain ⟨hmem, _, _, _⟩ := trie_search_found _ inv v c hfound
        obtain ⟨x, hx, hP⟩ := hb _ hmem
        refine ⟨x, hx, (key _ hmem x hP).mpr ⟨s2, rfl, ?_⟩⟩
        simp only [BaseTrie.search_from, if_neg hfound] at hacc
        exact hacc

/-- **C16.** Tail round-trip: for every `D` of at least two different
well-formed strings whose tail pool is shorter than `2^31` bytes, `TailTrie` is
built, and the strings read back from it by depth-first search from node 0,
an edge to a kept node contributing its label and a tail-tagged edge with
offset `o` the pool bytes from `o` up to and including the first `EOW`, are
exactly the strings of `D`. For `D = {hello, help, helm}` the result has four
kept nodes, three tail edges at the offsets 0, 3 and 5, and the pool
`lo EOW m EOW p EOW`. -/
theorem TailTrie_roundtrip (D : List (List Byte)) (hwf : ∀ d ∈ D, WellFormed d)
    (h2 : ∃ d1 ∈ D, ∃ d2 ∈ D, d1 ≠ d2) (hsz : tail_pool_length D < 2 ^ 31) :
    (∃ tt, TailTrie.construct (BaseTrie.construct D) = some tt ∧
      ∀ s, s ∈ spec_tail_enum tt tt.maps.length 0 ↔ s ∈ D) ∧
    TailTrie.construct (BaseTrie.construct [[104, 101, 108, 108, 111, 1],
        [104, 101, 108, 112, 1], [104, 101, 108, 109, 1]])
      = some { tail_str := [108, 111, 1, 109, 1, 112, 1],
               maps := [[(104, 1)], [(101, 2)], [(108, 3)],
                 [(108, set_tail_flag 0), (109, set_tail_flag 3), (112, set_tail_flag 5)]] } := by
  refine ⟨?_, by decide⟩
  obtain ⟨inv, _⟩ := construct_spec D
  obtain ⟨st, tinv, hstate, hcon0⟩ := tail_construct_spec _ inv
  have hD : D ≠ [] := by
    obtain ⟨d1, hd1, _⟩ := h2
    exact List.ne_nil_of_mem hd1
  have hroot := root_kept D hwf h2
  have hpos : 0 < (BaseTrie.construct D).maps.length := by rw [inv.len]; exact inv.count_pos
  have hassert : tail_root_assert (BaseTrie.construct D).maps = true :=
    (tail_root_assert_iff D hwf).mpr h2
  have hcon : TailTrie.construct (BaseTrie.construct D)
      = some { tail_str := st.tail_str, maps := tail_new_data st.mapping st.new_edges } := by
    rw [hcon0, if_pos hassert]
  have hsz2 : st.tail_str.length < 2 ^ 31 := by
    unfold tail_pool_length at hsz
    rw [hcon] at hsz
    exact hsz
  have hst := hstate
  unfold tail_state at hst
  rw [List.range_eq_range'] at hst
  obtain ⟨hK, hids⟩ := tail_loop_ids _ _ (BaseTrie.construct D).maps.length 0 _ st hst
    (by simp) (by simp [kept_before]) (fun v hv => by omega)
  simp only [Nat.zero_add] at hK hids
  refine ⟨_, hcon, ?_⟩
  intro s
  have hspec := tail_enum_spec D hD hwf st tinv hids hK hsz2 st.new_edges.length [] 0 rfl hpos
    hroot (by omega) s
  have hkb0 : kept_before (number_of_paths_leaf (BaseTrie.construct D).maps) 0 = 0 := by
    simp [kept_before]
  rw [hkb0] at hspec
  have hlen : (tail_new_data st.mapping st.new_edges).length = st.new_edges.length := by
    simp [tail_new_data]
  simp only [hlen]
  rw [show ((0 : Nat) : Int) = 0 from rfl] at hspec
  rw [hspec]
  exact trie_search_mem_iff D hD hwf s

/-- C16 at a concrete input: the dictionary `{hello, help, helm}`. -/
theorem TailTrie_roundtrip_witness :
    ∃ tt, TailTrie.construct (BaseTrie.construct [[104, 101, 108, 108, 111, 1],
        [104, 101, 108, 112, 1], [104, 101, 108, 109, 1]]) = some tt ∧
      ∀ s, s ∈ spec_tail_enum tt tt.maps.length 0 ↔
        s ∈ ([[104, 101, 108, 108, 111, 1], [104, 101, 108, 112, 1],
          [104, 101, 108, 109, 1]] : List (List Byte)) :=
  (TailTrie_roundtrip [[104, 101, 108, 108, 111, 1], [104, 101, 108, 112, 1],
    [104, 101, 108, 109, 1]] (by decide) (by decide) (by decide)).1

/-! ## Two places where the double array falls short of its description -/

set_option maxRecDepth 100000 in
/-- C19 at the failing input, the maps of the tail-compacted trie of
`{hello, help, helm}`: `construct_with_reindexing` gives node 3 the base 3,
writes the check byte of its tail-tagged edge `(108, 0 | 1 << 31)` and leaves
`next` of that cell at `NOT_FOUND`, so the lookup returns `NOT_FOUND`;
`construct_without_reindexing` stores the tagged target. -/
theorem construct_with_reindexing_drops_tail :
    (construct_with_reindexing [[(104, 1)], [(101, 2)], [(108, 3)],
        [(108, -2147483648), (109, -2147483645), (112, -2147483643)]]).map
      (fun p => (p.2.getD 3 0, p.1.check.getD (3 + 108) NULL_CHAR,
        p.1.next.getD (3 + 108) 0, p.1.search (p.2.getD 3 0) 108))
      = some (3, 108, NOT_FOUND, NOT_FOUND) ∧
    (construct_without_reindexing [[(104, 1)], [(101, 2)], [(108, 3)],
        [(108, -2147483648), (109, -2147483645), (112, -2147483643)]]).map
      (fun p => (p.2.getD 3 0, p.1.search (p.2.getD 3 0) 108))
      = some (3, -2147483648) := by
  decide

set_option maxRecDepth 100000 in
/-- C20 at the failing input, the dictionary `{a}`: the arrays of
`DoubleArrayTrie` and of `DoubleArrayADFA` have 98 cells, and from the start
state 0 the byte 98 makes `search` read cell 98, outside the arrays. -/
theorem DoubleArray_search_out_of_bounds :
    (DoubleArrayTrie.construct (BaseTrie.construct [[97, 1]])).map
      (fun dt => (dt.maps.check.length, dt.maps.next.length, dt.maps.in_bounds 0 98))
      = some (98, 98, false) ∧
    (DoubleArrayADFA.construct (BaseADFA.construct (BaseTrie.construct [[97, 1]]))).map
      (fun da => (da.maps.check.length, da.maps.next.length, da.maps.in_bounds 0 98))
      = some (98, 98, false) := by
  decide

/-! ## The automaton of `{a, ab, abc}` -/

set_option maxRecDepth 100000 in
/-- C23, the claim as worded fails: the automaton of `{a, ab, abc}`, each
string closed by `EOW`, does not have four states. -/
theorem BaseADFA_abc_not_four_states :
    ¬ (BaseADFA.construct
        (BaseTrie.construct [[97, 1], [97, 98, 1], [97, 98, 99, 1]])).maps.length = 4 := by
  decide

set_option maxRecDepth 100000 in
/-- C23, amended: the automaton of `{a, ab, abc}`, each string closed by `EOW`,
has exactly five states: the root, the states after `a`, after `ab` and after
`abc`, and the sink; the states after `a`, `ab` and `abc` differ because `b`
can follow the first, `c` the second, and only `EOW` the third. -/
theorem BaseADFA_abc_five_states :
    BaseADFA.to_vector (BaseADFA.construct
        (BaseTrie.construct [[97, 1], [97, 98, 1], [97, 98, 99, 1]]))
      = [[(97, 1)], [(1, 4), (98, 2)], [(1, 4), (99, 3)], [(1, 4)], []] := by
  decide

/-! ## How far `get_lcp` reads -/

/-- The loop with its loads written out ends where the loop of `get_lcp`
ends, after at most `rem` rounds, and loads no word behind `i + rem`. -/
theorem lcp_loop_reads_spec (w1 w2 : Nat → Nat) : ∀ (rem i : Nat),
    (lcp_loop_reads w1 w2 rem i).1 = lcp_loop w1 w2 rem i ∧
    (lcp_loop_reads w1 w2 rem i).1 ≤ i + rem ∧
    (∀ x ∈ (lcp_loop_reads w1 w2 rem i).2, x ≤ i + rem) ∧
    (lcp_loop_reads w1 w2 rem i).2.length = (lcp_loop_reads w1 w2 rem i).1 - i + 1 ∧
    i ≤ (lcp_loop_reads w1 w2 rem i).1 := by
  intro rem
  induction rem with
  | zero =>
    intro i
    simp [lcp_loop_reads, lcp_loop]
  | succ rem ih =>
    intro i
    obtain ⟨a1, a2, a3, a4, a5⟩ := ih (i + 1)
    simp only [lcp_loop_reads, lcp_loop]
    by_cases h : w1 i = w2 i
    · rw [if_pos h, if_pos h]
      refine ⟨a1, by omega, ?_, ?_, by omega⟩
      · intro x hx
        rcases List.mem_cons.mp hx with rfl | hx
        · omega
        · have := a3 x hx
          omega
      · simp only [List.length_cons]
        omega
    · rw [if_neg h, if_neg h]
      simp

/-- The first word of both operands is loaded by every call. -/
theorem get_lcp_words_zero (a : List Byte) (ja : Nat → Byte) (oa : Nat)
    (b : List Byte) (jb : Nat → Byte) (ob : Nat) (max_len : Nat) :
    0 ∈ get_lcp_words a ja oa b jb ob max_len := by
  unfold get_lcp_words
  simp only [List.mem_append]
  left
  cases h : max_len / ALPHA with
  | zero => simp [lcp_loop_reads]
  | succ n =>
    simp only [lcp_loop_reads]
    split <;> simp

/-- C28 (LCP read bound). For every call `get_lcp(a, oa, b, ob, max_len)` with
`max_len ≥ 0` the loop makes at most `max_len / 8` rounds and ends where the
loop `lcp_loop` behind the result of `get_lcp` ends; every byte loaded from `a` has an
index below `oa + max_len + 8`, every byte loaded from `b` one below
`ob + max_len + 8`; so when both arrays hold `max_len + 8` bytes from their
offsets, every byte loaded lies inside its array. -/
theorem get_lcp_read_bound (a : List Byte) (ja : Nat → Byte) (oa : Nat)
    (b : List Byte) (jb : Nat → Byte) (ob : Nat) (max_len : Nat) :
    get_lcp_rounds a ja oa b jb ob max_len ≤ max_len / 8 ∧
    get_lcp_rounds a ja oa b jb ob max_len
      = lcp_loop (fun i => load64 a ja (oa + ALPHA * i)) (fun i => load64 b jb (ob + ALPHA * i))
          (max_len / ALPHA) 0 ∧
    (get_lcp_words a ja oa b jb ob max_len).length
      = get_lcp_rounds a ja oa b jb ob max_len + 2 ∧
    (∀ i ∈ get_lcp_words a ja oa b jb ob max_len, ∀ j, j < 8 →
      oa + 8 * i + j < oa + max_len + 8 ∧ ob + 8 * i + j < ob + max_len + 8) ∧
    (oa + max_len + 8 ≤ a.length → ob + max_len + 8 ≤ b.length →
      ∀ i ∈ get_lcp_words a ja oa b jb ob max_len, ∀ j, j < 8 →
        oa + 8 * i + j < a.length ∧ ob + 8 * i + j < b.length) := by
  obtain ⟨h1, h2, h3, h4, h5⟩ := lcp_loop_reads_spec
    (fun i => load64 a ja (oa + ALPHA * i)) (fun i => load64 b jb (ob + ALPHA * i))
    (max_len / ALPHA) 0
  have hw : ∀ i ∈ get_lcp_words a ja oa b jb ob max_len, i ≤ max_len / 8 := by
    intro i hi
    unfold get_lcp_words at hi
    simp only [List.mem_append, List.mem_singleton] at hi
    rcases hi with hi | hi
    · have := h3 i hi
      simpa [ALPHA] using this
    · rw [hi]
      simpa [ALPHA] using h2
  have hb : ∀ i ∈ get_lcp_words a ja oa b jb ob max_len, ∀ j, j < 8 →
      oa + 8 * i + j < oa + max_len + 8 ∧ ob + 8 * i + j < ob + max_len + 8 := by
    intro i hi j hj
    have := hw i hi
    omega
  refine ⟨?_, h1, ?_, hb, ?_⟩
  · unfold get_lcp_rounds
    simpa [ALPHA] using h2
  · unfold get_lcp_words get_lcp_rounds
    simp only [List.length_append, List.length_singleton]
    omega
  · intro ha hbb i hi j hj
    have := hb i hi j hj
    omega

/-! ## The operands of `get_lcp` in the searches carry no slack -/

set_option maxRecDepth 100000 in
/-- C29 at the failing input, the dictionary `{a, b}` and the query `a`, both
closed by `EOW`. `PathDecomposedTrie` has `heavy_str` of 5 bytes,
`PathDecomposedADFA` has root 0 and `heavy_str` of 3 bytes, `TailTrie` has
`tail_str` of 4 bytes and sends byte `a` from node 0 to the tail at offset 0;
so the first call of `get_lcp` in each search has offsets 0 and `max_len` 2,
and the first word it loads, bytes 0 to 7, ends behind the array and behind
the 2 bytes of the query, whatever the memory holds there. -/
theorem get_lcp_reads_past_end :
    ((PathDecomposedTrie.construct (BaseTrie.construct [[97, 1], [98, 1]])).map
        (fun pd => pd.heavy_str) = some [97, 1, 0, 1, 0] ∧
      ∀ jh jl : Nat → Byte, ∃ i ∈ get_lcp_words [97, 1, 0, 1, 0] jh 0 [97, 1] jl 0 2,
        ¬ 0 + 8 * i + 7 < ([97, 1, 0, 1, 0] : List Byte).length ∧
        ¬ 0 + 8 * i + 7 < ([97, 1] : List Byte).length) ∧
    ((PathDecomposedADFA.construct (BaseADFA.construct (BaseTrie.construct [[97, 1], [98, 1]]))).map
        (fun pd => (pd.root, pd.heavy_str)) = some (0, [97, 1, 0]) ∧
      ∀ jh jl : Nat → Byte, ∃ i ∈ get_lcp_words [97, 1, 0] jh 0 [97, 1] jl 0 2,
        ¬ 0 + 8 * i + 7 < ([97, 1, 0] : List Byte).length ∧
        ¬ 0 + 8 * i + 7 < ([97, 1] : List Byte).length) ∧
    ((TailTrie.construct (BaseTrie.construct [[97, 1], [98, 1]])).map
        (fun tt => (tt.tail_str, clear_tail_flag (MapVector.search tt.maps 0 97)))
        = some ([97, 1, 98, 1], 0) ∧
      ∀ jh jl : Nat → Byte, ∃ i ∈ get_lcp_words [97, 1, 98, 1] jh 0 [97, 1] jl 0 2,
        ¬ 0 + 8 * i + 7 < ([97, 1, 98, 1] : List Byte).length ∧
        ¬ 0 + 8 * i + 7 < ([97, 1] : List Byte).length) := by
  refine ⟨⟨by decide, fun _ _ => ⟨0, get_lcp_words_zero _ _ _ _ _ _ _, by decide, by decide⟩⟩,
    ⟨by decide, fun _ _ => ⟨0, get_lcp_words_zero _ _ _ _ _ _ _, by decide, by decide⟩⟩,
    ⟨by decide, fun _ _ => ⟨0, get_lcp_words_zero _ _ _ _ _ _ _, by decide, by decide⟩⟩⟩

/-! ## The separators of `heavy_str` and the query -/

/-- The automaton of a non-empty well-formed dictionary accepts its strings
and no other string. -/
theorem adfa_search_mem_iff (D : List (List Byte)) (hne : D ≠ [])
    (hwf : ∀ d ∈ D, WellFormed d) (s : List Byte) :
    (BaseADFA.construct (BaseTrie.construct D)).search s = true ↔ s ∈ D := by
  have inv := (construct_spec D).1
  have spec := adfa_spec _ inv
  have h := adfa_search_from_eq _ inv spec s 0 inv.count_pos
  rw [(spec.state_root 0 inv.count_pos).mpr rfl] at h
  unfold BaseADFA.search
  rw [h]
  exact trie_search_mem_iff D hne hwf s

/-- Every call recorded is a call of `get_lcp` at a position inside the query,
with the rest of the query as `max_len`. -/
theorem pd_walk_calls_spec (heavy_str : List Byte) (maps : MapVector) (jh jl : Nat → Byte)
    (line : List Byte) : ∀ (fuel i : Nat) (node : Int),
    ∀ c ∈ pd_walk_calls heavy_str maps jh jl line fuel i node,
      c.2.1 < line.length ∧
      c.2.2 = get_lcp heavy_str jh c.1 line jl c.2.1 (line.length - c.2.1) := by
  intro fuel
  induction fuel with
  | zero => intro i node c hc; simp [pd_walk_calls] at hc
  | succ fuel ih =>
    intro i node c hc
    simp only [pd_walk_calls] at hc
    by_cases hi : i < line.length
    · rw [if_pos hi] at hc
      rcases List.mem_cons.mp hc with rfl | hc
      · exact ⟨hi, rfl⟩
      · split at hc
        · simp at hc
        · split at hc
          · simp at hc
          · exact ih _ _ c hc
    · rw [if_neg hi] at hc
      simp at hc

/-- A call of `get_lcp` on a query without `NULL_CHAR` matches no
`NULL_CHAR` of `heavy_str`. -/
theorem lcp_no_separator (heavy_str : List Byte) (jh jl : Nat → Byte) (line : List Byte)
    (hline : ∀ c ∈ line, c ≠ NULL_CHAR) (p i : Nat) (j : Nat)
    (hj : j < get_lcp heavy_str jh p line jl i (line.length - i)) :
    heavy_str[p + j]? ≠ some NULL_CHAR := by
  obtain ⟨l1, l2, _⟩ := get_lcp_spec heavy_str jh p line jl i (line.length - i)
  intro hcon
  have hin : p + j < heavy_str.length := by
    by_contra h
    rw [List.getElem?_eq_none (by omega)] at hcon
    exact absurd hcon (by simp)
  have h1 := l2 j hj
  have h2 := byteAt_inb heavy_str jh (p + j) hin
  have h3 := byteAt_inb line jl (i + j) (by omega)
  rw [hcon] at h2
  have h4 : byteAt line jl (i + j) = NULL_CHAR := by rw [← h1]; exact Option.some.inj h2
  rw [h4] at h3
  have hmem : NULL_CHAR ∈ line := List.mem_iff_getElem?.mpr ⟨i + j, h3.symm⟩
  exact hline _ hmem rfl

/-- C22, the claim as worded fails: for `D = {a, bc}`, each string closed by
`EOW` and free of `NULL_CHAR`, `heavy_str` is `NULL c EOW NULL` with the root at
position 0; on the input `NULL c EOW`, which ends with `EOW` and is not in `D`,
the first call of `get_lcp` matches the separator at position 0 and runs on to
the sink, and `search` returns `true`, whatever the memory holds behind
`heavy_str` and the input. -/
theorem PathDecomposedADFA_matches_separator :
    (∀ d ∈ ([[97, 1], [98, 99, 1]] : List (List Byte)), WellFormed d ∧ NULL_CHAR ∉ d) ∧
    ([0, 99, 1] : List Byte).getLast? = some EOW ∧
    ([0, 99, 1] : List Byte) ∉ ([[97, 1], [98, 99, 1]] : List (List Byte)) ∧
    ∃ pd, PathDecomposedADFA.construct
        (BaseADFA.construct (BaseTrie.construct [[97, 1], [98, 99, 1]])) = some pd ∧
      pd.heavy_str[0]? = some NULL_CHAR ∧
      ∀ jh jl : Nat → Byte,
        (0, 0, 3) ∈ pd.search_calls jh jl [0, 99, 1] ∧
        pd.search jh jl [0, 99, 1] = some true := by
  have hlcp : ∀ jh jl : Nat → Byte, get_lcp [0, 99, 1, 0] jh 0 [0, 99, 1] jl 0 3 = 3 := by
    intro jh jl
    obtain ⟨l1, _, l3⟩ := get_lcp_spec [0, 99, 1, 0] jh 0 [0, 99, 1] jl 0 3
    by_contra hne
    have hlt : get_lcp [0, 99, 1, 0] jh 0 [0, 99, 1] jl 0 3 < 3 := by omega
    have h := l3 hlt
    generalize get_lcp [0, 99, 1, 0] jh 0 [0, 99, 1] jl 0 3 = k at hlt h
    interval_cases k <;> simp [byteAt] at h
  refine ⟨by decide, by decide, by decide,
    { root := 0, sink := 3, heavy_str := [0, 99, 1, 0],
      maps := [[(97, 2), (98, 1)], [], [], []] }, by decide, by decide, ?_⟩
  intro jh jl
  constructor
  · simp [PathDecomposedADFA.search_calls, pd_walk_calls, hlcp jh jl]
  · simp [PathDecomposedADFA.search, pd_walk, hlcp jh jl]

/-- C22, amended: for every non-empty `D` of well-formed strings and every
input `s` that holds no `NULL_CHAR`, whatever the memory holds behind
`heavy_str` and behind `s`, `PathDecomposedADFA` is built, no call of `get_lcp`
in `search` matches a `NULL_CHAR` of `heavy_str` (the bytes of `heavy_str` a
call runs over are no separators), and `search(s)` is true exactly when `s` is
in `D`. -/
theorem PathDecomposedADFA_null_separator (D : List (List Byte)) (hne : D ≠ [])
    (hwf : ∀ d ∈ D, WellFormed d) (s : List Byte) (hs : ∀ c ∈ s, c ≠ NULL_CHAR)
    (jh jl : Nat → Byte) :
    ∃ pd, PathDecomposedADFA.construct (BaseADFA.construct (BaseTrie.construct D)) = some pd ∧
      (∀ c ∈ pd.search_calls jh jl s, ∀ j, j < c.2.2 →
        pd.heavy_str[c.1 + j]? ≠ some NULL_CHAR) ∧
      pd.search jh jl s = some (decide (s ∈ D)) := by
  obtain ⟨pd, hpd, hsearch⟩ := pdadfa_search_eq _ (adfa_dagOk _ (construct_spec D).1) s hs jh jl
  refine ⟨pd, hpd, ?_, ?_⟩
  · intro c hc j hj
    obtain ⟨_, h2⟩ := pd_walk_calls_spec _ _ jh jl s _ _ _ c hc
    rw [h2] at hj
    exact lcp_no_separator _ jh jl s hs _ _ j hj
  · rw [hsearch]
    congr 1
    have := adfa_search_mem_iff D hne hwf s
    by_cases hmem : s ∈ D
    · simp [hmem, this.mpr hmem]
    · have hf : (BaseADFA.construct (BaseTrie.construct D)).search s = false := by
        cases hb : (BaseADFA.construct (BaseTrie.construct D)).search s with
        | false => rfl
        | true => exact absurd (this.mp hb) hmem
      simp [hmem, hf]

theorem PathDecomposedADFA_null_separator_witness :
    ∃ pd, PathDecomposedADFA.construct
        (BaseADFA.construct (BaseTrie.construct [[97, 1], [98, 99, 1]])) = some pd ∧
      (∀ c ∈ pd.search_calls (fun _ => 0) (fun _ => 0) [98, 99, 1], ∀ j, j < c.2.2 →
        pd.heavy_str[c.1 + j]? ≠ some NULL_CHAR) ∧
      pd.search (fun _ => 0) (fun _ => 0) [98, 99, 1]
        = some (decide (([98, 99, 1] : List Byte) ∈ ([[97, 1], [98, 99, 1]] : List (List Byte)))) :=
  PathDecomposedADFA_null_separator [[97, 1], [98, 99, 1]] (by simp)
    (by decide) [98, 99, 1] (by simp [NULL_CHAR]) (fun _ => 0) (fun _ => 0)

/-! ## The shape of the trie -/

theorem insert_char_ok_true (t : BaseTrie) (inv : TrieInv t) (u : Nat) (ch : Byte) : BaseTrie.insert_char_ok (t, (u : Int)) ch = true := by
  unfold BaseTrie.insert_char_ok
  simp only []
  by_cases h : MapVector.search t.maps (u : Int) ch = NOT_FOUND
  · rw [if_pos h, MapVector.at_nat]
    have hext : (MapVector.extend t.maps (t.node_count + 1)).getD u [] = t.maps.getD u [] :=
      getD_resize t.maps _ [] (by rw [inv.len]; omega) u
    rw [hext]
    have := (trie_search_not_found t inv u ch).mp h
    unfold STLMap.key_absent
    rw [List.all_eq_true]
    intro e he
    simpa using this e he
  · rw [if_neg h]

theorem insert_ok_true : ∀ (suf pre : List Byte) (t : BaseTrie) (u : Nat), TrieInv t →
    u < t.node_count → walk t.maps 0 pre = some (u : Int) →
    BaseTrie.insert_ok (t, (u : Int)) suf = true := by
  intro suf
  induction suf with
  | nil => intro pre t u _ _ _; rfl
  | cons ch suf ih =>
    intro pre t u inv hu hpre
    obtain ⟨h1, ⟨u2, hu2, hu2b, hw2⟩, _⟩ := insert_char_spec t inv pre u hu hpre ch
    have hst : BaseTrie.insert_char (t, (u : Int)) ch
        = ((BaseTrie.insert_char (t, (u : Int)) ch).1, (u2 : Int)) := by
      rw [← hu2]
    simp only [BaseTrie.insert_ok, Bool.and_eq_true]
    refine ⟨insert_char_ok_true t inv u ch, ?_⟩
    rw [hst]
    exact ih (pre ++ [ch]) _ u2 h1 hu2b hw2

theorem construct_ok_true : ∀ (D : List (List Byte)) (t : BaseTrie), TrieInv t →
    BaseTrie.construct_ok t D = true := by
  intro D
  induction D with
  | nil => intro t _; rfl
  | cons d D ih =>
    intro t inv
    simp only [BaseTrie.construct_ok, Bool.and_eq_true]
    refine ⟨?_, ih _ (insert_spec t inv d).1⟩
    have := insert_ok_true d [] t 0 inv inv.count_pos (by simp [walk])
    simpa using this

/-- Every node of the trie is reached by a walk from the root. -/
theorem trie_node_walk (t : BaseTrie) (inv : TrieInv t) : ∀ (k v : Nat), v ≤ k →
    v < t.node_count → ∃ s, walk t.maps 0 s = some (v : Int) := by
  intro k
  induction k with
  | zero =>
    intro v hv _
    have : v = 0 := by omega
    subst this
    exact ⟨[], rfl⟩
  | succ k ih =>
    intro v hv hvn
    by_cases h0 : v = 0
    · subst h0
      exact ⟨[], rfl⟩
    · obtain ⟨u, hu, e, he, hev⟩ := inv.has_parent v (by omega) hvn
      have hup := inv.edge_up u hu e he
      obtain ⟨s, hs⟩ := ih u (by omega) hu
      refine ⟨s ++ [e.1], ?_⟩
      rw [walk_snoc]
      refine ⟨(u : Int), hs, ?_, ?_⟩
      · rw [trie_mem_search t inv u e he, hev]
      · unfold NOT_FOUND
        omega

/-- The leaves of the trie of a non-empty well-formed dictionary are the ends
of its strings, one leaf per distinct string. -/
theorem trie_leaf_count (D : List (List Byte)) (hne : D ≠ [])
    (hwf : ∀ d ∈ D, WellFormed d) : (BaseTrie.construct D).leaf_count = D.dedup.length := by
  obtain ⟨inv, hw⟩ := construct_spec D
  have hacc := trie_search_mem_iff D hne hwf
  have hwalk : ∀ d ∈ D, ∃ w : Nat, walk (BaseTrie.construct D).maps 0 d = some (w : Int) ∧
      w < (BaseTrie.construct D).node_count ∧
      MapVector.outdegree (BaseTrie.construct D).maps (w : Int) = 0 := by
    intro d hd
    have h1 := (hacc d).mpr hd
    unfold BaseTrie.search at h1
    rw [search_from_eq_walk] at h1
    cases hwd : walk (BaseTrie.construct D).maps 0 d with
    | none => rw [hwd] at h1; simp at h1
    | some n =>
      rw [hwd] at h1
      obtain ⟨w, hnw, _, hwn⟩ := walk_range _ inv d 0 n inv.count_pos (by simpa using hwd)
      subst hnw
      exact ⟨w, rfl, hwn, by simpa using h1⟩
  let g : List Byte → Nat := fun d => ((walk (BaseTrie.construct D).maps 0 d).getD 0).toNat
  have hg : ∀ d ∈ D, walk (BaseTrie.construct D).maps 0 d = some ((g d : Nat) : Int) := by
    intro d hd
    obtain ⟨w, h1, _, _⟩ := hwalk d hd
    show _ = some (((((walk (BaseTrie.construct D).maps 0 d).getD 0).toNat : Nat)) : Int)
    rw [h1]
    simp
  have hnodup : (D.dedup.map g).Nodup := by
    apply List.Nodup.map_on _ (List.nodup_dedup D)
    intro a ha b hb hab
    have h1 := hg a (List.mem_dedup.mp ha)
    have h2 := hg b (List.mem_dedup.mp hb)
    rw [hab] at h1
    exact walk_inj _ inv a b _ h1 h2
  have hfil : ((List.range (BaseTrie.construct D).node_count).filter
      (fun (v : Nat) => MapVector.outdegree (BaseTrie.construct D).maps (v : Int) == 0)).Nodup :=
    List.Nodup.filter _ (List.nodup_range _)
  have hperm : (D.dedup.map g).Perm ((List.range (BaseTrie.construct D).node_count).filter
      (fun (v : Nat) => MapVector.outdegree (BaseTrie.construct D).maps (v : Int) == 0)) := by
    rw [List.perm_ext_iff_of_nodup hnodup hfil]
    intro v
    simp only [List.mem_map, List.mem_dedup, List.mem_filter, List.mem_range, beq_iff_eq]
    constructor
    · rintro ⟨d, hd, rfl⟩
      obtain ⟨w, h1, h2, h3⟩ := hwalk d hd
      have h4 := hg d hd
      rw [h1] at h4
      have : w = g d := by
        have := Option.some.inj h4
        omega
      rw [← this]
      exact ⟨h2, h3⟩
    · rintro ⟨hv, hleaf⟩
      obtain ⟨s, hs⟩ := trie_node_walk _ inv v v (le_refl _) hv
      have hsearch : (BaseTrie.construct D).search s = true := by
        unfold BaseTrie.search
        rw [search_from_eq_walk, hs]
        simpa using hleaf
      have hsD := (hacc s).mp hsearch
      refine ⟨s, hsD, ?_⟩
      have h4 := hg s hsD
      rw [hs] at h4
      have := Option.some.inj h4
      omega
  unfold BaseTrie.leaf_count
  rw [← hperm.length_eq, List.length_map]

/-- C30, the claim as worded fails on the empty dictionary, which is
prefix-free: after no insertion the trie is the root alone, of out-degree 0,
while the dictionary holds no string. -/
theorem BaseTrie_empty_leaf_count :
    (∀ d ∈ ([] : List (List Byte)), WellFormed d) ∧
    (BaseTrie.construct []).leaf_count = 1 ∧ ([] : List (List Byte)).dedup.length = 0 ∧
    ¬ (BaseTrie.construct []).leaf_count = ([] : List (List Byte)).dedup.length := by
  decide

/-- C30, amended (BaseTrie shape invariant). After inserting any sequence `D` of
byte strings the node ids are exactly `0..node_count-1` (the map vector has
`node_count` rows, every edge leads to an id of `1..node_count-1`, and every
such id is the target of an edge), every edge `(u, v)` has `u < v`, every node
other than 0 has exactly one incoming edge, the labels out of a node are
pairwise distinct, and the assertion of `STLMap::insert` holds at every call;
and for a non-empty `D` of well-formed strings the number of nodes of
out-degree 0 is the number of distinct strings of `D`. -/
theorem BaseTrie_shape (D : List (List Byte)) :
    (1 ≤ (BaseTrie.construct D).node_count ∧
      (BaseTrie.construct D).maps.length = (BaseTrie.construct D).node_count) ∧
    (∀ u, u < (BaseTrie.construct D).node_count → ∀ e ∈ (BaseTrie.construct D).maps.getD u [],
      (u : Int) < e.2 ∧ e.2 < ((BaseTrie.construct D).node_count : Int)) ∧
    (∀ v, 0 < v → v < (BaseTrie.construct D).node_count →
      ∃ u, u < (BaseTrie.construct D).node_count ∧
        ∃ e ∈ (BaseTrie.construct D).maps.getD u [], e.2 = (v : Int) ∧
          ∀ u2, u2 < (BaseTrie.construct D).node_count →
            ∀ e2 ∈ (BaseTrie.construct D).maps.getD u2 [], e2.2 = (v : Int) → u2 = u ∧ e2 = e) ∧
    (∀ u, u < (BaseTrie.construct D).node_count →
      (((BaseTrie.construct D).maps.getD u []).map Prod.fst).Nodup ∧
      ((BaseTrie.construct D).maps.getD u []).Nodup) ∧
    BaseTrie.construct_ok { node_count := 1, maps := MapVector.mk 1 } D = true ∧
    (D ≠ [] → (∀ d ∈ D, WellFormed d) → (BaseTrie.construct D).leaf_count = D.dedup.length) := by
  obtain ⟨inv, _⟩ := construct_spec D
  refine ⟨⟨inv.count_pos, inv.len⟩, inv.edge_up, ?_, ?_, construct_ok_true D _ trieInv_init,
    trie_leaf_count D⟩
  · intro v hv0 hvn
    obtain ⟨u, hu, e, he, hev⟩ := inv.has_parent v hv0 hvn
    refine ⟨u, hu, e, he, hev, ?_⟩
    intro u2 hu2 e2 he2 he2v
    exact inv.parent_unique u2 u e2 e hu2 hu he2 he (by rw [he2v, hev])
  · intro u hu
    have hs := inv.sorted u hu
    have h1 : (((BaseTrie.construct D).maps.getD u []).map Prod.fst).Nodup := by
      unfold List.Nodup
      rw [List.pairwise_map]
      exact hs.imp (fun h => ne_of_lt h)
    exact ⟨h1, List.Nodup.of_map _ h1⟩

/-! ## The automaton is the quotient of the trie by right languages -/

/-- Two lists in strict label order with the same entries are equal. -/
theorem sorted_rows_ext (l1 l2 : List (Byte × Int))
    (h1 : l1.Pairwise (fun a b => a.1 < b.1)) (h2 : l2.Pairwise (fun a b => a.1 < b.1))
    (h : ∀ x, x ∈ l1 ↔ x ∈ l2) : l1 = l2 := by
  have n1 : l1.Nodup := h1.imp (fun hab heq => by rw [heq] at hab; exact lt_irrefl _ hab)
  have n2 : l2.Nodup := h2.imp (fun hab heq => by rw [heq] at hab; exact lt_irrefl _ hab)
  have hperm : l1.Perm l2 := (List.perm_ext_iff_of_nodup n1 n2).mpr h
  haveI : IsAntisymm (Byte × Int) (fun a b => a.1 ≤ b.1 ∧ (a.1 = b.1 → a = b)) :=
    ⟨fun a b h1 h2 => h1.2 (le_antisymm h1.1 h2.1)⟩
  exact List.eq_of_perm_of_sorted (r := fun a b : Byte × Int => a.1 ≤ b.1 ∧ (a.1 = b.1 → a = b))
    hperm
    (h1.imp_of_mem (fun _ _ hab =>
      ⟨le_of_lt hab, fun he => by rw [he] at hab; exact absurd hab (lt_irrefl _)⟩))
    (h2.imp_of_mem (fun _ _ hab =>
      ⟨le_of_lt hab, fun he => by rw [he] at hab; exact absurd hab (lt_irrefl _)⟩))

/-- Trie nodes with the same right language are mapped to the same state. -/
theorem state_of_language (t : BaseTrie) (inv : TrieInv t) : ∀ (k u v : Nat),
    u < t.node_count → v < t.node_count → (t.node_count - u) + (t.node_count - v) ≤ k →
    (∀ s, BaseTrie.search_from t.maps (u : Int) s = BaseTrie.search_from t.maps (v : Int) s) →
    adfa_state t.to_vector u = adfa_state t.to_vector v := by
  intro k
  induction k with
  | zero => intro u v hu hv hk; omega
  | succ k ih =>
    intro u v hu hv hk hlang
    have spec := adfa_spec t inv
    apply adfa_state_of_edges t inv u v hu hv
    rw [spec.state_edges u hu, spec.state_edges v hv]
    have half : ∀ (a b : Nat), a < t.node_count → b < t.node_count →
        (t.node_count - a) + (t.node_count - b) ≤ k + 1 →
        (∀ s, BaseTrie.search_from t.maps (a : Int) s = BaseTrie.search_from t.maps (b : Int) s) →
        ∀ x, x ∈ (t.maps.getD a []).map (fun e => (e.1, adfa_state t.to_vector e.2.toNat)) →
          x ∈ (t.maps.getD b []).map (fun e => (e.1, adfa_state t.to_vector e.2.toNat)) := by
      intro a b ha hb hab hl x hx
      obtain ⟨e, he, rfl⟩ := List.mem_map.mp hx
      have hup := inv.edge_up a ha e he
      have hx1 : e.2 = ((e.2.toNat : Nat) : Int) := by omega
      obtain ⟨s, hs⟩ := trie_reach_leaf t inv _ e.2.toNat (by omega) (le_refl _)
      have hstep := trie_search_step t inv a ha e he
      have hacc : BaseTrie.search_from t.maps (b : Int) (e.1 :: s) = true := by
        rw [← hl, hstep, hx1]
        exact hs
      have hfound : MapVector.search t.maps (b : Int) e.1 ≠ NOT_FOUND := by
        intro hnf
        simp only [BaseTrie.search_from, hnf, if_true] at hacc
        exact absurd hacc (by simp)
      obtain ⟨hmem, _, hlt, hlt2⟩ := trie_search_found t inv b e.1 hfound
      have hstep2 := trie_search_step t inv b hb _ hmem
      simp only [] at hstep2
      have hx2 : MapVector.search t.maps (b : Int) e.1
          = (((MapVector.search t.maps (b : Int) e.1).toNat : Nat) : Int) := by omega
      have hchild : adfa_state t.to_vector e.2.toNat
          = adfa_state t.to_vector (MapVector.search t.maps (b : Int) e.1).toNat := by
        apply ih _ _ (by omega) (by omega) (by omega)
        intro s2
        rw [← hx1, ← hx2, ← hstep, ← hstep2]
        exact hl _
      refine List.mem_map.mpr ⟨(e.1, MapVector.search t.maps (b : Int) e.1), hmem, ?_⟩
      simp only [hchild]
    apply sorted_rows_ext
    · rw [List.pairwise_map]
      exact inv.sorted u hu
    · rw [List.pairwise_map]
      exact inv.sorted v hv
    · intro x
      exact ⟨half u v hu hv hk hlang x,
        half v u hv hu (by omega) (fun s => (hlang s).symm) x⟩

/-- Two trie nodes are mapped to the same state exactly when their right
languages are equal. -/
theorem state_eq_iff_language (t : BaseTrie) (inv : TrieInv t) (u v : Nat)
    (hu : u < t.node_count) (hv : v < t.node_count) :
    adfa_state t.to_vector u = adfa_state t.to_vector v ↔
      right_language t.maps u = right_language t.maps v := by
  have spec := adfa_spec t inv
  constructor
  · intro h
    ext s
    simp only [right_language, Set.mem_setOf_eq]
    rw [← adfa_search_from_eq t inv spec s u hu, ← adfa_search_from_eq t inv spec s v hv, h]
  · intro h
    apply state_of_language t inv _ u v hu hv (le_refl _)
    intro s
    have h1 : s ∈ right_language t.maps u ↔ s ∈ right_language t.maps v := by rw [h]
    simp only [right_language, Set.mem_setOf_eq] at h1
    cases hb : BaseTrie.search_from t.maps (u : Int) s with
    | true => exact (h1.mp hb).symm
    | false =>
      cases hb2 : BaseTrie.search_from t.maps (v : Int) s with
      | false => rfl
      | true => rw [h1.mpr hb2] at hb; exact absurd hb (by simp)

/-- **C24.** The automaton is the minimal one: for every `D`, two nodes of
`BaseTrie(D)` are mapped to the same state of `BaseADFA` if and only if the sets
of byte strings that lead from them to a leaf are equal, and the number of
states of `BaseADFA` is the number of distinct right languages of trie nodes. -/
theorem BaseADFA_right_languages (D : List (List Byte)) :
    (∀ u v, u < (BaseTrie.construct D).node_count → v < (BaseTrie.construct D).node_count →
      (adfa_state (BaseTrie.construct D).to_vector u = adfa_state (BaseTrie.construct D).to_vector v
        ↔ right_language (BaseTrie.construct D).maps u
            = right_language (BaseTrie.construct D).maps v)) ∧
    (BaseADFA.construct (BaseTrie.construct D)).maps.length
      = Set.ncard (Set.image (right_language (BaseTrie.construct D).maps)
          {v | v < (BaseTrie.construct D).node_count}) := by
  have inv := (construct_spec D).1
  have spec := adfa_spec _ inv
  refine ⟨fun u v hu hv => state_eq_iff_language _ inv u v hu hv, ?_⟩
  generalize BaseTrie.construct D = t at inv spec
  have himg : Set.image (right_language t.maps) {v | v < t.node_count}
      = Set.image (fun q : Nat => {s | BaseADFA.search_from (BaseADFA.construct t).maps (q : Int) s
          = true}) (Set.Iio (BaseADFA.construct t).maps.length) := by
    ext L
    simp only [Set.mem_image, Set.mem_setOf_eq, Set.mem_Iio]
    constructor
    · rintro ⟨v, hv, rfl⟩
      have hr := spec.state_range v hv
      refine ⟨(adfa_state t.to_vector v).toNat, by omega, ?_⟩
      ext s
      simp only [right_language, Set.mem_setOf_eq]
      rw [← adfa_search_from_eq t inv spec s v hv]
      have : ((adfa_state t.to_vector v).toNat : Int) = adfa_state t.to_vector v := by omega
      rw [this]
    · rintro ⟨q, hq, rfl⟩
      obtain ⟨v, hv, hvq⟩ := spec.state_onto q hq
      refine ⟨v, hv, ?_⟩
      ext s
      simp only [right_language, Set.mem_setOf_eq]
      rw [← adfa_search_from_eq t inv spec s v hv, hvq]
  rw [himg, Set.ncard_image_of_injOn, ← Finset.coe_range, Set.ncard_coe_Finset, Finset.card_range]
  intro q1 hq1 q2 hq2 heq
  simp only [Set.mem_Iio] at hq1 hq2
  obtain ⟨v1, hv1, hvq1⟩ := spec.state_onto q1 hq1
  obtain ⟨v2, hv2, hvq2⟩ := spec.state_onto q2 hq2
  have hst : adfa_state t.to_vector v1 = adfa_state t.to_vector v2 := by
    apply state_of_language t inv _ v1 v2 hv1 hv2 (le_refl _)
    intro s
    rw [← adfa_search_from_eq t inv spec s v1 hv1, ← adfa_search_from_eq t inv spec s v2 hv2,
      hvq1, hvq2]
    have heq2 : {s | BaseADFA.search_from (BaseADFA.construct t).maps (q1 : Int) s = true}
        = {s | BaseADFA.search_from (BaseADFA.construct t).maps (q2 : Int) s = true} := heq
    have h2 : (BaseADFA.search_from (BaseADFA.construct t).maps (q1 : Int) s = true) ↔
        (BaseADFA.search_from (BaseADFA.construct t).maps (q2 : Int) s = true) := by
      show s ∈ {s | BaseADFA.search_from (BaseADFA.construct t).maps (q1 : Int) s = true} ↔
        s ∈ {s | BaseADFA.search_from (BaseADFA.construct t).maps (q2 : Int) s = true}
      rw [heq2]
    cases hb : BaseADFA.search_from (BaseADFA.construct t).maps (q1 : Int) s with
    | true => exact (h2.mp hb).symm
    | false =>
      cases hb2 : BaseADFA.search_from (BaseADFA.construct t).maps (q2 : Int) s with
      | false => rfl
      | true => rw [h2.mpr hb2] at hb; exact absurd hb (by simp)
  rw [hvq1, hvq2] at hst
  exact_mod_cast hst

/-! ## Bases are assigned first-fit -/

theorem cell_free_iff (maps : DoubleArrayMaps) (hl : maps.next.length = maps.check.length)
    (b : Nat) (key : Byte) : cell_free maps b key ↔ maps.chk (b + key.val) = NULL_CHAR := by
  unfold cell_free
  constructor
  · rintro (h | h)
    · exact chk_null_above maps hl _ h
    · exact h
  · intro h
    exact Or.inr h

/-- The search for a base returns the first candidate that fits. -/
theorem find_base_least (edges : List (Byte × Int)) :
    ∀ (fuel : Nat) (maps : DoubleArrayMaps) (cur : Nat) (maps2 : DoubleArrayMaps) (cur2 : Nat),
    maps.next.length = maps.check.length →
    find_base edges fuel maps cur = some (maps2, cur2) → FirstFit maps cur edges cur2 := by
  intro fuel
  induction fuel with
  | zero => intro maps cur maps2 cur2 _ h; simp [find_base] at h
  | succ fuel ih =>
    intro maps cur maps2 cur2 hl h
    obtain ⟨t1, t2, t3, t4, t5, t6⟩ := try_base_spec cur edges maps hl
    simp only [find_base] at h
    cases htry : try_base cur maps edges with
    | mk m ok =>
      rw [htry] at h t1 t2 t3 t4 t5 t6
      cases ok with
      | true =>
        simp only [Option.some.injEq, Prod.mk.injEq] at h
        obtain ⟨_, rfl⟩ := h
        refine ⟨le_refl _, ?_, fun b2 h1 h2 => by omega⟩
        intro e he
        exact (cell_free_iff maps hl _ _).mpr (t5 rfl e he).2
      | false =>
        simp only [] at h
        obtain ⟨f1, f2, f3⟩ := ih m (cur + 1) maps2 cur2 t1 h
        have hsame : ∀ b k, cell_free m b k ↔ cell_free maps b k := by
          intro b k
          rw [cell_free_iff m t1, cell_free_iff maps hl, t3]
        refine ⟨by omega, fun e he => (hsame _ _).mp (f2 e he), ?_⟩
        intro b2 h1 h2
        by_cases hb : b2 = cur
        · subst hb
          obtain ⟨e, he, hne⟩ := t6 rfl
          exact ⟨e, he, fun hc => hne ((cell_free_iff maps hl _ _).mp hc)⟩
        · obtain ⟨e, he, hne⟩ := f3 b2 (by omega) h2
          exact ⟨e, he, fun hc => hne ((hsame _ _).mpr hc)⟩

theorem commit_verbatim_length (cur : Nat) : ∀ (edges : List (Byte × Int))
    (maps : DoubleArrayMaps),
    (commit_verbatim cur maps edges).next.length = maps.next.length ∧
    (commit_verbatim cur maps edges).check.length = maps.check.length := by
  intro edges
  induction edges with
  | nil => intro maps; exact ⟨rfl, rfl⟩
  | cons e rest ih =>
    intro maps
    unfold commit_verbatim
    simp only [List.foldl_cons]
    have := ih { next := maps.next.set (cur + e.1.val) e.2,
                 check := maps.check.set (cur + e.1.val) e.1 }
    unfold commit_verbatim at this
    simp only [List.length_set] at this
    exact this

theorem commit_reindex_length (cur : Nat) : ∀ (edges : List (Byte × Int))
    (st : DoubleArrayMaps × List (List Nat)),
    (commit_reindex cur st edges).1.next = st.1.next ∧
    (commit_reindex cur st edges).1.check.length = st.1.check.length := by
  intro edges
  induction edges with
  | nil => intro st; exact ⟨rfl, rfl⟩
  | cons e rest ih =>
    intro st
    unfold commit_reindex
    simp only [List.foldl_cons]
    have := ih ({ next := st.1.next, check := st.1.check.set (cur + e.1.val) e.1 },
      if has_tail_flag e.2 then st.2
      else st.2.modify (fun cells => cells ++ [cur + e.1.val]) e.2.toNat)
    unfold commit_reindex at this
    simp only [List.length_set] at this
    exact this

/-- One round of `construct_without_reindexing`, on any edge list: the search
for a base ends with the first fit. -/
theorem without_step_fit (st : WithoutState) (edges : List (Byte × Int))
    (hl : st.maps.next.length = st.maps.check.length) :
    ∃ st2 b, without_step st edges = some st2 ∧ FirstFit st.maps st.cur edges b ∧
      st2.maps.next.length = st2.maps.check.length ∧
      st2.curs = st.curs.set st.i (b : Int) ∧ st2.cur = b + 1 ∧ st2.i = st.i + 1 := by
  obtain ⟨maps2, cur2, f0, _, f2, _, _, _, _⟩ := find_base_spec edges
    st.maps.next.length (st.maps.next.length + 1) st.maps st.cur hl
    (chk_null_above st.maps hl) (by omega)
  have hfit := find_base_least edges _ _ _ _ _ hl f0
  obtain ⟨c1, c2⟩ := commit_verbatim_length cur2 edges maps2
  refine ⟨{ maps := commit_verbatim cur2 maps2 edges, curs := st.curs.set st.i (cur2 : Int),
            cur := cur2 + 1, i := st.i + 1 }, cur2, ?_, hfit, ?_, rfl, rfl, rfl⟩
  · unfold without_step
    rw [f0]
  · show (commit_verbatim cur2 maps2 edges).next.length
      = (commit_verbatim cur2 maps2 edges).check.length
    rw [c1, c2, f2]

/-- One round of `construct_with_reindexing`, on any edge list: the search for
a base ends with the first fit. -/
theorem with_step_fit (st : WithState) (edges : List (Byte × Int))
    (hl : st.maps.next.length = st.maps.check.length) :
    ∃ st2 b, with_step st edges = some st2 ∧ FirstFit st.maps st.cur edges b ∧
      st2.maps.next.length = st2.maps.check.length ∧
      st2.curs = st.curs.set st.i (b : Int) ∧ st2.cur = b + 1 ∧ st2.i = st.i + 1 := by
  obtain ⟨maps2, cur2, f0, _, f2, _, _, _, _⟩ := find_base_spec edges
    st.maps.next.length (st.maps.next.length + 1) st.maps st.cur hl
    (chk_null_above st.maps hl) (by omega)
  have hfit := find_base_least edges _ _ _ _ _ hl f0
  obtain ⟨c1, c2⟩ := commit_reindex_length cur2 edges (maps2, st.inv)
  obtain ⟨p1, p2⟩ := patch_check cur2
    ((commit_reindex cur2 (maps2, st.inv) edges).2.getD st.i [])
    (commit_reindex cur2 (maps2, st.inv) edges).1
  refine ⟨{ maps := ((commit_reindex cur2 (maps2, st.inv) edges).2.getD st.i []).foldl
              (fun (m : DoubleArrayMaps) idx =>
                { next := m.next.set idx (cur2 : Int), check := m.check })
              (commit_reindex cur2 (maps2, st.inv) edges).1,
            inv := (commit_reindex cur2 (maps2, st.inv) edges).2,
            curs := st.curs.set st.i (cur2 : Int),
            cur := cur2 + 1, i := st.i + 1 }, cur2, ?_, hfit, ?_, rfl, rfl, rfl⟩
  · unfold with_step
    rw [f0]
  · simp only []
    rw [p2, p1, c1, c2]
    exact f2

/-- The outer loop of either construction, seen through its rounds: it ends,
and the bases it returns are assigned first-fit. -/
theorem first_fit_loop {α : Type} (step : α → List (Byte × Int) → Option α)
    (loop : List (List (Byte × Int)) → α → Option α)
    (mp : α → DoubleArrayMaps) (cs : α → List Int) (cu : α → Nat) (ix : α → Nat)
    (hnil : ∀ st, loop [] st = some st)
    (hcons : ∀ e r st, loop (e :: r) st = (step st e).bind (loop r))
    (hstep : ∀ st edges, (mp st).next.length = (mp st).check.length →
      ∃ st2 b, step st edges = some st2 ∧ FirstFit (mp st) (cu st) edges b ∧
        (mp st2).next.length = (mp st2).check.length ∧
        cs st2 = (cs st).set (ix st) (b : Int) ∧ cu st2 = b + 1 ∧ ix st2 = ix st + 1)
    (data : Adjacency) (init : α)
    (h0 : (mp init).next.length = (mp init).check.length)
    (hfree : ∀ b k, cell_free (mp init) b k)
    (hcs : (cs init).length = data.length) (hcu : cu init = 0) (hix : ix init = 0) :
    ∃ fin, loop data init = some fin ∧
      FirstFitBases data (cs fin)
        (fun i => (loop (data.take i) init).map (fun st => (mp st, cu st))) := by
  have happ : ∀ (a : List (List (Byte × Int))) (e : List (Byte × Int)) (st : α),
      loop (a ++ [e]) st = (loop a st).bind (fun s => step s e) := by
    intro a
    induction a with
    | nil =>
      intro e st
      rw [List.nil_append, hcons, hnil, Option.some_bind]
      cases step st e with
      | none => rfl
      | some s => simp [hnil]
    | cons x a ih =>
      intro e st
      rw [List.cons_append, hcons, hcons]
      cases step st x with
      | none => rfl
      | some s => simp [ih]
  have key : ∀ i, i ≤ data.length → ∃ st, loop (data.take i) init = some st ∧ ix st = i ∧
      (mp st).next.length = (mp st).check.length ∧ (cs st).length = data.length ∧
      (i = 0 → cu st = 0) ∧ (∀ k, i = k + 1 → (cu st : Int) = (cs st).getD k 0 + 1) ∧
      (∀ u, u < i → (cs st).getD u 0 < (cu st : Int)) ∧
      (∀ u v, u < v → v < i → (cs st).getD u 0 < (cs st).getD v 0) ∧
      (0 < i → (cs st).getD 0 0 = 0) ∧
      (∀ k, k < i → ∃ (stk : α) (b : Nat), loop (data.take k) init = some stk ∧
        (cs st).getD k 0 = (b : Int) ∧ (k = 0 → cu stk = 0) ∧
        (∀ m, k = m + 1 → (cu stk : Int) = (cs st).getD m 0 + 1) ∧
        FirstFit (mp stk) (cu stk) (data.getD k []) b) := by
    intro i
    induction i with
    | zero =>
      intro _
      refine ⟨init, by rw [List.take_zero, hnil], hix, h0, hcs, fun _ => hcu,
        fun k hk => by omega, fun u hu => by omega, fun u v _ hv => by omega,
        fun h => by omega, fun k hk => by omega⟩
    | succ i ih =>
      intro hi
      obtain ⟨st, a1, a2, a3, a4, a5, a6, a7, a8, a9, a10⟩ := ih (by omega)
      obtain ⟨st2, b, s1, s2, s3, s4, s5, s6⟩ := hstep st (data.getD i []) a3
      have hset : ∀ q, (cs st2).getD q 0 = if q = i then (b : Int) else (cs st).getD q 0 := by
        intro q
        rw [s4, a2]
        exact getD_set_eq _ _ _ _ _ (by omega)
      have hb0 : i = 0 → b = 0 := by
        intro hi0
        by_contra hne
        have hst : st = init := by
          subst hi0
          rw [List.take_zero, hnil] at a1
          exact (Option.some.inj a1).symm
        obtain ⟨e, _, hnf⟩ := s2.2.2 0 (by rw [a5 hi0]) (by omega)
        rw [hst] at hnf
        exact hnf (hfree _ _)
      refine ⟨st2, ?_, by rw [s6, a2], s3, by rw [s4, List.length_set, a4], fun h => by omega,
        ?_, ?_, ?_, ?_, ?_⟩
      · rw [take_succ_getD data i [] (by omega), happ, a1]
        exact s1
      · intro k hk
        have : k = i := by omega
        subst this
        rw [hset, if_pos rfl, s5]
        push_cast
        rfl
      · intro u hu
        rw [hset, s5]
        by_cases hui : u = i
        · rw [if_pos hui]
          push_cast
          omega
        · rw [if_neg hui]
          have := a7 u (by omega)
          have := s2.1
          push_cast
          omega
      · intro u v huv hv
        rw [hset, hset, if_neg (by omega)]
        by_cases hvi : v = i
        · rw [if_pos hvi]
          have := a7 u (by omega)
          have := s2.1
          omega
        · rw [if_neg hvi]
          exact a8 u v huv (by omega)
      · intro _
        rw [hset]
        by_cases hi0 : 0 = i
        · rw [if_pos hi0, hb0 hi0.symm]
          rfl
        · rw [if_neg hi0]
          exact a9 (by omega)
      · intro k hk
        by_cases hki : k = i
        · subst hki
          refine ⟨st, b, a1, by rw [hset, if_pos rfl], a5, ?_, s2⟩
          intro m hm
          rw [hset, if_neg (by omega)]
          exact a6 m hm
        · obtain ⟨stk, bk, q1, q2, q3, q4, q5⟩ := a10 k (by omega)
          refine ⟨stk, bk, q1, by rw [hset, if_neg hki]; exact q2, q3, ?_, q5⟩
          intro m hm
          rw [hset, if_neg (by omega)]
          exact q4 m hm
  obtain ⟨fin, a1, _, _, a4, _, _, _, a8, a9, a10⟩ := key data.length (le_refl _)
  rw [List.take_length] at a1
  refine ⟨fin, a1, a4, a9, fun i j hij hj => a8 i j hij hj, ?_⟩
  intro i hi
  obtain ⟨stk, b, q1, q2, q3, q4, q5⟩ := a10 i hi
  exact ⟨mp stk, cu stk, b, by rw [q1]; rfl, q2, q3, q4, q5⟩

theorem mk0_free (n b : Nat) (k : Byte) : cell_free (DoubleArrayMaps.mk0 n) b k := by
  unfold cell_free DoubleArrayMaps.mk0
  simp only [resize, List.take_nil, List.nil_append, List.length_nil, Nat.sub_zero,
    List.length_replicate]
  by_cases h : b + k.val < n
  · right
    rw [List.getD_eq_getElem _ _ (by simpa using h)]
    simp
  · left
    omega

theorem mk0_length (n : Nat) :
    (DoubleArrayMaps.mk0 n).next.length = (DoubleArrayMaps.mk0 n).check.length := by
  simp [DoubleArrayMaps.mk0, length_resize]

/-- The bases of `construct_without_reindexing`, for any adjacency list. -/
theorem without_first_fit (data : Adjacency) :
    ∃ maps base, construct_without_reindexing data = some (maps, base) ∧
      FirstFitBases data base
        (fun i => (without_loop (data.take i) (without_init data)).map
          (fun st => (st.maps, st.cur))) := by
  obtain ⟨fin, h1, h2⟩ := first_fit_loop without_step without_loop
    (fun st => st.maps) (fun st => st.curs) (fun st => st.cur) (fun st => st.i)
    (fun st => rfl)
    (fun e r st => by
      show (match without_step st e with | none => none | some s => without_loop r s) = _
      cases without_step st e <;> rfl)
    without_step_fit data (without_init data) (mk0_length _) (mk0_free _)
    (by simp [without_init]) rfl rfl
  refine ⟨fin.maps, fin.curs, ?_, h2⟩
  show (match without_loop data (without_init data) with
    | none => none
    | some st => some (st.maps, st.curs)) = some (fin.maps, fin.curs)
  rw [h1]

/-- The bases of `construct_with_reindexing`, for any adjacency list. -/
theorem with_first_fit (data : Adjacency) :
    ∃ maps base, construct_with_reindexing data = some (maps, base) ∧
      FirstFitBases data base
        (fun i => (with_loop (data.take i) (with_init data)).map
          (fun st => (st.maps, st.cur))) := by
  obtain ⟨fin, h1, h2⟩ := first_fit_loop with_step with_loop
    (fun st => st.maps) (fun st => st.curs) (fun st => st.cur) (fun st => st.i)
    (fun st => rfl)
    (fun e r st => by
      show (match with_step st e with | none => none | some s => with_loop r s) = _
      cases with_step st e <;> rfl)
    with_step_fit data (with_init data) (mk0_length _) (mk0_free _)
    (by simp [with_init]) rfl rfl
  refine ⟨fin.maps, fin.curs, ?_, h2⟩
  show (match with_loop data (with_init data) with
    | none => none
    | some st => some (st.maps, st.curs)) = some (fin.maps, fin.curs)
  rw [h1]

/-- **C25.** First-fit base assignment: for every adjacency list both
double-array constructions end and return bases with `base(0) = 0`, strictly
increasing in the node index, where for every `i ≥ 1` `base(i)` is the smallest
`b ≥ base(i-1) + 1` such that for every label `c` of node `i` the cell `b + c`
is beyond the arrays or has `check[b+c] == NULL_CHAR`, in the arrays as they
are when node `i` is about to be placed; and the assertion `cor[0] == 0` of
`DoubleArrayTrie` and `DoubleArrayADFA` holds for every dictionary. -/
theorem double_array_first_fit (data : Adjacency) :
    (∃ maps base, construct_without_reindexing data = some (maps, base) ∧
      FirstFitBases data base
        (fun i => (without_loop (data.take i) (without_init data)).map
          (fun st => (st.maps, st.cur)))) ∧
    (∃ maps base, construct_with_reindexing data = some (maps, base) ∧
      FirstFitBases data base
        (fun i => (with_loop (data.take i) (with_init data)).map
          (fun st => (st.maps, st.cur)))) ∧
    (∀ D : List (List Byte), (DoubleArrayTrie.construct (BaseTrie.construct D)).isSome = true ∧
      (DoubleArrayADFA.construct (BaseADFA.construct (BaseTrie.construct D))).isSome = true) := by
  refine ⟨without_first_fit data, with_first_fit data, ?_⟩
  intro D
  constructor
  · obtain ⟨maps, base, h1, h2⟩ := with_first_fit (BaseTrie.construct D).to_vector
    have hpos : 0 < (BaseTrie.construct D).to_vector.length := by
      have inv := (construct_spec D).1
      have hdata : (BaseTrie.construct D).to_vector = (BaseTrie.construct D).maps :=
        to_vector_eq _
      rw [hdata, inv.len]
      exact inv.count_pos
    unfold DoubleArrayTrie.construct
    simp only [h1]
    rw [if_neg (by rw [h2.first hpos]; simp)]
    rfl
  · obtain ⟨maps, base, h1, h2⟩ := with_first_fit
      (BaseADFA.construct (BaseTrie.construct D)).to_vector
    have hpos : 0 < (BaseADFA.construct (BaseTrie.construct D)).to_vector.length := by
      have spec := adfa_spec _ (construct_spec D).1
      have hdata : (BaseADFA.construct (BaseTrie.construct D)).to_vector
          = (BaseADFA.construct (BaseTrie.construct D)).maps := to_vector_eq _
      rw [hdata]
      exact spec.size_pos
    unfold DoubleArrayADFA.construct
    simp only [h1]
    rw [if_neg (by rw [h2.first hpos]; simp)]
    rfl

/-! ## The heavy-path automaton over sorted arrays against the one over maps -/

/-- `STLMap::insert` keeps the entries in strict key order, whether or not the
key is there. -/
theorem STLMap.insert_sorted (k : Byte) (v : Int) : ∀ (m : STLMap),
    m.Pairwise (fun a b => a.1 < b.1) →
    (STLMap.insert m k v).Pairwise (fun a b => a.1 < b.1) ∧
    ∀ x ∈ STLMap.insert m k v, x.1 = k ∨ x ∈ m := by
  intro m
  induction m with
  | nil =>
    intro _
    simp [STLMap.insert]
  | cons e rest ih =>
    intro hs
    obtain ⟨k0, v0⟩ := e
    rw [List.pairwise_cons] at hs
    obtain ⟨h1, h2⟩ := ih hs.2
    simp only [STLMap.insert]
    by_cases hlt : k < k0
    · rw [if_pos hlt]
      refine ⟨?_, ?_⟩
      · rw [List.pairwise_cons, List.pairwise_cons]
        refine ⟨?_, hs.1, hs.2⟩
        intro x hx
        rcases List.mem_cons.mp hx with rfl | hx
        · exact hlt
        · exact lt_trans hlt (hs.1 x hx)
      · intro x hx
        rcases List.mem_cons.mp hx with rfl | hx
        · exact Or.inl rfl
        · exact Or.inr hx
    · rw [if_neg hlt]
      by_cases heq : k = k0
      · rw [if_pos heq]
        refine ⟨?_, ?_⟩
        · rw [List.pairwise_cons]
          refine ⟨?_, hs.2⟩
          intro x hx
          rw [heq]
          exact hs.1 x hx
        · intro x hx
          rcases List.mem_cons.mp hx with rfl | hx
          · exact Or.inl rfl
          · exact Or.inr (List.mem_cons_of_mem _ hx)
      · rw [if_neg heq]
        have hgt : k0 < k := lt_of_le_of_ne (not_lt.mp hlt) (Ne.symm heq)
        refine ⟨?_, ?_⟩
        · rw [List.pairwise_cons]
          refine ⟨?_, h1⟩
          intro x hx
          rcases h2 x hx with hk | hx
          · rw [hk]; exact hgt
          · exact hs.1 x hx
        · intro x hx
          rcases List.mem_cons.mp hx with rfl | hx
          · exact Or.inr (List.mem_cons_self _ _)
          · rcases h2 x hx with hk | hx
            · exact Or.inl hk
            · exact Or.inr (List.mem_cons_of_mem _ hx)

theorem insert_fold_sorted : ∀ (row : List (Byte × Int)) (acc : STLMap),
    acc.Pairwise (fun a b => a.1 < b.1) →
    (row.foldl (fun m e => STLMap.insert m e.1 e.2) acc).Pairwise (fun a b => a.1 < b.1) := by
  intro row
  induction row with
  | nil => intro acc h; exact h
  | cons e row ih =>
    intro acc h
    simp only [List.foldl_cons]
    exact ih _ (STLMap.insert_sorted e.1 e.2 acc h).1

/-- Every row of a map vector built by `construct_maps` is in strict key
order. -/
theorem construct_maps_sorted (data : Adjacency) :
    ∀ row ∈ construct_maps data, row.Pairwise (fun a b => a.1 < b.1) := by
  intro row hrow
  rw [construct_maps_rows] at hrow
  obtain ⟨r, _, rfl⟩ := List.mem_map.mp hrow
  exact insert_fold_sorted r [] List.Pairwise.nil

/-- Over rows in strict key order the lookup in the sorted arrays returns what
the lookup in the maps returns. -/
theorem bsearch_eq_map_search (data : Adjacency)
    (hs : ∀ row ∈ data, row.Pairwise (fun a b => a.1 < b.1)) (u : Nat) (hu : u < data.length)
    (c : Byte) :
    (static_construct data).search u c = some (MapVector.search data (u : Int) c) := by
  have hd : ∀ edges ∈ data, (edges.map Prod.fst).Nodup := by
    intro edges he
    unfold List.Nodup
    rw [List.pairwise_map]
    exact (hs edges he).imp (fun h => ne_of_lt h)
  have hmem : data.getD u [] ∈ data := by
    rw [List.getD_eq_getElem _ _ hu]; exact List.getElem_mem hu
  obtain ⟨h1, h2⟩ := bsearch_search_spec data hd u hu c
  rw [MapVector.search_nat]
  by_cases hex : ∃ t, (c, t) ∈ data.getD u []
  · obtain ⟨t, ht⟩ := hex
    rw [h1 t ht, STLMap.mem_search c t _ (hs _ hmem) ht]
  · have hno : ∀ t, (c, t) ∉ data.getD u [] := fun t ht => hex ⟨t, ht⟩
    rw [h2 hno, STLMap.search_absent c _ (fun x hx hxc => hno x.2 (by rw [← hxc]; exact hx))]

/-- As long as the walk does not pass the sink before the query ends, the loop
of `PathDecomposedBinarySearchADFA::search` ends as the loop of
`PathDecomposedADFA::search` does. -/
theorem pdbs_walk_eq (data : Adjacency) (heavy_str : List Byte) (maps : MapVector)
    (pos : Nat → Nat) (spec : PDSpec data heavy_str maps pos) (jh jl : Nat → Byte)
    (line : List Byte) (hline : ∀ c ∈ line, c ≠ NULL_CHAR) (bmaps : BinarySearchMaps)
    (snk : Nat) (hsnk : snk < data.length)
    (hinj : ∀ u v, u < data.length → v < data.length → pos u = pos v → u = v)
    (hbs : ∀ v, v < data.length → ∀ c,
      bmaps.search (pos v) c = some (MapVector.search maps (pos v : Int) c)) :
    ∀ (fuel : Nat) (suf pre : List Byte) (v : Nat), line = pre ++ suf → suf.length < fuel →
    v < data.length →
    (∀ p q, suf = p ++ q → q ≠ [] → walk data (v : Int) p ≠ some (snk : Int)) →
    pdbs_walk heavy_str bmaps (pos snk : Int) jh jl line fuel pre.length (pos v : Int)
      = pd_walk heavy_str maps jh jl line fuel pre.length (pos v : Int) := by
  intro fuel
  induction fuel with
  | zero => intro suf pre v _ h; omega
  | succ fuel ih =>
    intro suf pre v hl hf hv hns
    have hlen : line.length = pre.length + suf.length := by rw [hl]; simp
    simp only [pd_walk, pdbs_walk]
    by_cases hi : pre.length < line.length
    swap
    · rw [if_neg hi, if_neg hi]
    rw [if_pos hi, if_pos hi]
    simp only [Int.toNat_ofNat]
    have hrem : line.length - pre.length = suf.length := by omega
    rw [hrem]
    obtain ⟨l1, l2, l3⟩ := get_lcp_spec heavy_str jh (pos v) line jl pre.length suf.length
    generalize get_lcp heavy_str jh (pos v) line jl pre.length suf.length = k at l1 l2 l3
    have hline_at : ∀ j, j < suf.length → some (byteAt line jl (pre.length + j)) = suf[j]? := by
      intro j hj
      rw [byteAt_inb _ _ _ (by omega), hl, List.getElem?_append_right (by omega)]
      congr 1
      omega
    have hnn : ∀ c ∈ suf, c ≠ NULL_CHAR := fun c hc => hline c (by rw [hl]; simp [hc])
    obtain ⟨w, hw1, hw2, hw3⟩ := pd_heavy_run data heavy_str maps pos spec jh (suf.take k) v hv
      (fun c hc => hnn c (List.mem_of_mem_take hc))
      (fun j hj => by
        have hjk : j < k := by simp at hj; omega
        rw [l2 j hjk, hline_at j (by omega), list_take_getElem? _ _ _ hjk])
    have htl : (suf.take k).length = k := by simp; omega
    rw [htl] at hw3
    have hsplit : suf = suf.take k ++ suf.drop k := (List.take_append_drop k suf).symm
    have hnode : (pos v : Int) + (k : Int) = ((pos w : Nat) : Int) := by rw [hw3]; push_cast; rfl
    rw [hnode]
    by_cases hend : pre.length + k = line.length
    · rw [if_pos hend, if_pos (Or.inl hend)]
    · rw [if_neg hend]
      have hk : k < suf.length := by omega
      have hwne : w ≠ snk := by
        intro hcon
        apply hns (suf.take k) (suf.drop k) hsplit
        · intro hnil
          have := congrArg List.length hnil
          simp at this
          omega
        · rw [hw2, hcon]
      have hposne : ¬ ((pos w : Nat) : Int) = ((pos snk : Nat) : Int) := by
        intro hcon
        exact hwne (hinj w snk hw1 hsnk (by exact_mod_cast hcon))
      rw [if_neg (by
        intro hor
        rcases hor with h | h
        · exact hend h
        · exact hposne h)]
      simp only [Int.toNat_ofNat]
      rw [hbs w hw1]
      simp only []
      have hmis := l3 hk
      obtain ⟨c, rest, hcr⟩ : ∃ c rest, suf.drop k = c :: rest := by
        cases hd : suf.drop k with
        | nil =>
          have := congrArg List.length hd
          simp at this
          omega
        | cons c rest => exact ⟨c, rest, rfl⟩
      have hck : suf[k]? = some c := by
        have h0 : (suf.drop k)[0]? = suf[k]? := by
          rw [List.getElem?_drop]
          rfl
        rw [← h0, hcr]
        simp
      have hgetD : line.getD (pre.length + k) 0 = c := by
        have h1 := hline_at k hk
        rw [hck, byteAt_inb _ _ _ (by omega)] at h1
        rw [List.getD_eq_getElem?_getD, h1]
        rfl
      rw [hgetD]
      have hbyte : byteAt line jl (pre.length + k) = c := by
        have h1 := hline_at k hk
        rw [hck] at h1
        exact Option.some.inj h1
      rw [hbyte, hw3.symm] at hmis
      have hne : heavy_str[pos w]? ≠ some c := by
        rw [← byteAt_inb heavy_str jh _ (spec.pos_lt w hw1)]
        intro h
        exact hmis (Option.some.inj h)
      by_cases habs : MapVector.search data (w : Int) c = NOT_FOUND
      · have hall : ∀ e ∈ data.getD w [], e.1 ≠ c := by
          intro e he hec
          have hs := data_search_mem data w (spec.sorted w hw1) e he
          have hr := spec.range w hw1 e he
          rw [hec, habs] at hs
          unfold NOT_FOUND at hs
          omega
        rw [spec.light_absent w hw1 c hall, if_pos rfl, if_pos rfl]
      · have hmem : (c, MapVector.search data (w : Int) c) ∈ data.getD w [] := by
          rw [MapVector.search_nat] at habs ⊢
          exact STLMap.search_mem c _ habs
        have hr := spec.range w hw1 _ hmem
        have hfound := spec.light_found w hw1 _ hmem hne
        simp only [] at hfound hr
        rw [hfound, if_neg (by unfold NOT_FOUND; omega), if_neg (by unfold NOT_FOUND; omega)]
        have hx : MapVector.search data (w : Int) c
            = (((MapVector.search data (w : Int) c).toNat : Nat) : Int) := by omega
        have h2 : suf = suf.take (k + 1) ++ rest := by
          have : suf.drop (k + 1) = rest := by
            have h3 : suf.drop (k + 1) = (suf.drop k).drop 1 := by
              rw [List.drop_drop]
            rw [h3, hcr]
            rfl
          rw [← this]
          exact (List.take_append_drop (k + 1) suf).symm
        have htk1 : suf.take (k + 1) = suf.take k ++ [c] := by
          rw [List.take_succ, hck]
          rfl
        have hwalk1 : walk data (v : Int) (suf.take (k + 1))
            = some (MapVector.search data (w : Int) c) := by
          rw [htk1, walk_snoc]
          exact ⟨(w : Int), hw2, rfl, habs⟩
        have := ih rest (pre ++ suf.take (k + 1)) (MapVector.search data (w : Int) c).toNat
          (by
            rw [hl]
            conv_lhs => rw [h2]
            simp)
          (by
            have h1 := congrArg List.length hcr
            simp at h1
            omega)
          (by omega)
          (by
            intro p q hpq hq hcon
            apply hns (suf.take (k + 1) ++ p) q (by rw [List.append_assoc, ← hpq]; exact h2) hq
            rw [walk_append, hwalk1]
            simp only [Option.some_bind]
            rw [hx]
            exact hcon)
        have hpl : (pre ++ suf.take (k + 1)).length = pre.length + k + 1 := by
          simp
          omega
        rw [hpl] at this
        exact this

/-- The layout `PathDecomposedADFA` builds over an automaton whose edges
ascend, with the positions of its states. -/
theorem pdadfa_layout_spec (base : BaseADFA) (dag : DagOk base.maps) :
    ∃ pd pos, PathDecomposedADFA.construct base = some pd ∧
      PDSpec base.maps pd.heavy_str pd.maps pos ∧
      pd.root = ((pos 0 : Nat) : Int) ∧ pd.sink = ((pos (base.maps.length - 1) : Nat) : Int) ∧
      (∀ u v, u < base.maps.length → v < base.maps.length → pos u = pos v → u = v) ∧
      (∀ v, v < base.maps.length → pos v < pd.maps.length) ∧
      (∀ row ∈ pd.maps, row.Pairwise (fun a b => a.1 < b.1)) := by
  have hpos := dag.size_pos
  obtain ⟨hshape, hflags⟩ := adfa_flags_spec base.maps dag
  have hok := adfa_heavyOk base.maps dag _ hshape hflags
  obtain ⟨ps, hps, hdone⟩ := adfa_paths_spec _ _ hok
  have hrange : ∀ v, v < base.maps.length → ∀ e ∈ base.maps.getD v [],
      0 ≤ e.2 ∧ e.2 < (base.maps.length : Int) := by
    intro v hv e he
    have := dag.up v hv e he
    omega
  have hpd := pd_spec_of_layout _ _ _ ps dag.sorted hrange
    (adfa_lightSpec _ _ hshape hflags) hdone
  obtain ⟨_, p1, _, p0⟩ := paths_pos_spec _ _ ps hdone
  have hlen := paths_length _ _ ps hdone
  have hrows := light_rows_spec base.maps.length (adfa_light (adfa_flags base.maps))
    (heavy_path_inv base.maps.length ps.heavy_path) (fun v hv => (p1 v hv).2.2)
    (fun u v hu hv h => pd_pos_inj _ _ ps hdone u v hu hv h)
  refine ⟨{ root := (heavy_path_inv base.maps.length ps.heavy_path).getD 0 0,
            sink := (heavy_path_inv base.maps.length ps.heavy_path).getD
              (base.maps.length - 1) 0,
            heavy_str := ps.heavy_str,
            maps := construct_maps (adfa_light_edges base.maps.length (adfa_flags base.maps)
              (heavy_path_inv base.maps.length ps.heavy_path)) },
    pd_pos (heavy_path_inv base.maps.length ps.heavy_path), ?_, ?_, ?_, ?_, ?_, ?_, ?_⟩
  · unfold PathDecomposedADFA.construct BaseADFA.to_vector
    simp only [to_vector_eq, hps]
    rw [if_neg (by rw [hlen]; simp)]
  · simp only []
    rw [adfa_light_edges_eq]
    exact hpd
  · exact (p1 0 (by omega)).2.1
  · exact (p1 (base.maps.length - 1) (by omega)).2.1
  · exact fun u v hu hv h => pd_pos_inj _ _ ps hdone u v hu hv h
  · intro v hv
    simp only []
    rw [adfa_light_edges_eq, construct_maps_rows, List.length_map, hrows.1]
    exact (p1 v hv).2.2
  · exact construct_maps_sorted _

/-- A well-formed query passes through no accepted string before its end. -/
theorem no_early_sink (D : List (List Byte)) (hne : D ≠ []) (hwf : ∀ d ∈ D, WellFormed d)
    (s : List Byte) (hs : WellFormed s) (p q : List Byte) (hpq : s = p ++ q) (hq : q ≠ []) :
    walk (BaseADFA.construct (BaseTrie.construct D)).maps 0 p
      ≠ some ((((BaseADFA.construct (BaseTrie.construct D)).maps.length - 1 : Nat)) : Int) := by
  intro hcon
  have spec := adfa_spec _ (construct_spec D).1
  have hsearch : (BaseADFA.construct (BaseTrie.construct D)).search p = true := by
    unfold BaseADFA.search
    rw [adfa_search_from_eq_walk, hcon]
    simp only [MapVector.size, decide_eq_true_eq]
    have := spec.size_pos
    omega
  have hp := hwf p ((adfa_search_mem_iff D hne hwf p).mp hsearch)
  apply hs.2
  rw [hpq, List.dropLast_append_of_ne_nil _ hq]
  exact List.mem_append_left _ (wellFormed_eow_mem p hp)

/-- C21, the claim as worded fails: for `D = {a}` and the byte string
`a EOW x`, which runs on behind an accepted string, the loop of
`PathDecomposedBinarySearchADFA::search` ends at `node == sink` and the search
returns `true`, while `PathDecomposedADFA::search` looks up `x` from the sink
and returns `false`, whatever the memory holds behind `heavy_str` and the
query. -/
theorem PathDecomposedBinarySearchADFA_accepts_extension :
    ([[97, 1]] : List (List Byte)) ≠ [] ∧ (∀ d ∈ ([[97, 1]] : List (List Byte)), WellFormed d) ∧
    ∃ pd, PathDecomposedADFA.construct (BaseADFA.construct (BaseTrie.construct [[97, 1]]))
        = some pd ∧
      ∀ jh jl : Nat → Byte,
        (PathDecomposedBinarySearchADFA.construct pd).search jh jl [97, 1, 120] = some true ∧
        pd.search jh jl [97, 1, 120] = some false := by
  have hlcp : ∀ jh jl : Nat → Byte, get_lcp [97, 1, 0] jh 0 [97, 1, 120] jl 0 3 = 2 := by
    intro jh jl
    obtain ⟨l1, l2, l3⟩ := get_lcp_spec [97, 1, 0] jh 0 [97, 1, 120] jl 0 3
    generalize get_lcp [97, 1, 0] jh 0 [97, 1, 120] jl 0 3 = k at l1 l2 l3
    have h3 : k ≠ 3 := by
      intro h
      have := l2 2 (by omega)
      simp [byteAt] at this
    have hlt : k < 3 := by omega
    have h := l3 hlt
    interval_cases k
    · simp [byteAt] at h
    · simp [byteAt] at h
    · rfl
  refine ⟨by decide, by decide,
    { root := 0, sink := 2, heavy_str := [97, 1, 0], maps := [[], [], []] }, by decide, ?_⟩
  intro jh jl
  constructor
  · have hc : PathDecomposedBinarySearchADFA.construct
        { root := 0, sink := 2, heavy_str := [97, 1, 0], maps := [[], [], []] }
        = { root := 0, sink := 2, heavy_str := [97, 1, 0],
            maps := { bv := [true, true, true, true], elms := [] } } := by decide
    rw [hc]
    simp [PathDecomposedBinarySearchADFA.search, pdbs_walk, hlcp jh jl]
  · simp [PathDecomposedADFA.search, pd_walk, hlcp jh jl, MapVector.search, MapVector.at,
      STLMap.search, NOT_FOUND]

/-- C21, amended: the sorted-array heavy-path automaton agrees with the
map-based one on well-formed queries: for every non-empty `D` of well-formed
strings and every well-formed byte string `s` that holds no `NULL_CHAR`,
whatever the memory holds behind `heavy_str` and behind `s`,
`PathDecomposedBinarySearchADFA.search(s)` ends and returns what
`PathDecomposedADFA.search(s)` returns. -/
theorem PathDecomposedBinarySearchADFA_search_eq (D : List (List Byte)) (hne : D ≠ [])
    (hwf : ∀ d ∈ D, WellFormed d) (s : List Byte) (hs : WellFormed s)
    (hnull : ∀ c ∈ s, c ≠ NULL_CHAR) (jh jl : Nat → Byte) :
    ∃ pd b, PathDecomposedADFA.construct (BaseADFA.construct (BaseTrie.construct D)) = some pd ∧
      pd.search jh jl s = some b ∧
      (PathDecomposedBinarySearchADFA.construct pd).search jh jl s = some b := by
  have dag := adfa_dagOk _ (construct_spec D).1
  obtain ⟨pd, pos, h1, h2, h3, h4, h5, h6, h7⟩ := pdadfa_layout_spec _ dag
  obtain ⟨pd2, h1b, hsearch⟩ := pdadfa_search_eq _ dag s hnull jh jl
  rw [h1] at h1b
  have hpd : pd2 = pd := (Option.some.inj h1b).symm
  subst hpd
  refine ⟨pd2, _, h1, hsearch, ?_⟩
  rw [← hsearch]
  have hwalk := pdbs_walk_eq _ _ _ pos h2 jh jl s hnull
    (static_construct (MapVector.to_vector pd2.maps))
    ((BaseADFA.construct (BaseTrie.construct D)).maps.length - 1)
    (by have := dag.size_pos; omega) h5
    (fun v hv c => by
      have := bsearch_eq_map_search (MapVector.to_vector pd2.maps)
        (by rw [to_vector_eq]; exact h7) (pos v) (by rw [to_vector_eq]; exact h6 v hv) c
      rw [this, to_vector_eq])
    (s.length + 1) s [] 0 rfl (by omega) (by have := dag.size_pos; omega)
    (fun p q hpq hq => no_early_sink D hne hwf s hs p q hpq hq)
  unfold PathDecomposedBinarySearchADFA.search PathDecomposedADFA.search
  simp only [PathDecomposedBinarySearchADFA.construct]
  rw [h3]
  rw [← h4] at hwalk
  simp only [List.length_nil] at hwalk
  rw [hwalk]

theorem PathDecomposedBinarySearchADFA_search_eq_witness :
    ∃ pd b, PathDecomposedADFA.construct
        (BaseADFA.construct (BaseTrie.construct [[97, 1], [98, 99, 1]])) = some pd ∧
      pd.search (fun _ => 0) (fun _ => 0) [98, 99, 1] = some b ∧
      (PathDecomposedBinarySearchADFA.construct pd).search (fun _ => 0) (fun _ => 0) [98, 99, 1]
        = some b :=
  PathDecomposedBinarySearchADFA_search_eq [[97, 1], [98, 99, 1]] (by simp) (by decide)
    [98, 99, 1] (by decide) (by simp [NULL_CHAR]) (fun _ => 0) (fun _ => 0)

/-! ## The heavy child has the most leaves below it -/

theorem pd_edge_step_paths (data : Adjacency) (i : Nat) (st : HeavyState) (j : Nat) :
    (pd_edge_step data i st j).paths
      = st.paths.set i (st.paths.getD i 0 + st.paths.getD (edge_at data i (j : Int)).2.toNat 0) := by
  unfold pd_edge_step
  simp only []
  split_ifs <;> rfl

theorem pd_edge_step_heavy (data : Adjacency) (i : Nat) (st : HeavyState) (j : Nat) :
    (pd_edge_step data i st j).heavy_edges
      = if st.heavy_edges.getD i NOT_FOUND = NOT_FOUND then st.heavy_edges.set i (j : Int)
        else if st.paths.getD (edge_at data i (j : Int)).2.toNat 0
            > st.paths.getD (edge_at data i (st.heavy_edges.getD i NOT_FOUND)).2.toNat 0
          then st.heavy_edges.set i (j : Int)
        else st.heavy_edges := by
  unfold pd_edge_step
  simp only []
  split_ifs <;> rfl

theorem child_paths_take_succ (paths : List Int) (data : Adjacency) (i j : Nat)
    (hj : j < (data.getD i []).length) :
    child_paths paths ((data.getD i []).take (j + 1))
      = child_paths paths ((data.getD i []).take j) + child_count data paths i j := by
  rw [take_succ_getD (data.getD i []) j (0, 0) hj]
  unfold child_paths child_count edge_at
  simp

/-- The loop over the edges of node `i`: the count of `i` grows by the counts
of the children seen, and the heavy edge is the first of the edges seen whose
target has the largest count. -/
theorem pd_edge_fold_max (data : Adjacency) (i : Nat) (st : HeavyState)
    (hi : i < st.paths.length) (hi2 : i < st.heavy_edges.length)
    (h0 : st.heavy_edges.getD i NOT_FOUND = NOT_FOUND)
    (htopo : ∀ k, k < (data.getD i []).length → (edge_at data i (k : Int)).2.toNat ≠ i) :
    ∀ j, j ≤ (data.getD i []).length →
      ((List.range j).foldl (pd_edge_step data i) st).paths.length = st.paths.length ∧
      ((List.range j).foldl (pd_edge_step data i) st).heavy_edges.length
        = st.heavy_edges.length ∧
      (∀ v, v ≠ i →
        ((List.range j).foldl (pd_edge_step data i) st).paths.getD v 0 = st.paths.getD v 0 ∧
        ((List.range j).foldl (pd_edge_step data i) st).heavy_edges.getD v NOT_FOUND
          = st.heavy_edges.getD v NOT_FOUND) ∧
      ((List.range j).foldl (pd_edge_step data i) st).paths.getD i 0
        = st.paths.getD i 0 + child_paths st.paths ((data.getD i []).take j) ∧
      ((j = 0 ∧
          ((List.range j).foldl (pd_edge_step data i) st).heavy_edges.getD i NOT_FOUND
            = NOT_FOUND) ∨
        (∃ h : Nat, h < j ∧
          ((List.range j).foldl (pd_edge_step data i) st).heavy_edges.getD i NOT_FOUND = (h : Int) ∧
          (∀ k, k < j → child_count data st.paths i k ≤ child_count data st.paths i h) ∧
          (∀ k, k < h → child_count data st.paths i k < child_count data st.paths i h))) := by
  intro j
  induction j with
  | zero =>
    intro _
    refine ⟨rfl, rfl, fun v _ => ⟨rfl, rfl⟩, ?_, Or.inl ⟨rfl, h0⟩⟩
    simp [child_paths]
  | succ j ih =>
    intro hj
    obtain ⟨a1, a2, a3, a4, a5⟩ := ih (by omega)
    rw [List.range_succ, List.foldl_append]
    simp only [List.foldl_cons, List.foldl_nil]
    generalize (List.range j).foldl (pd_edge_step data i) st = st1 at a1 a2 a3 a4 a5
    have htj := htopo j (by omega)
    have hsame : ∀ k, k < (data.getD i []).length →
        child_count data st1.paths i k = child_count data st.paths i k := by
      intro k hk
      unfold child_count
      exact (a3 _ (htopo k hk)).1
    have hcj : st1.paths.getD (edge_at data i (j : Int)).2.toNat 0
        = child_count data st.paths i j := hsame j (by omega)
    rw [pd_edge_step_paths, pd_edge_step_heavy]
    refine ⟨by rw [List.length_set, a1], ?_, ?_, ?_, ?_⟩
    · split_ifs <;> simp only [List.length_set, a2]
    · intro v hv
      rw [getD_set_eq _ _ _ _ _ (by rw [a1]; exact hi), if_neg hv]
      refine ⟨(a3 v hv).1, ?_⟩
      split_ifs
      · rw [getD_set_eq _ _ _ _ _ (by rw [a2]; exact hi2), if_neg hv]
        exact (a3 v hv).2
      · rw [getD_set_eq _ _ _ _ _ (by rw [a2]; exact hi2), if_neg hv]
        exact (a3 v hv).2
      · exact (a3 v hv).2
    · rw [getD_set_eq _ _ _ _ _ (by rw [a1]; exact hi), if_pos rfl, a4, hcj,
        child_paths_take_succ _ _ _ _ (by omega)]
      omega
    · right
      rcases a5 with ⟨hj0, hnf⟩ | ⟨h, hh, hhe, hmax, hfirst⟩
      · subst hj0
        rw [if_pos hnf]
        refine ⟨0, by omega, ?_, ?_, fun k hk => by omega⟩
        · rw [getD_set_eq _ _ _ _ _ (by rw [a2]; exact hi2), if_pos rfl]
        · intro k hk
          have : k = 0 := by omega
          subst this
          exact le_refl _
      · have hne : ¬ st1.heavy_edges.getD i NOT_FOUND = NOT_FOUND := by
          rw [hhe]
          unfold NOT_FOUND
          omega
        rw [if_neg hne, hhe]
        have hch : st1.paths.getD (edge_at data i (h : Int)).2.toNat 0
            = child_count data st.paths i h := hsame h (by omega)
        rw [hcj, hch]
        by_cases hgt : child_count data st.paths i j > child_count data st.paths i h
        · rw [if_pos hgt]
          refine ⟨j, by omega, ?_, ?_, ?_⟩
          · rw [getD_set_eq _ _ _ _ _ (by rw [a2]; exact hi2), if_pos rfl]
          · intro k hk
            by_cases hkj : k = j
            · subst hkj
              exact le_refl _
            · have := hmax k (by omega)
              omega
          · intro k hk
            have := hmax k hk
            omega
        · rw [if_neg hgt]
          refine ⟨h, by omega, hhe, ?_, hfirst⟩
          intro k hk
          by_cases hkj : k = j
          · subst hkj
            omega
          · exact hmax k (by omega)

/-- The body of the first loop for node `i`, whose count and heavy edge are
still unset. -/
theorem pd_node_step_max (data : Adjacency) (ht : TopoOk data) (st : HeavyState) (i : Nat)
    (hin : i < data.length) (hi : i < st.paths.length) (hi2 : i < st.heavy_edges.length)
    (p0 : st.paths.getD i 0 = 0) (h0 : st.heavy_edges.getD i NOT_FOUND = NOT_FOUND) :
    (pd_node_step data st i).paths.length = st.paths.length ∧
    (pd_node_step data st i).heavy_edges.length = st.heavy_edges.length ∧
    (∀ v, v ≠ i →
      (pd_node_step data st i).paths.getD v 0 = st.paths.getD v 0 ∧
      (pd_node_step data st i).heavy_edges.getD v NOT_FOUND
        = st.heavy_edges.getD v NOT_FOUND) ∧
    (data.getD i [] = [] → (pd_node_step data st i).paths.getD i 0 = 1) ∧
    (data.getD i [] ≠ [] →
      (pd_node_step data st i).paths.getD i 0 = child_paths st.paths (data.getD i []) ∧
      ∃ j : Nat, j < (data.getD i []).length ∧
        (pd_node_step data st i).heavy_edges.getD i NOT_FOUND = (j : Int) ∧
        (∀ k, k < (data.getD i []).length →
          child_count data st.paths i k ≤ child_count data st.paths i j) ∧
        (∀ k, k < j → child_count data st.paths i k < child_count data st.paths i j)) := by
  have htopo : ∀ k, k < (data.getD i []).length → (edge_at data i (k : Int)).2.toNat ≠ i := by
    intro k hk
    have hmem : edge_at data i (k : Int) ∈ data.getD i [] := by
      unfold edge_at
      simp only [Int.toNat_ofNat]
      rw [List.getD_eq_getElem _ _ hk]
      exact List.getElem_mem _
    have := ht i hin _ hmem
    omega
  unfold pd_node_step
  by_cases hemp : data.getD i [] = []
  · rw [hemp]
    simp only [List.isEmpty_nil, if_true, List.length_nil, List.range_zero, List.foldl_nil,
      List.length_set]
    refine ⟨trivial, trivial, ?_, ?_, fun h => absurd rfl h⟩
    · intro v hv
      rw [getD_set_eq _ _ _ _ _ hi, if_neg hv]
      constructor <;> first | rfl | trivial
    · intro _
      rw [getD_set_eq _ _ _ _ _ hi, if_pos rfl]
  · have hne : (data.getD i []).isEmpty = false := by
      cases hrow : data.getD i [] with
      | nil => exact absurd hrow hemp
      | cons _ _ => rfl
    rw [hne]
    simp only [Bool.false_eq_true, if_false]
    obtain ⟨a1, a2, a3, a4, a5⟩ := pd_edge_fold_max data i st hi hi2 h0 htopo
      (data.getD i []).length (le_refl _)
    refine ⟨a1, a2, a3, fun h => absurd h hemp, fun _ => ⟨?_, ?_⟩⟩
    · rw [a4, p0, List.take_length]
      omega
    · rcases a5 with ⟨hz, _⟩ | ⟨h, hh, hhe, hmax, hfirst⟩
      · exact absurd (List.length_eq_zero.mp hz) hemp
      · exact ⟨h, hh, hhe, hmax, hfirst⟩

theorem pd_heavy_loop_max (data : Adjacency) (ht : TopoOk data) :
    ∀ (k : Nat) (st : HeavyState), k ≤ data.length →
      st.paths.length = data.length → st.heavy_edges.length = data.length →
      (∀ v, v < k → st.paths.getD v 0 = 0 ∧ st.heavy_edges.getD v NOT_FOUND = NOT_FOUND) →
      (∀ v, k ≤ v → v < data.length →
        (data.getD v [] = [] → st.paths.getD v 0 = 1) ∧
        (data.getD v [] ≠ [] →
          st.paths.getD v 0 = child_paths st.paths (data.getD v []) ∧
          ∃ j : Nat, j < (data.getD v []).length ∧
            st.heavy_edges.getD v NOT_FOUND = (j : Int) ∧
            (∀ k, k < (data.getD v []).length →
              child_count data st.paths v k ≤ child_count data st.paths v j) ∧
            (∀ k, k < j → child_count data st.paths v k < child_count data st.paths v j))) →
      HeavyMax data (pd_heavy_loop data k st) := by
  intro k
  induction k with
  | zero =>
    intro st _ h1 _ _ h4
    exact ⟨h1, fun v hv => (h4 v (by omega) hv).1, fun v hv hne => ((h4 v (by omega) hv).2 hne).1,
      fun v hv hne => ((h4 v (by omega) hv).2 hne).2⟩
  | succ k ih =>
    intro st hk h1 h2 h3 h4
    obtain ⟨a1, a2, a3, a4, a5⟩ := pd_node_step_max data ht st k (by omega) (by omega) (by omega)
      (h3 k (by omega)).1 (h3 k (by omega)).2
    simp only [pd_heavy_loop]
    have hmem : ∀ v, v < data.length → ∀ j, j < (data.getD v []).length →
        edge_at data v (j : Int) ∈ data.getD v [] := by
      intro v hv j hj
      unfold edge_at
      simp only [Int.toNat_ofNat]
      rw [List.getD_eq_getElem _ _ hj]
      exact List.getElem_mem _
    have hcc : ∀ v, k ≤ v → v < data.length → ∀ j, j < (data.getD v []).length →
        child_count data (pd_node_step data st k).paths v j = child_count data st.paths v j := by
      intro v hkv hv j hj
      unfold child_count
      have := ht v hv _ (hmem v hv j hj)
      exact (a3 _ (by omega)).1
    have hcp : ∀ v, k ≤ v → v < data.length →
        child_paths (pd_node_step data st k).paths (data.getD v [])
          = child_paths st.paths (data.getD v []) := by
      intro v hkv hv
      apply child_paths_congr
      intro e he
      have := ht v hv e he
      exact (a3 _ (by omega)).1
    apply ih _ (by omega) (by rw [a1, h1]) (by rw [a2, h2])
    · intro v hv
      rw [(a3 v (by omega)).1, (a3 v (by omega)).2]
      exact h3 v (by omega)
    · intro v hkv hv
      by_cases hvk : v = k
      · subst hvk
        refine ⟨a4, fun hne => ?_⟩
        obtain ⟨b1, j, b2, b3, b4, b5⟩ := a5 hne
        refine ⟨by rw [b1, hcp v (le_refl _) hv], j, b2, b3, ?_, ?_⟩
        · intro q hq
          rw [hcc v (le_refl _) hv q hq, hcc v (le_refl _) hv j b2]
          exact b4 q hq
        · intro q hq
          rw [hcc v (le_refl _) hv q (by omega), hcc v (le_refl _) hv j b2]
          exact b5 q hq
      · obtain ⟨c1, c2⟩ := h4 v (by omega) hv
        rw [(a3 v hvk).1, (a3 v hvk).2]
        refine ⟨c1, fun hne => ?_⟩
        obtain ⟨b1, j, b2, b3, b4, b5⟩ := c2 hne
        refine ⟨by rw [b1, hcp v (by omega) hv], j, b2, b3, ?_, ?_⟩
        · intro q hq
          rw [hcc v (by omega) hv q hq, hcc v (by omega) hv j b2]
          exact b4 q hq
        · intro q hq
          rw [hcc v (by omega) hv q (by omega), hcc v (by omega) hv j b2]
          exact b5 q hq

/-- The first loop of `PathDecomposedTrie` counts the leaves below every node
and picks as heavy edge the first edge to a child with the most leaves. -/
theorem pd_heavy_max (data : Adjacency) (ht : TopoOk data) : HeavyMax data (pd_heavy data) := by
  unfold pd_heavy
  apply pd_heavy_loop_max data ht data.length _ (le_refl _) (by simp) (by simp)
  · intro v hv
    simp [List.getD_eq_getElem?_getD, List.getElem?_replicate, hv]
  · intro v hkv hv
    omega

/-- **C26.** Heavy child selection in the trie: for every `D` the counts
`number_of_paths_leaf` of `PathDecomposedTrie` are 1 at a leaf and the sum over
the children elsewhere, and for every node `v` of `BaseTrie(D)` with at least
one child, whose edges are in ascending byte order, the edge marked heavy is
the edge at an index `j` whose target has the largest count among the children
of `v`, the targets of the edges before `j` have smaller counts, and every
other edge of `v` is in `light_edges[v]` exactly once (the list holds no entry
twice, holds every edge but the heavy one, and holds nothing else). -/
theorem PathDecomposedTrie_heavy_choice (D : List (List Byte)) :
    (∀ v, v < (BaseTrie.construct D).to_vector.length →
      (BaseTrie.construct D).to_vector.getD v [] = [] →
      (pd_heavy (BaseTrie.construct D).to_vector).paths.getD v 0 = 1) ∧
    (∀ v, v < (BaseTrie.construct D).to_vector.length →
      (BaseTrie.construct D).to_vector.getD v [] ≠ [] →
      (pd_heavy (BaseTrie.construct D).to_vector).paths.getD v 0
        = child_paths (pd_heavy (BaseTrie.construct D).to_vector).paths
            ((BaseTrie.construct D).to_vector.getD v [])) ∧
    (∀ v, v < (BaseTrie.construct D).to_vector.length →
      (BaseTrie.construct D).to_vector.getD v [] ≠ [] →
      ((BaseTrie.construct D).to_vector.getD v []).Pairwise (fun a b => a.1 < b.1) ∧
      ∃ j : Nat, j < ((BaseTrie.construct D).to_vector.getD v []).length ∧
        trie_heavy_of (BaseTrie.construct D).to_vector
            (pd_heavy (BaseTrie.construct D).to_vector).heavy_edges (v : Int)
          = some (edge_at (BaseTrie.construct D).to_vector v (j : Int)) ∧
        (∀ k, k < ((BaseTrie.construct D).to_vector.getD v []).length →
          child_count (BaseTrie.construct D).to_vector
              (pd_heavy (BaseTrie.construct D).to_vector).paths v k
            ≤ child_count (BaseTrie.construct D).to_vector
                (pd_heavy (BaseTrie.construct D).to_vector).paths v j) ∧
        (∀ k, k < j →
          child_count (BaseTrie.construct D).to_vector
              (pd_heavy (BaseTrie.construct D).to_vector).paths v k
            < child_count (BaseTrie.construct D).to_vector
                (pd_heavy (BaseTrie.construct D).to_vector).paths v j) ∧
        ((pd_heavy (BaseTrie.construct D).to_vector).light_edges.getD v []).Nodup ∧
        (∀ e ∈ (BaseTrie.construct D).to_vector.getD v [],
          e ≠ edge_at (BaseTrie.construct D).to_vector v (j : Int) →
          e ∈ (pd_heavy (BaseTrie.construct D).to_vector).light_edges.getD v []) ∧
        edge_at (BaseTrie.construct D).to_vector v (j : Int)
          ∉ (pd_heavy (BaseTrie.construct D).to_vector).light_edges.getD v [] ∧
        (∀ e ∈ (pd_heavy (BaseTrie.construct D).to_vector).light_edges.getD v [],
          e ∈ (BaseTrie.construct D).to_vector.getD v [])) := by
  obtain ⟨inv, _⟩ := construct_spec D
  have ht := trie_topoOk _ inv
  have hmax := pd_heavy_max _ ht
  have hspec := pd_heavy_spec (BaseTrie.construct D).to_vector
  have hdata : (BaseTrie.construct D).to_vector = (BaseTrie.construct D).maps := to_vector_eq _
  refine ⟨hmax.leaf, hmax.inner, ?_⟩
  intro v hv hne
  have hsorted : ((BaseTrie.construct D).to_vector.getD v []).Pairwise (fun a b => a.1 < b.1) := by
    rw [hdata] at hv ⊢
    exact inv.sorted v (by rw [← inv.len]; exact hv)
  have hnodup : ((BaseTrie.construct D).to_vector.getD v []).Nodup :=
    hsorted.imp (fun hab heq => by rw [heq] at hab; exact lt_irrefl _ hab)
  obtain ⟨j, hj, hje, hle, hlt⟩ := hmax.heavy_max v hv hne
  obtain ⟨j2, _, hj2e, hperm⟩ := hspec.inner v hv hne
  have hjj : j2 = j := by
    rw [hje] at hj2e
    omega
  subst hjj
  have hnd : ((pd_heavy (BaseTrie.construct D).to_vector).light_edges.getD v []
      ++ [edge_at (BaseTrie.construct D).to_vector v (j2 : Int)]).Nodup :=
    hperm.nodup_iff.mpr hnodup
  rw [List.nodup_append] at hnd
  refine ⟨hsorted, j2, hj, ?_, hle, hlt, hnd.1, ?_, ?_, ?_⟩
  · unfold trie_heavy_of
    simp only [Int.toNat_ofNat]
    rw [hje, if_neg (by unfold NOT_FOUND; omega)]
  · intro e he hne2
    have := hperm.mem_iff.mpr he
    rcases List.mem_append.mp this with h | h
    · exact h
    · exact absurd (List.mem_singleton.mp h) hne2
  · intro hmem
    exact hnd.2.2 hmem (List.mem_singleton.mpr rfl)
  · intro e he
    exact hperm.subset (List.mem_append_left _ he)

/-! ## The counts of paths from the root -/

/-- The loop over the edges of node `k` adds the count of `k` to the count of
the target of every edge. -/
theorem root_paths_inner (k : Nat) : ∀ (l : List (Byte × Int)) (P : List Int),
    k < P.length → (∀ e ∈ l, 0 ≤ e.2 ∧ e.2.toNat ≠ k ∧ e.2.toNat < P.length) →
    (l.foldl (fun npr e => npr.set e.2.toNat (npr.getD e.2.toNat 0 + npr.getD k 0)) P).length
      = P.length ∧
    ∀ v, v < P.length →
      (l.foldl (fun npr e => npr.set e.2.toNat (npr.getD e.2.toNat 0 + npr.getD k 0)) P).getD v 0
        = P.getD v 0
          + ((l.filter (fun e => decide (e.2 = (v : Int)))).length : Int) * P.getD k 0 := by
  intro l
  induction l with
  | nil =>
    intro P _ _
    refine ⟨rfl, fun v _ => ?_⟩
    simp
  | cons e l ih =>
    intro P hk hl
    obtain ⟨h0, hne, hlt⟩ := hl e (List.mem_cons_self _ _)
    simp only [List.foldl_cons]
    obtain ⟨a1, a2⟩ := ih (P.set e.2.toNat (P.getD e.2.toNat 0 + P.getD k 0))
      (by rw [List.length_set]; exact hk)
      (fun x hx => by
        rw [List.length_set]
        exact hl x (List.mem_cons_of_mem _ hx))
    rw [List.length_set] at a1 a2
    refine ⟨a1, fun v hv => ?_⟩
    have h1 : (P.set e.2.toNat (P.getD e.2.toNat 0 + P.getD k 0)).getD v 0
        = if v = e.2.toNat then P.getD e.2.toNat 0 + P.getD k 0 else P.getD v 0 :=
      getD_set_eq _ _ _ _ _ hlt
    have h2 : (P.set e.2.toNat (P.getD e.2.toNat 0 + P.getD k 0)).getD k 0 = P.getD k 0 := by
      rw [getD_set_eq _ _ _ _ _ hlt, if_neg (fun h => hne h.symm)]
    rw [a2 v hv, h1, h2, List.filter_cons]
    by_cases hv2 : v = e.2.toNat
    · have het : e.2 = (v : Int) := by omega
      rw [if_pos hv2, if_pos (by simpa using het), List.length_cons, ← hv2]
      push_cast
      ring
    · have het : ¬ e.2 = (v : Int) := by omega
      rw [if_neg hv2, if_neg (by simpa using het)]

/-- The body of the loop that fills `number_of_paths_root`, for a node whose
edges lead to larger nodes. -/
theorem root_paths_step_spec (data : Adjacency) (dag : DagOk data) (P : List Int) (k : Nat)
    (hk : k < data.length) (hP : P.length = data.length) :
    (root_paths_step data P k).length = data.length ∧
    ∀ v, v < data.length →
      (root_paths_step data P k).getD v 0
        = P.getD v 0 + (edges_into data k v : Int) * P.getD k 0 := by
  obtain ⟨a1, a2⟩ := root_paths_inner k (data.getD k []) P (by omega)
    (fun e he => by
      have := dag.up k hk e he
      omega)
  unfold root_paths_step edges_into
  exact ⟨by rw [a1, hP], fun v hv => a2 v (by omega)⟩

theorem edges_into_zero (data : Adjacency) (dag : DagOk data) (u v : Nat) (hu : u < data.length)
    (hvu : v ≤ u) : edges_into data u v = 0 := by
  unfold edges_into
  rw [List.length_eq_zero, List.filter_eq_nil_iff]
  intro e he
  have := dag.up u hu e he
  simp only [decide_eq_true_eq]
  omega

/-- The loop that fills `number_of_paths_root`, after the nodes before `k`:
the count of a node is 1 for the root and 0 otherwise, plus the counts of the
sources of the edges into it that come from nodes before `k`. -/
theorem root_paths_loop_spec (data : Adjacency) (dag : DagOk data) :
    ∀ k, k ≤ data.length →
      ((List.range k).foldl (root_paths_step data)
        ((List.replicate data.length 0).set 0 1)).length = data.length ∧
      ∀ v, v < data.length →
        ((List.range k).foldl (root_paths_step data)
          ((List.replicate data.length 0).set 0 1)).getD v 0
          = (if v = 0 then 1 else 0)
            + ((List.range k).map (fun (u : Nat) => (edges_into data u v : Int)
                * ((List.range k).foldl (root_paths_step data)
                    ((List.replicate data.length 0).set 0 1)).getD u 0)).sum := by
  intro k
  induction k with
  | zero =>
    intro _
    refine ⟨by simp, fun v hv => ?_⟩
    simp only [List.range_zero, List.foldl_nil, List.map_nil, List.sum_nil, add_zero]
    rw [getD_set_eq _ _ _ _ _ (by simp; omega)]
    by_cases hv0 : v = 0
    · rw [if_pos hv0, if_pos hv0]
    · rw [if_neg hv0, if_neg hv0]
      simp [List.getD_eq_getElem?_getD, List.getElem?_replicate, hv]
  | succ k ih =>
    intro hk
    obtain ⟨a1, a2⟩ := ih (by omega)
    rw [List.range_succ, List.foldl_append]
    simp only [List.foldl_cons, List.foldl_nil]
    generalize (List.range k).foldl (root_paths_step data)
      ((List.replicate data.length 0).set 0 1) = P at a1 a2
    obtain ⟨b1, b2⟩ := root_paths_step_spec data dag P k (by omega) a1
    refine ⟨b1, fun v hv => ?_⟩
    have hsame : ∀ u, u ≤ k → (root_paths_step data P k).getD u 0 = P.getD u 0 := by
      intro u hu
      rw [b2 u (by omega), edges_into_zero data dag k u (by omega) hu]
      simp
    rw [b2 v hv, a2 v hv, List.map_append, List.sum_append]
    simp only [List.map_cons, List.map_nil, List.sum_cons, List.sum_nil, add_zero]
    rw [hsame k (le_refl _)]
    have hcongr : (List.range k).map (fun (u : Nat) => (edges_into data u v : Int)
          * (root_paths_step data P k).getD u 0)
        = (List.range k).map (fun (u : Nat) => (edges_into data u v : Int) * P.getD u 0) := by
      apply List.map_congr_left
      intro u hu
      rw [hsame u (by have := List.mem_range.mp hu; omega)]
    rw [hcongr]
    ring

/-- What `number_of_paths_root` holds for an automaton whose edges ascend:
1 for the root, and for every other state the sum of the counts of the
sources of the edges into it, which is the number of paths from the root. -/
theorem root_paths_spec (data : Adjacency) (dag : DagOk data) :
    (number_of_paths_root data).length = data.length ∧
    (number_of_paths_root data).getD 0 0 = 1 ∧
    (∀ v, v < data.length →
      (number_of_paths_root data).getD v 0
        = (if v = 0 then 1 else 0) + paths_into data (number_of_paths_root data) v) := by
  obtain ⟨a1, a2⟩ := root_paths_loop_spec data dag data.length (le_refl _)
  have h3 : ∀ v, v < data.length →
      (number_of_paths_root data).getD v 0
        = (if v = 0 then 1 else 0) + paths_into data (number_of_paths_root data) v :=
    fun v hv => a2 v hv
  refine ⟨a1, ?_, h3⟩
  have hpos := dag.size_pos
  rw [h3 0 (by omega), if_pos rfl]
  have hz : paths_into data (number_of_paths_root data) 0 = 0 := by
    unfold paths_into
    apply List.sum_eq_zero
    intro x hx
    obtain ⟨u, hu, rfl⟩ := List.mem_map.mp hx
    rw [edges_into_zero data dag u 0 (List.mem_range.mp hu) (Nat.zero_le _)]
    simp
  rw [hz]
  rfl

/-! ## The backward pass of the decomposition of the automaton -/

theorem secondMax_weaken (n : Nat) (npr : List Int) (first : List (List (Byte × Int × Bool)))
    (proc proc2 : Nat → Nat → Prop) (st : SecondState) (inv : SecondMax n npr first proc st)
    (h : ∀ a b, flagged first a b = true → (proc2 a b ↔ proc a b)) :
    SecondMax n npr first proc2 st := by
  refine ⟨inv.he_len, inv.target_eq, inv.sub, ?_, inv.tg_range, ?_⟩
  · intro a b hp hf
    exact inv.untouched a b (fun hc => hp ((h a b hf).mpr hc)) hf
  · intro w hw
    rcases inv.he_ok w hw with ⟨h1, h2⟩ | ⟨u, k, h1, h2, h3, h4, h5⟩
    · exact Or.inl ⟨h1, fun a b hp hf => h2 a b ((h a b hf).mp hp) hf⟩
    · exact Or.inr ⟨u, k, h1, (h u k (inv.sub u k h3)).mpr h2, h3, h4,
        fun a b hp hf => h5 a b ((h a b hf).mp hp) hf⟩

/-- One edge of the second decomposition, not dealt with before. -/
theorem second_edge_step_max (n : Nat) (npr : List Int)
    (first : List (List (Byte × Int × Bool))) (proc : Nat → Nat → Prop)
    (st : SecondState) (inv : SecondMax n npr first proc st) (i j : Nat)
    (hnew : ¬ proc i j) :
    SecondMax n npr first (fun a b => proc a b ∨ (a = i ∧ b = j))
      (second_edge_step npr i st j) := by
  unfold second_edge_step
  simp only []
  by_cases hf : flagged st.flags i j = true
  · have hf2 : (flag_at st.flags i j).2.2 = true := hf
    rw [if_neg (by rw [hf2]; simp)]
    have hf0 := inv.sub i j hf
    obtain ⟨r1, r2⟩ := inv.tg_range i j hf0
    have hteq : (flag_at st.flags i j).2.1 = flag_target first i j := inv.target_eq i j
    rw [hteq]
    have htgt : flag_target first i j = (((flag_target first i j).toNat : Nat) : Int) := by
      omega
    have hw0 : (flag_target first i j).toNat < n := by omega
    have hlen := inv.he_len
    generalize (flag_target first i j).toNat = w0 at htgt hw0
    have hok := inv.he_ok w0 hw0
    by_cases hnf : (st.heavy_edges.getD w0 (NOT_FOUND, NOT_FOUND)).1 = NOT_FOUND
    · rw [if_pos hnf]
      rcases hok with ⟨_, h2⟩ | ⟨u, k, h1, _⟩
      swap
      · exfalso
        rw [h1] at hnf
        simp only [NOT_FOUND] at hnf
        omega
      refine ⟨by simp only [List.length_set]; exact hlen, inv.target_eq, inv.sub, ?_,
        inv.tg_range, ?_⟩
      · intro a b hp hfa
        exact inv.untouched a b (fun hc => hp (Or.inl hc)) hfa
      · intro w hw
        simp only []
        rw [getD_set_eq _ _ _ _ _ (by omega)]
        by_cases hww : w = w0
        · rw [if_pos hww]
          right
          refine ⟨i, j, rfl, Or.inr ⟨rfl, rfl⟩, hf, by rw [hww]; exact htgt, ?_⟩
          intro a b hp hfa hta
          rcases hp with hp | ⟨rfl, rfl⟩
          · rw [hww] at hta
            exact absurd hta (h2 a b hp hfa)
          · exact ⟨le_refl _, fun _ => ⟨rfl, rfl⟩⟩
        · rw [if_neg hww]
          rcases inv.he_ok w hw with ⟨g1, g2⟩ | ⟨u, k, g1, g2, g3, g4, g5⟩
          · left
            refine ⟨g1, ?_⟩
            intro a b hp hfa
            rcases hp with hp | ⟨rfl, rfl⟩
            · exact g2 a b hp hfa
            · rw [htgt]
              omega
          · right
            refine ⟨u, k, g1, Or.inl g2, g3, g4, ?_⟩
            intro a b hp hfa hta
            rcases hp with hp | ⟨rfl, rfl⟩
            · exact g5 a b hp hfa hta
            · rw [htgt] at hta
              omega
    · rw [if_neg hnf]
      rcases hok with ⟨h1, _⟩ | ⟨u, k, h1, h2, h3, h4, h5⟩
      · exact absurd h1 hnf
      · rw [h1]
        simp only [Int.toNat_ofNat]
        have hne_uk : ¬ (i = u ∧ j = k) := by
          rintro ⟨rfl, rfl⟩
          exact hnew h2
        by_cases hgt : npr.getD i 0 > npr.getD u 0
        · rw [if_pos hgt]
          refine ⟨by simp only [List.length_set]; exact hlen, ?_, ?_, ?_, inv.tg_range, ?_⟩
          · intro a b
            simp only []
            rw [flag_target_set]
            exact inv.target_eq a b
          · intro a b hfa
            exact inv.sub a b ((flagged_clear _ _ _ _ _).mp hfa).1
          · intro a b hp hfa
            simp only []
            rw [flagged_clear]
            refine ⟨inv.untouched a b (fun hc => hp (Or.inl hc)) hfa, ?_⟩
            rintro ⟨rfl, rfl⟩
            exact hp (Or.inl h2)
          · intro w hw
            simp only []
            rw [getD_set_eq _ _ _ _ _ (by omega)]
            by_cases hww : w = w0
            · rw [if_pos hww]
              right
              refine ⟨i, j, rfl, Or.inr ⟨rfl, rfl⟩, ?_, by rw [hww]; exact htgt, ?_⟩
              · rw [flagged_clear]
                exact ⟨hf, hne_uk⟩
              · intro a b hp hfa hta
                rw [hww] at hta
                rcases hp with hp | ⟨rfl, rfl⟩
                · obtain ⟨q1, q2⟩ := h5 a b hp hfa hta
                  refine ⟨by omega, ?_⟩
                  intro hfl
                  rw [flagged_clear] at hfl
                  exact absurd (q2 hfl.1) hfl.2
                · exact ⟨le_refl _, fun _ => ⟨rfl, rfl⟩⟩
            · rw [if_neg hww]
              rcases inv.he_ok w hw with ⟨g1, g2⟩ | ⟨u2, k2, g1, g2, g3, g4, g5⟩
              · left
                refine ⟨g1, ?_⟩
                intro a b hp hfa
                rcases hp with hp | ⟨rfl, rfl⟩
                · exact g2 a b hp hfa
                · rw [htgt]
                  omega
              · right
                refine ⟨u2, k2, g1, Or.inl g2, ?_, g4, ?_⟩
                · rw [flagged_clear]
                  refine ⟨g3, ?_⟩
                  rintro ⟨rfl, rfl⟩
                  rw [g4] at h4
                  omega
                · intro a b hp hfa hta
                  rcases hp with hp | ⟨rfl, rfl⟩
                  · obtain ⟨q1, q2⟩ := g5 a b hp hfa hta
                    refine ⟨q1, fun hfl => q2 ((flagged_clear _ _ _ _ _).mp hfl).1⟩
                  · rw [htgt] at hta
                    omega
        · rw [if_neg hgt]
          refine ⟨hlen, ?_, ?_, ?_, inv.tg_range, ?_⟩
          · intro a b
            simp only []
            rw [flag_target_set]
            exact inv.target_eq a b
          · intro a b hfa
            exact inv.sub a b ((flagged_clear _ _ _ _ _).mp hfa).1
          · intro a b hp hfa
            simp only []
            rw [flagged_clear]
            exact ⟨inv.untouched a b (fun hc => hp (Or.inl hc)) hfa,
              fun hc => hp (Or.inr hc)⟩
          · intro w hw
            simp only []
            rcases inv.he_ok w hw with ⟨g1, g2⟩ | ⟨u2, k2, g1, g2, g3, g4, g5⟩
            · left
              refine ⟨g1, ?_⟩
              intro a b hp hfa
              rcases hp with hp | ⟨rfl, rfl⟩
              · exact g2 a b hp hfa
              · intro hcon
                have hwe : w = w0 := by omega
                rw [hwe, h1] at g1
                simp only [NOT_FOUND] at g1
                omega
            · right
              refine ⟨u2, k2, g1, Or.inl g2, ?_, g4, ?_⟩
              · rw [flagged_clear]
                refine ⟨g3, ?_⟩
                rintro ⟨rfl, rfl⟩
                exact hnew g2
              · intro a b hp hfa hta
                rcases hp with hp | ⟨rfl, rfl⟩
                · obtain ⟨q1, q2⟩ := g5 a b hp hfa hta
                  exact ⟨q1, fun hfl => q2 ((flagged_clear _ _ _ _ _).mp hfl).1⟩
                · have hwe : w = w0 := by omega
                  subst hwe
                  rw [h1] at g1
                  simp only [Prod.mk.injEq] at g1
                  have hu : u2 = u := by omega
                  subst hu
                  refine ⟨by omega, ?_⟩
                  intro hfl
                  rw [flagged_clear] at hfl
                  exact absurd ⟨rfl, rfl⟩ hfl.2
  · have hf2 : ¬ (flag_at st.flags i j).2.2 = true := hf
    rw [if_pos (by simpa using hf2)]
    have hf0 : ¬ flagged first i j = true := fun hc => hf (inv.untouched i j hnew hc)
    refine ⟨inv.he_len, inv.target_eq, inv.sub, ?_, inv.tg_range, ?_⟩
    · intro a b hp hfa
      exact inv.untouched a b (fun hc => hp (Or.inl hc)) hfa
    · intro w hw
      rcases inv.he_ok w hw with ⟨g1, g2⟩ | ⟨u2, k2, g1, g2, g3, g4, g5⟩
      · left
        refine ⟨g1, ?_⟩
        intro a b hp hfa
        rcases hp with hp | ⟨rfl, rfl⟩
        · exact g2 a b hp hfa
        · exact absurd hfa hf0
      · right
        refine ⟨u2, k2, g1, Or.inl g2, g3, g4, ?_⟩
        intro a b hp hfa hta
        rcases hp with hp | ⟨rfl, rfl⟩
        · exact g5 a b hp hfa hta
        · exact absurd hfa hf0

theorem second_edge_fold_max (n : Nat) (npr : List Int)
    (first : List (List (Byte × Int × Bool))) (proc : Nat → Nat → Prop) (i : Nat)
    (hnew : ∀ b, ¬ proc i b) :
    ∀ (m : Nat) (st : SecondState), SecondMax n npr first proc st →
      SecondMax n npr first (fun a b => proc a b ∨ (a = i ∧ b < m))
        ((List.range m).foldl (second_edge_step npr i) st) := by
  intro m
  induction m with
  | zero =>
    intro st inv
    apply secondMax_weaken n npr first proc _ st inv
    intro a b _
    constructor
    · rintro (h | h)
      · exact h
      · omega
    · exact fun h => Or.inl h
  | succ m ih =>
    intro st inv
    have a1 := ih st inv
    rw [List.range_succ, List.foldl_append]
    simp only [List.foldl_cons, List.foldl_nil]
    have b1 := second_edge_step_max n npr first _ _ a1 i m (by
      rintro (h | h)
      · exact hnew m h
      · omega)
    apply secondMax_weaken n npr first _ _ _ b1
    intro a b _
    constructor
    · rintro (h | h)
      · exact Or.inl (Or.inl h)
      · by_cases hb : b = m
        · exact Or.inr ⟨h.1, hb⟩
        · exact Or.inl (Or.inr ⟨h.1, by omega⟩)
    · rintro ((h | h) | h)
      · exact Or.inl h
      · exact Or.inr ⟨h.1, by omega⟩
      · exact Or.inr ⟨h.1, by omega⟩

theorem second_loop_max (data : Adjacency) (npr : List Int)
    (first : List (List (Byte × Int × Bool))) (hshape : FlagShape data first) :
    ∀ (k : Nat) (st : SecondState),
      SecondMax data.length npr first (fun a _ => k ≤ a) st →
      SecondMax data.length npr first (fun _ _ => True) (second_loop data npr k st) := by
  intro k
  induction k with
  | zero =>
    intro st inv
    exact secondMax_weaken _ _ _ _ _ st inv (fun a b _ => ⟨fun _ => Nat.zero_le a, fun _ => trivial⟩)
  | succ k ih =>
    intro st inv
    simp only [second_loop]
    have a1 := second_edge_fold_max data.length npr first _ k (fun b => by omega)
      (data.getD k []).length st inv
    apply ih
    apply secondMax_weaken _ _ _ _ _ _ a1
    intro a b hfa
    have hb := (flagged_edge data _ hshape a b hfa).2.1
    constructor
    · intro hka
      by_cases hak : a = k
      · right
        rw [hak] at hb
        exact ⟨hak, hb⟩
      · left
        show k + 1 ≤ a
        omega
    · rintro (h | h)
      · show k ≤ a
        have : k + 1 ≤ a := h
        omega
      · show k ≤ a
        omega

/-- The second decomposition, for an automaton whose edges ascend: of the
edges into a node that the first decomposition flagged, exactly one keeps its
flag, and its source has the most paths from the root among their sources. -/
theorem adfa_second_max (data : Adjacency) (dag : DagOk data) :
    FlagShape data (adfa_first_flags data) ∧ FlagShape data (adfa_flags data) ∧
    (∀ a b, flag_target (adfa_flags data) a b = flag_target (adfa_first_flags data) a b) ∧
    (∀ a b, flagged (adfa_flags data) a b = true → flagged (adfa_first_flags data) a b = true) ∧
    ∀ v, v < data.length →
      (∃ a b, flagged (adfa_first_flags data) a b = true ∧
        flag_target (adfa_first_flags data) a b = (v : Int)) →
      ∃ u k : Nat, flagged (adfa_first_flags data) u k = true ∧
        flag_target (adfa_first_flags data) u k = (v : Int) ∧
        flagged (adfa_flags data) u k = true ∧
        (∀ a b, flagged (adfa_first_flags data) a b = true →
          flag_target (adfa_first_flags data) a b = (v : Int) →
          (number_of_paths_root data).getD a 0 ≤ (number_of_paths_root data).getD u 0) ∧
        (∀ a b, flagged (adfa_flags data) a b = true →
          flag_target (adfa_flags data) a b = (v : Int) → a = u ∧ b = k) := by
  have f1 : FlagShape data (adfa_first_flags data) :=
    (first_pass_spec data (number_of_paths_sink data) data.length
      (adfa_flag_init data) (flagShape_init data)).1
  have hinit : SecondMax data.length (number_of_paths_root data) (adfa_first_flags data)
      (fun a _ => data.length ≤ a)
      { flags := adfa_first_flags data,
        heavy_edges := List.replicate data.length (NOT_FOUND, NOT_FOUND) } := by
    refine ⟨by simp, fun a b => rfl, fun a b h => h, fun a b _ h => h, ?_, ?_⟩
    · intro i j hf
      obtain ⟨h1, _, h3, _⟩ := flagged_edge data _ f1 i j hf
      have := dag.up i h1 _ h3
      have h4 : (i : Int) < (flag_at (adfa_first_flags data) i j).2.1 ∧
          (flag_at (adfa_first_flags data) i j).2.1 < (data.length : Int) := this
      show 0 ≤ (flag_at (adfa_first_flags data) i j).2.1 ∧
          (flag_at (adfa_first_flags data) i j).2.1 < (data.length : Int)
      omega
    · intro w hw
      left
      refine ⟨by simp [List.getD_eq_getElem?_getD, List.getElem?_replicate, hw], ?_⟩
      intro i j hp hf
      have := (flagged_edge data _ f1 i j hf).1
      omega
  have s1 := second_loop_max data (number_of_paths_root data) (adfa_first_flags data) f1
    data.length _ hinit
  have hfl : (second_loop data (number_of_paths_root data) data.length
      { flags := adfa_first_flags data,
        heavy_edges := List.replicate data.length (NOT_FOUND, NOT_FOUND) }).flags
      = adfa_flags data := rfl
  generalize hfin : second_loop data (number_of_paths_root data) data.length
      { flags := adfa_first_flags data,
        heavy_edges := List.replicate data.length (NOT_FOUND, NOT_FOUND) } = fin at s1 hfl
  refine ⟨f1, (adfa_flags_spec data dag).1, ?_, ?_, ?_⟩
  · intro a b
    rw [← hfl]
    exact s1.target_eq a b
  · intro a b h
    rw [← hfl] at h
    exact s1.sub a b h
  · intro v hv ⟨a0, b0, hf0, ht0⟩
    rcases s1.he_ok v hv with ⟨_, g2⟩ | ⟨u, k, _, _, g3, g4, g5⟩
    · exact absurd ht0 (g2 a0 b0 trivial hf0)
    · refine ⟨u, k, s1.sub u k g3, g4, by rw [← hfl]; exact g3, ?_, ?_⟩
      · intro a b hfa hta
        exact (g5 a b trivial hfa hta).1
      · intro a b hfa hta
        rw [← hfl] at hfa hta
        rw [s1.target_eq] at hta
        exact (g5 a b trivial (s1.sub a b hfa) hta).2 hfa

/-- **C27.** Backward pass of the decomposition of the automaton: for every `D`
and every state `v` of `BaseADFA(BaseTrie(D))` into which the forward pass left
at least one flagged edge, exactly one of those edges, `(u, k)`, is flagged
after the backward pass; `number_of_paths_root[u]` is the largest among the
sources of those edges; every other edge into `v` is without flag; and the
path extraction finds that edge as the heavy edge of `u`. Both passes leave the
edges themselves as they are. The counts are the numbers of paths from the
root: `number_of_paths_root[0] = 1`, and the count of every other state `w` is
the sum of the counts of the sources of the edges into `w`. -/
theorem PathDecomposedADFA_backward_pass (D : List (List Byte)) :
    FlagShape (BaseADFA.construct (BaseTrie.construct D)).maps
      (adfa_first_flags (BaseADFA.construct (BaseTrie.construct D)).maps) ∧
    FlagShape (BaseADFA.construct (BaseTrie.construct D)).maps
      (adfa_flags (BaseADFA.construct (BaseTrie.construct D)).maps) ∧
    (number_of_paths_root (BaseADFA.construct (BaseTrie.construct D)).maps).length
      = (BaseADFA.construct (BaseTrie.construct D)).maps.length ∧
    (number_of_paths_root (BaseADFA.construct (BaseTrie.construct D)).maps).getD 0 0 = 1 ∧
    (∀ w, w < (BaseADFA.construct (BaseTrie.construct D)).maps.length →
      (number_of_paths_root (BaseADFA.construct (BaseTrie.construct D)).maps).getD w 0
        = (if w = 0 then 1 else 0)
          + paths_into (BaseADFA.construct (BaseTrie.construct D)).maps
              (number_of_paths_root (BaseADFA.construct (BaseTrie.construct D)).maps) w) ∧
    ∀ v, v < (BaseADFA.construct (BaseTrie.construct D)).maps.length →
      (∃ a b, flagged (adfa_first_flags (BaseADFA.construct (BaseTrie.construct D)).maps) a b
          = true ∧
        flag_target (adfa_first_flags (BaseADFA.construct (BaseTrie.construct D)).maps) a b
          = (v : Int)) →
      ∃ u k : Nat,
        flagged (adfa_first_flags (BaseADFA.construct (BaseTrie.construct D)).maps) u k = true ∧
        flag_target (adfa_first_flags (BaseADFA.construct (BaseTrie.construct D)).maps) u k
          = (v : Int) ∧
        flagged (adfa_flags (BaseADFA.construct (BaseTrie.construct D)).maps) u k = true ∧
        adfa_heavy_of (adfa_flags (BaseADFA.construct (BaseTrie.construct D)).maps) (u : Int)
          = some (flag_edge
              (flag_at (adfa_flags (BaseADFA.construct (BaseTrie.construct D)).maps) u k)) ∧
        (∀ a b,
          flagged (adfa_first_flags (BaseADFA.construct (BaseTrie.construct D)).maps) a b = true →
          flag_target (adfa_first_flags (BaseADFA.construct (BaseTrie.construct D)).maps) a b
            = (v : Int) →
          (number_of_paths_root (BaseADFA.construct (BaseTrie.construct D)).maps).getD a 0
            ≤ (number_of_paths_root (BaseADFA.construct (BaseTrie.construct D)).maps).getD u 0) ∧
        (∀ a b, flagged (adfa_flags (BaseADFA.construct (BaseTrie.construct D)).maps) a b = true →
          flag_target (adfa_flags (BaseADFA.construct (BaseTrie.construct D)).maps) a b
            = (v : Int) → a = u ∧ b = k) := by
  have dag := adfa_dagOk _ (construct_spec D).1
  obtain ⟨h1, h2, _, _, h5⟩ := adfa_second_max _ dag
  obtain ⟨r1, r2, r3⟩ := root_paths_spec _ dag
  refine ⟨h1, h2, r1, r2, r3, ?_⟩
  intro v hv hex
  obtain ⟨u, k, g1, g2, g3, g4, g5⟩ := h5 v hv hex
  exact ⟨u, k, g1, g2, g3,
    adfa_heavy_of_flagged _ (adfa_flags_spec _ dag).2 u k g3, g4, g5⟩

/-! ## The leaf markers of the double-array trie -/

set_option maxRecDepth 100000 in
/-- C31 at the failing input, the dictionary `{bb, b}` with `b` the byte 2,
both strings closed by `EOW` and inserted in this order. The trie has the five
nodes `[[(2,1)], [(1,4),(2,2)], [(1,3)], [], []]`; `construct_with_reindexing`
returns arrays of 6 cells and the bases `0, 2, 4, 5, 6`, so the constructor of
`DoubleArrayTrie` sizes `is_leaf` to 6 bits and writes it at the bases 5 and 6
of the two leaves, the second one behind its end; and the search for `b EOW`
ends in state 6, where it reads `is_leaf[6]`. -/
theorem DoubleArrayTrie_leaf_mark_out_of_range :
    (∀ d ∈ ([[2, 2, 1], [2, 1]] : List (List Byte)), WellFormed d) ∧
    (BaseTrie.construct [[2, 2, 1], [2, 1]]).to_vector
      = [[(2, 1)], [(1, 4), (2, 2)], [(1, 3)], [], []] ∧
    (construct_with_reindexing (BaseTrie.construct [[2, 2, 1], [2, 1]]).to_vector).map
      (fun p => (p.1.next.length, p.1.check.length, p.2,
        leaf_marks (BaseTrie.construct [[2, 2, 1], [2, 1]]).to_vector p.2))
      = some (6, 6, [0, 2, 4, 5, 6], [5, 6]) ∧
    (DoubleArrayTrie.construct (BaseTrie.construct [[2, 2, 1], [2, 1]])).map
      (fun dt => (dt.is_leaf.length, dt.walk 0 [2, 1])) = some (6, some 6) := by
  decide

end PackedADFA
